import Mathlib

/-!
Newton–Cotes quadrature rules: a shallow embedding.

The embedding follows `src/NewtonCotesRules/*.cpp` and `FindVal.h`.

* Abscissae (`a`, `b`, `x`, `width`, the error goal) are rationals: the code is read
  in exact arithmetic, for finite end points and at least one subdivision.
* A sampled function value is a `Val`: either a finite rational or a non-finite
  double (`NaN`, `+inf`, `-inf`, which `findVal` tests with `isnan || isinf`).
  Every arithmetic operation the rules apply to a non-finite value yields a
  non-finite value again, and `fabs(v) < bound` is false for a non-finite `v`.
* A `while` loop becomes a recursion on a fuel counter that answers `none` when the
  fuel runs out before the loop condition turns false.
* Each worker's local `integrate` is read as starting from `0`; the code declares it
  without an initialiser, and the namespace `Indeterminate` has the fixed-grid workers
  with the start value as an argument.
* The namespace `Binary64` reads `findVal` and the trapezoid rule's `getLeftRight` and
  `adaptiveNonParallel` in the arithmetic of a `double` instead, every operation
  rounded to the nearest binary64 number.
-/

/-- A `double` holding a function value: a finite number, or `NaN` / `±inf`. -/
inductive Val where
  | fin (q : ℚ)
  | nonfin
  deriving DecidableEq

namespace Val

/-- The test `!(isnan(v) || isinf(v))`. -/
def isFinite : Val → Bool
  | fin _ => true
  | nonfin => false

/-- Addition of doubles, exact on finite operands. -/
def add : Val → Val → Val
  | fin x, fin y => fin (x + y)
  | _, _ => nonfin

/-- Subtraction of doubles, exact on finite operands. -/
def sub : Val → Val → Val
  | fin x, fin y => fin (x - y)
  | _, _ => nonfin

/-- Multiplication of doubles, exact on finite operands. -/
def mul : Val → Val → Val
  | fin x, fin y => fin (x * y)
  | _, _ => nonfin

/-- Division of doubles, exact on finite operands; a zero divisor gives `NaN` or `±inf`. -/
def div : Val → Val → Val
  | fin x, fin y => if y = 0 then nonfin else fin (x / y)
  | _, _ => nonfin

/-- The `fabs` of a double. -/
def fabs : Val → Val
  | fin x => fin |x|
  | nonfin => nonfin

/-- The comparison `v < bound` against a finite bound, for `v = fabs(..)`:
false when `v` is `NaN` or `+inf`. -/
def ltBound : Val → ℚ → Bool
  | fin x, bound => decide (x < bound)
  | nonfin, _ => false

instance : Add Val := ⟨add⟩
instance : Sub Val := ⟨sub⟩
instance : Mul Val := ⟨mul⟩
instance : Div Val := ⟨div⟩
instance : Zero Val := ⟨fin 0⟩
instance : Inhabited Val := ⟨fin 0⟩

instance : AddCommMonoid Val where
  add_assoc := by
    intro x y z
    cases x <;> cases y <;> cases z <;>
      first
        | rfl
        | exact congrArg fin (add_assoc _ _ _)
  zero_add := by
    intro x
    cases x
    · show fin (0 + _) = _
      rw [zero_add]
    · rfl
  add_zero := by
    intro x
    cases x
    · show fin (_ + 0) = _
      rw [add_zero]
    · rfl
  add_comm := by
    intro x y
    cases x <;> cases y <;>
      first
        | rfl
        | exact congrArg fin (add_comm _ _)
  nsmul := nsmulRec

end Val

/-- `findVal` of `FindVal.h`: the value of `f` at `x`, or an estimate from nearby
points (relative to `width`) when `f x` is not finite. -/
def findVal (f : ℚ → Val) (x width : ℚ) : Val :=
  let val := f x
  if val.isFinite then val
  else
    let fa := f (x - 0.001 * width)
    let fb := f (x + 0.001 * width)
    if !fa.isFinite then
      let fm := f (x + 0.0005 * width)
      Val.fin 2 * fm - fb
    else if !fb.isFinite then
      let fm := f (x - 0.0005 * width)
      Val.fin 2 * fm - fa
    else
      (fa + fb) / Val.fin 2

/-- The joins of the worker threads: each worker's `(*result) += integrate`, taken in
the order `sched` in which the workers reach the result lock. A worker whose loop
does not finish makes the join wait for ever (`none`). -/
def joinAll (worker : ℕ → Option Val) : List ℕ → Val → Option Val
  | [], result => some result
  | i :: rest, result =>
    match worker i with
    | none => none
    | some integrate => joinAll worker rest (result + integrate)

namespace SimpsonRule
open Val

/-- The `while (x < b - width)` loop of `nonAdaptiveNonParallel`; yields the final
`x` and `result`. -/
def sweep (f : ℚ → Val) (b width : ℚ) : ℕ → ℚ → Val → Option (ℚ × Val)
  | 0, x, result => if x < b - width then none else some (x, result)
  | fuel + 1, x, result =>
    if x < b - width then
      let result := result + fin 4 * findVal f x width
      let x := x + 0.5 * width
      let result := result + fin 2 * findVal f x width
      let x := x + 0.5 * width
      sweep f b width fuel x result
    else some (x, result)

/-- `SimpsonRule::nonAdaptiveNonParallel`. -/
def nonAdaptiveNonParallel (fuel : ℕ) (f : ℚ → Val) (a b : ℚ) (subdivisions : ℕ) :
    Option Val :=
  let result : Val := 0
  let width := (b - a) / subdivisions
  let result := result + findVal f a width
  let x := a + 0.5 * width
  match sweep f b width fuel x result with
  | none => none
  | some (x, result) =>
    let result := result + fin 4 * findVal f x width
    let result := result + findVal f b width
    some (result * fin width / fin 6)

/-- The `while` loop of `nonAdaptiveThread`; yields the final `integrate`. -/
def threadLoop (f : ℚ → Val) (b width : ℚ) (threads : ℕ) : ℕ → ℚ → Val → Option Val
  | 0, x, integrate => if x < b - width then none else some integrate
  | fuel + 1, x, integrate =>
    if x < b - width then
      let integrate := integrate + fin 4 * findVal f x width
      let x := x + 0.5 * width
      let integrate := integrate + fin 2 * findVal f x width
      let x := x + ((threads : ℚ) - 0.5) * width
      threadLoop f b width threads fuel x integrate
    else some integrate

/-- `SimpsonRule::nonAdaptiveThread`: the amount the worker adds to `*result`. -/
def nonAdaptiveThread (fuel : ℕ) (f : ℚ → Val) (a b width : ℚ) (threads threadNum : ℕ) :
    Option Val :=
  let x := a + width * ((threadNum : ℚ) + 0.5)
  threadLoop f b width threads fuel x 0

/-- `SimpsonRule::nonAdaptiveParallel`, the workers adding their sums in the order
`sched`. -/
def nonAdaptiveParallelSched (fuel : ℕ) (f : ℚ → Val) (a b : ℚ) (subdivisions num_threads : ℕ)
    (sched : List ℕ) : Option Val :=
  let result : Val := 0
  let width := (b - a) / subdivisions
  let result := result + findVal f a width
  match joinAll (nonAdaptiveThread fuel f a b width num_threads) sched result with
  | none => none
  | some result =>
    let result := result + fin 4 * findVal f (b - 0.5 * width) width
    let result := result + findVal f b width
    some (result * fin width / fin 6)

/-- `SimpsonRule::nonAdaptiveParallel` with the workers joining in index order. -/
def nonAdaptiveParallel (fuel : ℕ) (f : ℚ → Val) (a b : ℚ) (subdivisions num_threads : ℕ) :
    Option Val :=
  nonAdaptiveParallelSched fuel f a b subdivisions num_threads (List.range num_threads)

end SimpsonRule



namespace TrapezoidRule
open Val

/-- The `while (x < b)` loop of `nonAdaptiveNonParallel`; yields the final `result`. -/
def sweep (f : ℚ → Val) (b width : ℚ) : ℕ → ℚ → Val → Option Val
  | 0, x, result => if x < b then none else some result
  | fuel + 1, x, result =>
    if x < b then
      let result := result + findVal f x width
      let x := x + width
      sweep f b width fuel x result
    else some result

/-- `TrapezoidRule::nonAdaptiveNonParallel`. -/
def nonAdaptiveNonParallel (fuel : ℕ) (f : ℚ → Val) (a b : ℚ) (subdivisions : ℕ) :
    Option Val :=
  let result : Val := 0
  let width := (b - a) / subdivisions
  let result := result + findVal f a width
  let x := a + width
  match sweep f b width fuel x result with
  | none => none
  | some result =>
    let result := result + fin 0.5 * findVal f b width
    some (result * fin width)

/-- The `while` loop of `nonAdaptiveThread`; yields the final `integrate`. -/
def threadLoop (f : ℚ → Val) (b width : ℚ) (threads : ℕ) : ℕ → ℚ → Val → Option Val
  | 0, x, integrate => if x < b then none else some integrate
  | fuel + 1, x, integrate =>
    if x < b then
      let integrate := integrate + findVal f x width
      let x := x + (threads : ℚ) * width
      threadLoop f b width threads fuel x integrate
    else some integrate

/-- `TrapezoidRule::nonAdaptiveThread`: the amount the worker adds to `*result`. -/
def nonAdaptiveThread (fuel : ℕ) (f : ℚ → Val) (a b width : ℚ) (threads threadNum : ℕ) :
    Option Val :=
  let x := a + width * ((threadNum : ℚ) + 1)
  threadLoop f b width threads fuel x 0

/-- `TrapezoidRule::nonAdaptiveParallel`, the workers adding their sums in the order
`sched`. -/
def nonAdaptiveParallelSched (fuel : ℕ) (f : ℚ → Val) (a b : ℚ) (subdivisions num_threads : ℕ)
    (sched : List ℕ) : Option Val :=
  let result : Val := 0
  let width := (b - a) / subdivisions
  let result := result + fin 0.5 * findVal f a width
  match joinAll (nonAdaptiveThread fuel f a b width num_threads) sched result with
  | none => none
  | some result =>
    let result := result + fin 0.5 * findVal f b width
    some (result * fin width)

/-- `TrapezoidRule::nonAdaptiveParallel` with the workers joining in index order. -/
def nonAdaptiveParallel (fuel : ℕ) (f : ℚ → Val) (a b : ℚ) (subdivisions num_threads : ℕ) :
    Option Val :=
  nonAdaptiveParallelSched fuel f a b subdivisions num_threads (List.range num_threads)

end TrapezoidRule

namespace Simpson38Rule
open Val

/-- The `while (x < b - width)` loop of `nonAdaptiveNonParallel`; yields the final
`result`. -/
def sweep (f : ℚ → Val) (b width : ℚ) : ℕ → ℚ → Val → Option Val
  | 0, x, result => if x < b - width then none else some result
  | fuel + 1, x, result =>
    if x < b - width then
      let result := result + fin 3 * findVal f x width
      let x := x + width / 3
      let result := result + fin 3 * findVal f x width
      let x := x + width / 3
      let result := result + fin 2 * findVal f x width
      let x := x + width / 3
      sweep f b width fuel x result
    else some result

/-- `Simpson38Rule::nonAdaptiveNonParallel`. -/
def nonAdaptiveNonParallel (fuel : ℕ) (f : ℚ → Val) (a b : ℚ) (subdivisions : ℕ) :
    Option Val :=
  let result : Val := 0
  let width := (b - a) / subdivisions
  let result := result + findVal f a width
  let x := a + width / 3
  match sweep f b width fuel x result with
  | none => none
  | some result =>
    let result := result + fin 3 * findVal f (b - width * 2.0 / 3) width
    let result := result + fin 3 * findVal f (b - width * 1.0 / 3) width
    let result := result + findVal f b width
    some (result * fin width / fin 8)

/-- The `while` loop of `nonAdaptiveThread`; yields the final `integrate`. -/
def threadLoop (f : ℚ → Val) (b width : ℚ) (threads : ℕ) : ℕ → ℚ → Val → Option Val
  | 0, x, integrate => if x < b - width then none else some integrate
  | fuel + 1, x, integrate =>
    if x < b - width then
      let integrate := integrate + fin 3 * findVal f x width
      let x := x + width / 3
      let integrate := integrate + fin 3 * findVal f x width
      let x := x + width / 3
      let integrate := integrate + fin 2 * findVal f x width
      let x := x + width * ((threads : ℚ) - 2.0 / 3)
      threadLoop f b width threads fuel x integrate
    else some integrate

/-- `Simpson38Rule::nonAdaptiveThread`: the amount the worker adds to `*result`. -/
def nonAdaptiveThread (fuel : ℕ) (f : ℚ → Val) (a b width : ℚ) (threads threadNum : ℕ) :
    Option Val :=
  let x := a + width * ((threadNum : ℚ) + 1.0 / 3)
  threadLoop f b width threads fuel x 0

/-- `Simpson38Rule::nonAdaptiveParallel`, the workers adding their sums in the order
`sched`. -/
def nonAdaptiveParallelSched (fuel : ℕ) (f : ℚ → Val) (a b : ℚ) (subdivisions num_threads : ℕ)
    (sched : List ℕ) : Option Val :=
  let result : Val := 0
  let width := (b - a) / subdivisions
  let result := result + findVal f a width
  match joinAll (nonAdaptiveThread fuel f a b width num_threads) sched result with
  | none => none
  | some result =>
    let result := result + fin 3 * findVal f (b - width * 2.0 / 3) width
    let result := result + fin 3 * findVal f (b - width * 1.0 / 3) width
    let result := result + findVal f b width
    some (result * fin width / fin 8)

/-- `Simpson38Rule::nonAdaptiveParallel` with the workers joining in index order. -/
def nonAdaptiveParallel (fuel : ℕ) (f : ℚ → Val) (a b : ℚ) (subdivisions num_threads : ℕ) :
    Option Val :=
  nonAdaptiveParallelSched fuel f a b subdivisions num_threads (List.range num_threads)

end Simpson38Rule

namespace BoolesRule
open Val

/-- The `while (x < b - width)` loop of `nonAdaptiveNonParallel`; yields the final
`result`. -/
def sweep (f : ℚ → Val) (b width : ℚ) : ℕ → ℚ → Val → Option Val
  | 0, x, result => if x < b - width then none else some result
  | fuel + 1, x, result =>
    if x < b - width then
      let result := result + fin 32 * findVal f x width
      let x := x + width * 0.25
      let result := result + fin 12 * findVal f x width
      let x := x + width * 0.25
      let result := result + fin 32 * findVal f x width
      let x := x + width * 0.25
      let result := result + fin 14 * findVal f x width
      let x := x + width * 0.25
      sweep f b width fuel x result
    else some result

/-- `BoolesRule::nonAdaptiveNonParallel`. -/
def nonAdaptiveNonParallel (fuel : ℕ) (f : ℚ → Val) (a b : ℚ) (subdivisions : ℕ) :
    Option Val :=
  let result : Val := 0
  let width := (b - a) / subdivisions
  let result := result + fin 7 * findVal f a width
  let x := a + width / 4
  match sweep f b width fuel x result with
  | none => none
  | some result =>
    let result := result + fin 32 * findVal f (b - width * 0.75) width
    let result := result + fin 12 * findVal f (b - width * 0.5) width
    let result := result + fin 32 * findVal f (b - width * 0.25) width
    let result := result + fin 7 * findVal f b width
    some (result * fin width / fin 90)

/-- The `while` loop of `nonAdaptiveThread`; yields the final `integrate`. -/
def threadLoop (f : ℚ → Val) (b width : ℚ) (threads : ℕ) : ℕ → ℚ → Val → Option Val
  | 0, x, integrate => if x < b - width then none else some integrate
  | fuel + 1, x, integrate =>
    if x < b - width then
      let integrate := integrate + fin 32 * findVal f x width
      let x := x + width * 0.25
      let integrate := integrate + fin 12 * findVal f x width
      let x := x + width * 0.25
      let integrate := integrate + fin 32 * findVal f x width
      let x := x + width * 0.25
      let integrate := integrate + fin 14 * findVal f x width
      let x := x + width * ((threads : ℚ) - 0.75)
      threadLoop f b width threads fuel x integrate
    else some integrate

/-- `BoolesRule::nonAdaptiveThread`: the amount the worker adds to `*result`. -/
def nonAdaptiveThread (fuel : ℕ) (f : ℚ → Val) (a b width : ℚ) (threads threadNum : ℕ) :
    Option Val :=
  let x := a + width * ((threadNum : ℚ) + 0.25)
  threadLoop f b width threads fuel x 0

/-- `BoolesRule::nonAdaptiveParallel`, the workers adding their sums in the order
`sched`. -/
def nonAdaptiveParallelSched (fuel : ℕ) (f : ℚ → Val) (a b : ℚ) (subdivisions num_threads : ℕ)
    (sched : List ℕ) : Option Val :=
  let result : Val := 0
  let width := (b - a) / subdivisions
  let result := result + findVal f a width
  match joinAll (nonAdaptiveThread fuel f a b width num_threads) sched result with
  | none => none
  | some result =>
    let result := result + fin 32 * findVal f (b - width * 0.75) width
    let result := result + fin 12 * findVal f (b - width * 0.5) width
    let result := result + fin 32 * findVal f (b - width * 0.25) width
    let result := result + fin 7 * findVal f b width
    some (result * fin width / fin 90)

/-- `BoolesRule::nonAdaptiveParallel` with the workers joining in index order. -/
def nonAdaptiveParallel (fuel : ℕ) (f : ℚ → Val) (a b : ℚ) (subdivisions num_threads : ℕ) :
    Option Val :=
  nonAdaptiveParallelSched fuel f a b subdivisions num_threads (List.range num_threads)

end BoolesRule

/-! The adaptive refinement

The four `adaptiveNonParallel` functions have the same text up to the `interval`
record, `getLeftRight` and the constant of the error test; `Adaptive` holds that
common text, and each rule instantiates it. The clock is an input: `elapsed i` is
the value of `(std::clock() - start) / (double) CLOCKS_PER_SEC` read in the pass
number `i` of the loop (counted from 0). -/

namespace Adaptive
open Val

/-- The record `leftRightInterval`: an already integrated section divided in two. -/
structure leftRightInterval (I : Type) where
  left : I
  right : I
  integrated : Val

/-- What a rule contributes to its adaptive loop: `getLeftRight`, the fields `a` and
`b` of its `interval`, and the constant of its error test. -/
structure Rule (I : Type) where
  getLeftRight : I → (ℚ → Val) → leftRightInterval I
  a : I → ℚ
  b : I → ℚ
  errorOrder : ℚ

/-- The variables of `adaptiveNonParallel` that the loop changes; the front of the
queue `intervals` is the head of the list. -/
structure State (I : Type) where
  intervals : List (leftRightInterval I)
  result : Val
  subdivisions : ℕ
  subdivisions_exceeded : Bool
  time_exceeded : Bool

/-- One pass through the body of `while (!intervals.empty())`, the clock reading
`elapsed`. -/
def pass {I : Type} (R : Rule I) (f : ℚ → Val) (error : ℚ) (max_subdivisions : ℕ)
    (max_time : ℤ) (elapsed : ℚ) (s : State I) : State I :=
  match s.intervals with
  | [] => s
  | currentInterval :: rest =>
    let time_exceeded := s.time_exceeded || decide (elapsed > (max_time : ℚ))
    let subdivisions_exceeded :=
      s.subdivisions_exceeded || decide (s.intervals.length > max_subdivisions)
    let width := R.b currentInterval.right - R.a currentInterval.left
    let left := R.getLeftRight currentInterval.left f
    let right := R.getLeftRight currentInterval.right f
    if (fabs (left.integrated + right.integrated - currentInterval.integrated)).ltBound
          (R.errorOrder * width * error)
        || subdivisions_exceeded || time_exceeded then
      { intervals := rest
        result := s.result + (left.integrated + right.integrated)
        subdivisions := s.subdivisions
        subdivisions_exceeded := subdivisions_exceeded
        time_exceeded := time_exceeded }
    else
      { intervals := rest ++ [left, right]
        result := s.result
        subdivisions := s.subdivisions + 1
        subdivisions_exceeded := subdivisions_exceeded
        time_exceeded := time_exceeded }

/-- The loop `while (!intervals.empty())` from its pass number `i` on; `none` when the
fuel runs out with the queue still non-empty. -/
def loop {I : Type} (R : Rule I) (f : ℚ → Val) (error : ℚ) (max_subdivisions : ℕ)
    (max_time : ℤ) (elapsed : ℕ → ℚ) : ℕ → ℕ → State I → Option (State I)
  | 0, _, s => if s.intervals.isEmpty then some s else none
  | fuel + 1, i, s =>
    if s.intervals.isEmpty then some s
    else loop R f error max_subdivisions max_time elapsed fuel (i + 1)
      (pass R f error max_subdivisions max_time (elapsed i) s)

/-- The body of `adaptiveNonParallel` after `whole` is built: the first node is
queued, the loop runs, and `result` and `*subdivisions` are handed back. -/
def run {I : Type} (R : Rule I) (fuel : ℕ) (f : ℚ → Val) (whole : I) (error : ℚ)
    (max_subdivisions : ℕ) (max_time : ℤ) (elapsed : ℕ → ℚ) : Option (Val × ℕ) :=
  let start : State I :=
    { intervals := [R.getLeftRight whole f]
      result := 0
      subdivisions := 1
      subdivisions_exceeded := false
      time_exceeded := false }
  match loop R f error max_subdivisions max_time elapsed fuel 0 start with
  | none => none
  | some s => some (s.result, s.subdivisions)

end Adaptive

namespace TrapezoidRule
open Val

/-- The record `interval`: a simple section to integrate. -/
structure interval where
  a : ℚ
  b : ℚ
  fa : Val
  fb : Val

/-- The record `leftRightInterval` of the trapezoid rule. -/
abbrev leftRightInterval := Adaptive.leftRightInterval interval

/-- `TrapezoidRule::getLeftRight`. -/
def getLeftRight (currentInterval : interval) (f : ℚ → Val) : leftRightInterval :=
  let width := currentInterval.b - currentInterval.a
  let m := (currentInterval.a + currentInterval.b) / 2
  let fm := findVal f m width
  let integrate := fin (width / 2) * (currentInterval.fa + currentInterval.fb)
  let leftInterval : interval := ⟨currentInterval.a, m, currentInterval.fa, fm⟩
  let rightInterval : interval := ⟨m, currentInterval.b, fm, currentInterval.fb⟩
  ⟨leftInterval, rightInterval, integrate⟩

/-- The trapezoid rule in the adaptive loop: error test `< 3 * width * error`. -/
def rule : Adaptive.Rule interval := ⟨getLeftRight, interval.a, interval.b, 3⟩

/-- `TrapezoidRule::adaptiveNonParallel`; yields `result` and `*subdivisions`. -/
def adaptiveNonParallel (fuel : ℕ) (f : ℚ → Val) (a b error : ℚ) (max_subdivisions : ℕ)
    (max_time : ℤ) (elapsed : ℕ → ℚ) : Option (Val × ℕ) :=
  let whole : interval := ⟨a, b, findVal f a (b - a), findVal f b (b - a)⟩
  Adaptive.run rule fuel f whole error max_subdivisions max_time elapsed

end TrapezoidRule

namespace SimpsonRule
open Val

/-- The record `interval`: a simple section to integrate. -/
structure interval where
  a : ℚ
  m : ℚ
  b : ℚ
  fa : Val
  fm : Val
  fb : Val

/-- The record `leftRightInterval` of Simpson's rule. -/
abbrev leftRightInterval := Adaptive.leftRightInterval interval

/-- `SimpsonRule::getLeftRight`. -/
def getLeftRight (currentInterval : interval) (f : ℚ → Val) : leftRightInterval :=
  let width := currentInterval.b - currentInterval.a
  let m1 := (currentInterval.a + currentInterval.m) / 2
  let m2 := (currentInterval.m + currentInterval.b) / 2
  let fm1 := findVal f m1 width
  let fm2 := findVal f m2 width
  let integrate := fin (width / 6)
    * (currentInterval.fa + fin 4 * currentInterval.fm + currentInterval.fb)
  let leftInterval : interval :=
    ⟨currentInterval.a, m1, currentInterval.m, currentInterval.fa, fm1, currentInterval.fm⟩
  let rightInterval : interval :=
    ⟨currentInterval.m, m2, currentInterval.b, currentInterval.fm, fm2, currentInterval.fb⟩
  ⟨leftInterval, rightInterval, integrate⟩

/-- Simpson's rule in the adaptive loop: error test `< 15 * width * error`. -/
def rule : Adaptive.Rule interval := ⟨getLeftRight, interval.a, interval.b, 15⟩

/-- `SimpsonRule::adaptiveNonParallel`; yields `result` and `*subdivisions`. -/
def adaptiveNonParallel (fuel : ℕ) (f : ℚ → Val) (a b error : ℚ) (max_subdivisions : ℕ)
    (max_time : ℤ) (elapsed : ℕ → ℚ) : Option (Val × ℕ) :=
  let whole : interval :=
    ⟨a, (a + b) / 2, b, findVal f a (b - a), findVal f ((a + b) / 2) (b - a),
      findVal f b (b - a)⟩
  Adaptive.run rule fuel f whole error max_subdivisions max_time elapsed

end SimpsonRule

namespace Simpson38Rule
open Val

/-- The record `interval`: for this rule the middle values are not stored. -/
structure interval where
  a : ℚ
  b : ℚ
  fa : Val
  fb : Val

/-- The record `leftRightInterval` of Simpson's 3/8 rule. -/
abbrev leftRightInterval := Adaptive.leftRightInterval interval

/-- `Simpson38Rule::getLeftRight`. -/
def getLeftRight (currentInterval : interval) (f : ℚ → Val) : leftRightInterval :=
  let width := currentInterval.b - currentInterval.a
  let m := (currentInterval.a + currentInterval.b) / 2
  let fm := findVal f m width
  let m1 := currentInterval.a + width / 3
  let fm1 := findVal f m1 width
  let m2 := currentInterval.a + 2 * width / 3
  let fm2 := findVal f m2 width
  let integrate := fin (width / 8)
    * (currentInterval.fa + fin 3 * fm1 + fin 3 * fm2 + currentInterval.fb)
  let leftInterval : interval := ⟨currentInterval.a, m, currentInterval.fa, fm⟩
  let rightInterval : interval := ⟨m, currentInterval.b, fm, currentInterval.fb⟩
  ⟨leftInterval, rightInterval, integrate⟩

/-- Simpson's 3/8 rule in the adaptive loop: error test `< 63 * width * error`. -/
def rule : Adaptive.Rule interval := ⟨getLeftRight, interval.a, interval.b, 63⟩

/-- `Simpson38Rule::adaptiveNonParallel`; yields `result` and `*subdivisions`. -/
def adaptiveNonParallel (fuel : ℕ) (f : ℚ → Val) (a b error : ℚ) (max_subdivisions : ℕ)
    (max_time : ℤ) (elapsed : ℕ → ℚ) : Option (Val × ℕ) :=
  let whole : interval := ⟨a, b, findVal f a (b - a), findVal f b (b - a)⟩
  Adaptive.run rule fuel f whole error max_subdivisions max_time elapsed

end Simpson38Rule

namespace BoolesRule
open Val

/-- The record `interval`: a simple section to integrate. -/
structure interval where
  a : ℚ
  m : ℚ
  b : ℚ
  fa : Val
  fm : Val
  fb : Val

/-- The record `leftRightInterval` of Boole's rule. -/
abbrev leftRightInterval := Adaptive.leftRightInterval interval

/-- `BoolesRule::getLeftRight`. -/
def getLeftRight (currentInterval : interval) (f : ℚ → Val) : leftRightInterval :=
  let width := currentInterval.b - currentInterval.a
  let m1 := currentInterval.a + width / 4
  let m2 := currentInterval.b - width / 4
  let fm1 := findVal f m1 width
  let fm2 := findVal f m2 width
  let integrate := fin (width / 90)
    * (fin 7 * currentInterval.fa + fin 32 * fm1 + fin 12 * currentInterval.fm
        + fin 32 * fm2 + fin 7 * currentInterval.fb)
  let leftInterval : interval :=
    ⟨currentInterval.a, m1, currentInterval.m, currentInterval.fa, fm1, currentInterval.fm⟩
  let rightInterval : interval :=
    ⟨currentInterval.m, m2, currentInterval.b, currentInterval.fm, fm2, currentInterval.fb⟩
  ⟨leftInterval, rightInterval, integrate⟩

/-- Boole's rule in the adaptive loop: error test `< 255 * width * error`. -/
def rule : Adaptive.Rule interval := ⟨getLeftRight, interval.a, interval.b, 255⟩

/-- `BoolesRule::adaptiveNonParallel`; yields `result` and `*subdivisions`. -/
def adaptiveNonParallel (fuel : ℕ) (f : ℚ → Val) (a b error : ℚ) (max_subdivisions : ℕ)
    (max_time : ℤ) (elapsed : ℕ → ℚ) : Option (Val × ℕ) :=
  let whole : interval :=
    ⟨a, (a + b) / 2, b, findVal f a (b - a), findVal f ((a + b) / 2) (b - a),
      findVal f b (b - a)⟩
  Adaptive.run rule fuel f whole error max_subdivisions max_time elapsed

end BoolesRule

/-! The workers of the adaptive refinement

`adaptiveThread` is read as a machine that moves from one mutex operation to the next:
a step is a `lock()`, an `unlock()`, or the statements between two of them. The shared
objects carry the owner of each mutex; a `lock()` can be taken only when the mutex is
free. The text is the same in the four rules up to `getLeftRight`, the constant of the
error test and the way `width` is computed. -/

namespace Adaptive
open Val

/-- The objects shared by the workers of `adaptiveParallel`: the queue, the
accumulated result, the subdivision counter, and for each mutex the worker holding it. -/
structure Shared (I : Type) where
  intervals : List (leftRightInterval I)
  result : Val
  subdivisions : ℕ
  intervals_mutex : Option ℕ
  result_mutex : Option ℕ

/-- The statement of `adaptiveThread` a worker is about to run. -/
inductive Pc (I : Type) where
  /-- `intervals_mutex->lock()` ahead of the loop. -/
  | lockFirst
  /-- `while (!intervals->empty())` and, the queue being non-empty, the statements up to
  `intervals->pop()`. -/
  | loopTest
  /-- `intervals_mutex->unlock()` after the pop. -/
  | unlockPopped (currentInterval : leftRightInterval I)
  /-- `width`, the two calls of `getLeftRight` and the error test. -/
  | split (currentInterval : leftRightInterval I)
  /-- `result_mutex->lock()`. -/
  | lockResult (left right : leftRightInterval I)
  /-- `(*result) += left.integrated + right.integrated`. -/
  | addResult (left right : leftRightInterval I)
  /-- `result_mutex->unlock()`. -/
  | unlockResult
  /-- `intervals_mutex->lock()` of the else branch. -/
  | lockPush (left right : leftRightInterval I)
  /-- The two `intervals->push` and `(*subdivisions)++`. -/
  | push (left right : leftRightInterval I)
  /-- `intervals_mutex->unlock()` of the else branch. -/
  | unlockPush
  /-- `intervals_mutex->lock()` at the end of the loop body. -/
  | lockAgain
  /-- `intervals_mutex->unlock()` after the loop. -/
  | unlockLast
  /-- The worker has returned. -/
  | done

/-- The local variables of a worker: where it stands, its two flags, and how many
times it has read the clock. -/
structure Worker (I : Type) where
  pc : Pc I
  subdivisions_exceeded : Bool
  time_exceeded : Bool
  readings : ℕ

/-- One step of the worker `tid` of `adaptiveThread`; `none` when the worker has
returned or waits for a mutex. `elapsed k` is the worker's clock reading number `k`. -/
def stepWorker {I : Type} (R : Rule I) (width : leftRightInterval I → ℚ) (f : ℚ → Val)
    (error : ℚ) (max_subdivisions : ℕ) (max_time : ℤ) (elapsed : ℕ → ℚ) (tid : ℕ)
    (sh : Shared I) (w : Worker I) : Option (Shared I × Worker I) :=
  match w.pc with
  | Pc.lockFirst =>
    if sh.intervals_mutex = none then
      some ({ sh with intervals_mutex := some tid }, { w with pc := Pc.loopTest })
    else none
  | Pc.loopTest =>
    match sh.intervals with
    | [] => some (sh, { w with pc := Pc.unlockLast })
    | currentInterval :: rest =>
      let time_exceeded := w.time_exceeded || decide (elapsed w.readings > (max_time : ℚ))
      let subdivisions_exceeded :=
        w.subdivisions_exceeded || decide (sh.intervals.length > max_subdivisions)
      some ({ sh with intervals := rest },
        { pc := Pc.unlockPopped currentInterval
          subdivisions_exceeded := subdivisions_exceeded
          time_exceeded := time_exceeded
          readings := w.readings + 1 })
  | Pc.unlockPopped currentInterval =>
    some ({ sh with intervals_mutex := none }, { w with pc := Pc.split currentInterval })
  | Pc.split currentInterval =>
    let left := R.getLeftRight currentInterval.left f
    let right := R.getLeftRight currentInterval.right f
    if (fabs (left.integrated + right.integrated - currentInterval.integrated)).ltBound
          (R.errorOrder * width currentInterval * error)
        || w.subdivisions_exceeded || w.time_exceeded then
      some (sh, { w with pc := Pc.lockResult left right })
    else
      some (sh, { w with pc := Pc.lockPush left right })
  | Pc.lockResult left right =>
    if sh.result_mutex = none then
      some ({ sh with result_mutex := some tid }, { w with pc := Pc.addResult left right })
    else none
  | Pc.addResult left right =>
    some ({ sh with result := sh.result + (left.integrated + right.integrated) },
      { w with pc := Pc.unlockResult })
  | Pc.unlockResult =>
    some ({ sh with result_mutex := none }, { w with pc := Pc.lockAgain })
  | Pc.lockPush left right =>
    if sh.intervals_mutex = none then
      some ({ sh with intervals_mutex := some tid }, { w with pc := Pc.push left right })
    else none
  | Pc.push left right =>
    some ({ sh with intervals := sh.intervals ++ [left, right]
                    subdivisions := sh.subdivisions + 1 },
      { w with pc := Pc.unlockPush })
  | Pc.unlockPush =>
    some ({ sh with intervals_mutex := none }, { w with pc := Pc.lockAgain })
  | Pc.lockAgain =>
    if sh.intervals_mutex = none then
      some ({ sh with intervals_mutex := some tid }, { w with pc := Pc.loopTest })
    else none
  | Pc.unlockLast =>
    some ({ sh with intervals_mutex := none }, { w with pc := Pc.done })
  | Pc.done => none

/-- A worker as `std::thread` creates it: at the top of `adaptiveThread`, both flags
false. -/
def spawned (I : Type) : Worker I :=
  { pc := Pc.lockFirst, subdivisions_exceeded := false, time_exceeded := false, readings := 0 }

/-- The scheduler lets worker `t` (one of `0 .. num_threads - 1`) take a step; nothing
happens when that worker waits for a mutex or has returned. `elapsed t` is the clock
of worker `t`. -/
def stepSystem {I : Type} (R : Rule I) (width : leftRightInterval I → ℚ) (f : ℚ → Val)
    (error : ℚ) (max_subdivisions : ℕ) (max_time : ℤ) (elapsed : ℕ → ℕ → ℚ)
    (num_threads : ℕ) (t : ℕ) (st : Shared I × (ℕ → Worker I)) : Shared I × (ℕ → Worker I) :=
  if t < num_threads then
    match stepWorker R width f error max_subdivisions max_time (elapsed t) t st.1 (st.2 t) with
    | none => st
    | some (sh, w) => (sh, Function.update st.2 t w)
  else st

/-- The workers run interleaved in the order `sched`. -/
def exec {I : Type} (R : Rule I) (width : leftRightInterval I → ℚ) (f : ℚ → Val)
    (error : ℚ) (max_subdivisions : ℕ) (max_time : ℤ) (elapsed : ℕ → ℕ → ℚ)
    (num_threads : ℕ) : List ℕ → Shared I × (ℕ → Worker I) → Shared I × (ℕ → Worker I)
  | [], st => st
  | t :: sched, st =>
    exec R width f error max_subdivisions max_time elapsed num_threads sched
      (stepSystem R width f error max_subdivisions max_time elapsed num_threads t st)

/-- The shared objects and the workers when `adaptiveParallel` has created its
threads: the first node queued, `result = 0`, `*subdivisions = 1`, both mutexes free. -/
def launch {I : Type} (R : Rule I) (f : ℚ → Val) (whole : I) :
    Shared I × (ℕ → Worker I) :=
  ({ intervals := [R.getLeftRight whole f]
     result := 0
     subdivisions := 1
     intervals_mutex := none
     result_mutex := none },
   fun _ => spawned I)

end Adaptive

namespace TrapezoidRule

/-- `TrapezoidRule::adaptiveThread`, one step of worker `tid`; its `width` is
`2 * (currentInterval.left.b - currentInterval.left.a)`. -/
def adaptiveThread (f : ℚ → Val) (error : ℚ) (max_subdivisions : ℕ) (max_time : ℤ)
    (elapsed : ℕ → ℚ) (tid : ℕ) (sh : Adaptive.Shared interval)
    (w : Adaptive.Worker interval) : Option (Adaptive.Shared interval × Adaptive.Worker interval) :=
  Adaptive.stepWorker rule (fun currentInterval =>
    2 * (currentInterval.left.b - currentInterval.left.a))
    f error max_subdivisions max_time elapsed tid sh w

end TrapezoidRule

namespace SimpsonRule

/-- `SimpsonRule::adaptiveThread`, one step of worker `tid`. -/
def adaptiveThread (f : ℚ → Val) (error : ℚ) (max_subdivisions : ℕ) (max_time : ℤ)
    (elapsed : ℕ → ℚ) (tid : ℕ) (sh : Adaptive.Shared interval)
    (w : Adaptive.Worker interval) : Option (Adaptive.Shared interval × Adaptive.Worker interval) :=
  Adaptive.stepWorker rule (fun currentInterval =>
    currentInterval.right.b - currentInterval.left.a)
    f error max_subdivisions max_time elapsed tid sh w

end SimpsonRule

namespace Simpson38Rule

/-- `Simpson38Rule::adaptiveThread`, one step of worker `tid`. -/
def adaptiveThread (f : ℚ → Val) (error : ℚ) (max_subdivisions : ℕ) (max_time : ℤ)
    (elapsed : ℕ → ℚ) (tid : ℕ) (sh : Adaptive.Shared interval)
    (w : Adaptive.Worker interval) : Option (Adaptive.Shared interval × Adaptive.Worker interval) :=
  Adaptive.stepWorker rule (fun currentInterval =>
    currentInterval.right.b - currentInterval.left.a)
    f error max_subdivisions max_time elapsed tid sh w

end Simpson38Rule

namespace BoolesRule

/-- `BoolesRule::adaptiveThread`, one step of worker `tid`. -/
def adaptiveThread (f : ℚ → Val) (error : ℚ) (max_subdivisions : ℕ) (max_time : ℤ)
    (elapsed : ℕ → ℚ) (tid : ℕ) (sh : Adaptive.Shared interval)
    (w : Adaptive.Worker interval) : Option (Adaptive.Shared interval × Adaptive.Worker interval) :=
  Adaptive.stepWorker rule (fun currentInterval =>
    currentInterval.right.b - currentInterval.left.a)
    f error max_subdivisions max_time elapsed tid sh w

end BoolesRule

/-! The wrappers of the library rules

`src/AdvancedRules/AdvancedRules.cpp` forwards to quadrature routines of the GSL. The
routines are parameters here: `gsl_integration_glfixed a b points` is the fixed
Gauss–Legendre rule on `[a, b]`, and a routine that reports a status hands back a
`GslOutcome`. The integrand is part of the routine. A `const char *` is an
`Option String`, `none` being the null pointer. -/

namespace AdvancedRules
open Val

/-- What a GSL routine hands back: the status it returns and the values it writes to
`*result` and `*abserr`. -/
structure GslOutcome where
  status : ℤ
  result : Val
  abserr : Val

/-- The joins of the worker threads of a wrapper: each worker's update of `*result`
and `*abserror` under the result lock, in the order `sched`. -/
def joinWorkers (worker : ℕ → Val × Val → Val × Val) : List ℕ → Val × Val → Val × Val
  | [], shared => shared
  | i :: rest, shared => joinWorkers worker rest (worker i shared)

/-- `gaussLegendreFixed`. -/
def gaussLegendreFixed (gsl_integration_glfixed : ℚ → ℚ → ℕ → Val) (a b : ℚ) (points : ℕ) :
    Val :=
  gsl_integration_glfixed a b points

/-- `gaussLegendreFixedThread`: the amount the worker adds to `*result`. -/
def gaussLegendreFixedThread (gsl_integration_glfixed : ℚ → ℚ → ℕ → Val) (a b : ℚ)
    (points : ℕ) : Option Val :=
  let integrate := gsl_integration_glfixed a b points
  some integrate

/-- `gaussLegendreFixedParallel`, the workers adding their values in the order
`sched`; `num_threads` decides only which workers there are. -/
def gaussLegendreFixedParallelSched (gsl_integration_glfixed : ℚ → ℚ → ℕ → Val) (a b : ℚ)
    (points : ℕ) (sched : List ℕ) : Option Val :=
  let result : Val := 0
  let width := b - a
  joinAll (fun i => gaussLegendreFixedThread gsl_integration_glfixed
    (a + ((i : ℚ) * 0.25 * width)) (a + (((i : ℚ) + 1) * 0.25 * width)) points) sched result

/-- `gaussLegendreFixedParallel` with the workers joining in index order. -/
def gaussLegendreFixedParallel (gsl_integration_glfixed : ℚ → ℚ → ℕ → Val) (a b : ℚ)
    (points num_threads : ℕ) : Option Val :=
  gaussLegendreFixedParallelSched gsl_integration_glfixed a b points (List.range num_threads)

/-- `nonAdaptiveGaussKronrod`: the value returned, the value written to `*abserror`,
and the parameter `error_code` as it stands when the function returns. `error_code`
is a `const char *` passed by value, so this last component is the copy that belongs
to the call. -/
def nonAdaptiveGaussKronrod (gsl_strerror : ℤ → String)
    (gsl_integration_qng : ℚ → ℚ → ℚ → ℚ → GslOutcome) (error_code : Option String)
    (a b error : ℚ) : Val × Val × Option String :=
  let out := gsl_integration_qng a b error error
  let error_code := if out.status ≠ 0 then some (gsl_strerror out.status) else error_code
  (out.result, out.abserr, error_code)

/-- `nonAdaptiveGaussKronrodThread`: `*result` and `*abserror` after the worker's
update, and the worker's own `error_code` when it returns. -/
def nonAdaptiveGaussKronrodThread (gsl_strerror : ℤ → String)
    (gsl_integration_qng : ℚ → ℚ → ℚ → ℚ → GslOutcome) (error_code : Option String)
    (a b error : ℚ) (shared : Val × Val) : (Val × Val) × Option String :=
  let out := gsl_integration_qng a b error error
  let error_code := if out.status ≠ 0 then some (gsl_strerror out.status) else error_code
  ((shared.1 + out.result, shared.2 + out.abserr * out.abserr), error_code)

/-- `nonAdaptiveGaussKronrodParallel`, the workers updating in the order `sched`: the
value returned, the value left in `*abserror` (`abserror` on entry), and the
function's own `error_code` when it returns; `num_threads` decides only which workers
there are. -/
def nonAdaptiveGaussKronrodParallelSched (gsl_strerror : ℤ → String)
    (gsl_integration_qng : ℚ → ℚ → ℚ → ℚ → GslOutcome) (sqrt : Val → Val)
    (error_code : Option String) (a b error : ℚ) (abserror : Val)
    (sched : List ℕ) : Val × Val × Option String :=
  let result : Val := 0
  let width := b - a
  let shared := joinWorkers (fun i shared =>
    (nonAdaptiveGaussKronrodThread gsl_strerror gsl_integration_qng error_code
      (a + ((i : ℚ) * 0.25 * width)) (a + (((i : ℚ) + 1) * 0.25 * width)) error shared).1)
    sched (result, abserror)
  (shared.1, sqrt shared.2, error_code)

/-- `adaptiveGaussKronrod`: the value returned, the value written to `*abserror`, and
the parameter `error_code` as it stands when the function returns. -/
def adaptiveGaussKronrod (gsl_strerror : ℤ → String)
    (gsl_integration_qag : ℚ → ℚ → ℚ → ℚ → ℕ → ℤ → GslOutcome) (error_code : Option String)
    (a b error : ℚ) (max_subdivisions : ℕ) (key : ℤ) : Val × Val × Option String :=
  let out := gsl_integration_qag a b error error max_subdivisions key
  let error_code := if out.status ≠ 0 then some (gsl_strerror out.status) else error_code
  (out.result, out.abserr, error_code)

/-- `adaptiveGaussKronrodThread`. -/
def adaptiveGaussKronrodThread (gsl_strerror : ℤ → String)
    (gsl_integration_qag : ℚ → ℚ → ℚ → ℚ → ℕ → ℤ → GslOutcome) (error_code : Option String)
    (a b error : ℚ) (max_subdivisions : ℕ) (key : ℤ) (shared : Val × Val) :
    (Val × Val) × Option String :=
  let out := gsl_integration_qag a b error error max_subdivisions key
  let error_code := if out.status ≠ 0 then some (gsl_strerror out.status) else error_code
  ((shared.1 + out.result, shared.2 + out.abserr * out.abserr), error_code)

/-- `adaptiveGaussKronrodParallel`, the workers updating in the order `sched`. -/
def adaptiveGaussKronrodParallelSched (gsl_strerror : ℤ → String)
    (gsl_integration_qag : ℚ → ℚ → ℚ → ℚ → ℕ → ℤ → GslOutcome) (sqrt : Val → Val)
    (error_code : Option String) (a b error : ℚ) (max_subdivisions : ℕ) (key : ℤ)
    (num_threads : ℕ) (abserror : Val) (sched : List ℕ) : Val × Val × Option String :=
  let result : Val := 0
  let width := b - a
  let shared := joinWorkers (fun i shared =>
    (adaptiveGaussKronrodThread gsl_strerror gsl_integration_qag error_code
      (a + ((i : ℚ) * 0.25 * width)) (a + (((i : ℚ) + 1) * 0.25 * width)) error
      (max_subdivisions / num_threads) key shared).1)
    sched (result, abserror)
  (shared.1, sqrt shared.2, error_code)

/-- `adaptiveGaussKronrodSingular`. -/
def adaptiveGaussKronrodSingular (gsl_strerror : ℤ → String)
    (gsl_integration_qags : ℚ → ℚ → ℚ → ℚ → ℕ → GslOutcome) (error_code : Option String)
    (a b error : ℚ) (max_subdivisions : ℕ) : Val × Val × Option String :=
  let out := gsl_integration_qags a b error error max_subdivisions
  let error_code := if out.status ≠ 0 then some (gsl_strerror out.status) else error_code
  (out.result, out.abserr, error_code)

/-- `adaptiveGaussKronrodSingularThread`. -/
def adaptiveGaussKronrodSingularThread (gsl_strerror : ℤ → String)
    (gsl_integration_qags : ℚ → ℚ → ℚ → ℚ → ℕ → GslOutcome) (error_code : Option String)
    (a b error : ℚ) (max_subdivisions : ℕ) (shared : Val × Val) :
    (Val × Val) × Option String :=
  let out := gsl_integration_qags a b error error max_subdivisions
  let error_code := if out.status ≠ 0 then some (gsl_strerror out.status) else error_code
  ((shared.1 + out.result, shared.2 + out.abserr * out.abserr), error_code)

/-- `adaptiveGaussKronrodSingularParallel`, the workers updating in the order
`sched`. -/
def adaptiveGaussKronrodSingularParallelSched (gsl_strerror : ℤ → String)
    (gsl_integration_qags : ℚ → ℚ → ℚ → ℚ → ℕ → GslOutcome) (sqrt : Val → Val)
    (error_code : Option String) (a b error : ℚ) (max_subdivisions num_threads : ℕ)
    (abserror : Val) (sched : List ℕ) : Val × Val × Option String :=
  let result : Val := 0
  let width := b - a
  let shared := joinWorkers (fun i shared =>
    (adaptiveGaussKronrodSingularThread gsl_strerror gsl_integration_qags error_code
      (a + ((i : ℚ) * 0.25 * width)) (a + (((i : ℚ) + 1) * 0.25 * width)) error
      (max_subdivisions / num_threads) shared).1)
    sched (result, abserror)
  (shared.1, sqrt shared.2, error_code)

/-- `adaptiveGaussKronrodKnownSingular`; `gsl_integration_qagp` takes the list of
break points. -/
def adaptiveGaussKronrodKnownSingular (gsl_strerror : ℤ → String)
    (gsl_integration_qagp : List ℚ → ℚ → ℚ → ℕ → GslOutcome) (error_code : Option String)
    (a b error : ℚ) (max_subdivisions : ℕ) (singularity : ℚ) : Val × Val × Option String :=
  let points : List ℚ := []
  let points := points ++ [a]
  let points := if singularity ≠ 0 then points ++ [singularity] else points
  let points := points ++ [b]
  let out := gsl_integration_qagp points error error max_subdivisions
  let error_code := if out.status ≠ 0 then some (gsl_strerror out.status) else error_code
  (out.result, out.abserr, error_code)

/-- `adaptiveGaussKronrodKnownSingularThread`; its parameters `a` and `b` are not
used by the body. -/
def adaptiveGaussKronrodKnownSingularThread (gsl_strerror : ℤ → String)
    (gsl_integration_qagp : List ℚ → ℚ → ℚ → ℕ → GslOutcome) (error_code : Option String)
    (a b error : ℚ) (max_subdivisions : ℕ) (points : List ℚ) (shared : Val × Val) :
    (Val × Val) × Option String :=
  let _ := a
  let _ := b
  let out := gsl_integration_qagp points error error max_subdivisions
  let error_code := if out.status ≠ 0 then some (gsl_strerror out.status) else error_code
  ((shared.1 + out.result, shared.2 + out.abserr * out.abserr), error_code)

/-- The body of the first loop of `adaptiveGaussKronrodKnownSingularParallel` for
worker `i`: `aNew`, `bNew` and the vector `subPoints` handed to the thread. -/
def subPoints (a b singularity : ℚ) (i : ℕ) : ℚ × ℚ × List ℚ :=
  let width := b - a
  let aNew := a + ((i : ℚ) * 0.25 * width)
  let bNew := a + ((i : ℚ) * 0.25 * width)
  let subPoints : List ℚ := []
  let subPoints := subPoints ++ [aNew]
  let subPoints :=
    if singularity ≠ 0 ∧ singularity > aNew ∧ singularity < bNew then
      subPoints ++ [singularity]
    else subPoints
  let subPoints := subPoints ++ [bNew]
  (aNew, bNew, subPoints)

/-- `adaptiveGaussKronrodKnownSingularParallel`, the workers updating in the order
`sched`. -/
def adaptiveGaussKronrodKnownSingularParallelSched (gsl_strerror : ℤ → String)
    (gsl_integration_qagp : List ℚ → ℚ → ℚ → ℕ → GslOutcome) (sqrt : Val → Val)
    (error_code : Option String) (a b error : ℚ) (max_subdivisions : ℕ) (singularity : ℚ)
    (num_threads : ℕ) (abserror : Val) (sched : List ℕ) : Val × Val × Option String :=
  let result : Val := 0
  let shared := joinWorkers (fun i shared =>
    (adaptiveGaussKronrodKnownSingularThread gsl_strerror gsl_integration_qagp error_code
      (subPoints a b singularity i).1 (subPoints a b singularity i).2.1 error
      (max_subdivisions / num_threads) (subPoints a b singularity i).2.2 shared).1)
    sched (result, abserror)
  (shared.1, sqrt shared.2, error_code)

end AdvancedRules

/-- `checkError` of `Print.cpp`: `(error_code != NULL) && (error_code[0] != '\0')`. -/
def checkError (error_code : Option String) : Bool :=
  match error_code with
  | none => false
  | some s => !s.isEmpty

/-- The lines of `printAdvanced` for one function under `a_nonAdaptiveGaussKronrod`:
the call, made with the caller's variable `error_code`, and the test
`if (checkError(error_code))`. Yields `value`, whether the error row is written, and
the caller's `error_code` afterwards. The call receives a copy of the pointer, so the
test reads the caller's variable as it was before the call. -/
def printAdvanced_nonAdaptiveGaussKronrod (gsl_strerror : ℤ → String)
    (gsl_integration_qng : ℚ → ℚ → ℚ → ℚ → AdvancedRules.GslOutcome)
    (error_code : Option String) (a b error : ℚ) : Val × Bool × Option String :=
  let value :=
    (AdvancedRules.nonAdaptiveGaussKronrod gsl_strerror gsl_integration_qng error_code a b
      error).1
  if checkError error_code then (value, true, some "")
  else (value, false, error_code)

/-! `adaptiveParallel`

`adaptiveParallel` queues the first node, creates `num_threads` workers running
`adaptiveThread`, joins them all and returns `result`. The interleaving of the
workers' steps is the schedule `sched`; while a worker has not returned the joins
wait, so a schedule that leaves a worker short of its `return` gives no value. -/

namespace Adaptive

/-- The worker has returned from `adaptiveThread`. -/
def Pc.isDone {I : Type} : Pc I → Bool
  | Pc.done => true
  | _ => false

/-- All the `join()` calls of `adaptiveParallel` return: every worker
`0 .. num_threads - 1` has returned. -/
def joined {I : Type} (num_threads : ℕ) (st : Shared I × (ℕ → Worker I)) : Bool :=
  (List.range num_threads).all (fun t => (st.2 t).pc.isDone)

/-- The body of `adaptiveParallel` after `whole` is built, the workers interleaved in
the order `sched`: `result` and `*subdivisions` once every worker is joined. -/
def parallel {I : Type} (R : Rule I) (width : leftRightInterval I → ℚ) (sched : List ℕ)
    (f : ℚ → Val) (whole : I) (num_threads : ℕ) (error : ℚ) (max_subdivisions : ℕ)
    (max_time : ℤ) (elapsed : ℕ → ℕ → ℚ) : Option (Val × ℕ) :=
  let st := exec R width f error max_subdivisions max_time elapsed num_threads sched
    (launch R f whole)
  if joined num_threads st then some (st.1.result, st.1.subdivisions) else none

end Adaptive

namespace TrapezoidRule

/-- `TrapezoidRule::adaptiveParallel`; yields `result` and `*subdivisions`. -/
def adaptiveParallel (sched : List ℕ) (f : ℚ → Val) (a b : ℚ) (num_threads : ℕ) (error : ℚ)
    (max_subdivisions : ℕ) (max_time : ℤ) (elapsed : ℕ → ℕ → ℚ) : Option (Val × ℕ) :=
  let whole : interval := ⟨a, b, findVal f a (b - a), findVal f b (b - a)⟩
  Adaptive.parallel rule (fun currentInterval =>
    2 * (currentInterval.left.b - currentInterval.left.a))
    sched f whole num_threads error max_subdivisions max_time elapsed

end TrapezoidRule

namespace SimpsonRule

/-- `SimpsonRule::adaptiveParallel`; yields `result` and `*subdivisions`. -/
def adaptiveParallel (sched : List ℕ) (f : ℚ → Val) (a b : ℚ) (num_threads : ℕ) (error : ℚ)
    (max_subdivisions : ℕ) (max_time : ℤ) (elapsed : ℕ → ℕ → ℚ) : Option (Val × ℕ) :=
  let whole : interval :=
    ⟨a, (a + b) / 2, b, findVal f a (b - a), findVal f ((a + b) / 2) (b - a),
      findVal f b (b - a)⟩
  Adaptive.parallel rule (fun currentInterval =>
    currentInterval.right.b - currentInterval.left.a)
    sched f whole num_threads error max_subdivisions max_time elapsed

end SimpsonRule

namespace Simpson38Rule

/-- `Simpson38Rule::adaptiveParallel`; yields `result` and `*subdivisions`. -/
def adaptiveParallel (sched : List ℕ) (f : ℚ → Val) (a b : ℚ) (num_threads : ℕ) (error : ℚ)
    (max_subdivisions : ℕ) (max_time : ℤ) (elapsed : ℕ → ℕ → ℚ) : Option (Val × ℕ) :=
  let whole : interval := ⟨a, b, findVal f a (b - a), findVal f b (b - a)⟩
  Adaptive.parallel rule (fun currentInterval =>
    currentInterval.right.b - currentInterval.left.a)
    sched f whole num_threads error max_subdivisions max_time elapsed

end Simpson38Rule

namespace BoolesRule

/-- `BoolesRule::adaptiveParallel`; yields `result` and `*subdivisions`. -/
def adaptiveParallel (sched : List ℕ) (f : ℚ → Val) (a b : ℚ) (num_threads : ℕ) (error : ℚ)
    (max_subdivisions : ℕ) (max_time : ℤ) (elapsed : ℕ → ℕ → ℚ) : Option (Val × ℕ) :=
  let whole : interval :=
    ⟨a, (a + b) / 2, b, findVal f a (b - a), findVal f ((a + b) / 2) (b - a),
      findVal f b (b - a)⟩
  Adaptive.parallel rule (fun currentInterval =>
    currentInterval.right.b - currentInterval.left.a)
    sched f whole num_threads error max_subdivisions max_time elapsed

end BoolesRule

/-! `double integrate;` in `nonAdaptiveThread`

Each `nonAdaptiveThread` declares `double integrate;` without an initialiser and goes
on with `integrate += ...` and `(*result) += integrate`: what the variable holds when
the worker starts is whatever was in its stack slot. In this namespace that value is
an argument, one per worker; the definitions of the same names outside the namespace
are these with the value `0`. -/

namespace Indeterminate

namespace TrapezoidRule
open Val

/-- `TrapezoidRule::nonAdaptiveThread`: the amount the worker adds to `*result`, `integrate`
being what the variable holds at its declaration. -/
def nonAdaptiveThread (integrate : Val) (fuel : ℕ) (f : ℚ → Val) (a b width : ℚ)
    (threads threadNum : ℕ) : Option Val :=
  let x := a + width * ((threadNum : ℚ) + 1)
  TrapezoidRule.threadLoop f b width threads fuel x integrate

/-- `TrapezoidRule::nonAdaptiveParallel`, the workers adding their sums in the order
`sched`; `integrate i` is what worker `i` finds in its `integrate`. -/
def nonAdaptiveParallelSched (integrate : ℕ → Val) (fuel : ℕ) (f : ℚ → Val) (a b : ℚ)
    (subdivisions num_threads : ℕ) (sched : List ℕ) : Option Val :=
  let result : Val := 0
  let width := (b - a) / subdivisions
  let result := result + fin 0.5 * findVal f a width
  match joinAll (fun i => nonAdaptiveThread (integrate i) fuel f a b width num_threads i)
      sched result with
  | none => none
  | some result =>
    let result := result + fin 0.5 * findVal f b width
    some (result * fin width)

/-- `TrapezoidRule::nonAdaptiveParallel` with the workers joining in index order. -/
def nonAdaptiveParallel (integrate : ℕ → Val) (fuel : ℕ) (f : ℚ → Val) (a b : ℚ)
    (subdivisions num_threads : ℕ) : Option Val :=
  nonAdaptiveParallelSched integrate fuel f a b subdivisions num_threads
    (List.range num_threads)

end TrapezoidRule

namespace SimpsonRule
open Val

/-- `SimpsonRule::nonAdaptiveThread`: the amount the worker adds to `*result`, `integrate`
being what the variable holds at its declaration. -/
def nonAdaptiveThread (integrate : Val) (fuel : ℕ) (f : ℚ → Val) (a b width : ℚ)
    (threads threadNum : ℕ) : Option Val :=
  let x := a + width * ((threadNum : ℚ) + 0.5)
  SimpsonRule.threadLoop f b width threads fuel x integrate

/-- `SimpsonRule::nonAdaptiveParallel`, the workers adding their sums in the order
`sched`; `integrate i` is what worker `i` finds in its `integrate`. -/
def nonAdaptiveParallelSched (integrate : ℕ → Val) (fuel : ℕ) (f : ℚ → Val) (a b : ℚ)
    (subdivisions num_threads : ℕ) (sched : List ℕ) : Option Val :=
  let result : Val := 0
  let width := (b - a) / subdivisions
  let result := result + findVal f a width
  match joinAll (fun i => nonAdaptiveThread (integrate i) fuel f a b width num_threads i)
      sched result with
  | none => none
  | some result =>
    let result := result + fin 4 * findVal f (b - 0.5 * width) width
    let result := result + findVal f b width
    some (result * fin width / fin 6)

/-- `SimpsonRule::nonAdaptiveParallel` with the workers joining in index order. -/
def nonAdaptiveParallel (integrate : ℕ → Val) (fuel : ℕ) (f : ℚ → Val) (a b : ℚ)
    (subdivisions num_threads : ℕ) : Option Val :=
  nonAdaptiveParallelSched integrate fuel f a b subdivisions num_threads
    (List.range num_threads)

end SimpsonRule

namespace Simpson38Rule
open Val

/-- `Simpson38Rule::nonAdaptiveThread`: the amount the worker adds to `*result`, `integrate`
being what the variable holds at its declaration. -/
def nonAdaptiveThread (integrate : Val) (fuel : ℕ) (f : ℚ → Val) (a b width : ℚ)
    (threads threadNum : ℕ) : Option Val :=
  let x := a + width * ((threadNum : ℚ) + 1.0 / 3)
  Simpson38Rule.threadLoop f b width threads fuel x integrate

/-- `Simpson38Rule::nonAdaptiveParallel`, the workers adding their sums in the order
`sched`; `integrate i` is what worker `i` finds in its `integrate`. -/
def nonAdaptiveParallelSched (integrate : ℕ → Val) (fuel : ℕ) (f : ℚ → Val) (a b : ℚ)
    (subdivisions num_threads : ℕ) (sched : List ℕ) : Option Val :=
  let result : Val := 0
  let width := (b - a) / subdivisions
  let result := result + findVal f a width
  match joinAll (fun i => nonAdaptiveThread (integrate i) fuel f a b width num_threads i)
      sched result with
  | none => none
  | some result =>
    let result := result + fin 3 * findVal f (b - width * 2.0 / 3) width
    let result := result + fin 3 * findVal f (b - width * 1.0 / 3) width
    let result := result + findVal f b width
    some (result * fin width / fin 8)

/-- `Simpson38Rule::nonAdaptiveParallel` with the workers joining in index order. -/
def nonAdaptiveParallel (integrate : ℕ → Val) (fuel : ℕ) (f : ℚ → Val) (a b : ℚ)
    (subdivisions num_threads : ℕ) : Option Val :=
  nonAdaptiveParallelSched integrate fuel f a b subdivisions num_threads
    (List.range num_threads)

end Simpson38Rule

namespace BoolesRule
open Val

/-- `BoolesRule::nonAdaptiveThread`: the amount the worker adds to `*result`, `integrate`
being what the variable holds at its declaration. -/
def nonAdaptiveThread (integrate : Val) (fuel : ℕ) (f : ℚ → Val) (a b width : ℚ)
    (threads threadNum : ℕ) : Option Val :=
  let x := a + width * ((threadNum : ℚ) + 0.25)
  BoolesRule.threadLoop f b width threads fuel x integrate

/-- `BoolesRule::nonAdaptiveParallel`, the workers adding their sums in the order
`sched`; `integrate i` is what worker `i` finds in its `integrate`. -/
def nonAdaptiveParallelSched (integrate : ℕ → Val) (fuel : ℕ) (f : ℚ → Val) (a b : ℚ)
    (subdivisions num_threads : ℕ) (sched : List ℕ) : Option Val :=
  let result : Val := 0
  let width := (b - a) / subdivisions
  let result := result + findVal f a width
  match joinAll (fun i => nonAdaptiveThread (integrate i) fuel f a b width num_threads i)
      sched result with
  | none => none
  | some result =>
    let result := result + fin 32 * findVal f (b - width * 0.75) width
    let result := result + fin 12 * findVal f (b - width * 0.5) width
    let result := result + fin 32 * findVal f (b - width * 0.25) width
    let result := result + fin 7 * findVal f b width
    some (result * fin width / fin 90)

/-- `BoolesRule::nonAdaptiveParallel` with the workers joining in index order. -/
def nonAdaptiveParallel (integrate : ℕ → Val) (fuel : ℕ) (f : ℚ → Val) (a b : ℚ)
    (subdivisions num_threads : ℕ) : Option Val :=
  nonAdaptiveParallelSched integrate fuel f a b subdivisions num_threads
    (List.range num_threads)

end BoolesRule

end Indeterminate

/-! The same code in binary64 arithmetic

The definitions above read the code in exact arithmetic. Here `findVal` and the
trapezoid rule's `getLeftRight` and `adaptiveNonParallel` are read with the arithmetic
of a `double`: every `+`, `-`, `*`, `/` yields the IEEE 754 binary64 number nearest to
the exact result (ties to the even significand). A number is still carried as a
rational, now always one that a `double` holds. An operation on function values
that overflows stores `±inf`, non-finite like `NaN`; the abscissae (`a`, `b`, `x`,
`width`, `error`) are taken far from the overflow threshold, as they are in the runs
considered. The subdivision counter is an `int` that stays far below `2^31` there. -/

namespace Binary64
open Val

/-- The integer nearest to `q`, the even one of the two when `q` lies half way. -/
def roundEven (q : ℚ) : ℤ :=
  if q - ⌊q⌋ < 1 / 2 then ⌊q⌋
  else if 1 / 2 < q - ⌊q⌋ then ⌊q⌋ + 1
  else if ⌊q⌋ % 2 = 0 then ⌊q⌋ else ⌊q⌋ + 1

/-- The binary64 number nearest to `q`, ties to even: a 53-bit significand times
`2 ^ e`, where `e = ⌊log₂ |q|⌋ - 52`, and `e = -1074` in the subnormal range. -/
def round (q : ℚ) : ℚ :=
  if q = 0 then 0
  else
    let e := max (Int.log 2 |q| - 52) (-1074)
    roundEven (q / 2 ^ e) * 2 ^ e

/-- What an operation with exact result `q` stores in a `double`: the nearest
binary64 number, or `±inf` when that is `2 ^ 1024` or more in magnitude. -/
def store (q : ℚ) : Val :=
  if |round q| < 2 ^ 1024 then fin (round q) else nonfin

/-- Addition of doubles. -/
def add : Val → Val → Val
  | fin x, fin y => store (x + y)
  | _, _ => nonfin

/-- Subtraction of doubles. -/
def sub : Val → Val → Val
  | fin x, fin y => store (x - y)
  | _, _ => nonfin

/-- Multiplication of doubles. -/
def mul : Val → Val → Val
  | fin x, fin y => store (x * y)
  | _, _ => nonfin

/-- Division of doubles; a zero divisor gives `NaN` or `±inf`. -/
def div : Val → Val → Val
  | fin x, fin y => if y = 0 then nonfin else store (x / y)
  | _, _ => nonfin

/-- `findVal` of `FindVal.h` in binary64 arithmetic; `0.001` and `0.0005` are the
doubles nearest to these decimals. -/
def findVal (f : ℚ → Val) (x width : ℚ) : Val :=
  let val := f x
  if val.isFinite then val
  else
    let fa := f (round (x - round (round 0.001 * width)))
    let fb := f (round (x + round (round 0.001 * width)))
    if !fa.isFinite then
      let fm := f (round (x + round (round 0.0005 * width)))
      sub (mul (fin 2) fm) fb
    else if !fb.isFinite then
      let fm := f (round (x - round (round 0.0005 * width)))
      sub (mul (fin 2) fm) fa
    else
      div (add fa fb) (fin 2)

namespace TrapezoidRule

/-- `TrapezoidRule::getLeftRight` in binary64 arithmetic. -/
def getLeftRight (currentInterval : TrapezoidRule.interval) (f : ℚ → Val) :
    TrapezoidRule.leftRightInterval :=
  let width := round (currentInterval.b - currentInterval.a)
  let m := round (round (currentInterval.a + currentInterval.b) / 2)
  let fm := findVal f m width
  let integrate := mul (fin (round (width / 2))) (add currentInterval.fa currentInterval.fb)
  let leftInterval : TrapezoidRule.interval := ⟨currentInterval.a, m, currentInterval.fa, fm⟩
  let rightInterval : TrapezoidRule.interval := ⟨m, currentInterval.b, fm, currentInterval.fb⟩
  ⟨leftInterval, rightInterval, integrate⟩

/-- One pass through the body of `while (!intervals.empty())` of
`TrapezoidRule::adaptiveNonParallel` in binary64 arithmetic, the clock reading
`elapsed`. -/
def pass (f : ℚ → Val) (error : ℚ) (max_subdivisions : ℕ) (max_time : ℤ) (elapsed : ℚ)
    (s : Adaptive.State TrapezoidRule.interval) : Adaptive.State TrapezoidRule.interval :=
  match s.intervals with
  | [] => s
  | currentInterval :: rest =>
    let time_exceeded := s.time_exceeded || decide (elapsed > (max_time : ℚ))
    let subdivisions_exceeded :=
      s.subdivisions_exceeded || decide (s.intervals.length > max_subdivisions)
    let width := round (currentInterval.right.b - currentInterval.left.a)
    let left := getLeftRight currentInterval.left f
    let right := getLeftRight currentInterval.right f
    if (fabs (sub (add left.integrated right.integrated) currentInterval.integrated)).ltBound
          (round (round (3 * width) * error))
        || subdivisions_exceeded || time_exceeded then
      { intervals := rest
        result := add s.result (add left.integrated right.integrated)
        subdivisions := s.subdivisions
        subdivisions_exceeded := subdivisions_exceeded
        time_exceeded := time_exceeded }
    else
      { intervals := rest ++ [left, right]
        result := s.result
        subdivisions := s.subdivisions + 1
        subdivisions_exceeded := subdivisions_exceeded
        time_exceeded := time_exceeded }

/-- The loop `while (!intervals.empty())` from its pass number `i` on; `none` when the
fuel runs out with the queue still non-empty. -/
def loop (f : ℚ → Val) (error : ℚ) (max_subdivisions : ℕ) (max_time : ℤ) (elapsed : ℕ → ℚ) :
    ℕ → ℕ → Adaptive.State TrapezoidRule.interval →
      Option (Adaptive.State TrapezoidRule.interval)
  | 0, _, s => if s.intervals.isEmpty then some s else none
  | fuel + 1, i, s =>
    if s.intervals.isEmpty then some s
    else loop f error max_subdivisions max_time elapsed fuel (i + 1)
      (pass f error max_subdivisions max_time (elapsed i) s)

/-- `TrapezoidRule::adaptiveNonParallel` in binary64 arithmetic; yields `result` and
`*subdivisions`. -/
def adaptiveNonParallel (fuel : ℕ) (f : ℚ → Val) (a b error : ℚ) (max_subdivisions : ℕ)
    (max_time : ℤ) (elapsed : ℕ → ℚ) : Option (Val × ℕ) :=
  let whole : TrapezoidRule.interval :=
    ⟨a, b, findVal f a (round (b - a)), findVal f b (round (b - a))⟩
  let start : Adaptive.State TrapezoidRule.interval :=
    { intervals := [getLeftRight whole f]
      result := fin 0
      subdivisions := 1
      subdivisions_exceeded := false
      time_exceeded := false }
  match loop f error max_subdivisions max_time elapsed fuel 0 start with
  | none => none
  | some s => some (s.result, s.subdivisions)

end TrapezoidRule

end Binary64
/-! Proof-level descriptions of the grids -/

namespace SimpsonRule
open Val

/-- What one pass of the Simpson loops adds for panel `j`: four times the sample at
the panel's centre and twice the sample at its right end. -/
def panelInner (f : ℚ → Val) (a w : ℚ) (j : ℕ) : Val :=
  fin 4 * findVal f (a + ((j : ℚ) + 1 / 2) * w) w + fin 2 * findVal f (a + ((j : ℚ) + 1) * w) w

/-- The Simpson estimate of panel `k` without the factor `w / 6`. -/
def panel (f : ℚ → Val) (a w : ℚ) (k : ℕ) : Val :=
  findVal f (a + (k : ℚ) * w) w + fin 4 * findVal f (a + ((k : ℚ) + 1 / 2) * w) w
    + findVal f (a + ((k : ℚ) + 1) * w) w

end SimpsonRule

namespace Simpson38Rule
open Val

/-- What one pass of the Simpson 3/8 loops adds for panel `j`: three times the
samples at the two third-points and twice the sample at the right end. -/
def panelInner (f : ℚ → Val) (a w : ℚ) (j : ℕ) : Val :=
  fin 3 * findVal f (a + ((j : ℚ) + 1 / 3) * w) w
    + fin 3 * findVal f (a + ((j : ℚ) + 2 / 3) * w) w
    + fin 2 * findVal f (a + ((j : ℚ) + 1) * w) w

/-- The Simpson 3/8 estimate of panel `k` without the factor `w / 8`. -/
def panel (f : ℚ → Val) (a w : ℚ) (k : ℕ) : Val :=
  findVal f (a + (k : ℚ) * w) w + fin 3 * findVal f (a + ((k : ℚ) + 1 / 3) * w) w
    + fin 3 * findVal f (a + ((k : ℚ) + 2 / 3) * w) w
    + findVal f (a + ((k : ℚ) + 1) * w) w

/-- A polynomial of degree at most 3. -/
def cubic (c0 c1 c2 c3 : ℚ) (x : ℚ) : ℚ := c0 + c1 * x + c2 * x ^ 2 + c3 * x ^ 3

/-- An antiderivative of `cubic c0 c1 c2 c3`. -/
def cubicPrimitive (c0 c1 c2 c3 : ℚ) (x : ℚ) : ℚ :=
  c0 * x + c1 * x ^ 2 / 2 + c2 * x ^ 3 / 3 + c3 * x ^ 4 / 4

end Simpson38Rule

namespace BoolesRule
open Val

/-- What one pass of the Boole loops adds for panel `j`: the three interior samples
with weights 32, 12, 32 and the right end with weight 14. -/
def panelInner (f : ℚ → Val) (a w : ℚ) (j : ℕ) : Val :=
  fin 32 * findVal f (a + ((j : ℚ) + 1 / 4) * w) w
    + fin 12 * findVal f (a + ((j : ℚ) + 1 / 2) * w) w
    + fin 32 * findVal f (a + ((j : ℚ) + 3 / 4) * w) w
    + fin 14 * findVal f (a + ((j : ℚ) + 1) * w) w

/-- The Boole estimate of panel `k` without the factor `w / 90`. -/
def panel (f : ℚ → Val) (a w : ℚ) (k : ℕ) : Val :=
  fin 7 * findVal f (a + (k : ℚ) * w) w
    + fin 32 * findVal f (a + ((k : ℚ) + 1 / 4) * w) w
    + fin 12 * findVal f (a + ((k : ℚ) + 1 / 2) * w) w
    + fin 32 * findVal f (a + ((k : ℚ) + 3 / 4) * w) w
    + fin 7 * findVal f (a + ((k : ℚ) + 1) * w) w

end BoolesRule

namespace Adaptive
open Val

/-- The acceptance test in the words of the specification: the one-panel estimates
`L` and `R` of the two halves and the parent-level estimate `P` are finite numbers
with `|L + R - P| < K * w * error`, or the subdivision-ceiling flag is set, or the
deadline flag is set. -/
def accepted (K w error : ℚ) (L R P : Val) (subdivisions_exceeded time_exceeded : Bool) :
    Prop :=
  (∃ l r p : ℚ, L = fin l ∧ R = fin r ∧ P = fin p ∧ |l + r - p| < K * w * error)
    ∨ subdivisions_exceeded = true ∨ time_exceeded = true

/-- What accepting a node adds to `result`: the one-panel estimates of its halves. -/
def estimate {I : Type} (R : Rule I) (f : ℚ → Val) (node : leftRightInterval I) : Val :=
  (R.getLeftRight node.left f).integrated + (R.getLeftRight node.right f).integrated

/-- The state after `j` consecutive passes of the loop body, the first of them being
pass number `i`. -/
def passes {I : Type} (R : Rule I) (f : ℚ → Val) (error : ℚ) (max_subdivisions : ℕ)
    (max_time : ℤ) (elapsed : ℕ → ℚ) : ℕ → ℕ → State I → State I
  | 0, _, s => s
  | j + 1, i, s =>
    passes R f error max_subdivisions max_time elapsed j (i + 1)
      (pass R f error max_subdivisions max_time (elapsed i) s)

end Adaptive

namespace Adaptive
open Val

/-- The span `[left.a, right.b]` of a node, as the pair of its end points. -/
def span {I : Type} (R : Rule I) (node : leftRightInterval I) : ℚ × ℚ :=
  (R.a node.left, R.b node.right)

/-- The spans of `l`, in this order, are non-empty and laid end to end from `a` to
`b`: the first starts at `a`, each next one starts where the previous one ends, the
last ends at `b`. -/
def Tiling : List (ℚ × ℚ) → ℚ → ℚ → Prop
  | [], a, b => a = b
  | p :: rest, a, b => p.1 = a ∧ p.1 < p.2 ∧ Tiling rest p.2 b

/-- The spans, in some order, tile `[a, b]`: no gap and no overlap. -/
def Partitions (spans : List (ℚ × ℚ)) (a b : ℚ) : Prop :=
  ∃ l : List (ℚ × ℚ), l.Perm spans ∧ Tiling l a b

/-- The state of `adaptiveNonParallel` when its loop is entered. -/
def start {I : Type} (R : Rule I) (f : ℚ → Val) (whole : I) : State I :=
  { intervals := [R.getLeftRight whole f]
    result := 0
    subdivisions := 1
    subdivisions_exceeded := false
    time_exceeded := false }

/-- The node accepted by one pass, if any: the popped node, when the pass leaves the
queue shorter. -/
def acceptedIn {I : Type} (R : Rule I) (f : ℚ → Val) (error : ℚ) (max_subdivisions : ℕ)
    (max_time : ℤ) (elapsed : ℚ) (s : State I) : List (leftRightInterval I) :=
  match s.intervals with
  | [] => []
  | node :: _ =>
    if (pass R f error max_subdivisions max_time elapsed s).intervals.length
        < s.intervals.length then [node] else []

/-- The nodes accepted in `j` consecutive passes, the first being pass number `i`. -/
def acceptedNodes {I : Type} (R : Rule I) (f : ℚ → Val) (error : ℚ) (max_subdivisions : ℕ)
    (max_time : ℤ) (elapsed : ℕ → ℚ) : ℕ → ℕ → State I → List (leftRightInterval I)
  | 0, _, _ => []
  | j + 1, i, s =>
    acceptedIn R f error max_subdivisions max_time (elapsed i) s
      ++ acceptedNodes R f error max_subdivisions max_time elapsed j (i + 1)
          (pass R f error max_subdivisions max_time (elapsed i) s)

end Adaptive

namespace Adaptive

end Adaptive


namespace TrapezoidRule

/-- An integrand that is `0` left of `1` and `1` from there on. -/
def stepAtOne (x : ℚ) : Val := if x < 1 then Val.fin 0 else Val.fin 1

end TrapezoidRule

namespace Adaptive

/-- The shared objects and the single worker of a one-thread `adaptiveParallel` when
the worker stands at the loop test holding the queue lock, its locals and the shared
objects being those of the sequential state `s`, after `i` clock readings. -/
def atLoopTest {I : Type} (s : State I) (i : ℕ) : Shared I × (ℕ → Worker I) :=
  ({ intervals := s.intervals
     result := s.result
     subdivisions := s.subdivisions
     intervals_mutex := some 0
     result_mutex := none },
   Function.update (fun _ => spawned I) 0
     { pc := Pc.loopTest
       subdivisions_exceeded := s.subdivisions_exceeded
       time_exceeded := s.time_exceeded
       readings := i })

/-- The shared objects and the single worker of a one-thread `adaptiveParallel` when
the worker has returned. -/
def atDone {I : Type} (s : State I) (i : ℕ) : Shared I × (ℕ → Worker I) :=
  ({ intervals := s.intervals
     result := s.result
     subdivisions := s.subdivisions
     intervals_mutex := none
     result_mutex := none },
   Function.update (fun _ => spawned I) 0
     { pc := Pc.done
       subdivisions_exceeded := s.subdivisions_exceeded
       time_exceeded := s.time_exceeded
       readings := i })

end Adaptive

namespace Adaptive
open Val

/-- The nodes a worker has taken from the queue and neither accepted nor pushed back
as children yet: the popped node up to the error test, then its two children up to
the push. -/
def heldNodes {I : Type} : Pc I → List (leftRightInterval I)
  | Pc.unlockPopped currentInterval => [currentInterval]
  | Pc.split currentInterval => [currentInterval]
  | Pc.lockPush left right => [left, right]
  | Pc.push left right => [left, right]
  | _ => []

/-- The estimate a worker has accepted and not yet added to `*result`. -/
def pendingValue {I : Type} : Pc I → Val
  | Pc.lockResult left right => left.integrated + right.integrated
  | Pc.addResult left right => left.integrated + right.integrated
  | _ => 0

/-- The worker has not yet seen the queue empty. -/
def active {I : Type} : Pc I → Bool
  | Pc.unlockLast => false
  | Pc.done => false
  | _ => true

/-- The spans in `m`, taken in a suitable order, tile `[a, b]`. -/
def Covers (m : Multiset (ℚ × ℚ)) (a b : ℚ) : Prop :=
  ∃ l : List (ℚ × ℚ), (l : Multiset (ℚ × ℚ)) = m ∧ Tiling l a b

/-- The nodes that are in the queue or held by one of the workers `0 .. T - 1`. -/
def inFlight {I : Type} (T : ℕ) (st : Shared I × (ℕ → Worker I)) :
    Multiset (leftRightInterval I) :=
  (st.1.intervals : Multiset (leftRightInterval I))
    + ∑ t in Finset.range T, ((heldNodes (st.2 t).pc : List (leftRightInterval I)) :
        Multiset (leftRightInterval I))

/-- The estimates that the workers `0 .. T - 1` have accepted and not yet added. -/
def pendingSum {I : Type} (T : ℕ) (st : Shared I × (ℕ → Worker I)) : Val :=
  ∑ t in Finset.range T, pendingValue (st.2 t).pc

/-- The bookkeeping of the parallel refinement, `A` being the nodes accepted so far:
`result` and the estimates still to be added make up the estimates of `A`; the spans
of `A` and of the nodes in flight tile `[a, b]`; the nodes in flight are well formed;
and while the queue is non-empty some worker has not yet seen it empty. -/
def Accounted {I : Type} (R : Rule I) (f : ℚ → Val) (a b : ℚ) (T : ℕ) (wf : I → Prop)
    (A : List (leftRightInterval I)) (st : Shared I × (ℕ → Worker I)) : Prop :=
  st.1.result + pendingSum T st = (A.map (estimate R f)).sum
    ∧ Covers (Multiset.map (span R) ((A : Multiset (leftRightInterval I)) + inFlight T st)) a b
    ∧ (∀ n ∈ inFlight T st, wf n.left ∧ wf n.right ∧ R.b n.left = R.a n.right)
    ∧ ((∃ t, t < T ∧ active (st.2 t).pc = true) ∨ st.1.intervals = [])

end Adaptive

namespace Adaptive
open Val

/-- The node a worker has popped and not yet put through the error test. -/
def poppedNodes {I : Type} : Pc I → List (leftRightInterval I)
  | Pc.unlockPopped currentInterval => [currentInterval]
  | Pc.split currentInterval => [currentInterval]
  | _ => []

/-- The two children a worker has built and not yet pushed. -/
def childNodes {I : Type} : Pc I → List (leftRightInterval I)
  | Pc.lockPush left right => [left, right]
  | Pc.push left right => [left, right]
  | _ => []

/-- The node a step accepts: the error test on `currentInterval` sends the worker to
the branch that adds to `*result`. -/
def acceptedBy {I : Type} : Pc I → Pc I → List (leftRightInterval I)
  | Pc.split currentInterval, Pc.lockResult _ _ => [currentInterval]
  | _, _ => []

/-- The node a step refines: the error test on `currentInterval` sends the worker to
the branch that pushes the two children. -/
def refinedBy {I : Type} : Pc I → Pc I → List (leftRightInterval I)
  | Pc.split currentInterval, Pc.lockPush _ _ => [currentInterval]
  | _, _ => []

/-- The nodes a step puts in the queue: the two `intervals->push`. -/
def pushedBy {I : Type} : Pc I → Pc I → List (leftRightInterval I)
  | Pc.push left right, Pc.unlockPush => [left, right]
  | _, _ => []

/-- What the step of worker `t` in the state `st` contributes to a record `g` kept of
the steps (`g` reads where the worker stood and where it stands after the step);
nothing when the worker waits, has returned, or is not one of the workers. -/
def traceStep {I α : Type} (g : Pc I → Pc I → List α) (R : Rule I)
    (width : leftRightInterval I → ℚ) (f : ℚ → Val)
    (error : ℚ) (max_subdivisions : ℕ) (max_time : ℤ) (elapsed : ℕ → ℕ → ℚ)
    (num_threads : ℕ) (t : ℕ) (st : Shared I × (ℕ → Worker I)) : List α :=
  if t < num_threads then
    match stepWorker R width f error max_subdivisions max_time (elapsed t) t st.1 (st.2 t) with
    | none => []
    | some (_, w) => g (st.2 t).pc w.pc
  else []

/-- The record `g` of the run `sched` from the state `st`, step after step, in the
order of the steps. -/
def traceRun {I α : Type} (g : Pc I → Pc I → List α) (R : Rule I)
    (width : leftRightInterval I → ℚ) (f : ℚ → Val)
    (error : ℚ) (max_subdivisions : ℕ) (max_time : ℤ) (elapsed : ℕ → ℕ → ℚ)
    (num_threads : ℕ) : List ℕ → Shared I × (ℕ → Worker I) → List α
  | [], _ => []
  | t :: sched, st =>
    traceStep g R width f error max_subdivisions max_time elapsed num_threads t st
      ++ traceRun g R width f error max_subdivisions max_time elapsed num_threads sched
          (stepSystem R width f error max_subdivisions max_time elapsed num_threads t st)

/-- The nodes accepted in the run `sched` of `adaptiveParallel`, in the order in which
they passed the error test. -/
def acceptedRun {I : Type} (R : Rule I) (width : leftRightInterval I → ℚ) (sched : List ℕ)
    (f : ℚ → Val) (whole : I) (num_threads : ℕ) (error : ℚ) (max_subdivisions : ℕ)
    (max_time : ℤ) (elapsed : ℕ → ℕ → ℚ) : List (leftRightInterval I) :=
  traceRun acceptedBy R width f error max_subdivisions max_time elapsed num_threads sched
    (launch R f whole)

/-- The nodes refined (sent to the pushing branch) in the run `sched` of
`adaptiveParallel`. -/
def refinedRun {I : Type} (R : Rule I) (width : leftRightInterval I → ℚ) (sched : List ℕ)
    (f : ℚ → Val) (whole : I) (num_threads : ℕ) (error : ℚ) (max_subdivisions : ℕ)
    (max_time : ℤ) (elapsed : ℕ → ℕ → ℚ) : List (leftRightInterval I) :=
  traceRun refinedBy R width f error max_subdivisions max_time elapsed num_threads sched
    (launch R f whole)

/-- The nodes pushed by the workers in the run `sched` of `adaptiveParallel`. -/
def pushedRun {I : Type} (R : Rule I) (width : leftRightInterval I → ℚ) (sched : List ℕ)
    (f : ℚ → Val) (whole : I) (num_threads : ℕ) (error : ℚ) (max_subdivisions : ℕ)
    (max_time : ℤ) (elapsed : ℕ → ℕ → ℚ) : List (leftRightInterval I) :=
  traceRun pushedBy R width f error max_subdivisions max_time elapsed num_threads sched
    (launch R f whole)

/-- The two nodes that replace `currentInterval` when it is refined. -/
def children {I : Type} (R : Rule I) (f : ℚ → Val) (currentInterval : leftRightInterval I) :
    List (leftRightInterval I) :=
  [R.getLeftRight currentInterval.left f, R.getLeftRight currentInterval.right f]

/-- Nothing is lost and nothing is counted twice in the run `sched` of
`adaptiveParallel` that returned `r`: the queue is empty at the end; the nodes that
were ever queued (the first node and every pushed one) are, each as often as it was
queued, the accepted and the refined ones; the pushed nodes are the two children of
each refined node; the spans of the accepted nodes partition `[a, b]`; and `r` is the
sum of the estimates of the accepted nodes, each taken once. -/
def NothingLost {I : Type} (R : Rule I) (width : leftRightInterval I → ℚ) (sched : List ℕ)
    (f : ℚ → Val) (whole : I) (num_threads : ℕ) (error : ℚ) (max_subdivisions : ℕ)
    (max_time : ℤ) (elapsed : ℕ → ℕ → ℚ) (r : Val) : Prop :=
  (exec R width f error max_subdivisions max_time elapsed num_threads sched
      (launch R f whole)).1.intervals = []
    ∧ (R.getLeftRight whole f
          :: pushedRun R width sched f whole num_threads error max_subdivisions max_time
              elapsed).Perm
        (acceptedRun R width sched f whole num_threads error max_subdivisions max_time elapsed
          ++ refinedRun R width sched f whole num_threads error max_subdivisions max_time
              elapsed)
    ∧ (pushedRun R width sched f whole num_threads error max_subdivisions max_time
          elapsed).Perm
        ((refinedRun R width sched f whole num_threads error max_subdivisions max_time
          elapsed).flatMap (children R f))
    ∧ Partitions
        ((acceptedRun R width sched f whole num_threads error max_subdivisions max_time
          elapsed).map (span R)) (R.a whole) (R.b whole)
    ∧ r = ((acceptedRun R width sched f whole num_threads error max_subdivisions max_time
          elapsed).map (estimate R f)).sum

/-- The bookkeeping of the queue, `A`, `Ref` and `Pu` being the nodes accepted, refined
and pushed so far and `first` the node queued at the start: every node queued so far
is accepted, refined, still in the queue, or popped and not yet tested; and the
children of the refined nodes are pushed or still held by the worker that built them. -/
def Traced {I : Type} (R : Rule I) (f : ℚ → Val) (T : ℕ) (first : leftRightInterval I)
    (A Ref Pu : List (leftRightInterval I)) (st : Shared I × (ℕ → Worker I)) : Prop :=
  ({first} : Multiset (leftRightInterval I)) + (Pu : Multiset (leftRightInterval I))
      = (A : Multiset (leftRightInterval I)) + (Ref : Multiset (leftRightInterval I))
        + ((st.1.intervals : Multiset (leftRightInterval I))
          + ∑ t in Finset.range T, ((poppedNodes (st.2 t).pc : List (leftRightInterval I)) :
              Multiset (leftRightInterval I)))
    ∧ ((Ref.flatMap (children R f) : List (leftRightInterval I)) :
          Multiset (leftRightInterval I))
      = (Pu : Multiset (leftRightInterval I))
        + ∑ t in Finset.range T, ((childNodes (st.2 t).pc : List (leftRightInterval I)) :
            Multiset (leftRightInterval I))

end Adaptive

namespace Binary64

/-- An integrand that is `t` for `t > 1` and `NaN` for `t ≤ 1`. -/
def aboveOne (t : ℚ) : Val := if 1 < t then Val.fin t else Val.nonfin

end Binary64
/-! Arithmetic of sampled values -/

namespace Val

theorem fin_add_fin (x y : ℚ) : fin x + fin y = fin (x + y) := rfl

theorem nonfin_add (v : Val) : nonfin + v = nonfin := by cases v <;> rfl

theorem add_nonfin (v : Val) : v + nonfin = nonfin := by cases v <;> rfl

theorem fin_mul_fin (x y : ℚ) : fin x * fin y = fin (x * y) := rfl

theorem mul_nonfin (v : Val) : v * nonfin = nonfin := by cases v <;> rfl

theorem nonfin_mul (v : Val) : nonfin * v = nonfin := by cases v <;> rfl

theorem zero_def : (0 : Val) = fin 0 := rfl

theorem isFinite_fin (q : ℚ) : (fin q).isFinite = true := rfl

theorem isFinite_nonfin : nonfin.isFinite = false := rfl

theorem isFinite_eq_false_iff (v : Val) : v.isFinite = false ↔ v = nonfin := by
  cases v <;> simp [isFinite]

theorem isFinite_eq_true_iff (v : Val) : v.isFinite = true ↔ ∃ q, v = fin q := by
  cases v <;> simp [isFinite]

theorem fin_sub_fin (x y : ℚ) : fin x - fin y = fin (x - y) := rfl

theorem fin_div_fin (x y : ℚ) (hy : y ≠ 0) : fin x / fin y = fin (x / y) := by
  show Val.div (fin x) (fin y) = fin (x / y)
  simp only [Val.div, hy, if_false]

theorem two_mul_eq (v : Val) : fin 2 * v = v + v := by
  cases v with
  | fin x => rw [fin_mul_fin, fin_add_fin, two_mul]
  | nonfin => rfl

theorem fin_mul_add (c : ℚ) (u v : Val) : fin c * (u + v) = fin c * u + fin c * v := by
  cases u <;> cases v <;>
    simp only [fin_add_fin, fin_mul_fin, nonfin_add, add_nonfin, mul_nonfin, mul_add]

theorem mul_fin_div_fin (v : Val) (w c : ℚ) (hc : c ≠ 0) :
    v * fin w / fin c = fin (w / c) * v := by
  cases v with
  | fin x =>
    show Val.div (fin (x * w)) (fin c) = fin (w / c * x)
    simp only [Val.div, hc, if_false, fin.injEq]
    ring
  | nonfin => rfl

theorem sum_fin (s : Finset ℕ) (q : ℕ → ℚ) :
    ∑ k in s, fin (q k) = fin (∑ k in s, q k) := by
  induction s using Finset.induction_on with
  | empty => rfl
  | insert hk ih => rw [Finset.sum_insert hk, Finset.sum_insert hk, ih, fin_add_fin]

end Val

theorem findVal_fin (p : ℚ → ℚ) (x w : ℚ) : findVal (fun y => Val.fin (p y)) x w = Val.fin (p x) := by
  simp [findVal, Val.isFinite]

/-! Strided sums and the joins of the workers -/

theorem sum_stride_step (g : ℕ → Val) (T m k : ℕ) (hT : 0 < T) (hk : k < m) :
    ∑ j in (Finset.Ico k m).filter (fun j => j % T = k % T), g j
      = g k + ∑ j in (Finset.Ico (k + T) m).filter (fun j => j % T = (k + T) % T), g j := by
  have hset : (Finset.Ico k m).filter (fun j => j % T = k % T)
      = insert k ((Finset.Ico (k + T) m).filter (fun j => j % T = (k + T) % T)) := by
    ext j
    simp only [Finset.mem_filter, Finset.mem_Ico, Finset.mem_insert, Nat.add_mod_right]
    constructor
    · rintro ⟨⟨h1, h2⟩, h3⟩
      rcases Nat.eq_or_lt_of_le h1 with h | h
      · exact Or.inl h.symm
      · right
        refine ⟨⟨?_, h2⟩, h3⟩
        have hd : T ∣ j - k := Nat.dvd_of_mod_eq_zero (Nat.sub_mod_eq_zero_of_mod_eq h3)
        have := Nat.le_of_dvd (by omega) hd
        omega
    · rintro (h | ⟨⟨h1, h2⟩, h3⟩)
      · subst h
        exact ⟨⟨le_refl _, hk⟩, rfl⟩
      · exact ⟨⟨by omega, h2⟩, h3⟩
  rw [hset, Finset.sum_insert]
  simp only [Finset.mem_filter, Finset.mem_Ico]
  omega

theorem sum_stride_empty (g : ℕ → Val) (T m k : ℕ) (hk : m ≤ k) :
    ∑ j in (Finset.Ico k m).filter (fun j => j % T = k % T), g j = 0 := by
  rw [Finset.Ico_eq_empty_of_le hk, Finset.filter_empty, Finset.sum_empty]

theorem sum_threads (g : ℕ → Val) (T m : ℕ) (hT : 0 < T) :
    ∑ t in Finset.range T, ∑ j in (Finset.Ico t m).filter (fun j => j % T = t % T), g j
      = ∑ j in Finset.range m, g j := by
  have hfib := Finset.sum_fiberwise_of_maps_to
    (s := Finset.range m) (t := Finset.range T) (g := fun j => j % T) (f := g)
    (fun j _ => Finset.mem_range.mpr (Nat.mod_lt j hT))
  rw [← hfib]
  refine Finset.sum_congr rfl (fun t ht => ?_)
  have htT : t < T := Finset.mem_range.mp ht
  refine Finset.sum_congr ?_ (fun _ _ => rfl)
  ext j
  simp only [Finset.mem_filter, Finset.mem_Ico, Finset.mem_range, Nat.mod_eq_of_lt htT]
  constructor
  · rintro ⟨⟨_, h2⟩, h3⟩
    exact ⟨h2, h3⟩
  · rintro ⟨h2, h3⟩
    exact ⟨⟨h3 ▸ Nat.mod_le j T, h2⟩, h3⟩

theorem joinAll_spec (worker : ℕ → Option Val) (g : ℕ → Val)
    (hw : ∀ i, worker i = some (g i)) :
    ∀ (sched : List ℕ) (result : Val),
      joinAll worker sched result = some (result + (sched.map g).sum) := by
  intro sched
  induction sched with
  | nil => intro result; simp [joinAll]
  | cons i rest ih =>
    intro result
    rw [joinAll, hw i]
    simp only [ih, List.map_cons, List.sum_cons, add_assoc]

theorem sum_sched (g : ℕ → Val) (T : ℕ) (sched : List ℕ) (hs : sched.Perm (List.range T)) :
    (sched.map g).sum = ∑ t in Finset.range T, g t := by
  rw [(hs.map g).sum_eq]
  rfl

theorem stride_filter_eq (g : ℕ → Val) (T m t : ℕ) (ht : t < T) :
    ∑ j in (Finset.Ico t m).filter (fun j => j % T = t % T), g j
      = ∑ j in (Finset.range m).filter (fun j => j % T = t), g j := by
  refine Finset.sum_congr ?_ (fun _ _ => rfl)
  ext j
  simp only [Finset.mem_filter, Finset.mem_Ico, Finset.mem_range, Nat.mod_eq_of_lt ht]
  constructor
  · rintro ⟨⟨_, h2⟩, h3⟩
    exact ⟨h2, h3⟩
  · rintro ⟨h2, h3⟩
    exact ⟨⟨h3 ▸ Nat.mod_le j T, h2⟩, h3⟩

/-! The uniform grid -/

theorem grid_facts (a b : ℚ) (m : ℕ) (hab : a < b) :
    0 < (b - a) / ((m + 1 : ℕ) : ℚ)
      ∧ b = a + ((m : ℚ) + 1) * ((b - a) / ((m + 1 : ℕ) : ℚ)) := by
  have hn0 : (0 : ℚ) < ((m + 1 : ℕ) : ℚ) := by exact_mod_cast Nat.succ_pos m
  refine ⟨div_pos (by linarith) hn0, ?_⟩
  have hn1 : ((m + 1 : ℕ) : ℚ) ≠ 0 := ne_of_gt hn0
  push_cast at hn1 ⊢
  field_simp

/-! Simpson's rule on a fixed grid -/

namespace SimpsonRule
open Val

theorem simpson_sweep_spec (f : ℚ → Val) (a b w : ℚ) (m : ℕ) (hw : 0 < w)
    (hb : b = a + ((m : ℚ) + 1) * w) :
    ∀ (d k fuel : ℕ) (acc : Val), k + d = m → d ≤ fuel →
      sweep f b w fuel (a + ((k : ℚ) + 1 / 2) * w) acc
        = some (a + ((m : ℚ) + 1 / 2) * w,
            acc + ∑ j in Finset.Ico k m, panelInner f a w j) := by
  intro d
  induction d with
  | zero =>
    intro k fuel acc hk _
    have hkm : k = m := by omega
    subst hkm
    have hc : ¬ (a + ((k : ℚ) + 1 / 2) * w < b - w) := by
      rw [hb]; nlinarith
    cases fuel <;> rw [sweep, if_neg hc] <;> simp
  | succ d ih =>
    intro k fuel acc hk hfuel
    obtain ⟨fuel, rfl⟩ : ∃ g, fuel = g + 1 := ⟨fuel - 1, by omega⟩
    have hkm : (k : ℚ) + 1 ≤ m := by exact_mod_cast (by omega : k + 1 ≤ m)
    have hc : a + ((k : ℚ) + 1 / 2) * w < b - w := by
      rw [hb]; nlinarith
    have hx1 : a + ((k : ℚ) + 1 / 2) * w + 0.5 * w = a + ((k : ℚ) + 1) * w := by
      norm_num; ring
    have hx2 : a + ((k : ℚ) + 1) * w + 0.5 * w = a + (((k + 1 : ℕ) : ℚ) + 1 / 2) * w := by
      push_cast; norm_num; ring
    rw [sweep, if_pos hc]
    simp only [hx1, hx2]
    rw [ih (k + 1) fuel _ (by omega) (by omega),
      Finset.sum_eq_sum_Ico_succ_bot (by omega : k < m)]
    simp only [panelInner, add_assoc]

theorem simpson_panel_sum (f : ℚ → Val) (a w : ℚ) (m : ℕ) :
    findVal f a w + ∑ j in Finset.Ico 0 m, panelInner f a w j
        + fin 4 * findVal f (a + ((m : ℚ) + 1 / 2) * w) w
        + findVal f (a + ((m : ℚ) + 1) * w) w
      = ∑ k in Finset.range (m + 1), panel f a w k := by
  induction m with
  | zero => simp [panel]
  | succ m ih =>
    rw [Finset.sum_range_succ, ← ih, Finset.sum_Ico_succ_top (Nat.zero_le m)]
    simp only [panel, panelInner, two_mul_eq]
    push_cast
    abel

theorem simpson_seq_value (f : ℚ → Val) (a b : ℚ) (m fuel : ℕ) (hab : a < b) (hfuel : m ≤ fuel) :
    nonAdaptiveNonParallel fuel f a b (m + 1)
      = some (fin ((b - a) / ((m + 1 : ℕ) : ℚ) / 6) *
          ∑ k in Finset.range (m + 1), panel f a ((b - a) / ((m + 1 : ℕ) : ℚ)) k) := by
  obtain ⟨hwpos, hb⟩ := grid_facts a b m hab
  generalize hwd : (b - a) / ((m + 1 : ℕ) : ℚ) = w at hwpos hb ⊢
  have hx0 : a + 0.5 * w = a + (((0 : ℕ) : ℚ) + 1 / 2) * w := by norm_num
  unfold nonAdaptiveNonParallel
  simp only [hwd]
  rw [hx0, simpson_sweep_spec f a b w m hwpos hb m 0 fuel _ (by omega) hfuel]
  simp only [zero_add]
  have hp := simpson_panel_sum f a w m
  rw [← hb] at hp
  rw [mul_fin_div_fin _ _ _ (by norm_num), hp]

theorem simpson_threadLoop_spec (f : ℚ → Val) (a b w : ℚ) (m T : ℕ) (hw : 0 < w)
    (hb : b = a + ((m : ℚ) + 1) * w) (hT : 0 < T) :
    ∀ (fuel k : ℕ) (acc : Val), m ≤ k + fuel * T →
      threadLoop f b w T fuel (a + ((k : ℚ) + 1 / 2) * w) acc
        = some (acc + ∑ j in (Finset.Ico k m).filter (fun j => j % T = k % T),
            panelInner f a w j) := by
  intro fuel
  induction fuel with
  | zero =>
    intro k acc hk
    have hkm : (m : ℚ) ≤ k := by exact_mod_cast (by omega : m ≤ k)
    have hc : ¬ (a + ((k : ℚ) + 1 / 2) * w < b - w) := by
      rw [hb]; nlinarith
    rw [threadLoop, if_neg hc, sum_stride_empty _ _ _ _ (by omega), add_zero]
  | succ fuel ih =>
    intro k acc hk
    by_cases hlt : k < m
    · have hkm : (k : ℚ) + 1 ≤ m := by exact_mod_cast (by omega : k + 1 ≤ m)
      have hc : a + ((k : ℚ) + 1 / 2) * w < b - w := by
        rw [hb]; nlinarith
      have hx1 : a + ((k : ℚ) + 1 / 2) * w + 0.5 * w = a + ((k : ℚ) + 1) * w := by
        norm_num; ring
      have hx2 : a + ((k : ℚ) + 1) * w + ((T : ℚ) - 0.5) * w
          = a + (((k + T : ℕ) : ℚ) + 1 / 2) * w := by
        push_cast; norm_num; ring
      rw [threadLoop, if_pos hc]
      simp only [hx1, hx2]
      rw [ih (k + T) _ (by rw [Nat.succ_mul] at hk; omega), sum_stride_step _ _ _ _ hT hlt]
      simp only [panelInner, add_assoc]
    · have hkm : (m : ℚ) ≤ k := by exact_mod_cast (by omega : m ≤ k)
      have hc : ¬ (a + ((k : ℚ) + 1 / 2) * w < b - w) := by
        rw [hb]; nlinarith
      rw [threadLoop, if_neg hc, sum_stride_empty _ _ _ _ (by omega), add_zero]

theorem simpson_thread_value (f : ℚ → Val) (a b w : ℚ) (m T fuel t : ℕ) (hw : 0 < w)
    (hb : b = a + ((m : ℚ) + 1) * w) (hT : 0 < T) (hfuel : m ≤ fuel) :
    nonAdaptiveThread fuel f a b w T t
      = some (∑ j in (Finset.Ico t m).filter (fun j => j % T = t % T), panelInner f a w j) := by
  have hx : a + w * ((t : ℚ) + 0.5) = a + ((t : ℚ) + 1 / 2) * w := by norm_num; ring
  have hf : m ≤ t + fuel * T := le_trans hfuel (le_trans (Nat.le_mul_of_pos_right fuel hT)
    (Nat.le_add_left _ _))
  unfold nonAdaptiveThread
  rw [hx, simpson_threadLoop_spec f a b w m T hw hb hT fuel t 0 hf, zero_add]

theorem simpson_par_value (f : ℚ → Val) (a b : ℚ) (m T fuel : ℕ) (sched : List ℕ) (hab : a < b)
    (hT : 0 < T) (hfuel : m ≤ fuel) (hs : sched.Perm (List.range T)) :
    nonAdaptiveParallelSched fuel f a b (m + 1) T sched
      = some (fin ((b - a) / ((m + 1 : ℕ) : ℚ) / 6) *
          ∑ k in Finset.range (m + 1), panel f a ((b - a) / ((m + 1 : ℕ) : ℚ)) k) := by
  obtain ⟨hwpos, hb⟩ := grid_facts a b m hab
  generalize hwd : (b - a) / ((m + 1 : ℕ) : ℚ) = w at hwpos hb ⊢
  have hxb : b - 0.5 * w = a + ((m : ℚ) + 1 / 2) * w := by rw [hb]; norm_num; ring
  unfold nonAdaptiveParallelSched
  simp only [hwd]
  rw [joinAll_spec _ _ (fun t => simpson_thread_value f a b w m T fuel t hwpos hb hT hfuel),
    sum_sched _ T sched hs, sum_threads _ T m hT, hxb]
  simp only [zero_add]
  have hp := simpson_panel_sum f a w m
  rw [← hb, ← Finset.range_eq_Ico] at hp
  rw [mul_fin_div_fin _ _ _ (by norm_num), hp]

/-- C1: in exact arithmetic, with `a < b` and `n ≥ 1` subdivisions (and fuel for the
loop passes), `SimpsonRule::nonAdaptiveNonParallel` returns
`(w/6) * Σ_{k<n} [s(a+k*w) + 4*s(a+(k+1/2)*w) + s(a+(k+1)*w)]` with `w = (b-a)/n` and
`s(x) = findVal(f, x, w)`: the composite Simpson sum, weights `1,4,2,4,...,4,1`. -/
theorem simpson_nonAdaptiveNonParallel_eq_composite (f : ℚ → Val) (a b : ℚ) (n fuel : ℕ)
    (hab : a < b) (hn : 1 ≤ n) (hfuel : n ≤ fuel) :
    nonAdaptiveNonParallel fuel f a b n
      = some (fin ((b - a) / n / 6) *
          ∑ k in Finset.range n,
            (findVal f (a + (k : ℚ) * ((b - a) / n)) ((b - a) / n)
              + fin 4 * findVal f (a + ((k : ℚ) + 1 / 2) * ((b - a) / n)) ((b - a) / n)
              + findVal f (a + ((k : ℚ) + 1) * ((b - a) / n)) ((b - a) / n))) := by
  obtain ⟨m, rfl⟩ : ∃ m, n = m + 1 := ⟨n - 1, by omega⟩
  rw [simpson_seq_value f a b m fuel hab (by omega)]
  rfl

theorem simpson_nonAdaptiveNonParallel_eq_composite_witness :
    (0 : ℚ) < 1 ∧ 1 ≤ 2 ∧ 2 ≤ 2
      ∧ nonAdaptiveNonParallel 2 (fun x => fin (x * x)) 0 1 2 = some (fin (1 / 3)) := by
  refine ⟨by norm_num, by norm_num, by norm_num, ?_⟩
  rw [simpson_nonAdaptiveNonParallel_eq_composite (fun x => fin (x * x)) 0 1 2 2
    (by norm_num) (by norm_num) (by norm_num)]
  simp only [findVal_fin, Finset.sum_range_succ, Finset.sum_range_zero,
    fin_mul_fin, fin_add_fin, zero_def]
  norm_num

/-- C5: in exact arithmetic, with every worker's partial sum starting at `0` and the
partial sums added in any order `sched` of the workers `0 .. T-1`, for `a < b`,
`n ≥ 1` and `T ≥ 1` `SimpsonRule::nonAdaptiveParallel` returns a value, the same one
as `SimpsonRule::nonAdaptiveNonParallel`; worker `t` adds the centre and right-end
terms of exactly the panels `j < n - 1` with `j % T = t`, so the workers visit every
panel but the last exactly once. -/
theorem simpson_nonAdaptiveParallel_eq_nonAdaptiveNonParallel (f : ℚ → Val) (a b : ℚ)
    (n T fuel fuel' : ℕ) (sched : List ℕ) (hab : a < b) (hn : 1 ≤ n) (hT : 1 ≤ T)
    (hfuel : n ≤ fuel) (hfuel' : n ≤ fuel') (hs : sched.Perm (List.range T)) :
    (∃ v, nonAdaptiveParallelSched fuel f a b n T sched = some v
        ∧ nonAdaptiveNonParallel fuel' f a b n = some v)
      ∧ nonAdaptiveParallel fuel f a b n T = nonAdaptiveNonParallel fuel' f a b n
      ∧ ∀ t, t < T →
          nonAdaptiveThread fuel f a b ((b - a) / n) T t
            = some (∑ j in (Finset.range (n - 1)).filter (fun j => j % T = t),
                (fin 4 * findVal f (a + ((j : ℚ) + 1 / 2) * ((b - a) / n)) ((b - a) / n)
                  + fin 2 * findVal f (a + ((j : ℚ) + 1) * ((b - a) / n)) ((b - a) / n))) := by
  obtain ⟨m, rfl⟩ : ∃ m, n = m + 1 := ⟨n - 1, by omega⟩
  refine ⟨⟨_, simpson_par_value f a b m T fuel sched hab hT (by omega) hs,
    simpson_seq_value f a b m fuel' hab (by omega)⟩, ?_, ?_⟩
  · rw [nonAdaptiveParallel, simpson_par_value f a b m T fuel _ hab hT (by omega) (List.Perm.refl _),
      simpson_seq_value f a b m fuel' hab (by omega)]
  · intro t ht
    obtain ⟨hwpos, hb⟩ := grid_facts a b m hab
    rw [simpson_thread_value f a b _ m T fuel t hwpos hb hT (by omega), Nat.add_sub_cancel,
      stride_filter_eq _ T m t ht]
    rfl

theorem simpson_nonAdaptiveParallel_eq_nonAdaptiveNonParallel_witness :
    (0 : ℚ) < 1 ∧ 1 ≤ 3 ∧ 1 ≤ 2 ∧ [1, 0].Perm (List.range 2)
      ∧ ∃ v, nonAdaptiveParallelSched 3 (fun x => fin (x * x)) 0 1 3 2 [1, 0] = some v
          ∧ nonAdaptiveNonParallel 3 (fun x => fin (x * x)) 0 1 3 = some v :=
  ⟨by norm_num, by norm_num, by norm_num, by decide,
    (simpson_nonAdaptiveParallel_eq_nonAdaptiveNonParallel (fun x => fin (x * x)) 0 1 3 2 3 3 [1, 0]
      (by norm_num) (by norm_num) (by norm_num) (le_refl 3) (le_refl 3) (by decide)).1⟩

end SimpsonRule


/-! Simpson's 3/8 rule on a fixed grid -/

namespace Simpson38Rule
open Val

theorem simpson38_sweep_spec (f : ℚ → Val) (a b w : ℚ) (m : ℕ) (hw : 0 < w)
    (hb : b = a + ((m : ℚ) + 1) * w) :
    ∀ (d k fuel : ℕ) (acc : Val), k + d = m → d ≤ fuel →
      sweep f b w fuel (a + ((k : ℚ) + 1 / 3) * w) acc
        = some (acc + ∑ j in Finset.Ico k m, panelInner f a w j) := by
  intro d
  induction d with
  | zero =>
    intro k fuel acc hk _
    have hkm : k = m := by omega
    subst hkm
    have hc : ¬ (a + ((k : ℚ) + 1 / 3) * w < b - w) := by
      rw [hb]; nlinarith
    cases fuel <;> rw [sweep, if_neg hc] <;> simp
  | succ d ih =>
    intro k fuel acc hk hfuel
    obtain ⟨fuel, rfl⟩ : ∃ g, fuel = g + 1 := ⟨fuel - 1, by omega⟩
    have hkm : (k : ℚ) + 1 ≤ m := by exact_mod_cast (by omega : k + 1 ≤ m)
    have hc : a + ((k : ℚ) + 1 / 3) * w < b - w := by
      rw [hb]; nlinarith
    have hx1 : a + ((k : ℚ) + 1 / 3) * w + w / 3 = a + ((k : ℚ) + 2 / 3) * w := by ring
    have hx2 : a + ((k : ℚ) + 2 / 3) * w + w / 3 = a + ((k : ℚ) + 1) * w := by ring
    have hx3 : a + ((k : ℚ) + 1) * w + w / 3 = a + (((k + 1 : ℕ) : ℚ) + 1 / 3) * w := by
      push_cast; ring
    rw [sweep, if_pos hc]
    simp only [hx1, hx2, hx3]
    rw [ih (k + 1) fuel _ (by omega) (by omega),
      Finset.sum_eq_sum_Ico_succ_bot (by omega : k < m)]
    simp only [panelInner, add_assoc]

theorem simpson38_panel_sum (f : ℚ → Val) (a w : ℚ) (m : ℕ) :
    findVal f a w + ∑ j in Finset.Ico 0 m, panelInner f a w j
        + fin 3 * findVal f (a + ((m : ℚ) + 1 / 3) * w) w
        + fin 3 * findVal f (a + ((m : ℚ) + 2 / 3) * w) w
        + findVal f (a + ((m : ℚ) + 1) * w) w
      = ∑ k in Finset.range (m + 1), panel f a w k := by
  induction m with
  | zero => simp [panel]
  | succ m ih =>
    rw [Finset.sum_range_succ, ← ih, Finset.sum_Ico_succ_top (Nat.zero_le m)]
    simp only [panel, panelInner, two_mul_eq]
    push_cast
    abel

theorem simpson38_seq_value (f : ℚ → Val) (a b : ℚ) (m fuel : ℕ) (hab : a < b) (hfuel : m ≤ fuel) :
    nonAdaptiveNonParallel fuel f a b (m + 1)
      = some (fin ((b - a) / ((m + 1 : ℕ) : ℚ) / 8) *
          ∑ k in Finset.range (m + 1), panel f a ((b - a) / ((m + 1 : ℕ) : ℚ)) k) := by
  obtain ⟨hwpos, hb⟩ := grid_facts a b m hab
  generalize hwd : (b - a) / ((m + 1 : ℕ) : ℚ) = w at hwpos hb ⊢
  have hx0 : a + w / 3 = a + (((0 : ℕ) : ℚ) + 1 / 3) * w := by push_cast; ring
  have hx1 : b - w * 2.0 / 3 = a + ((m : ℚ) + 1 / 3) * w := by rw [hb]; norm_num; ring
  have hx2 : b - w * 1.0 / 3 = a + ((m : ℚ) + 2 / 3) * w := by rw [hb]; norm_num; ring
  unfold nonAdaptiveNonParallel
  simp only [hwd]
  rw [hx0, simpson38_sweep_spec f a b w m hwpos hb m 0 fuel _ (by omega) hfuel, hx1, hx2]
  simp only [zero_add]
  have hp := simpson38_panel_sum f a w m
  rw [← hb] at hp
  rw [mul_fin_div_fin _ _ _ (by norm_num), hp]

theorem simpson38_threadLoop_spec (f : ℚ → Val) (a b w : ℚ) (m T : ℕ) (hw : 0 < w)
    (hb : b = a + ((m : ℚ) + 1) * w) (hT : 0 < T) :
    ∀ (fuel k : ℕ) (acc : Val), m ≤ k + fuel * T →
      threadLoop f b w T fuel (a + ((k : ℚ) + 1 / 3) * w) acc
        = some (acc + ∑ j in (Finset.Ico k m).filter (fun j => j % T = k % T),
            panelInner f a w j) := by
  intro fuel
  induction fuel with
  | zero =>
    intro k acc hk
    have hkm : (m : ℚ) ≤ k := by exact_mod_cast (by omega : m ≤ k)
    have hc : ¬ (a + ((k : ℚ) + 1 / 3) * w < b - w) := by
      rw [hb]; nlinarith
    rw [threadLoop, if_neg hc, sum_stride_empty _ _ _ _ (by omega), add_zero]
  | succ fuel ih =>
    intro k acc hk
    by_cases hlt : k < m
    · have hkm : (k : ℚ) + 1 ≤ m := by exact_mod_cast (by omega : k + 1 ≤ m)
      have hc : a + ((k : ℚ) + 1 / 3) * w < b - w := by
        rw [hb]; nlinarith
      have hx1 : a + ((k : ℚ) + 1 / 3) * w + w / 3 = a + ((k : ℚ) + 2 / 3) * w := by ring
      have hx2 : a + ((k : ℚ) + 2 / 3) * w + w / 3 = a + ((k : ℚ) + 1) * w := by ring
      have hx3 : a + ((k : ℚ) + 1) * w + w * ((T : ℚ) - 2.0 / 3)
          = a + (((k + T : ℕ) : ℚ) + 1 / 3) * w := by
        push_cast; norm_num; ring
      rw [threadLoop, if_pos hc]
      simp only [hx1, hx2, hx3]
      rw [ih (k + T) _ (by rw [Nat.succ_mul] at hk; omega), sum_stride_step _ _ _ _ hT hlt]
      simp only [panelInner, add_assoc]
    · have hkm : (m : ℚ) ≤ k := by exact_mod_cast (by omega : m ≤ k)
      have hc : ¬ (a + ((k : ℚ) + 1 / 3) * w < b - w) := by
        rw [hb]; nlinarith
      rw [threadLoop, if_neg hc, sum_stride_empty _ _ _ _ (by omega), add_zero]

theorem simpson38_thread_value (f : ℚ → Val) (a b w : ℚ) (m T fuel t : ℕ) (hw : 0 < w)
    (hb : b = a + ((m : ℚ) + 1) * w) (hT : 0 < T) (hfuel : m ≤ fuel) :
    nonAdaptiveThread fuel f a b w T t
      = some (∑ j in (Finset.Ico t m).filter (fun j => j % T = t % T), panelInner f a w j) := by
  have hx : a + w * ((t : ℚ) + 1.0 / 3) = a + ((t : ℚ) + 1 / 3) * w := by norm_num; ring
  have hf : m ≤ t + fuel * T := le_trans hfuel (le_trans (Nat.le_mul_of_pos_right fuel hT)
    (Nat.le_add_left _ _))
  unfold nonAdaptiveThread
  rw [hx, simpson38_threadLoop_spec f a b w m T hw hb hT fuel t 0 hf, zero_add]

theorem simpson38_par_value (f : ℚ → Val) (a b : ℚ) (m T fuel : ℕ) (sched : List ℕ) (hab : a < b)
    (hT : 0 < T) (hfuel : m ≤ fuel) (hs : sched.Perm (List.range T)) :
    nonAdaptiveParallelSched fuel f a b (m + 1) T sched
      = some (fin ((b - a) / ((m + 1 : ℕ) : ℚ) / 8) *
          ∑ k in Finset.range (m + 1), panel f a ((b - a) / ((m + 1 : ℕ) : ℚ)) k) := by
  obtain ⟨hwpos, hb⟩ := grid_facts a b m hab
  generalize hwd : (b - a) / ((m + 1 : ℕ) : ℚ) = w at hwpos hb ⊢
  have hx1 : b - w * 2.0 / 3 = a + ((m : ℚ) + 1 / 3) * w := by rw [hb]; norm_num; ring
  have hx2 : b - w * 1.0 / 3 = a + ((m : ℚ) + 2 / 3) * w := by rw [hb]; norm_num; ring
  unfold nonAdaptiveParallelSched
  simp only [hwd]
  rw [joinAll_spec _ _ (fun t => simpson38_thread_value f a b w m T fuel t hwpos hb hT hfuel),
    sum_sched _ T sched hs, sum_threads _ T m hT, hx1, hx2]
  simp only [zero_add]
  have hp := simpson38_panel_sum f a w m
  rw [← hb, ← Finset.range_eq_Ico] at hp
  rw [mul_fin_div_fin _ _ _ (by norm_num), hp]

theorem simpson38_cubic_panel (c0 c1 c2 c3 a w : ℚ) (k : ℕ) :
    w / 8 * (cubic c0 c1 c2 c3 (a + (k : ℚ) * w)
        + 3 * cubic c0 c1 c2 c3 (a + ((k : ℚ) + 1 / 3) * w)
        + 3 * cubic c0 c1 c2 c3 (a + ((k : ℚ) + 2 / 3) * w)
        + cubic c0 c1 c2 c3 (a + ((k : ℚ) + 1) * w))
      = cubicPrimitive c0 c1 c2 c3 (a + ((k + 1 : ℕ) : ℚ) * w)
        - cubicPrimitive c0 c1 c2 c3 (a + (k : ℚ) * w) := by
  simp only [cubic, cubicPrimitive]
  push_cast
  ring

theorem simpson38_integral_cubic (c0 c1 c2 c3 a b : ℝ) :
    ∫ x in a..b, (c0 + c1 * x + c2 * x ^ 2 + c3 * x ^ 3)
      = (c0 * b + c1 * b ^ 2 / 2 + c2 * b ^ 3 / 3 + c3 * b ^ 4 / 4)
        - (c0 * a + c1 * a ^ 2 / 2 + c2 * a ^ 3 / 3 + c3 * a ^ 4 / 4) := by
  have h1 : IntervalIntegrable (fun x : ℝ => c0 + c1 * x + c2 * x ^ 2) MeasureTheory.volume a b :=
    Continuous.intervalIntegrable (by continuity) _ _
  have h2 : IntervalIntegrable (fun x : ℝ => c3 * x ^ 3) MeasureTheory.volume a b :=
    Continuous.intervalIntegrable (by continuity) _ _
  have h3 : IntervalIntegrable (fun x : ℝ => c0 + c1 * x) MeasureTheory.volume a b :=
    Continuous.intervalIntegrable (by continuity) _ _
  have h4 : IntervalIntegrable (fun x : ℝ => c2 * x ^ 2) MeasureTheory.volume a b :=
    Continuous.intervalIntegrable (by continuity) _ _
  have h5 : IntervalIntegrable (fun x : ℝ => c1 * x) MeasureTheory.volume a b :=
    Continuous.intervalIntegrable (by continuity) _ _
  have h6 : IntervalIntegrable (fun _ : ℝ => c0) MeasureTheory.volume a b :=
    Continuous.intervalIntegrable (by continuity) _ _
  have e1 : ∫ x in a..b, c1 * x = c1 * ((b ^ 2 - a ^ 2) / 2) := by
    rw [intervalIntegral.integral_const_mul, integral_id]
  rw [intervalIntegral.integral_add h1 h2, intervalIntegral.integral_add h3 h4,
    intervalIntegral.integral_add h6 h5, e1]
  simp only [intervalIntegral.integral_const_mul, integral_pow, intervalIntegral.integral_const,
    smul_eq_mul]
  ring

theorem simpson38_seq_cubic (c0 c1 c2 c3 a b : ℚ) (m fuel : ℕ) (hab : a < b) (hfuel : m ≤ fuel) :
    nonAdaptiveNonParallel fuel (fun x => fin (cubic c0 c1 c2 c3 x)) a b (m + 1)
      = some (fin (cubicPrimitive c0 c1 c2 c3 b - cubicPrimitive c0 c1 c2 c3 a)) := by
  rw [simpson38_seq_value _ a b m fuel hab hfuel]
  obtain ⟨_, hb⟩ := grid_facts a b m hab
  generalize (b - a) / ((m + 1 : ℕ) : ℚ) = w at hb ⊢
  simp only [panel, findVal_fin, fin_mul_fin, fin_add_fin, sum_fin, Finset.mul_sum]
  rw [Finset.sum_congr rfl (fun k _ => simpson38_cubic_panel c0 c1 c2 c3 a w k),
    Finset.sum_range_sub (fun k : ℕ => cubicPrimitive c0 c1 c2 c3 (a + (k : ℚ) * w))]
  have e1 : a + ((m + 1 : ℕ) : ℚ) * w = b := by rw [hb]; push_cast; ring
  have e0 : a + ((0 : ℕ) : ℚ) * w = a := by push_cast; ring
  simp only [e1, e0]

/-- C4: in exact arithmetic, for a polynomial `f` of degree at most 3, `a < b` and
`n ≥ 1` subdivisions, `Simpson38Rule::nonAdaptiveNonParallel` returns a finite value
equal to the integral of `f` over `[a, b]`. -/
theorem simpson38_nonAdaptiveNonParallel_cubic_exact (c0 c1 c2 c3 a b : ℚ) (n fuel : ℕ)
    (hab : a < b) (hn : 1 ≤ n) (hfuel : n ≤ fuel) :
    ∃ q : ℚ,
      nonAdaptiveNonParallel fuel (fun x => fin (cubic c0 c1 c2 c3 x)) a b n = some (fin q)
        ∧ (q : ℝ) = ∫ x in (a : ℝ)..(b : ℝ),
            ((c0 : ℝ) + (c1 : ℝ) * x + (c2 : ℝ) * x ^ 2 + (c3 : ℝ) * x ^ 3) := by
  obtain ⟨m, rfl⟩ : ∃ m, n = m + 1 := ⟨n - 1, by omega⟩
  refine ⟨_, simpson38_seq_cubic c0 c1 c2 c3 a b m fuel hab (by omega), ?_⟩
  rw [simpson38_integral_cubic]
  simp only [cubicPrimitive]
  push_cast
  ring

theorem simpson38_nonAdaptiveNonParallel_cubic_exact_witness :
    (0 : ℚ) < 1 ∧ 1 ≤ 2 ∧ 2 ≤ 2
      ∧ ∃ q : ℚ,
          nonAdaptiveNonParallel 2 (fun x => fin (cubic 1 0 0 1 x)) 0 1 2 = some (fin q)
            ∧ (q : ℝ) = ∫ x in ((0 : ℚ) : ℝ)..((1 : ℚ) : ℝ),
                (((1 : ℚ) : ℝ) + ((0 : ℚ) : ℝ) * x + ((0 : ℚ) : ℝ) * x ^ 2
                  + ((1 : ℚ) : ℝ) * x ^ 3) :=
  ⟨by norm_num, by norm_num, by norm_num,
    simpson38_nonAdaptiveNonParallel_cubic_exact 1 0 0 1 0 1 2 2 (by norm_num) (by norm_num)
      (le_refl 2)⟩

/-- C8: in exact arithmetic, with every worker's partial sum starting at `0` and the
partial sums added in any order `sched` of the workers `0 .. T-1`, for `a < b`,
`n ≥ 1` and `T ≥ 1` `Simpson38Rule::nonAdaptiveParallel` returns a value, the same one
as `Simpson38Rule::nonAdaptiveNonParallel`; worker `t` adds the terms of exactly the
panels `j ≤ n - 2` with `j % T = t`, and the three steps of one pass (`w/3`, `w/3`,
`(T - 2/3)*w`) take `x` from the first third-point of panel `k` to that of panel
`k + T`. -/
theorem simpson38_nonAdaptiveParallel_eq_nonAdaptiveNonParallel (f : ℚ → Val) (a b : ℚ)
    (n T fuel fuel' : ℕ) (sched : List ℕ) (hab : a < b) (hn : 1 ≤ n) (hT : 1 ≤ T)
    (hfuel : n ≤ fuel) (hfuel' : n ≤ fuel') (hs : sched.Perm (List.range T)) :
    (∃ v, nonAdaptiveParallelSched fuel f a b n T sched = some v
        ∧ nonAdaptiveNonParallel fuel' f a b n = some v)
      ∧ nonAdaptiveParallel fuel f a b n T = nonAdaptiveNonParallel fuel' f a b n
      ∧ (∀ t, t < T →
          nonAdaptiveThread fuel f a b ((b - a) / n) T t
            = some (∑ j in (Finset.range (n - 1)).filter (fun j => j % T = t),
                (fin 3 * findVal f (a + ((j : ℚ) + 1 / 3) * ((b - a) / n)) ((b - a) / n)
                  + fin 3 * findVal f (a + ((j : ℚ) + 2 / 3) * ((b - a) / n)) ((b - a) / n)
                  + fin 2 * findVal f (a + ((j : ℚ) + 1) * ((b - a) / n)) ((b - a) / n))))
      ∧ ∀ k : ℕ, a + ((k : ℚ) + 1 / 3) * ((b - a) / n) + (b - a) / n / 3 + (b - a) / n / 3
            + (b - a) / n * ((T : ℚ) - 2.0 / 3)
          = a + (((k + T : ℕ) : ℚ) + 1 / 3) * ((b - a) / n) := by
  obtain ⟨m, rfl⟩ : ∃ m, n = m + 1 := ⟨n - 1, by omega⟩
  refine ⟨⟨_, simpson38_par_value f a b m T fuel sched hab hT (by omega) hs,
    simpson38_seq_value f a b m fuel' hab (by omega)⟩, ?_, ?_, ?_⟩
  · rw [nonAdaptiveParallel, simpson38_par_value f a b m T fuel _ hab hT (by omega) (List.Perm.refl _),
      simpson38_seq_value f a b m fuel' hab (by omega)]
  · intro t ht
    obtain ⟨hwpos, hb⟩ := grid_facts a b m hab
    rw [simpson38_thread_value f a b _ m T fuel t hwpos hb hT (by omega), Nat.add_sub_cancel,
      stride_filter_eq _ T m t ht]
    rfl
  · intro k
    push_cast
    norm_num
    ring

theorem simpson38_nonAdaptiveParallel_eq_nonAdaptiveNonParallel_witness :
    (0 : ℚ) < 1 ∧ 1 ≤ 3 ∧ 1 ≤ 2 ∧ [1, 0].Perm (List.range 2)
      ∧ ∃ v, nonAdaptiveParallelSched 3 (fun x => fin (x * x)) 0 1 3 2 [1, 0] = some v
          ∧ nonAdaptiveNonParallel 3 (fun x => fin (x * x)) 0 1 3 = some v :=
  ⟨by norm_num, by norm_num, by norm_num, by decide,
    (simpson38_nonAdaptiveParallel_eq_nonAdaptiveNonParallel (fun x => fin (x * x)) 0 1 3 2 3 3 [1, 0]
      (by norm_num) (by norm_num) (by norm_num) (le_refl 3) (le_refl 3) (by decide)).1⟩

end Simpson38Rule

/-! Boole's rule on a fixed grid -/

namespace BoolesRule
open Val

theorem boole_sweep_spec (f : ℚ → Val) (a b w : ℚ) (m : ℕ) (hw : 0 < w)
    (hb : b = a + ((m : ℚ) + 1) * w) :
    ∀ (d k fuel : ℕ) (acc : Val), k + d = m → d ≤ fuel →
      sweep f b w fuel (a + ((k : ℚ) + 1 / 4) * w) acc
        = some (acc + ∑ j in Finset.Ico k m, panelInner f a w j) := by
  intro d
  induction d with
  | zero =>
    intro k fuel acc hk _
    have hkm : k = m := by omega
    subst hkm
    have hc : ¬ (a + ((k : ℚ) + 1 / 4) * w < b - w) := by
      rw [hb]; nlinarith
    cases fuel <;> rw [sweep, if_neg hc] <;> simp
  | succ d ih =>
    intro k fuel acc hk hfuel
    obtain ⟨fuel, rfl⟩ : ∃ g, fuel = g + 1 := ⟨fuel - 1, by omega⟩
    have hkm : (k : ℚ) + 1 ≤ m := by exact_mod_cast (by omega : k + 1 ≤ m)
    have hc : a + ((k : ℚ) + 1 / 4) * w < b - w := by
      rw [hb]; nlinarith
    have hx1 : a + ((k : ℚ) + 1 / 4) * w + w * 0.25 = a + ((k : ℚ) + 1 / 2) * w := by
      norm_num; ring
    have hx2 : a + ((k : ℚ) + 1 / 2) * w + w * 0.25 = a + ((k : ℚ) + 3 / 4) * w := by
      norm_num; ring
    have hx3 : a + ((k : ℚ) + 3 / 4) * w + w * 0.25 = a + ((k : ℚ) + 1) * w := by
      norm_num; ring
    have hx4 : a + ((k : ℚ) + 1) * w + w * 0.25 = a + (((k + 1 : ℕ) : ℚ) + 1 / 4) * w := by
      push_cast; norm_num; ring
    rw [sweep, if_pos hc]
    simp only [hx1, hx2, hx3, hx4]
    rw [ih (k + 1) fuel _ (by omega) (by omega),
      Finset.sum_eq_sum_Ico_succ_bot (by omega : k < m)]
    simp only [panelInner, add_assoc]

theorem boole_fourteen_mul_eq (v : Val) : fin 14 * v = fin 7 * v + fin 7 * v := by
  cases v with
  | fin x => rw [fin_mul_fin, fin_mul_fin, fin_add_fin]; congr 1; ring
  | nonfin => rfl

theorem boole_panel_sum (f : ℚ → Val) (a w : ℚ) (m : ℕ) :
    fin 7 * findVal f a w + ∑ j in Finset.Ico 0 m, panelInner f a w j
        + fin 32 * findVal f (a + ((m : ℚ) + 1 / 4) * w) w
        + fin 12 * findVal f (a + ((m : ℚ) + 1 / 2) * w) w
        + fin 32 * findVal f (a + ((m : ℚ) + 3 / 4) * w) w
        + fin 7 * findVal f (a + ((m : ℚ) + 1) * w) w
      = ∑ k in Finset.range (m + 1), panel f a w k := by
  induction m with
  | zero => simp [panel]
  | succ m ih =>
    rw [Finset.sum_range_succ, ← ih, Finset.sum_Ico_succ_top (Nat.zero_le m)]
    simp only [panel, panelInner, boole_fourteen_mul_eq]
    push_cast
    abel

theorem boole_seq_value (f : ℚ → Val) (a b : ℚ) (m fuel : ℕ) (hab : a < b) (hfuel : m ≤ fuel) :
    nonAdaptiveNonParallel fuel f a b (m + 1)
      = some (fin ((b - a) / ((m + 1 : ℕ) : ℚ) / 90) *
          ∑ k in Finset.range (m + 1), panel f a ((b - a) / ((m + 1 : ℕ) : ℚ)) k) := by
  obtain ⟨hwpos, hb⟩ := grid_facts a b m hab
  generalize hwd : (b - a) / ((m + 1 : ℕ) : ℚ) = w at hwpos hb ⊢
  have hx0 : a + w / 4 = a + (((0 : ℕ) : ℚ) + 1 / 4) * w := by push_cast; ring
  have hx1 : b - w * 0.75 = a + ((m : ℚ) + 1 / 4) * w := by rw [hb]; norm_num; ring
  have hx2 : b - w * 0.5 = a + ((m : ℚ) + 1 / 2) * w := by rw [hb]; norm_num; ring
  have hx3 : b - w * 0.25 = a + ((m : ℚ) + 3 / 4) * w := by rw [hb]; norm_num; ring
  unfold nonAdaptiveNonParallel
  simp only [hwd]
  rw [hx0, boole_sweep_spec f a b w m hwpos hb m 0 fuel _ (by omega) hfuel, hx1, hx2, hx3]
  simp only [zero_add]
  have hp := boole_panel_sum f a w m
  rw [← hb] at hp
  rw [mul_fin_div_fin _ _ _ (by norm_num), hp]

/-- C3: in exact arithmetic, with `a < b` and `n ≥ 1` subdivisions (and fuel for the
loop passes), `BoolesRule::nonAdaptiveNonParallel` returns the composite Boole sum
`(w/90) * Σ_{k<n} [7*s(x_k) + 32*s(x_k + w/4) + 12*s(x_k + w/2) + 32*s(x_k + 3w/4)
+ 7*s(x_k + w)]` with `w = (b-a)/n`, `x_k = a + k*w` and `s(x) = findVal(f, x, w)`. -/
theorem boole_nonAdaptiveNonParallel_eq_composite (f : ℚ → Val) (a b : ℚ) (n fuel : ℕ)
    (hab : a < b) (hn : 1 ≤ n) (hfuel : n ≤ fuel) :
    nonAdaptiveNonParallel fuel f a b n
      = some (fin ((b - a) / n / 90) *
          ∑ k in Finset.range n,
            (fin 7 * findVal f (a + (k : ℚ) * ((b - a) / n)) ((b - a) / n)
              + fin 32 * findVal f (a + (k : ℚ) * ((b - a) / n) + (b - a) / n / 4) ((b - a) / n)
              + fin 12 * findVal f (a + (k : ℚ) * ((b - a) / n) + (b - a) / n / 2) ((b - a) / n)
              + fin 32 * findVal f (a + (k : ℚ) * ((b - a) / n) + 3 * ((b - a) / n) / 4)
                  ((b - a) / n)
              + fin 7 * findVal f (a + (k : ℚ) * ((b - a) / n) + (b - a) / n) ((b - a) / n))) := by
  obtain ⟨m, rfl⟩ : ∃ m, n = m + 1 := ⟨n - 1, by omega⟩
  rw [boole_seq_value f a b m fuel hab (by omega)]
  generalize (b - a) / ((m + 1 : ℕ) : ℚ) = w
  have e1 : ∀ k : ℕ, a + (k : ℚ) * w + w / 4 = a + ((k : ℚ) + 1 / 4) * w := fun k => by ring
  have e2 : ∀ k : ℕ, a + (k : ℚ) * w + w / 2 = a + ((k : ℚ) + 1 / 2) * w := fun k => by ring
  have e3 : ∀ k : ℕ, a + (k : ℚ) * w + 3 * w / 4 = a + ((k : ℚ) + 3 / 4) * w := fun k => by ring
  have e4 : ∀ k : ℕ, a + (k : ℚ) * w + w = a + ((k : ℚ) + 1) * w := fun k => by ring
  simp only [e1, e2, e3, e4]
  rfl

theorem boole_nonAdaptiveNonParallel_eq_composite_witness :
    (0 : ℚ) < 1 ∧ 1 ≤ 1 ∧ 1 ≤ 1
      ∧ nonAdaptiveNonParallel 1 (fun _ => fin 1) 0 1 1 = some (fin 1) := by
  refine ⟨by norm_num, by norm_num, by norm_num, ?_⟩
  rw [boole_nonAdaptiveNonParallel_eq_composite (fun _ => fin 1) 0 1 1 1
    (by norm_num) (by norm_num) (by norm_num)]
  simp only [findVal_fin, Finset.sum_range_succ, Finset.sum_range_zero,
    fin_mul_fin, fin_add_fin, zero_def]
  norm_num

end BoolesRule

/-! The left end point in the trapezoid sweep and in the Boole workers -/

namespace TrapezoidRule
open Val

/-- C2: on `f = 1`, `[0, 1]`, one subdivision, `TrapezoidRule::nonAdaptiveNonParallel`
returns `3/2`: the left end point enters with full weight, where the composite
trapezoid sum `(w/2) * Σ_{k<n} [s(a+k*w) + s(a+(k+1)*w)]` is `1`. -/
theorem trapezoid_nonAdaptiveNonParallel_const_one :
    nonAdaptiveNonParallel 1 (fun _ => fin 1) 0 1 1 = some (fin (3 / 2))
      ∧ fin ((1 - 0) / (1 : ℕ) / 2) *
          ∑ k in Finset.range 1,
            (findVal (fun _ => fin 1) (0 + (k : ℚ) * ((1 - 0) / (1 : ℕ))) ((1 - 0) / (1 : ℕ))
              + findVal (fun _ => fin 1) (0 + ((k : ℚ) + 1) * ((1 - 0) / (1 : ℕ)))
                  ((1 - 0) / (1 : ℕ)))
        = fin 1 := by
  constructor
  · norm_num [nonAdaptiveNonParallel, sweep, findVal_fin, zero_def, fin_add_fin, fin_mul_fin]
  · norm_num [findVal_fin, fin_add_fin, fin_mul_fin]

/-- C6: on `f = 1`, `[0, 1]`, one subdivision and one thread,
`TrapezoidRule::nonAdaptiveParallel` returns `1` and
`TrapezoidRule::nonAdaptiveNonParallel` returns `3/2`. -/
theorem trapezoid_nonAdaptiveParallel_ne_nonAdaptiveNonParallel :
    nonAdaptiveParallel 1 (fun _ => fin 1) 0 1 1 1 = some (fin 1)
      ∧ nonAdaptiveNonParallel 1 (fun _ => fin 1) 0 1 1 = some (fin (3 / 2))
      ∧ nonAdaptiveParallel 1 (fun _ => fin 1) 0 1 1 1
          ≠ nonAdaptiveNonParallel 1 (fun _ => fin 1) 0 1 1 := by
  have hp : nonAdaptiveParallel 1 (fun _ => fin 1) 0 1 1 1 = some (fin 1) := by
    norm_num [nonAdaptiveParallel, nonAdaptiveParallelSched, nonAdaptiveThread, threadLoop,
      joinAll, List.range_succ, findVal_fin, zero_def, fin_add_fin, fin_mul_fin]
  have hs : nonAdaptiveNonParallel 1 (fun _ => fin 1) 0 1 1 = some (fin (3 / 2)) := by
    norm_num [nonAdaptiveNonParallel, sweep, findVal_fin, zero_def, fin_add_fin, fin_mul_fin]
  refine ⟨hp, hs, ?_⟩
  rw [hp, hs]
  norm_num

end TrapezoidRule

namespace BoolesRule
open Val

/-- C7: on `f = 1`, `[0, 1]`, one subdivision and one thread,
`BoolesRule::nonAdaptiveParallel` returns `14/15` (the left end point enters with
weight 1) and `BoolesRule::nonAdaptiveNonParallel` returns `1` (weight 7). -/
theorem boole_nonAdaptiveParallel_ne_nonAdaptiveNonParallel :
    nonAdaptiveParallel 1 (fun _ => fin 1) 0 1 1 1 = some (fin (14 / 15))
      ∧ nonAdaptiveNonParallel 1 (fun _ => fin 1) 0 1 1 = some (fin 1)
      ∧ nonAdaptiveParallel 1 (fun _ => fin 1) 0 1 1 1
          ≠ nonAdaptiveNonParallel 1 (fun _ => fin 1) 0 1 1 := by
  have hp : nonAdaptiveParallel 1 (fun _ => fin 1) 0 1 1 1 = some (fin (14 / 15)) := by
    norm_num [nonAdaptiveParallel, nonAdaptiveParallelSched, nonAdaptiveThread, threadLoop,
      joinAll, List.range_succ, findVal_fin, zero_def, fin_add_fin, fin_mul_fin, fin_div_fin]
  have hs : nonAdaptiveNonParallel 1 (fun _ => fin 1) 0 1 1 = some (fin 1) := by
    norm_num [nonAdaptiveNonParallel, sweep, findVal_fin, zero_def, fin_add_fin, fin_mul_fin,
      fin_div_fin]
  refine ⟨hp, hs, ?_⟩
  rw [hp, hs]
  norm_num

end BoolesRule

/-! The adaptive loop -/

namespace Adaptive
open Val

theorem ltBound_fabs_iff (L R P : Val) (c : ℚ) :
    (fabs (L + R - P)).ltBound c = true
      ↔ ∃ l r p : ℚ, L = fin l ∧ R = fin r ∧ P = fin p ∧ |l + r - p| < c := by
  cases L with
  | nonfin =>
    rw [nonfin_add]
    constructor
    · intro h; cases P <;> exact absurd h (by simp [HSub.hSub, Sub.sub, Val.sub, fabs, ltBound])
    · rintro ⟨l, r, p, h, _⟩; exact absurd h (by simp)
  | fin l =>
    cases R with
    | nonfin =>
      rw [add_nonfin]
      constructor
      · intro h; cases P <;> exact absurd h (by simp [HSub.hSub, Sub.sub, Val.sub, fabs, ltBound])
      · rintro ⟨l, r, p, _, h, _⟩; exact absurd h (by simp)
    | fin r =>
      cases P with
      | nonfin =>
        constructor
        · intro h; exact absurd h (by simp [HSub.hSub, Sub.sub, Val.sub, fabs, ltBound, fin_add_fin])
        · rintro ⟨l, r, p, _, _, h, _⟩; exact absurd h (by simp)
      | fin p =>
        rw [fin_add_fin, fin_sub_fin]
        simp only [fabs, ltBound, decide_eq_true_eq, fin.injEq]
        constructor
        · intro h; exact ⟨l, r, p, rfl, rfl, rfl, h⟩
        · rintro ⟨l', r', p', rfl, rfl, rfl, h⟩; exact h

theorem pass_of_accepted {I : Type} (R : Rule I) (f : ℚ → Val) (error : ℚ) (ms : ℕ) (mt : ℤ)
    (t : ℚ) (node : leftRightInterval I) (rest : List (leftRightInterval I)) (result : Val)
    (subs : ℕ) (se te : Bool)
    (h : accepted R.errorOrder (R.b node.right - R.a node.left) error
      (R.getLeftRight node.left f).integrated (R.getLeftRight node.right f).integrated
      node.integrated (se || decide ((node :: rest).length > ms))
      (te || decide (t > (mt : ℚ)))) :
    pass R f error ms mt t ⟨node :: rest, result, subs, se, te⟩
      = ⟨rest, result + estimate R f node, subs, se || decide ((node :: rest).length > ms),
          te || decide (t > (mt : ℚ))⟩ := by
  unfold accepted at h
  rw [← ltBound_fabs_iff] at h
  simp only [pass, estimate]
  rw [if_pos]
  simpa only [Bool.or_eq_true, or_assoc] using h

theorem pass_of_not_accepted {I : Type} (R : Rule I) (f : ℚ → Val) (error : ℚ) (ms : ℕ)
    (mt : ℤ) (t : ℚ) (node : leftRightInterval I) (rest : List (leftRightInterval I))
    (result : Val) (subs : ℕ) (se te : Bool)
    (h : ¬ accepted R.errorOrder (R.b node.right - R.a node.left) error
      (R.getLeftRight node.left f).integrated (R.getLeftRight node.right f).integrated
      node.integrated (se || decide ((node :: rest).length > ms))
      (te || decide (t > (mt : ℚ)))) :
    pass R f error ms mt t ⟨node :: rest, result, subs, se, te⟩
      = ⟨rest ++ [R.getLeftRight node.left f, R.getLeftRight node.right f], result, subs + 1,
          se || decide ((node :: rest).length > ms), te || decide (t > (mt : ℚ))⟩ := by
  unfold accepted at h
  rw [← ltBound_fabs_iff] at h
  simp only [pass]
  rw [if_neg]
  simpa only [Bool.or_eq_true, or_assoc] using h

theorem pass_intervals_iff {I : Type} (R : Rule I) (f : ℚ → Val) (error : ℚ) (ms : ℕ)
    (mt : ℤ) (t : ℚ) (node : leftRightInterval I) (rest : List (leftRightInterval I))
    (result : Val) (subs : ℕ) (se te : Bool) :
    (pass R f error ms mt t ⟨node :: rest, result, subs, se, te⟩).intervals = rest
      ↔ accepted R.errorOrder (R.b node.right - R.a node.left) error
          (R.getLeftRight node.left f).integrated (R.getLeftRight node.right f).integrated
          node.integrated (se || decide ((node :: rest).length > ms))
          (te || decide (t > (mt : ℚ))) := by
  constructor
  · intro h
    by_contra hn
    rw [pass_of_not_accepted R f error ms mt t node rest result subs se te hn] at h
    have hl := congrArg List.length h
    simp at hl
  · intro h
    rw [pass_of_accepted R f error ms mt t node rest result subs se te h]

/-- A flag is set, or is being set in pass `i`: the queue is longer than
`max_subdivisions`, or the clock reading of pass `i` exceeds `max_time`. -/
theorem pass_of_flagged {I : Type} (R : Rule I) (f : ℚ → Val) (error : ℚ) (ms : ℕ) (mt : ℤ)
    (t : ℚ) (node : leftRightInterval I) (rest : List (leftRightInterval I)) (s : State I)
    (hq : s.intervals = node :: rest)
    (hf : s.subdivisions_exceeded = true ∨ s.time_exceeded = true
      ∨ s.intervals.length > ms ∨ t > (mt : ℚ)) :
    (pass R f error ms mt t s).intervals = rest
      ∧ (pass R f error ms mt t s).result = s.result + estimate R f node
      ∧ (pass R f error ms mt t s).subdivisions = s.subdivisions
      ∧ ((pass R f error ms mt t s).subdivisions_exceeded = true
          ∨ (pass R f error ms mt t s).time_exceeded = true) := by
  obtain ⟨q, result, subs, se, te⟩ := s
  simp only at hq hf
  subst hq
  have hflag : (se || decide ((node :: rest).length > ms)) = true
      ∨ (te || decide (t > (mt : ℚ))) = true := by
    rcases hf with h | h | h | h
    · left; simp [h]
    · right; simp [h]
    · left; simp only [Bool.or_eq_true, decide_eq_true_eq]; exact Or.inr h
    · right; simp only [Bool.or_eq_true, decide_eq_true_eq]; exact Or.inr h
  rw [pass_of_accepted R f error ms mt t node rest result subs se te (Or.inr hflag)]
  exact ⟨rfl, rfl, rfl, hflag⟩

theorem pass_flags_mono {I : Type} (R : Rule I) (f : ℚ → Val) (error : ℚ) (ms : ℕ) (mt : ℤ)
    (t : ℚ) (s : State I) :
    (s.subdivisions_exceeded = true
        → (pass R f error ms mt t s).subdivisions_exceeded = true)
      ∧ (s.time_exceeded = true → (pass R f error ms mt t s).time_exceeded = true) := by
  obtain ⟨q, result, subs, se, te⟩ := s
  cases q with
  | nil => exact ⟨fun h => h, fun h => h⟩
  | cons node rest =>
    by_cases hacc : accepted R.errorOrder (R.b node.right - R.a node.left) error
        (R.getLeftRight node.left f).integrated (R.getLeftRight node.right f).integrated
        node.integrated (se || decide ((node :: rest).length > ms))
        (te || decide (t > (mt : ℚ)))
    · rw [pass_of_accepted R f error ms mt t node rest result subs se te hacc]
      constructor <;> intro h <;> simp only at h ⊢ <;> simp [h]
    · rw [pass_of_not_accepted R f error ms mt t node rest result subs se te hacc]
      constructor <;> intro h <;> simp only at h ⊢ <;> simp [h]

theorem passes_of_flagged {I : Type} (R : Rule I) (f : ℚ → Val) (error : ℚ) (ms : ℕ)
    (mt : ℤ) (elapsed : ℕ → ℚ) :
    ∀ (j i : ℕ) (s : State I),
      (s.subdivisions_exceeded = true ∨ s.time_exceeded = true
        ∨ s.intervals.length > ms ∨ elapsed i > (mt : ℚ)) →
      j ≤ s.intervals.length →
      (passes R f error ms mt elapsed j i s).intervals = s.intervals.drop j
        ∧ (passes R f error ms mt elapsed j i s).subdivisions = s.subdivisions
        ∧ (passes R f error ms mt elapsed j i s).result
            = s.result + ((s.intervals.take j).map (estimate R f)).sum := by
  intro j
  induction j with
  | zero =>
    intro i s _ _
    simp [passes]
  | succ j ih =>
    intro i s hf hj
    cases hq : s.intervals with
    | nil => rw [hq] at hj; simp at hj
    | cons node rest =>
      obtain ⟨h1, h2, h3, h4⟩ := pass_of_flagged R f error ms mt (elapsed i) node rest s hq hf
      have hf' : (pass R f error ms mt (elapsed i) s).subdivisions_exceeded = true
          ∨ (pass R f error ms mt (elapsed i) s).time_exceeded = true
          ∨ (pass R f error ms mt (elapsed i) s).intervals.length > ms
          ∨ elapsed (i + 1) > (mt : ℚ) := by
        rcases h4 with h | h
        · exact Or.inl h
        · exact Or.inr (Or.inl h)
      have hj' : j ≤ (pass R f error ms mt (elapsed i) s).intervals.length := by
        rw [h1]; rw [hq] at hj; simpa using hj
      obtain ⟨g1, g2, g3⟩ := ih (i + 1) _ hf' hj'
      rw [passes]
      refine ⟨?_, ?_, ?_⟩
      · rw [g1, h1, List.drop_succ_cons]
      · rw [g2, h3]
      · rw [g3, h1, h2, List.take_succ_cons, List.map_cons, List.sum_cons, add_assoc]

theorem loop_of_flagged {I : Type} (R : Rule I) (f : ℚ → Val) (error : ℚ) (ms : ℕ)
    (mt : ℤ) (elapsed : ℕ → ℚ) :
    ∀ (fuel i : ℕ) (s : State I),
      (s.subdivisions_exceeded = true ∨ s.time_exceeded = true
        ∨ s.intervals.length > ms ∨ elapsed i > (mt : ℚ)) →
      loop R f error ms mt elapsed fuel i s
        = if s.intervals.length ≤ fuel
          then some (passes R f error ms mt elapsed s.intervals.length i s) else none := by
  intro fuel
  induction fuel with
  | zero =>
    intro i s _
    cases hq : s.intervals with
    | nil => simp [loop, hq, passes]
    | cons node rest => simp [loop, hq]
  | succ fuel ih =>
    intro i s hf
    cases hq : s.intervals with
    | nil => simp [loop, hq, passes]
    | cons node rest =>
      obtain ⟨h1, _, _, h4⟩ := pass_of_flagged R f error ms mt (elapsed i) node rest s hq hf
      have hf' : (pass R f error ms mt (elapsed i) s).subdivisions_exceeded = true
          ∨ (pass R f error ms mt (elapsed i) s).time_exceeded = true
          ∨ (pass R f error ms mt (elapsed i) s).intervals.length > ms
          ∨ elapsed (i + 1) > (mt : ℚ) := by
        rcases h4 with h | h
        · exact Or.inl h
        · exact Or.inr (Or.inl h)
      rw [loop, hq, ih (i + 1) _ hf', h1]
      simp only [List.isEmpty_cons, Bool.false_eq_true, if_false, List.length_cons,
        Nat.add_le_add_iff_right, passes]

theorem loop_terminates {I : Type} (R : Rule I) (f : ℚ → Val) (error : ℚ) (ms : ℕ)
    (mt : ℤ) (elapsed : ℕ → ℚ) :
    ∀ (d i : ℕ) (s : State I), elapsed (i + d) > (mt : ℚ) →
      ∃ fuel s', loop R f error ms mt elapsed fuel i s = some s' := by
  intro d
  induction d with
  | zero =>
    intro i s h
    refine ⟨s.intervals.length, passes R f error ms mt elapsed s.intervals.length i s, ?_⟩
    rw [loop_of_flagged R f error ms mt elapsed _ i s (Or.inr (Or.inr (Or.inr h))),
      if_pos (le_refl _)]
  | succ d ih =>
    intro i s h
    cases hq : s.intervals with
    | nil => exact ⟨0, s, by simp [loop, hq]⟩
    | cons node rest =>
      obtain ⟨fuel, s', hs'⟩ := ih (i + 1) (pass R f error ms mt (elapsed i) s)
        (by rw [Nat.add_assoc, Nat.add_comm 1 d]; exact h)
      exact ⟨fuel + 1, s', by rw [loop, hq]; simpa using hs'⟩

theorem run_terminates {I : Type} (R : Rule I) (f : ℚ → Val) (whole : I) (error : ℚ)
    (ms : ℕ) (mt : ℤ) (elapsed : ℕ → ℚ) (N : ℕ) (h : elapsed N > (mt : ℚ)) :
    ∃ fuel out, run R fuel f whole error ms mt elapsed = some out := by
  obtain ⟨fuel, s', hs'⟩ := loop_terminates R f error ms mt elapsed N 0
    ⟨[R.getLeftRight whole f], 0, 1, false, false⟩ (by rw [Nat.zero_add]; exact h)
  exact ⟨fuel, (s'.result, s'.subdivisions), by simp only [run, hs']⟩

end Adaptive

/-! The acceptance test and the two flags of `adaptiveNonParallel` -/

/-- C9: each rule's `adaptiveNonParallel` runs the common loop with its own constant
`K` (3 for Trapezoid, 15 for Simpson, 63 for Simpson 3/8, 255 for Boole, that is
`4^p - 1` for `p = 1, 2, 3, 4`). In a pass that pops `node`, with `w = right.b - left.a`,
`L` and `R` the one-panel estimates of the two halves and `P = node.integrated`:
if `|L + R - P| < K * w * error` or one of the two flags is set, `L + R` is added to
`result`, nothing is pushed and the counter is unchanged; otherwise both children are
pushed, `result` is unchanged and the counter grows by exactly 1; and the queue after
the pass is the rest of the queue exactly when the node was accepted. -/
theorem adaptiveNonParallel_acceptance :
    (TrapezoidRule.rule.errorOrder = 3 ∧ (3 : ℚ) = 4 ^ 1 - 1)
      ∧ (SimpsonRule.rule.errorOrder = 15 ∧ (15 : ℚ) = 4 ^ 2 - 1)
      ∧ (Simpson38Rule.rule.errorOrder = 63 ∧ (63 : ℚ) = 4 ^ 3 - 1)
      ∧ (BoolesRule.rule.errorOrder = 255 ∧ (255 : ℚ) = 4 ^ 4 - 1)
      ∧ ∀ (I : Type) (R : Adaptive.Rule I) (f : ℚ → Val) (error : ℚ) (max_subdivisions : ℕ)
          (max_time : ℤ) (t : ℚ) (node : Adaptive.leftRightInterval I)
          (rest : List (Adaptive.leftRightInterval I)) (result : Val) (subdivisions : ℕ)
          (se te : Bool),
          (Adaptive.accepted R.errorOrder (R.b node.right - R.a node.left) error
              (R.getLeftRight node.left f).integrated (R.getLeftRight node.right f).integrated
              node.integrated (se || decide ((node :: rest).length > max_subdivisions))
              (te || decide (t > (max_time : ℚ))) →
            Adaptive.pass R f error max_subdivisions max_time t
                ⟨node :: rest, result, subdivisions, se, te⟩
              = ⟨rest,
                  result + ((R.getLeftRight node.left f).integrated
                    + (R.getLeftRight node.right f).integrated),
                  subdivisions, se || decide ((node :: rest).length > max_subdivisions),
                  te || decide (t > (max_time : ℚ))⟩)
          ∧ (¬ Adaptive.accepted R.errorOrder (R.b node.right - R.a node.left) error
              (R.getLeftRight node.left f).integrated (R.getLeftRight node.right f).integrated
              node.integrated (se || decide ((node :: rest).length > max_subdivisions))
              (te || decide (t > (max_time : ℚ))) →
            Adaptive.pass R f error max_subdivisions max_time t
                ⟨node :: rest, result, subdivisions, se, te⟩
              = ⟨rest ++ [R.getLeftRight node.left f, R.getLeftRight node.right f], result,
                  subdivisions + 1, se || decide ((node :: rest).length > max_subdivisions),
                  te || decide (t > (max_time : ℚ))⟩)
          ∧ ((Adaptive.pass R f error max_subdivisions max_time t
                ⟨node :: rest, result, subdivisions, se, te⟩).intervals = rest
              ↔ Adaptive.accepted R.errorOrder (R.b node.right - R.a node.left) error
                  (R.getLeftRight node.left f).integrated
                  (R.getLeftRight node.right f).integrated
                  node.integrated (se || decide ((node :: rest).length > max_subdivisions))
                  (te || decide (t > (max_time : ℚ)))) := by
  refine ⟨⟨rfl, by norm_num⟩, ⟨rfl, by norm_num⟩, ⟨rfl, by norm_num⟩, ⟨rfl, by norm_num⟩, ?_⟩
  intro I R f error ms mt t node rest result subs se te
  exact ⟨Adaptive.pass_of_accepted R f error ms mt t node rest result subs se te,
    Adaptive.pass_of_not_accepted R f error ms mt t node rest result subs se te,
    Adaptive.pass_intervals_iff R f error ms mt t node rest result subs se te⟩

theorem adaptiveNonParallel_acceptance_witness :
    Adaptive.accepted TrapezoidRule.rule.errorOrder (1 - 0) 1
        (TrapezoidRule.rule.getLeftRight ⟨0, 1 / 2, Val.fin 1, Val.fin 1⟩
          (fun _ => Val.fin 1)).integrated
        (TrapezoidRule.rule.getLeftRight ⟨1 / 2, 1, Val.fin 1, Val.fin 1⟩
          (fun _ => Val.fin 1)).integrated
        (Val.fin 1) (false || decide (([(⟨⟨0, 1 / 2, Val.fin 1, Val.fin 1⟩,
          ⟨1 / 2, 1, Val.fin 1, Val.fin 1⟩, Val.fin 1⟩ :
            TrapezoidRule.leftRightInterval)]).length > 1))
        (true || decide ((0 : ℚ) > ((0 : ℤ) : ℚ)))
      ∧ (Adaptive.pass TrapezoidRule.rule (fun _ => Val.fin 1) 1 1 0 0
          ⟨[⟨⟨0, 1 / 2, Val.fin 1, Val.fin 1⟩, ⟨1 / 2, 1, Val.fin 1, Val.fin 1⟩, Val.fin 1⟩],
            Val.fin 0, 1, false, true⟩).intervals = [] :=
  ⟨Or.inr (Or.inr rfl),
    ((adaptiveNonParallel_acceptance.2.2.2.2 TrapezoidRule.interval TrapezoidRule.rule
      (fun _ => Val.fin 1) 1 1 0 0
      ⟨⟨0, 1 / 2, Val.fin 1, Val.fin 1⟩, ⟨1 / 2, 1, Val.fin 1, Val.fin 1⟩, Val.fin 1⟩ []
      (Val.fin 0) 1 false true).2.2).mpr (Or.inr (Or.inr rfl))⟩

/-- C10: in each rule's `adaptiveNonParallel` a flag that is set stays set; from a
pass in which a flag is set (already, or because the queue is longer than
`max_subdivisions`, or because the clock reading exceeds `max_time`) every popped node
is accepted and nothing is pushed, so that with `q` nodes queued at the start of that
pass the loop ends after exactly `q` further passes; hence for a clock whose reading
exceeds `max_time` in some pass, `adaptiveNonParallel` of every rule returns. -/
theorem adaptiveNonParallel_flags_terminate :
    (∀ (I : Type) (R : Adaptive.Rule I) (f : ℚ → Val) (error : ℚ) (max_subdivisions : ℕ)
        (max_time : ℤ) (t : ℚ) (s : Adaptive.State I),
        (s.subdivisions_exceeded = true →
          (Adaptive.pass R f error max_subdivisions max_time t s).subdivisions_exceeded = true)
        ∧ (s.time_exceeded = true →
          (Adaptive.pass R f error max_subdivisions max_time t s).time_exceeded = true))
      ∧ (∀ (I : Type) (R : Adaptive.Rule I) (f : ℚ → Val) (error : ℚ) (max_subdivisions : ℕ)
          (max_time : ℤ) (elapsed : ℕ → ℚ) (i : ℕ) (s : Adaptive.State I),
          (s.subdivisions_exceeded = true ∨ s.time_exceeded = true
            ∨ s.intervals.length > max_subdivisions ∨ elapsed i > (max_time : ℚ)) →
          (∀ j, j ≤ s.intervals.length →
            (Adaptive.passes R f error max_subdivisions max_time elapsed j i s).intervals
                = s.intervals.drop j
              ∧ (Adaptive.passes R f error max_subdivisions max_time elapsed j i s).subdivisions
                = s.subdivisions
              ∧ (Adaptive.passes R f error max_subdivisions max_time elapsed j i s).result
                = s.result + ((s.intervals.take j).map (Adaptive.estimate R f)).sum)
          ∧ ∀ fuel, Adaptive.loop R f error max_subdivisions max_time elapsed fuel i s
              = if s.intervals.length ≤ fuel
                then some (Adaptive.passes R f error max_subdivisions max_time elapsed
                  s.intervals.length i s)
                else none)
      ∧ ∀ (f : ℚ → Val) (a b error : ℚ) (max_subdivisions : ℕ) (max_time : ℤ)
          (elapsed : ℕ → ℚ) (N : ℕ), elapsed N > (max_time : ℚ) →
          (∃ fuel out, TrapezoidRule.adaptiveNonParallel fuel f a b error max_subdivisions
              max_time elapsed = some out)
          ∧ (∃ fuel out, SimpsonRule.adaptiveNonParallel fuel f a b error max_subdivisions
              max_time elapsed = some out)
          ∧ (∃ fuel out, Simpson38Rule.adaptiveNonParallel fuel f a b error max_subdivisions
              max_time elapsed = some out)
          ∧ (∃ fuel out, BoolesRule.adaptiveNonParallel fuel f a b error max_subdivisions
              max_time elapsed = some out) := by
  refine ⟨fun I R f error ms mt t s => Adaptive.pass_flags_mono R f error ms mt t s, ?_, ?_⟩
  · intro I R f error ms mt elapsed i s hf
    exact ⟨fun j hj => Adaptive.passes_of_flagged R f error ms mt elapsed j i s hf hj,
      fun fuel => Adaptive.loop_of_flagged R f error ms mt elapsed fuel i s hf⟩
  · intro f a b error ms mt elapsed N h
    exact ⟨Adaptive.run_terminates _ f _ error ms mt elapsed N h,
      Adaptive.run_terminates _ f _ error ms mt elapsed N h,
      Adaptive.run_terminates _ f _ error ms mt elapsed N h,
      Adaptive.run_terminates _ f _ error ms mt elapsed N h⟩

theorem adaptiveNonParallel_flags_terminate_witness :
    (fun _ : ℕ => (1 : ℚ)) 0 > ((0 : ℤ) : ℚ)
      ∧ ∃ fuel out, SimpsonRule.adaptiveNonParallel fuel (fun x => Val.fin (x ^ 4)) 0 1
          (1 / 1000) 100 0 (fun _ => 1) = some out :=
  ⟨by norm_num,
    (adaptiveNonParallel_flags_terminate.2.2 (fun x => Val.fin (x ^ 4)) 0 1 (1 / 1000) 100 0
      (fun _ => 1) 0 (by norm_num)).2.1⟩

/-! The sampler `findVal` -/

theorem findVal_of_fin (f : ℚ → Val) (x width v : ℚ) (h : f x = Val.fin v) :
    findVal f x width = Val.fin v := by
  simp [findVal, h, Val.isFinite]

theorem findVal_nonfin_both (f : ℚ → Val) (x width pa pb : ℚ) (hx : f x = Val.nonfin)
    (ha : f (x - 0.001 * width) = Val.fin pa) (hb : f (x + 0.001 * width) = Val.fin pb) :
    findVal f x width = (Val.fin pa + Val.fin pb) / Val.fin 2 := by
  simp [findVal, hx, ha, hb, Val.isFinite_fin, Val.isFinite_nonfin]

theorem findVal_nonfin_left (f : ℚ → Val) (x width : ℚ) (hx : f x = Val.nonfin)
    (ha : f (x - 0.001 * width) = Val.nonfin) :
    findVal f x width = Val.fin 2 * f (x + 0.0005 * width) - f (x + 0.001 * width) := by
  simp [findVal, hx, ha, Val.isFinite_nonfin]

theorem findVal_nonfin_right (f : ℚ → Val) (x width pa : ℚ) (hx : f x = Val.nonfin)
    (ha : f (x - 0.001 * width) = Val.fin pa) (hb : f (x + 0.001 * width) = Val.nonfin) :
    findVal f x width = Val.fin 2 * f (x - 0.0005 * width) - Val.fin pa := by
  simp [findVal, hx, ha, hb, Val.isFinite_fin, Val.isFinite_nonfin]

/-- C16: when `f x` is finite, `findVal f x width` is `f x` itself; the result is the
same for every function `g` that agrees with `f` at `x` alone and for every width, so
no other point of `f` is consulted and repeated calls return the same value. -/
theorem findVal_finite (f : ℚ → Val) (x width : ℚ) (h : (f x).isFinite = true) :
    findVal f x width = f x
      ∧ ∀ (g : ℚ → Val) (width' : ℚ), g x = f x → findVal g x width' = findVal f x width := by
  have key : ∀ (g : ℚ → Val) (w : ℚ), g x = f x → findVal g x w = f x := by
    intro g w hg
    simp only [findVal, hg, h, if_true]
  refine ⟨key f width rfl, fun g w hg => ?_⟩
  rw [key g w hg, key f width rfl]

theorem findVal_finite_witness :
    ((fun t : ℚ => Val.fin (t * t)) 3).isFinite = true
      ∧ findVal (fun t : ℚ => Val.fin (t * t)) 3 1 = (fun t : ℚ => Val.fin (t * t)) 3 :=
  ⟨rfl, (findVal_finite (fun t : ℚ => Val.fin (t * t)) 3 1 rfl).1⟩

/-- C17, as the claim states it, fails: for `f` non-finite everywhere `findVal`
returns a non-finite value. -/
theorem findVal_nonfinite_everywhere :
    ((fun _ : ℚ => Val.nonfin) 0).isFinite = false
      ∧ (findVal (fun _ : ℚ => Val.nonfin) 0 1).isFinite = false := by
  constructor
  · rfl
  · rw [findVal_nonfin_left _ 0 1 rfl rfl]
    rfl

/-- C17, amended: in exact arithmetic (the samples combined without rounding or
overflow), when `f x` is not finite, `findVal f x width` is finite provided the
samples it combines are: both neighbours `f (x ∓ 0.001*width)`; or, the left neighbour
being non-finite, `f (x + 0.0005*width)` and the right neighbour; or, the right
neighbour alone being non-finite, `f (x - 0.0005*width)` and the left neighbour. -/
theorem findVal_finite_of_samples (f : ℚ → Val) (x width : ℚ)
    (hx : (f x).isFinite = false)
    (h : ((f (x - 0.001 * width)).isFinite = true ∧ (f (x + 0.001 * width)).isFinite = true)
      ∨ ((f (x - 0.001 * width)).isFinite = false ∧ (f (x + 0.0005 * width)).isFinite = true
          ∧ (f (x + 0.001 * width)).isFinite = true)
      ∨ ((f (x - 0.001 * width)).isFinite = true ∧ (f (x + 0.001 * width)).isFinite = false
          ∧ (f (x - 0.0005 * width)).isFinite = true)) :
    (findVal f x width).isFinite = true := by
  rw [Val.isFinite_eq_false_iff] at hx
  rcases h with ⟨ha, hb⟩ | ⟨ha, hm, hb⟩ | ⟨ha, hb, hm⟩
  · obtain ⟨pa, ha⟩ := (Val.isFinite_eq_true_iff _).mp ha
    obtain ⟨pb, hb⟩ := (Val.isFinite_eq_true_iff _).mp hb
    rw [findVal_nonfin_both f x width pa pb hx ha hb, Val.fin_add_fin,
      Val.fin_div_fin _ _ (by norm_num)]
    rfl
  · rw [Val.isFinite_eq_false_iff] at ha
    obtain ⟨pm, hm⟩ := (Val.isFinite_eq_true_iff _).mp hm
    obtain ⟨pb, hb⟩ := (Val.isFinite_eq_true_iff _).mp hb
    rw [findVal_nonfin_left f x width hx ha, hm, hb]
    rfl
  · rw [Val.isFinite_eq_false_iff] at hb
    obtain ⟨pa, ha⟩ := (Val.isFinite_eq_true_iff _).mp ha
    obtain ⟨pm, hm⟩ := (Val.isFinite_eq_true_iff _).mp hm
    rw [findVal_nonfin_right f x width pa hx ha hb, hm]
    rfl

theorem findVal_finite_of_samples_witness :
    ((fun t : ℚ => if t = 0 then Val.nonfin else Val.fin 1) 0).isFinite = false
      ∧ (findVal (fun t : ℚ => if t = 0 then Val.nonfin else Val.fin 1) 0 1).isFinite = true :=
  ⟨by simp [Val.isFinite],
    findVal_finite_of_samples (fun t : ℚ => if t = 0 then Val.nonfin else Val.fin 1) 0 1
      (by simp [Val.isFinite]) (Or.inl ⟨by norm_num [Val.isFinite], by norm_num [Val.isFinite]⟩)⟩

/-- C18: when `f x` is not finite and both neighbours `f (x - 0.001*width)` and
`f (x + 0.001*width)` are finite, `findVal f x width` is their average. -/
theorem findVal_average (f : ℚ → Val) (x width pa pb : ℚ)
    (hx : (f x).isFinite = false)
    (ha : f (x - 0.001 * width) = Val.fin pa) (hb : f (x + 0.001 * width) = Val.fin pb) :
    findVal f x width = Val.fin ((pa + pb) / 2)
      ∧ findVal f x width
          = (f (x - 0.001 * width) + f (x + 0.001 * width)) / Val.fin 2 := by
  have h : findVal f x width
      = (f (x - 0.001 * width) + f (x + 0.001 * width)) / Val.fin 2 := by
    rw [Val.isFinite_eq_false_iff] at hx
    rw [findVal_nonfin_both f x width pa pb hx ha hb, ha, hb]
  refine ⟨?_, h⟩
  rw [h, ha, hb, Val.fin_add_fin, Val.fin_div_fin _ _ (by norm_num)]

theorem findVal_average_witness :
    ((fun t : ℚ => if t = 0 then Val.nonfin else Val.fin t) 0).isFinite = false
      ∧ findVal (fun t : ℚ => if t = 0 then Val.nonfin else Val.fin t) 0 1
          = Val.fin ((-0.001 + 0.001) / 2) :=
  ⟨by simp [Val.isFinite],
    (findVal_average (fun t : ℚ => if t = 0 then Val.nonfin else Val.fin t) 0 1 (-0.001) 0.001
      (by simp [Val.isFinite]) (by norm_num) (by norm_num)).1⟩

/-- C19, amended: in exact arithmetic, when `f x` is not finite and exactly one
neighbour is non-finite, `findVal f x width` is
`2*f(x + 0.0005*width) - f(x + 0.001*width)` if the left neighbour is the non-finite
one and `2*f(x - 0.0005*width) - f(x - 0.001*width)` if the right one is; and if `f`
agrees with the affine function `t ↦ g0 + g1*t` at the two points used, the result is
`g0 + g1*x`. -/
theorem findVal_extrapolation (f : ℚ → Val) (x width : ℚ) (hx : (f x).isFinite = false) :
    ((f (x - 0.001 * width)).isFinite = false → (f (x + 0.001 * width)).isFinite = true →
        findVal f x width = Val.fin 2 * f (x + 0.0005 * width) - f (x + 0.001 * width)
          ∧ ∀ g0 g1 : ℚ, f (x + 0.0005 * width) = Val.fin (g0 + g1 * (x + 0.0005 * width)) →
              f (x + 0.001 * width) = Val.fin (g0 + g1 * (x + 0.001 * width)) →
              findVal f x width = Val.fin (g0 + g1 * x))
      ∧ ((f (x - 0.001 * width)).isFinite = true → (f (x + 0.001 * width)).isFinite = false →
        findVal f x width = Val.fin 2 * f (x - 0.0005 * width) - f (x - 0.001 * width)
          ∧ ∀ g0 g1 : ℚ, f (x - 0.0005 * width) = Val.fin (g0 + g1 * (x - 0.0005 * width)) →
              f (x - 0.001 * width) = Val.fin (g0 + g1 * (x - 0.001 * width)) →
              findVal f x width = Val.fin (g0 + g1 * x)) := by
  rw [Val.isFinite_eq_false_iff] at hx
  constructor
  · intro ha _
    rw [Val.isFinite_eq_false_iff] at ha
    have h : findVal f x width
        = Val.fin 2 * f (x + 0.0005 * width) - f (x + 0.001 * width) :=
      findVal_nonfin_left f x width hx ha
    refine ⟨h, fun g0 g1 hm hb => ?_⟩
    rw [h, hm, hb, Val.fin_mul_fin, Val.fin_sub_fin]
    congr 1
    ring
  · intro ha hb
    rw [Val.isFinite_eq_false_iff] at hb
    obtain ⟨pa, ha⟩ := (Val.isFinite_eq_true_iff _).mp ha
    have h : findVal f x width
        = Val.fin 2 * f (x - 0.0005 * width) - f (x - 0.001 * width) := by
      rw [findVal_nonfin_right f x width pa hx ha hb, ha]
    refine ⟨h, fun g0 g1 hm hb' => ?_⟩
    rw [h, hm, hb', Val.fin_mul_fin, Val.fin_sub_fin]
    congr 1
    ring

theorem findVal_extrapolation_witness :
    ((fun t : ℚ => if t ≤ 0 then Val.nonfin else Val.fin (1 + 2 * t)) 0).isFinite = false
      ∧ findVal (fun t : ℚ => if t ≤ 0 then Val.nonfin else Val.fin (1 + 2 * t)) 0 1
          = Val.fin (1 + 2 * 0) :=
  ⟨by simp [Val.isFinite],
    ((findVal_extrapolation (fun t : ℚ => if t ≤ 0 then Val.nonfin else Val.fin (1 + 2 * t)) 0 1
      (by simp [Val.isFinite])).1 (by norm_num [Val.isFinite]) (by norm_num [Val.isFinite])).2
      1 2 (by norm_num) (by norm_num)⟩

/-! Runs of the adaptive loop -/

namespace Adaptive
open Val

theorem loop_nil {I : Type} (R : Rule I) (f : ℚ → Val) (error : ℚ) (ms : ℕ) (mt : ℤ)
    (elapsed : ℕ → ℚ) (fuel i : ℕ) (s : State I) (h : s.intervals = []) :
    loop R f error ms mt elapsed fuel i s = some s := by
  cases fuel <;> simp [loop, h]

theorem loop_cons {I : Type} (R : Rule I) (f : ℚ → Val) (error : ℚ) (ms : ℕ) (mt : ℤ)
    (elapsed : ℕ → ℚ) (fuel i : ℕ) (s : State I) (node : leftRightInterval I)
    (rest : List (leftRightInterval I)) (h : s.intervals = node :: rest) :
    loop R f error ms mt elapsed (fuel + 1) i s
      = loop R f error ms mt elapsed fuel (i + 1) (pass R f error ms mt (elapsed i) s) := by
  simp [loop, h]

theorem loop_mono {I : Type} (R : Rule I) (f : ℚ → Val) (error : ℚ) (ms : ℕ) (mt : ℤ)
    (elapsed : ℕ → ℚ) :
    ∀ (fuel k i : ℕ) (s s' : State I), loop R f error ms mt elapsed fuel i s = some s' →
      loop R f error ms mt elapsed (fuel + k) i s = some s' := by
  intro fuel
  induction fuel with
  | zero =>
    intro k i s s' h
    cases hq : s.intervals with
    | nil => rw [loop_nil R f error ms mt elapsed _ i s hq] at h ⊢; exact h
    | cons node rest => simp [loop, hq] at h
  | succ fuel ih =>
    intro k i s s' h
    cases hq : s.intervals with
    | nil => rw [loop_nil R f error ms mt elapsed _ i s hq] at h ⊢; exact h
    | cons node rest =>
      rw [loop_cons R f error ms mt elapsed fuel i s node rest hq] at h
      rw [Nat.add_right_comm, loop_cons R f error ms mt elapsed (fuel + k) i s node rest hq]
      exact ih k (i + 1) _ s' h

end Adaptive

namespace SimpsonRule
open Val

theorem simpson_cubic_panel (c0 c1 c2 c3 u v : ℚ) :
    (v - u) / 6 * (Simpson38Rule.cubic c0 c1 c2 c3 u
        + 4 * Simpson38Rule.cubic c0 c1 c2 c3 ((u + v) / 2)
        + Simpson38Rule.cubic c0 c1 c2 c3 v)
      = Simpson38Rule.cubicPrimitive c0 c1 c2 c3 v
        - Simpson38Rule.cubicPrimitive c0 c1 c2 c3 u := by
  simp only [Simpson38Rule.cubic, Simpson38Rule.cubicPrimitive]
  ring

theorem simpson_adaptive_cubic (c0 c1 c2 c3 a b error : ℚ) (ms : ℕ) (mt : ℤ)
    (elapsed : ℕ → ℚ) (fuel : ℕ) (hab : a < b) (herr : 0 < error) :
    adaptiveNonParallel (fuel + 1) (fun x => fin (Simpson38Rule.cubic c0 c1 c2 c3 x)) a b error
        ms mt elapsed
      = some (fin (Simpson38Rule.cubicPrimitive c0 c1 c2 c3 b
          - Simpson38Rule.cubicPrimitive c0 c1 c2 c3 a), 1) := by
  have hL := simpson_cubic_panel c0 c1 c2 c3 a ((a + b) / 2)
  have hR := simpson_cubic_panel c0 c1 c2 c3 ((a + b) / 2) b
  have hP := simpson_cubic_panel c0 c1 c2 c3 a b
  have hacc : ∀ se te : Bool, Adaptive.accepted rule.errorOrder (b - a) error
      (fin (Simpson38Rule.cubicPrimitive c0 c1 c2 c3 ((a + b) / 2)
        - Simpson38Rule.cubicPrimitive c0 c1 c2 c3 a))
      (fin (Simpson38Rule.cubicPrimitive c0 c1 c2 c3 b
        - Simpson38Rule.cubicPrimitive c0 c1 c2 c3 ((a + b) / 2)))
      (fin (Simpson38Rule.cubicPrimitive c0 c1 c2 c3 b
        - Simpson38Rule.cubicPrimitive c0 c1 c2 c3 a)) se te := by
    intro se te
    refine Or.inl ⟨_, _, _, rfl, rfl, rfl, ?_⟩
    have h0 : Simpson38Rule.cubicPrimitive c0 c1 c2 c3 ((a + b) / 2)
        - Simpson38Rule.cubicPrimitive c0 c1 c2 c3 a
        + (Simpson38Rule.cubicPrimitive c0 c1 c2 c3 b
          - Simpson38Rule.cubicPrimitive c0 c1 c2 c3 ((a + b) / 2))
        - (Simpson38Rule.cubicPrimitive c0 c1 c2 c3 b
          - Simpson38Rule.cubicPrimitive c0 c1 c2 c3 a) = 0 := by ring
    rw [h0, abs_zero]
    have : (0 : ℚ) < b - a := by linarith
    show 0 < (15 : ℚ) * (b - a) * error
    positivity
  have hnode : getLeftRight
      ⟨a, (a + b) / 2, b, findVal (fun x => fin (Simpson38Rule.cubic c0 c1 c2 c3 x)) a (b - a),
        findVal (fun x => fin (Simpson38Rule.cubic c0 c1 c2 c3 x)) ((a + b) / 2) (b - a),
        findVal (fun x => fin (Simpson38Rule.cubic c0 c1 c2 c3 x)) b (b - a)⟩
      (fun x => fin (Simpson38Rule.cubic c0 c1 c2 c3 x))
      = ⟨⟨a, (a + (a + b) / 2) / 2, (a + b) / 2, fin (Simpson38Rule.cubic c0 c1 c2 c3 a),
            fin (Simpson38Rule.cubic c0 c1 c2 c3 ((a + (a + b) / 2) / 2)),
            fin (Simpson38Rule.cubic c0 c1 c2 c3 ((a + b) / 2))⟩,
          ⟨(a + b) / 2, ((a + b) / 2 + b) / 2, b,
            fin (Simpson38Rule.cubic c0 c1 c2 c3 ((a + b) / 2)),
            fin (Simpson38Rule.cubic c0 c1 c2 c3 (((a + b) / 2 + b) / 2)),
            fin (Simpson38Rule.cubic c0 c1 c2 c3 b)⟩,
          fin (Simpson38Rule.cubicPrimitive c0 c1 c2 c3 b
            - Simpson38Rule.cubicPrimitive c0 c1 c2 c3 a)⟩ := by
    simp only [getLeftRight, findVal_fin, fin_mul_fin, fin_add_fin, hP]
  have hl : (rule.getLeftRight
      ⟨a, (a + (a + b) / 2) / 2, (a + b) / 2, fin (Simpson38Rule.cubic c0 c1 c2 c3 a),
        fin (Simpson38Rule.cubic c0 c1 c2 c3 ((a + (a + b) / 2) / 2)),
        fin (Simpson38Rule.cubic c0 c1 c2 c3 ((a + b) / 2))⟩
      (fun x => fin (Simpson38Rule.cubic c0 c1 c2 c3 x))).integrated
      = fin (Simpson38Rule.cubicPrimitive c0 c1 c2 c3 ((a + b) / 2)
        - Simpson38Rule.cubicPrimitive c0 c1 c2 c3 a) := by
    simp only [rule, getLeftRight, fin_mul_fin, fin_add_fin, hL]
  have hr : (rule.getLeftRight
      ⟨(a + b) / 2, ((a + b) / 2 + b) / 2, b,
        fin (Simpson38Rule.cubic c0 c1 c2 c3 ((a + b) / 2)),
        fin (Simpson38Rule.cubic c0 c1 c2 c3 (((a + b) / 2 + b) / 2)),
        fin (Simpson38Rule.cubic c0 c1 c2 c3 b)⟩
      (fun x => fin (Simpson38Rule.cubic c0 c1 c2 c3 x))).integrated
      = fin (Simpson38Rule.cubicPrimitive c0 c1 c2 c3 b
        - Simpson38Rule.cubicPrimitive c0 c1 c2 c3 ((a + b) / 2)) := by
    simp only [rule, getLeftRight, fin_mul_fin, fin_add_fin, hR]
  unfold adaptiveNonParallel Adaptive.run
  simp only []
  rw [show rule.getLeftRight = getLeftRight from rfl, hnode,
    Adaptive.loop_cons _ _ _ _ _ _ fuel 0 _ _ [] rfl,
    Adaptive.pass_of_accepted _ _ _ _ _ _ _ _ _ _ _ _ (by
      rw [hl, hr]; exact hacc _ _),
    Adaptive.loop_nil _ _ _ _ _ _ _ _ _ rfl]
  simp only [Adaptive.estimate, hl, hr, zero_def, fin_add_fin]
  congr 3
  ring

/-- C13: in exact arithmetic, for a polynomial `f` of degree at most 3, `a < b` and
`error > 0`, whatever `max_subdivisions`, `max_time` and the clock,
`SimpsonRule::adaptiveNonParallel` returns (after its single pass) the integral of `f`
over `[a, b]` and reports 1 subdivision. -/
theorem simpson_adaptiveNonParallel_cubic_exact (c0 c1 c2 c3 a b error : ℚ)
    (max_subdivisions : ℕ) (max_time : ℤ) (elapsed : ℕ → ℚ) (fuel : ℕ)
    (hab : a < b) (herr : 0 < error) (hfuel : 1 ≤ fuel) :
    ∃ q : ℚ,
      adaptiveNonParallel fuel (fun x => fin (c0 + c1 * x + c2 * x ^ 2 + c3 * x ^ 3)) a b error
          max_subdivisions max_time elapsed = some (fin q, 1)
        ∧ (q : ℝ) = ∫ x in (a : ℝ)..(b : ℝ),
            ((c0 : ℝ) + (c1 : ℝ) * x + (c2 : ℝ) * x ^ 2 + (c3 : ℝ) * x ^ 3) := by
  obtain ⟨g, rfl⟩ : ∃ g, fuel = g + 1 := ⟨fuel - 1, by omega⟩
  refine ⟨_, simpson_adaptive_cubic c0 c1 c2 c3 a b error max_subdivisions max_time elapsed g
    hab herr, ?_⟩
  rw [Simpson38Rule.simpson38_integral_cubic]
  simp only [Simpson38Rule.cubicPrimitive]
  push_cast
  ring

theorem simpson_adaptiveNonParallel_cubic_exact_witness :
    (0 : ℚ) < 1 ∧ (0 : ℚ) < 1 / 100 ∧ 1 ≤ 1
      ∧ ∃ q : ℚ,
          adaptiveNonParallel 1 (fun x => fin (0 + 0 * x + 1 * x ^ 2 + 0 * x ^ 3)) 0 1 (1 / 100)
              10 5 (fun _ => 0) = some (fin q, 1)
            ∧ (q : ℝ) = ∫ x in ((0 : ℚ) : ℝ)..((1 : ℚ) : ℝ),
                (((0 : ℚ) : ℝ) + ((0 : ℚ) : ℝ) * x + ((1 : ℚ) : ℝ) * x ^ 2
                  + ((0 : ℚ) : ℝ) * x ^ 3) :=
  ⟨by norm_num, by norm_num, le_refl 1,
    simpson_adaptiveNonParallel_cubic_exact 0 0 1 0 0 1 (1 / 100) 10 5 (fun _ => 0) 1
      (by norm_num) (by norm_num) (le_refl 1)⟩

end SimpsonRule

namespace TrapezoidRule
open Val

/-- C11: `max_subdivisions` is compared with the length of the queue, not with the
counter: on `f(x) = x*x`, `[0, 1]`, `error = 1/100`, `max_subdivisions = 1` and a clock
that never trips, `TrapezoidRule::adaptiveNonParallel` reports 2 subdivisions. -/
theorem trapezoid_adaptiveNonParallel_exceeds_ceiling :
    adaptiveNonParallel 3 (fun x => fin (x * x)) 0 1 (1 / 100) 1 5 (fun _ => 0)
      = some (fin (11 / 32), 2) := by
  have h0 : Adaptive.pass rule (fun x => fin (x * x)) (1 / 100) 1 5 0
      ⟨[rule.getLeftRight ⟨0, 1, findVal (fun x => fin (x * x)) 0 (1 - 0),
          findVal (fun x => fin (x * x)) 1 (1 - 0)⟩ (fun x => fin (x * x))],
        0, 1, false, false⟩
      = ⟨[⟨⟨0, 1 / 4, fin 0, fin (1 / 16)⟩, ⟨1 / 4, 1 / 2, fin (1 / 16), fin (1 / 4)⟩,
            fin (1 / 16)⟩,
          ⟨⟨1 / 2, 3 / 4, fin (1 / 4), fin (9 / 16)⟩, ⟨3 / 4, 1, fin (9 / 16), fin 1⟩,
            fin (5 / 16)⟩],
        fin 0, 2, false, false⟩ := by
    norm_num [Adaptive.pass, rule, getLeftRight, findVal_fin, zero_def, fin_add_fin,
      fin_mul_fin, fin_sub_fin, fabs, ltBound, abs_of_pos]
    rfl
  have hflag := Adaptive.loop_of_flagged rule (fun x => fin (x * x)) (1 / 100) 1 5 (fun _ => 0)
    2 1 ⟨[⟨⟨0, 1 / 4, fin 0, fin (1 / 16)⟩, ⟨1 / 4, 1 / 2, fin (1 / 16), fin (1 / 4)⟩,
            fin (1 / 16)⟩,
          ⟨⟨1 / 2, 3 / 4, fin (1 / 4), fin (9 / 16)⟩, ⟨3 / 4, 1, fin (9 / 16), fin 1⟩,
            fin (5 / 16)⟩],
        fin 0, 2, false, false⟩ (Or.inr (Or.inr (Or.inl (by norm_num))))
  obtain ⟨_, h2, h3⟩ := Adaptive.passes_of_flagged rule (fun x => fin (x * x)) (1 / 100) 1 5
    (fun _ => 0) 2 1 ⟨[⟨⟨0, 1 / 4, fin 0, fin (1 / 16)⟩,
            ⟨1 / 4, 1 / 2, fin (1 / 16), fin (1 / 4)⟩, fin (1 / 16)⟩,
          ⟨⟨1 / 2, 3 / 4, fin (1 / 4), fin (9 / 16)⟩, ⟨3 / 4, 1, fin (9 / 16), fin 1⟩,
            fin (5 / 16)⟩],
        fin 0, 2, false, false⟩ (Or.inr (Or.inr (Or.inl (by norm_num)))) (le_refl _)
  unfold adaptiveNonParallel Adaptive.run
  simp only []
  rw [Adaptive.loop_cons _ _ _ _ _ _ 2 0 _ _ [] rfl, h0, hflag]
  simp only [List.length_cons, List.length_nil, le_refl, if_true] at h2 h3 ⊢
  rw [h2, h3]
  norm_num [Adaptive.estimate, rule, getLeftRight, findVal_fin, fin_add_fin, fin_mul_fin]

end TrapezoidRule

/-! Degenerate runs: `b = a` -/

namespace Adaptive
open Val

theorem sum_estimate_zero {I : Type} (R : Rule I) (f : ℚ → Val)
    (l : List (leftRightInterval I)) (h : ∀ n ∈ l, estimate R f n = fin 0) :
    (l.map (estimate R f)).sum = fin 0 := by
  induction l with
  | nil => rfl
  | cons n rest ih =>
    rw [List.map_cons, List.sum_cons, h n (List.mem_cons_self _ _),
      ih (fun m hm => h m (List.mem_cons_of_mem _ hm)), fin_add_fin, add_zero]

theorem flat_pass {I : Type} (R : Rule I) (f : ℚ → Val) (error : ℚ) (ms : ℕ) (mt : ℤ) (t : ℚ)
    (a0 : ℚ) (D : I → Prop)
    (hD : ∀ x, D x → R.a x = a0 ∧ R.b x = a0 ∧ (R.getLeftRight x f).integrated = fin 0
      ∧ D (R.getLeftRight x f).left ∧ D (R.getLeftRight x f).right)
    (s : State I) (node : leftRightInterval I) (rest : List (leftRightInterval I))
    (hq : s.intervals = node :: rest)
    (hN : ∀ n ∈ s.intervals, n.integrated = fin 0 ∧ D n.left ∧ D n.right)
    (hr : s.result = fin 0) :
    (pass R f error ms mt t s).result = fin 0
      ∧ (∀ n ∈ (pass R f error ms mt t s).intervals, n.integrated = fin 0 ∧ D n.left ∧ D n.right)
      ∧ s.subdivisions ≤ (pass R f error ms mt t s).subdivisions
      ∧ (¬ (s.subdivisions_exceeded = true ∨ s.time_exceeded = true
            ∨ s.intervals.length > ms ∨ t > (mt : ℚ)) →
          (pass R f error ms mt t s).intervals.length = s.intervals.length + 1) := by
  obtain ⟨q, result, subs, se, te⟩ := s
  simp only at hq hr hN
  subst hq hr
  obtain ⟨hP, hDl, hDr⟩ := hN node (List.mem_cons_self _ _)
  obtain ⟨hla, _, hlI, hll, hlr⟩ := hD _ hDl
  obtain ⟨_, hrb, hrI, hrl, hrr⟩ := hD _ hDr
  have hrest : ∀ n ∈ rest, n.integrated = fin 0 ∧ D n.left ∧ D n.right :=
    fun n hn => hN n (List.mem_cons_of_mem _ hn)
  by_cases hacc : accepted R.errorOrder (R.b node.right - R.a node.left) error
      (R.getLeftRight node.left f).integrated (R.getLeftRight node.right f).integrated
      node.integrated (se || decide ((node :: rest).length > ms))
      (te || decide (t > (mt : ℚ)))
  · rw [pass_of_accepted R f error ms mt t node rest (fin 0) subs se te hacc]
    refine ⟨?_, hrest, le_refl _, ?_⟩
    · simp only [estimate, hlI, hrI, fin_add_fin, add_zero]
    · intro hnf
      exfalso
      rcases hacc with ⟨l, r, p, h1, h2, h3, h4⟩ | h | h
      · rw [hlI] at h1
        rw [hrI] at h2
        rw [hP] at h3
        cases h1
        cases h2
        cases h3
        rw [hla, hrb] at h4
        simp at h4
      · apply hnf
        simp only [Bool.or_eq_true, decide_eq_true_eq] at h
        rcases h with h | h
        · exact Or.inl h
        · exact Or.inr (Or.inr (Or.inl h))
      · apply hnf
        simp only [Bool.or_eq_true, decide_eq_true_eq] at h
        rcases h with h | h
        · exact Or.inr (Or.inl h)
        · exact Or.inr (Or.inr (Or.inr h))
  · rw [pass_of_not_accepted R f error ms mt t node rest (fin 0) subs se te hacc]
    refine ⟨rfl, ?_, Nat.le_succ _, fun _ => by simp⟩
    intro n hn
    simp only [List.mem_append, List.mem_cons, List.mem_singleton, List.not_mem_nil,
      or_false] at hn
    rcases hn with hn | rfl | rfl
    · exact hrest n hn
    · exact ⟨hlI, hll, hlr⟩
    · exact ⟨hrI, hrl, hrr⟩

theorem flat_drain {I : Type} (R : Rule I) (f : ℚ → Val) (error : ℚ) (ms : ℕ) (mt : ℤ)
    (elapsed : ℕ → ℚ) (a0 : ℚ) (D : I → Prop)
    (hD : ∀ x, D x → R.a x = a0 ∧ R.b x = a0 ∧ (R.getLeftRight x f).integrated = fin 0
      ∧ D (R.getLeftRight x f).left ∧ D (R.getLeftRight x f).right)
    (i : ℕ) (s : State I)
    (hN : ∀ n ∈ s.intervals, n.integrated = fin 0 ∧ D n.left ∧ D n.right)
    (hr : s.result = fin 0)
    (hf : s.subdivisions_exceeded = true ∨ s.time_exceeded = true
      ∨ s.intervals.length > ms ∨ elapsed i > (mt : ℚ)) :
    ∃ fuel s', loop R f error ms mt elapsed fuel i s = some s' ∧ s'.result = fin 0
      ∧ s.subdivisions ≤ s'.subdivisions := by
  obtain ⟨_, h2, h3⟩ := passes_of_flagged R f error ms mt elapsed s.intervals.length i s hf
    (le_refl _)
  refine ⟨s.intervals.length, _, ?_, ?_, le_of_eq h2.symm⟩
  · rw [loop_of_flagged R f error ms mt elapsed _ i s hf, if_pos (le_refl _)]
  · rw [h3, hr, List.take_length, sum_estimate_zero R f, fin_add_fin, add_zero]
    intro n hn
    obtain ⟨_, hl, hr'⟩ := hN n hn
    simp only [estimate, (hD _ hl).2.2.1, (hD _ hr').2.2.1, fin_add_fin, add_zero]

theorem flat_loop {I : Type} (R : Rule I) (f : ℚ → Val) (error : ℚ) (ms : ℕ) (mt : ℤ)
    (elapsed : ℕ → ℚ) (a0 : ℚ) (D : I → Prop)
    (hD : ∀ x, D x → R.a x = a0 ∧ R.b x = a0 ∧ (R.getLeftRight x f).integrated = fin 0
      ∧ D (R.getLeftRight x f).left ∧ D (R.getLeftRight x f).right) :
    ∀ (d i : ℕ) (s : State I),
      (∀ n ∈ s.intervals, n.integrated = fin 0 ∧ D n.left ∧ D n.right) →
      s.result = fin 0 → ms + 1 ≤ s.intervals.length + d →
      ∃ fuel s', loop R f error ms mt elapsed fuel i s = some s' ∧ s'.result = fin 0
        ∧ s.subdivisions ≤ s'.subdivisions := by
  intro d
  induction d with
  | zero =>
    intro i s hN hr hlen
    exact flat_drain R f error ms mt elapsed a0 D hD i s hN hr
      (Or.inr (Or.inr (Or.inl (by omega))))
  | succ d ih =>
    intro i s hN hr hlen
    by_cases hf : s.subdivisions_exceeded = true ∨ s.time_exceeded = true
        ∨ s.intervals.length > ms ∨ elapsed i > (mt : ℚ)
    · exact flat_drain R f error ms mt elapsed a0 D hD i s hN hr hf
    · cases hq : s.intervals with
      | nil => exact ⟨0, s, loop_nil R f error ms mt elapsed 0 i s hq, hr, le_refl _⟩
      | cons node rest =>
        obtain ⟨p1, p2, p3, p4⟩ := flat_pass R f error ms mt (elapsed i) a0 D hD s node rest hq
          hN hr
        obtain ⟨fuel, s', h1, h2, h3⟩ := ih (i + 1) _ p2 p1 (by rw [p4 hf]; omega)
        exact ⟨fuel + 1, s', by rw [loop_cons R f error ms mt elapsed fuel i s node rest hq, h1],
          h2, le_trans p3 h3⟩

theorem flat_run {I : Type} (R : Rule I) (f : ℚ → Val) (error : ℚ) (ms : ℕ) (mt : ℤ)
    (elapsed : ℕ → ℚ) (a0 : ℚ) (D : I → Prop)
    (hD : ∀ x, D x → R.a x = a0 ∧ R.b x = a0 ∧ (R.getLeftRight x f).integrated = fin 0
      ∧ D (R.getLeftRight x f).left ∧ D (R.getLeftRight x f).right)
    (whole : I) (hw : D whole) :
    ∃ fuel0 n, 1 ≤ n ∧ ∀ fuel, fuel0 ≤ fuel →
      run R fuel f whole error ms mt elapsed = some (fin 0, n) := by
  obtain ⟨_, _, hI, hl, hr⟩ := hD whole hw
  obtain ⟨fuel0, s', h1, h2, h3⟩ := flat_loop R f error ms mt elapsed a0 D hD ms 0
    ⟨[R.getLeftRight whole f], 0, 1, false, false⟩
    (by
      intro n hn
      simp only [List.mem_singleton] at hn
      subst hn
      exact ⟨hI, hl, hr⟩)
    rfl (by simp only [List.length_singleton]; omega)
  refine ⟨fuel0, s'.subdivisions, h3, fun fuel hfuel => ?_⟩
  obtain ⟨k, rfl⟩ : ∃ k, fuel = fuel0 + k := ⟨fuel - fuel0, by omega⟩
  simp only [run, loop_mono R f error ms mt elapsed fuel0 k 0 _ s' h1, h2]

end Adaptive

/-! Every entry point at `b = a` -/

theorem joinAll_zero (worker : ℕ → Option Val) (hw : ∀ i, worker i = some 0)
    (sched : List ℕ) (result : Val) : joinAll worker sched result = some result := by
  rw [joinAll_spec worker (fun _ => 0) hw]
  simp

namespace TrapezoidRule
open Val

theorem trapezoid_seq_flat (f : ℚ → Val) (a v : ℚ) (hv : f a = fin v) (fuel n : ℕ) :
    nonAdaptiveNonParallel fuel f a a n = some (fin 0) := by
  cases fuel <;>
    simp [nonAdaptiveNonParallel, sweep, findVal_of_fin f a 0 v hv, fin_add_fin, fin_mul_fin,
      zero_def]

theorem trapezoid_thread_flat (f : ℚ → Val) (a : ℚ) (fuel T t : ℕ) :
    nonAdaptiveThread fuel f a a 0 T t = some 0 := by
  cases fuel <;> simp [nonAdaptiveThread, threadLoop]

theorem trapezoid_par_flat (f : ℚ → Val) (a v : ℚ) (hv : f a = fin v) (fuel n T : ℕ)
    (sched : List ℕ) : nonAdaptiveParallelSched fuel f a a n T sched = some (fin 0) := by
  simp [nonAdaptiveParallelSched, joinAll_zero _ (trapezoid_thread_flat f a fuel T),
    findVal_of_fin f a 0 v hv, fin_add_fin, fin_mul_fin, zero_def]

theorem trapezoid_flat (f : ℚ → Val) (a v : ℚ) (hv : f a = fin v) (x : interval)
    (hx : x.a = a ∧ x.b = a ∧ x.fa = fin v ∧ x.fb = fin v) :
    rule.a x = a ∧ rule.b x = a ∧ (rule.getLeftRight x f).integrated = fin 0
      ∧ ((rule.getLeftRight x f).left.a = a ∧ (rule.getLeftRight x f).left.b = a
        ∧ (rule.getLeftRight x f).left.fa = fin v ∧ (rule.getLeftRight x f).left.fb = fin v)
      ∧ ((rule.getLeftRight x f).right.a = a ∧ (rule.getLeftRight x f).right.b = a
        ∧ (rule.getLeftRight x f).right.fa = fin v
        ∧ (rule.getLeftRight x f).right.fb = fin v) := by
  obtain ⟨xa, xb, xfa, xfb⟩ := x
  obtain ⟨h1, h2, h3, h4⟩ := hx
  simp only at h1 h2 h3 h4
  subst h1 h2 h3 h4
  have hf := findVal_of_fin f _ 0 v hv
  simp [rule, getLeftRight, hf, fin_add_fin, fin_mul_fin]

theorem trapezoid_adaptive_flat (f : ℚ → Val) (a v : ℚ) (hv : f a = fin v) (error : ℚ)
    (ms : ℕ) (mt : ℤ) (elapsed : ℕ → ℚ) :
    ∃ fuel0 n, 1 ≤ n ∧ ∀ fuel, fuel0 ≤ fuel →
      adaptiveNonParallel fuel f a a error ms mt elapsed = some (fin 0, n) :=
  Adaptive.flat_run rule f error ms mt elapsed a
    (fun x => x.a = a ∧ x.b = a ∧ x.fa = fin v ∧ x.fb = fin v)
    (trapezoid_flat f a v hv) _
    ⟨rfl, rfl, by simp [findVal_of_fin f a _ v hv], by simp [findVal_of_fin f a _ v hv]⟩

end TrapezoidRule

namespace SimpsonRule
open Val

theorem simpson_seq_flat (f : ℚ → Val) (a v : ℚ) (hv : f a = fin v) (fuel n : ℕ) :
    nonAdaptiveNonParallel fuel f a a n = some (fin 0) := by
  cases fuel <;>
    simp [nonAdaptiveNonParallel, sweep, findVal_of_fin f a 0 v hv, fin_add_fin, fin_mul_fin,
      fin_div_fin, zero_def]

theorem simpson_thread_flat (f : ℚ → Val) (a : ℚ) (fuel T t : ℕ) :
    nonAdaptiveThread fuel f a a 0 T t = some 0 := by
  cases fuel <;> simp [nonAdaptiveThread, threadLoop]

theorem simpson_par_flat (f : ℚ → Val) (a v : ℚ) (hv : f a = fin v) (fuel n T : ℕ)
    (sched : List ℕ) : nonAdaptiveParallelSched fuel f a a n T sched = some (fin 0) := by
  simp [nonAdaptiveParallelSched, joinAll_zero _ (simpson_thread_flat f a fuel T),
    findVal_of_fin f a 0 v hv, fin_add_fin, fin_mul_fin, fin_div_fin, zero_def]

theorem simpson_flat (f : ℚ → Val) (a v : ℚ) (hv : f a = fin v) (x : interval)
    (hx : x.a = a ∧ x.m = a ∧ x.b = a ∧ x.fa = fin v ∧ x.fm = fin v ∧ x.fb = fin v) :
    rule.a x = a ∧ rule.b x = a ∧ (rule.getLeftRight x f).integrated = fin 0
      ∧ ((rule.getLeftRight x f).left.a = a ∧ (rule.getLeftRight x f).left.m = a
        ∧ (rule.getLeftRight x f).left.b = a ∧ (rule.getLeftRight x f).left.fa = fin v
        ∧ (rule.getLeftRight x f).left.fm = fin v ∧ (rule.getLeftRight x f).left.fb = fin v)
      ∧ ((rule.getLeftRight x f).right.a = a ∧ (rule.getLeftRight x f).right.m = a
        ∧ (rule.getLeftRight x f).right.b = a ∧ (rule.getLeftRight x f).right.fa = fin v
        ∧ (rule.getLeftRight x f).right.fm = fin v
        ∧ (rule.getLeftRight x f).right.fb = fin v) := by
  obtain ⟨xa, xm, xb, xfa, xfm, xfb⟩ := x
  obtain ⟨h1, h2, h3, h4, h5, h6⟩ := hx
  simp only at h1 h2 h3 h4 h5 h6
  subst h1 h2 h3 h4 h5 h6
  have hf := findVal_of_fin f _ 0 v hv
  simp [rule, getLeftRight, hf, fin_add_fin, fin_mul_fin]

theorem simpson_adaptive_flat (f : ℚ → Val) (a v : ℚ) (hv : f a = fin v) (error : ℚ)
    (ms : ℕ) (mt : ℤ) (elapsed : ℕ → ℚ) :
    ∃ fuel0 n, 1 ≤ n ∧ ∀ fuel, fuel0 ≤ fuel →
      adaptiveNonParallel fuel f a a error ms mt elapsed = some (fin 0, n) :=
  Adaptive.flat_run rule f error ms mt elapsed a
    (fun x => x.a = a ∧ x.m = a ∧ x.b = a ∧ x.fa = fin v ∧ x.fm = fin v ∧ x.fb = fin v)
    (simpson_flat f a v hv) _
    ⟨rfl, by simp, rfl, by simp [findVal_of_fin f a _ v hv],
      by simp [findVal_of_fin f a _ v hv], by simp [findVal_of_fin f a _ v hv]⟩

end SimpsonRule

namespace Simpson38Rule
open Val

theorem simpson38_seq_flat (f : ℚ → Val) (a v : ℚ) (hv : f a = fin v) (fuel n : ℕ) :
    nonAdaptiveNonParallel fuel f a a n = some (fin 0) := by
  cases fuel <;>
    simp [nonAdaptiveNonParallel, sweep, findVal_of_fin f a 0 v hv, fin_add_fin, fin_mul_fin,
      fin_div_fin, zero_def]

theorem simpson38_thread_flat (f : ℚ → Val) (a : ℚ) (fuel T t : ℕ) :
    nonAdaptiveThread fuel f a a 0 T t = some 0 := by
  cases fuel <;> simp [nonAdaptiveThread, threadLoop]

theorem simpson38_par_flat (f : ℚ → Val) (a v : ℚ) (hv : f a = fin v) (fuel n T : ℕ)
    (sched : List ℕ) : nonAdaptiveParallelSched fuel f a a n T sched = some (fin 0) := by
  simp [nonAdaptiveParallelSched, joinAll_zero _ (simpson38_thread_flat f a fuel T),
    findVal_of_fin f a 0 v hv, fin_add_fin, fin_mul_fin, fin_div_fin, zero_def]

theorem simpson38_flat (f : ℚ → Val) (a v : ℚ) (hv : f a = fin v) (x : interval)
    (hx : x.a = a ∧ x.b = a ∧ x.fa = fin v ∧ x.fb = fin v) :
    rule.a x = a ∧ rule.b x = a ∧ (rule.getLeftRight x f).integrated = fin 0
      ∧ ((rule.getLeftRight x f).left.a = a ∧ (rule.getLeftRight x f).left.b = a
        ∧ (rule.getLeftRight x f).left.fa = fin v ∧ (rule.getLeftRight x f).left.fb = fin v)
      ∧ ((rule.getLeftRight x f).right.a = a ∧ (rule.getLeftRight x f).right.b = a
        ∧ (rule.getLeftRight x f).right.fa = fin v
        ∧ (rule.getLeftRight x f).right.fb = fin v) := by
  obtain ⟨xa, xb, xfa, xfb⟩ := x
  obtain ⟨h1, h2, h3, h4⟩ := hx
  simp only at h1 h2 h3 h4
  subst h1 h2 h3 h4
  have hf := findVal_of_fin f _ 0 v hv
  simp [rule, getLeftRight, hf, fin_add_fin, fin_mul_fin]

theorem simpson38_adaptive_flat (f : ℚ → Val) (a v : ℚ) (hv : f a = fin v) (error : ℚ)
    (ms : ℕ) (mt : ℤ) (elapsed : ℕ → ℚ) :
    ∃ fuel0 n, 1 ≤ n ∧ ∀ fuel, fuel0 ≤ fuel →
      adaptiveNonParallel fuel f a a error ms mt elapsed = some (fin 0, n) :=
  Adaptive.flat_run rule f error ms mt elapsed a
    (fun x => x.a = a ∧ x.b = a ∧ x.fa = fin v ∧ x.fb = fin v)
    (simpson38_flat f a v hv) _
    ⟨rfl, rfl, by simp [findVal_of_fin f a _ v hv], by simp [findVal_of_fin f a _ v hv]⟩

end Simpson38Rule

namespace BoolesRule
open Val

theorem boole_seq_flat (f : ℚ → Val) (a v : ℚ) (hv : f a = fin v) (fuel n : ℕ) :
    nonAdaptiveNonParallel fuel f a a n = some (fin 0) := by
  cases fuel <;>
    simp [nonAdaptiveNonParallel, sweep, findVal_of_fin f a 0 v hv, fin_add_fin, fin_mul_fin,
      fin_div_fin, zero_def]

theorem boole_thread_flat (f : ℚ → Val) (a : ℚ) (fuel T t : ℕ) :
    nonAdaptiveThread fuel f a a 0 T t = some 0 := by
  cases fuel <;> simp [nonAdaptiveThread, threadLoop]

theorem boole_par_flat (f : ℚ → Val) (a v : ℚ) (hv : f a = fin v) (fuel n T : ℕ)
    (sched : List ℕ) : nonAdaptiveParallelSched fuel f a a n T sched = some (fin 0) := by
  simp [nonAdaptiveParallelSched, joinAll_zero _ (boole_thread_flat f a fuel T),
    findVal_of_fin f a 0 v hv, fin_add_fin, fin_mul_fin, fin_div_fin, zero_def]

theorem boole_flat (f : ℚ → Val) (a v : ℚ) (hv : f a = fin v) (x : interval)
    (hx : x.a = a ∧ x.m = a ∧ x.b = a ∧ x.fa = fin v ∧ x.fm = fin v ∧ x.fb = fin v) :
    rule.a x = a ∧ rule.b x = a ∧ (rule.getLeftRight x f).integrated = fin 0
      ∧ ((rule.getLeftRight x f).left.a = a ∧ (rule.getLeftRight x f).left.m = a
        ∧ (rule.getLeftRight x f).left.b = a ∧ (rule.getLeftRight x f).left.fa = fin v
        ∧ (rule.getLeftRight x f).left.fm = fin v ∧ (rule.getLeftRight x f).left.fb = fin v)
      ∧ ((rule.getLeftRight x f).right.a = a ∧ (rule.getLeftRight x f).right.m = a
        ∧ (rule.getLeftRight x f).right.b = a ∧ (rule.getLeftRight x f).right.fa = fin v
        ∧ (rule.getLeftRight x f).right.fm = fin v
        ∧ (rule.getLeftRight x f).right.fb = fin v) := by
  obtain ⟨xa, xm, xb, xfa, xfm, xfb⟩ := x
  obtain ⟨h1, h2, h3, h4, h5, h6⟩ := hx
  simp only at h1 h2 h3 h4 h5 h6
  subst h1 h2 h3 h4 h5 h6
  have hf := findVal_of_fin f _ 0 v hv
  simp [rule, getLeftRight, hf, fin_add_fin, fin_mul_fin]

theorem boole_adaptive_flat (f : ℚ → Val) (a v : ℚ) (hv : f a = fin v) (error : ℚ)
    (ms : ℕ) (mt : ℤ) (elapsed : ℕ → ℚ) :
    ∃ fuel0 n, 1 ≤ n ∧ ∀ fuel, fuel0 ≤ fuel →
      adaptiveNonParallel fuel f a a error ms mt elapsed = some (fin 0, n) :=
  Adaptive.flat_run rule f error ms mt elapsed a
    (fun x => x.a = a ∧ x.m = a ∧ x.b = a ∧ x.fa = fin v ∧ x.fm = fin v ∧ x.fb = fin v)
    (boole_flat f a v hv) _
    ⟨rfl, by simp, rfl, by simp [findVal_of_fin f a _ v hv],
      by simp [findVal_of_fin f a _ v hv], by simp [findVal_of_fin f a _ v hv]⟩

end BoolesRule

/-- With each worker's `integrate` read as starting at `0`, and in exact arithmetic:
when `b = a` and `f` is finite at `a`, every entry point of every rule returns `0`:
the two fixed-grid ones for any subdivision count, thread count and join order, and
`adaptiveNonParallel` for any error goal, ceiling, deadline and clock (given fuel for
its finitely many passes). -/
theorem entry_points_zero_of_eq (f : ℚ → Val) (a v : ℚ) (hv : f a = Val.fin v) :
    ((∀ fuel n, TrapezoidRule.nonAdaptiveNonParallel fuel f a a n = some (Val.fin 0))
      ∧ (∀ fuel n T sched,
          TrapezoidRule.nonAdaptiveParallelSched fuel f a a n T sched = some (Val.fin 0))
      ∧ ∀ error max_subdivisions max_time elapsed, ∃ fuel0 k, ∀ fuel, fuel0 ≤ fuel →
          TrapezoidRule.adaptiveNonParallel fuel f a a error max_subdivisions max_time elapsed
            = some (Val.fin 0, k))
    ∧ ((∀ fuel n, SimpsonRule.nonAdaptiveNonParallel fuel f a a n = some (Val.fin 0))
      ∧ (∀ fuel n T sched,
          SimpsonRule.nonAdaptiveParallelSched fuel f a a n T sched = some (Val.fin 0))
      ∧ ∀ error max_subdivisions max_time elapsed, ∃ fuel0 k, ∀ fuel, fuel0 ≤ fuel →
          SimpsonRule.adaptiveNonParallel fuel f a a error max_subdivisions max_time elapsed
            = some (Val.fin 0, k))
    ∧ ((∀ fuel n, Simpson38Rule.nonAdaptiveNonParallel fuel f a a n = some (Val.fin 0))
      ∧ (∀ fuel n T sched,
          Simpson38Rule.nonAdaptiveParallelSched fuel f a a n T sched = some (Val.fin 0))
      ∧ ∀ error max_subdivisions max_time elapsed, ∃ fuel0 k, ∀ fuel, fuel0 ≤ fuel →
          Simpson38Rule.adaptiveNonParallel fuel f a a error max_subdivisions max_time elapsed
            = some (Val.fin 0, k))
    ∧ ((∀ fuel n, BoolesRule.nonAdaptiveNonParallel fuel f a a n = some (Val.fin 0))
      ∧ (∀ fuel n T sched,
          BoolesRule.nonAdaptiveParallelSched fuel f a a n T sched = some (Val.fin 0))
      ∧ ∀ error max_subdivisions max_time elapsed, ∃ fuel0 k, ∀ fuel, fuel0 ≤ fuel →
          BoolesRule.adaptiveNonParallel fuel f a a error max_subdivisions max_time elapsed
            = some (Val.fin 0, k)) := by
  refine ⟨⟨TrapezoidRule.trapezoid_seq_flat f a v hv, TrapezoidRule.trapezoid_par_flat f a v hv,
      fun error ms mt elapsed => ?_⟩,
    ⟨SimpsonRule.simpson_seq_flat f a v hv, SimpsonRule.simpson_par_flat f a v hv,
      fun error ms mt elapsed => ?_⟩,
    ⟨Simpson38Rule.simpson38_seq_flat f a v hv, Simpson38Rule.simpson38_par_flat f a v hv,
      fun error ms mt elapsed => ?_⟩,
    ⟨BoolesRule.boole_seq_flat f a v hv, BoolesRule.boole_par_flat f a v hv,
      fun error ms mt elapsed => ?_⟩⟩
  · obtain ⟨fuel0, k, _, h⟩ := TrapezoidRule.trapezoid_adaptive_flat f a v hv error ms mt elapsed
    exact ⟨fuel0, k, h⟩
  · obtain ⟨fuel0, k, _, h⟩ := SimpsonRule.simpson_adaptive_flat f a v hv error ms mt elapsed
    exact ⟨fuel0, k, h⟩
  · obtain ⟨fuel0, k, _, h⟩ :=
      Simpson38Rule.simpson38_adaptive_flat f a v hv error ms mt elapsed
    exact ⟨fuel0, k, h⟩
  · obtain ⟨fuel0, k, _, h⟩ := BoolesRule.boole_adaptive_flat f a v hv error ms mt elapsed
    exact ⟨fuel0, k, h⟩


/-! `b = a` with the workers' `integrate` as the code declares it -/

namespace Val

theorem sum_nonfin_of_mem (l : List Val) (h : nonfin ∈ l) : l.sum = nonfin := by
  induction l with
  | nil => cases h
  | cons x rest ih =>
    rw [List.sum_cons]
    rcases List.mem_cons.mp h with h | h
    · rw [← h, nonfin_add]
    · rw [ih h, add_nonfin]

theorem nonfin_div (v : Val) : nonfin / v = nonfin := by cases v <;> rfl

end Val


theorem trapezoid_thread_indeterminate (f : ℚ → Val) (a : ℚ) (g : Val) (fuel T t : ℕ) :
    Indeterminate.TrapezoidRule.nonAdaptiveThread g fuel f a a 0 T t = some g := by
  cases fuel <;> simp [Indeterminate.TrapezoidRule.nonAdaptiveThread, TrapezoidRule.threadLoop]

theorem trapezoid_par_indeterminate (f : ℚ → Val) (a : ℚ) (integrate : ℕ → Val) (fuel n T : ℕ)
    (sched : List ℕ) (i : ℕ) (hi : i ∈ sched) (hg : integrate i = Val.nonfin) :
    Indeterminate.TrapezoidRule.nonAdaptiveParallelSched integrate fuel f a a n T sched = some Val.nonfin := by
  have hs : (sched.map integrate).sum = Val.nonfin :=
    Val.sum_nonfin_of_mem _ (List.mem_map.mpr ⟨i, hi, hg⟩)
  unfold Indeterminate.TrapezoidRule.nonAdaptiveParallelSched
  simp only [sub_self, zero_div]
  rw [joinAll_spec _ integrate (fun j => trapezoid_thread_indeterminate f a (integrate j) fuel T j)]
  simp only [hs, Val.add_nonfin, Val.nonfin_add, Val.nonfin_mul, Val.nonfin_div]

theorem simpson_thread_indeterminate (f : ℚ → Val) (a : ℚ) (g : Val) (fuel T t : ℕ) :
    Indeterminate.SimpsonRule.nonAdaptiveThread g fuel f a a 0 T t = some g := by
  cases fuel <;> simp [Indeterminate.SimpsonRule.nonAdaptiveThread, SimpsonRule.threadLoop]

theorem simpson_par_indeterminate (f : ℚ → Val) (a : ℚ) (integrate : ℕ → Val) (fuel n T : ℕ)
    (sched : List ℕ) (i : ℕ) (hi : i ∈ sched) (hg : integrate i = Val.nonfin) :
    Indeterminate.SimpsonRule.nonAdaptiveParallelSched integrate fuel f a a n T sched = some Val.nonfin := by
  have hs : (sched.map integrate).sum = Val.nonfin :=
    Val.sum_nonfin_of_mem _ (List.mem_map.mpr ⟨i, hi, hg⟩)
  unfold Indeterminate.SimpsonRule.nonAdaptiveParallelSched
  simp only [sub_self, zero_div]
  rw [joinAll_spec _ integrate (fun j => simpson_thread_indeterminate f a (integrate j) fuel T j)]
  simp only [hs, Val.add_nonfin, Val.nonfin_add, Val.nonfin_mul, Val.nonfin_div]

theorem simpson38_thread_indeterminate (f : ℚ → Val) (a : ℚ) (g : Val) (fuel T t : ℕ) :
    Indeterminate.Simpson38Rule.nonAdaptiveThread g fuel f a a 0 T t = some g := by
  cases fuel <;> simp [Indeterminate.Simpson38Rule.nonAdaptiveThread, Simpson38Rule.threadLoop]

theorem simpson38_par_indeterminate (f : ℚ → Val) (a : ℚ) (integrate : ℕ → Val) (fuel n T : ℕ)
    (sched : List ℕ) (i : ℕ) (hi : i ∈ sched) (hg : integrate i = Val.nonfin) :
    Indeterminate.Simpson38Rule.nonAdaptiveParallelSched integrate fuel f a a n T sched = some Val.nonfin := by
  have hs : (sched.map integrate).sum = Val.nonfin :=
    Val.sum_nonfin_of_mem _ (List.mem_map.mpr ⟨i, hi, hg⟩)
  unfold Indeterminate.Simpson38Rule.nonAdaptiveParallelSched
  simp only [sub_self, zero_div]
  rw [joinAll_spec _ integrate (fun j => simpson38_thread_indeterminate f a (integrate j) fuel T j)]
  simp only [hs, Val.add_nonfin, Val.nonfin_add, Val.nonfin_mul, Val.nonfin_div]

theorem boole_thread_indeterminate (f : ℚ → Val) (a : ℚ) (g : Val) (fuel T t : ℕ) :
    Indeterminate.BoolesRule.nonAdaptiveThread g fuel f a a 0 T t = some g := by
  cases fuel <;> simp [Indeterminate.BoolesRule.nonAdaptiveThread, BoolesRule.threadLoop]

theorem boole_par_indeterminate (f : ℚ → Val) (a : ℚ) (integrate : ℕ → Val) (fuel n T : ℕ)
    (sched : List ℕ) (i : ℕ) (hi : i ∈ sched) (hg : integrate i = Val.nonfin) :
    Indeterminate.BoolesRule.nonAdaptiveParallelSched integrate fuel f a a n T sched = some Val.nonfin := by
  have hs : (sched.map integrate).sum = Val.nonfin :=
    Val.sum_nonfin_of_mem _ (List.mem_map.mpr ⟨i, hi, hg⟩)
  unfold Indeterminate.BoolesRule.nonAdaptiveParallelSched
  simp only [sub_self, zero_div]
  rw [joinAll_spec _ integrate (fun j => boole_thread_indeterminate f a (integrate j) fuel T j)]
  simp only [hs, Val.add_nonfin, Val.nonfin_add, Val.nonfin_mul, Val.nonfin_div]


/-- C14: `nonAdaptiveThread` declares `double integrate;` without an initialiser and
adds it to `*result`; with `b = a` the worker's loop does not run, so what it adds is
whatever the variable held. For each rule, every `f`, `a`, subdivision count `n` and
thread count `T`: if one of the workers `0 .. T - 1` finds a non-finite value (`NaN`,
`±inf`) in its `integrate`, `nonAdaptiveParallel(f, a, a, n, T)` returns a non-finite
value and not `0`; and when every worker finds `0` there, `nonAdaptiveParallel` is the
function of the same name with `integrate` starting at `0`. -/
theorem nonAdaptiveParallel_indeterminate_of_eq (f : ℚ → Val) (a : ℚ) (integrate : ℕ → Val)
    (fuel n T i : ℕ) (hi : i < T) (hg : integrate i = Val.nonfin) :
    (Indeterminate.TrapezoidRule.nonAdaptiveParallel integrate fuel f a a n T = some Val.nonfin
        ∧ Indeterminate.TrapezoidRule.nonAdaptiveParallel (fun _ => 0) fuel f a a n T
          = TrapezoidRule.nonAdaptiveParallel fuel f a a n T)
      ∧ (Indeterminate.SimpsonRule.nonAdaptiveParallel integrate fuel f a a n T
          = some Val.nonfin
        ∧ Indeterminate.SimpsonRule.nonAdaptiveParallel (fun _ => 0) fuel f a a n T
          = SimpsonRule.nonAdaptiveParallel fuel f a a n T)
      ∧ (Indeterminate.Simpson38Rule.nonAdaptiveParallel integrate fuel f a a n T
          = some Val.nonfin
        ∧ Indeterminate.Simpson38Rule.nonAdaptiveParallel (fun _ => 0) fuel f a a n T
          = Simpson38Rule.nonAdaptiveParallel fuel f a a n T)
      ∧ (Indeterminate.BoolesRule.nonAdaptiveParallel integrate fuel f a a n T
          = some Val.nonfin
        ∧ Indeterminate.BoolesRule.nonAdaptiveParallel (fun _ => 0) fuel f a a n T
          = BoolesRule.nonAdaptiveParallel fuel f a a n T) :=
  ⟨⟨trapezoid_par_indeterminate f a integrate fuel n T _ i (List.mem_range.mpr hi) hg, rfl⟩,
    ⟨simpson_par_indeterminate f a integrate fuel n T _ i (List.mem_range.mpr hi) hg, rfl⟩,
    ⟨simpson38_par_indeterminate f a integrate fuel n T _ i (List.mem_range.mpr hi) hg, rfl⟩,
    ⟨boole_par_indeterminate f a integrate fuel n T _ i (List.mem_range.mpr hi) hg, rfl⟩⟩

theorem nonAdaptiveParallel_indeterminate_of_eq_witness :
    0 < 1 ∧ (fun _ : ℕ => Val.nonfin) 0 = Val.nonfin
      ∧ Indeterminate.TrapezoidRule.nonAdaptiveParallel (fun _ => Val.nonfin) 0
          (fun _ => Val.fin 1) 0 0 1 1 = some Val.nonfin :=
  ⟨by decide, rfl,
    (nonAdaptiveParallel_indeterminate_of_eq (fun _ => Val.fin 1) 0 (fun _ => Val.nonfin)
      0 1 1 0 (by decide) rfl).1.1⟩

namespace Adaptive
open Val

theorem tiling_append (l1 l2 : List (ℚ × ℚ)) :
    ∀ a b : ℚ, Tiling (l1 ++ l2) a b ↔ ∃ c, Tiling l1 a c ∧ Tiling l2 c b := by
  induction l1 with
  | nil =>
    intro a b
    simp only [List.nil_append, Tiling]
    constructor
    · intro h; exact ⟨a, rfl, h⟩
    · rintro ⟨c, rfl, h⟩; exact h
  | cons p rest ih =>
    intro a b
    change (p.1 = a ∧ p.1 < p.2 ∧ Tiling (rest ++ l2) p.2 b)
      ↔ ∃ c, (p.1 = a ∧ p.1 < p.2 ∧ Tiling rest p.2 c) ∧ Tiling l2 c b
    rw [ih]
    constructor
    · rintro ⟨h1, h2, c, h3, h4⟩; exact ⟨c, ⟨h1, h2, h3⟩, h4⟩
    · rintro ⟨c, ⟨h1, h2, h3⟩, h4⟩; exact ⟨h1, h2, c, h3, h4⟩

theorem partitions_split (X : List (ℚ × ℚ)) (a b x y z : ℚ) (hxy : x < y) (hyz : y < z)
    (hp : Partitions ((x, z) :: X) a b) : Partitions ((x, y) :: (y, z) :: X) a b := by
  obtain ⟨l, hl, ht⟩ := hp
  have hmem : (x, z) ∈ l := hl.mem_iff.mpr (List.mem_cons_self _ _)
  obtain ⟨l1, l2, rfl⟩ := List.append_of_mem hmem
  obtain ⟨c, hc1, hc2⟩ := (tiling_append l1 _ a b).mp ht
  obtain ⟨h1, _, h3⟩ := hc2
  simp only at h1 h3
  refine ⟨l1 ++ (x, y) :: (y, z) :: l2, ?_, ?_⟩
  · have h12 : (l1 ++ l2).Perm X :=
      List.Perm.cons_inv ((List.perm_middle.symm).trans hl)
    have e1 : (l1 ++ (x, y) :: (y, z) :: l2).Perm ((x, y) :: (l1 ++ (y, z) :: l2)) :=
      List.perm_middle
    have e2 : (l1 ++ (y, z) :: l2).Perm ((y, z) :: (l1 ++ l2)) := List.perm_middle
    exact e1.trans ((e2.trans (h12.cons _)).cons _)
  · exact (tiling_append l1 _ a b).mpr ⟨c, hc1, h1, hxy, rfl, hyz, h3⟩

end Adaptive

/-! The partition invariant of the adaptive loop -/

namespace Adaptive
open Val

theorem pass_nil {I : Type} (R : Rule I) (f : ℚ → Val) (error : ℚ) (ms : ℕ) (mt : ℤ) (t : ℚ)
    (s : State I) (h : s.intervals = []) : pass R f error ms mt t s = s := by
  obtain ⟨q, result, subs, se, te⟩ := s
  simp only at h
  subst h
  rfl

theorem loop_eq_passes {I : Type} (R : Rule I) (f : ℚ → Val) (error : ℚ) (ms : ℕ) (mt : ℤ)
    (elapsed : ℕ → ℚ) :
    ∀ (fuel i : ℕ) (s s' : State I), loop R f error ms mt elapsed fuel i s = some s' →
      ∃ j, s' = passes R f error ms mt elapsed j i s ∧ s'.intervals = [] := by
  intro fuel
  induction fuel with
  | zero =>
    intro i s s' h
    cases hq : s.intervals with
    | nil =>
      rw [loop_nil R f error ms mt elapsed _ i s hq] at h
      cases h
      exact ⟨0, rfl, hq⟩
    | cons node rest => simp [loop, hq] at h
  | succ fuel ih =>
    intro i s s' h
    cases hq : s.intervals with
    | nil =>
      rw [loop_nil R f error ms mt elapsed _ i s hq] at h
      cases h
      exact ⟨0, rfl, hq⟩
    | cons node rest =>
      rw [loop_cons R f error ms mt elapsed fuel i s node rest hq] at h
      obtain ⟨j, h1, h2⟩ := ih (i + 1) _ s' h
      exact ⟨j + 1, h1, h2⟩

end Adaptive

/-! The four rules halve well-formed intervals -/

namespace TrapezoidRule

theorem trapezoid_halves (f : ℚ → Val) (x : interval) (hx : x.a < x.b) :
    rule.a x < rule.b x ∧ rule.a (rule.getLeftRight x f).left = rule.a x
      ∧ rule.b (rule.getLeftRight x f).right = rule.b x
      ∧ rule.b (rule.getLeftRight x f).left = rule.a (rule.getLeftRight x f).right
      ∧ (rule.getLeftRight x f).left.a < (rule.getLeftRight x f).left.b
      ∧ (rule.getLeftRight x f).right.a < (rule.getLeftRight x f).right.b := by
  refine ⟨hx, rfl, rfl, rfl, ?_, ?_⟩
  · show x.a < (x.a + x.b) / 2
    linarith
  · show (x.a + x.b) / 2 < x.b
    linarith

end TrapezoidRule

namespace SimpsonRule

theorem simpson_halves (f : ℚ → Val) (x : interval)
    (hx : x.a < x.b ∧ x.m = (x.a + x.b) / 2) :
    rule.a x < rule.b x ∧ rule.a (rule.getLeftRight x f).left = rule.a x
      ∧ rule.b (rule.getLeftRight x f).right = rule.b x
      ∧ rule.b (rule.getLeftRight x f).left = rule.a (rule.getLeftRight x f).right
      ∧ ((rule.getLeftRight x f).left.a < (rule.getLeftRight x f).left.b
        ∧ (rule.getLeftRight x f).left.m
          = ((rule.getLeftRight x f).left.a + (rule.getLeftRight x f).left.b) / 2)
      ∧ ((rule.getLeftRight x f).right.a < (rule.getLeftRight x f).right.b
        ∧ (rule.getLeftRight x f).right.m
          = ((rule.getLeftRight x f).right.a + (rule.getLeftRight x f).right.b) / 2) := by
  obtain ⟨h1, h2⟩ := hx
  refine ⟨h1, rfl, rfl, rfl, ⟨?_, rfl⟩, ⟨?_, rfl⟩⟩
  · show x.a < x.m
    rw [h2]; linarith
  · show x.m < x.b
    rw [h2]; linarith

end SimpsonRule

namespace Simpson38Rule

theorem simpson38_halves (f : ℚ → Val) (x : interval) (hx : x.a < x.b) :
    rule.a x < rule.b x ∧ rule.a (rule.getLeftRight x f).left = rule.a x
      ∧ rule.b (rule.getLeftRight x f).right = rule.b x
      ∧ rule.b (rule.getLeftRight x f).left = rule.a (rule.getLeftRight x f).right
      ∧ (rule.getLeftRight x f).left.a < (rule.getLeftRight x f).left.b
      ∧ (rule.getLeftRight x f).right.a < (rule.getLeftRight x f).right.b := by
  refine ⟨hx, rfl, rfl, rfl, ?_, ?_⟩
  · show x.a < (x.a + x.b) / 2
    linarith
  · show (x.a + x.b) / 2 < x.b
    linarith

end Simpson38Rule

namespace BoolesRule

theorem boole_halves (f : ℚ → Val) (x : interval)
    (hx : x.a < x.b ∧ x.m = (x.a + x.b) / 2) :
    rule.a x < rule.b x ∧ rule.a (rule.getLeftRight x f).left = rule.a x
      ∧ rule.b (rule.getLeftRight x f).right = rule.b x
      ∧ rule.b (rule.getLeftRight x f).left = rule.a (rule.getLeftRight x f).right
      ∧ ((rule.getLeftRight x f).left.a < (rule.getLeftRight x f).left.b
        ∧ (rule.getLeftRight x f).left.m
          = ((rule.getLeftRight x f).left.a + (rule.getLeftRight x f).left.b) / 2)
      ∧ ((rule.getLeftRight x f).right.a < (rule.getLeftRight x f).right.b
        ∧ (rule.getLeftRight x f).right.m
          = ((rule.getLeftRight x f).right.a + (rule.getLeftRight x f).right.b) / 2) := by
  obtain ⟨h1, h2⟩ := hx
  refine ⟨h1, rfl, rfl, rfl, ⟨?_, ?_⟩, ⟨?_, ?_⟩⟩
  · show x.a < x.m
    rw [h2]; linarith
  · show x.a + (x.b - x.a) / 4 = (x.a + x.m) / 2
    rw [h2]; ring
  · show x.m < x.b
    rw [h2]; linarith
  · show x.b - (x.b - x.a) / 4 = (x.m + x.b) / 2
    rw [h2]; ring

end BoolesRule

namespace Adaptive
open Val

end Adaptive

theorem Val.mul_comm_val (u v : Val) : u * v = v * u := by
  cases u <;> cases v <;>
    first
      | rfl
      | exact congrArg Val.fin (mul_comm _ _)

theorem sum_interior_shift (g : ℕ → Val) (T m t : ℕ) (ht : t < T) :
    ∑ k in (Finset.Ico 1 (m + 1)).filter (fun k => k % T = (t + 1) % T), g k
      = ∑ j in (Finset.range m).filter (fun j => j % T = t), g (j + 1) := by
  refine Finset.sum_nbij' (fun k => k - 1) (fun j => j + 1) ?_ ?_ ?_ ?_ ?_
  · intro k hk
    simp only [Finset.mem_filter, Finset.mem_Ico, Finset.mem_range] at hk ⊢
    obtain ⟨⟨h1, h2⟩, h3⟩ := hk
    refine ⟨by omega, ?_⟩
    have hk1 : k = (k - 1) + 1 := by omega
    rw [hk1] at h3
    have := Nat.ModEq.add_right_cancel' 1 h3
    rw [Nat.ModEq, Nat.mod_eq_of_lt ht] at this
    exact this
  · intro j hj
    simp only [Finset.mem_filter, Finset.mem_Ico, Finset.mem_range] at hj ⊢
    obtain ⟨h1, h2⟩ := hj
    refine ⟨by omega, ?_⟩
    have : j ≡ t [MOD T] := by rw [Nat.ModEq, h2, Nat.mod_eq_of_lt ht]
    exact Nat.ModEq.add_right 1 this
  · intro k hk
    simp only [Finset.mem_filter, Finset.mem_Ico] at hk
    show k - 1 + 1 = k
    omega
  · intro j _
    rfl
  · intro k hk
    simp only [Finset.mem_filter, Finset.mem_Ico] at hk
    have hk1 : k - 1 + 1 = k := by omega
    show g k = g (k - 1 + 1)
    rw [hk1]

namespace TrapezoidRule
open Val

theorem trapezoid_threadLoop_spec (f : ℚ → Val) (a b w : ℚ) (m T : ℕ) (hw : 0 < w)
    (hb : b = a + ((m : ℚ) + 1) * w) (hT : 0 < T) :
    ∀ (fuel k : ℕ) (acc : Val), m ≤ k + fuel * T →
      threadLoop f b w T fuel (a + ((k : ℚ) + 1) * w) acc
        = some (acc + ∑ j in (Finset.Ico k m).filter (fun j => j % T = k % T),
            findVal f (a + (((j + 1 : ℕ) : ℚ)) * w) w) := by
  intro fuel
  induction fuel with
  | zero =>
    intro k acc hk
    have hkm : (m : ℚ) ≤ k := by exact_mod_cast (by omega : m ≤ k)
    have hc : ¬ (a + ((k : ℚ) + 1) * w < b) := by
      rw [hb]; nlinarith
    rw [threadLoop, if_neg hc, sum_stride_empty _ _ _ _ (by omega), add_zero]
  | succ fuel ih =>
    intro k acc hk
    by_cases hlt : k < m
    · have hkm : (k : ℚ) + 1 ≤ m := by exact_mod_cast (by omega : k + 1 ≤ m)
      have hc : a + ((k : ℚ) + 1) * w < b := by
        rw [hb]; nlinarith
      have hx1 : a + ((k : ℚ) + 1) * w + (T : ℚ) * w = a + (((k + T : ℕ) : ℚ) + 1) * w := by
        push_cast; ring
      rw [threadLoop, if_pos hc]
      simp only [hx1]
      rw [ih (k + T) _ (by rw [Nat.succ_mul] at hk; omega),
        sum_stride_step (fun j => findVal f (a + (((j + 1 : ℕ) : ℚ)) * w) w) _ _ _ hT hlt]
      simp only [add_assoc, Nat.cast_add, Nat.cast_one]
    · have hkm : (m : ℚ) ≤ k := by exact_mod_cast (by omega : m ≤ k)
      have hc : ¬ (a + ((k : ℚ) + 1) * w < b) := by
        rw [hb]; nlinarith
      rw [threadLoop, if_neg hc, sum_stride_empty _ _ _ _ (by omega), add_zero]

theorem trapezoid_thread_value (f : ℚ → Val) (a b w : ℚ) (m T fuel t : ℕ) (hw : 0 < w)
    (hb : b = a + ((m : ℚ) + 1) * w) (hT : 0 < T) (hfuel : m ≤ fuel) :
    nonAdaptiveThread fuel f a b w T t
      = some (∑ j in (Finset.Ico t m).filter (fun j => j % T = t % T),
          findVal f (a + (((j + 1 : ℕ) : ℚ)) * w) w) := by
  have hx : a + w * ((t : ℚ) + 1) = a + ((t : ℚ) + 1) * w := by ring
  have hf : m ≤ t + fuel * T := le_trans hfuel (le_trans (Nat.le_mul_of_pos_right fuel hT)
    (Nat.le_add_left _ _))
  unfold nonAdaptiveThread
  rw [hx, trapezoid_threadLoop_spec f a b w m T hw hb hT fuel t 0 hf, zero_add]

theorem trapezoid_par_value (f : ℚ → Val) (a b : ℚ) (m T fuel : ℕ) (sched : List ℕ)
    (hab : a < b) (hT : 0 < T) (hfuel : m ≤ fuel) (hs : sched.Perm (List.range T)) :
    nonAdaptiveParallelSched fuel f a b (m + 1) T sched
      = some (fin ((b - a) / ((m + 1 : ℕ) : ℚ)) *
          (fin (1 / 2) * findVal f a ((b - a) / ((m + 1 : ℕ) : ℚ))
            + ∑ k in Finset.Ico 1 (m + 1),
                findVal f (a + (k : ℚ) * ((b - a) / ((m + 1 : ℕ) : ℚ)))
                  ((b - a) / ((m + 1 : ℕ) : ℚ))
            + fin (1 / 2) * findVal f b ((b - a) / ((m + 1 : ℕ) : ℚ)))) := by
  obtain ⟨hwpos, hb⟩ := grid_facts a b m hab
  generalize hwd : (b - a) / ((m + 1 : ℕ) : ℚ) = w at hwpos hb ⊢
  have h05 : (0.5 : ℚ) = 1 / 2 := by norm_num
  unfold nonAdaptiveParallelSched
  simp only [hwd]
  rw [joinAll_spec _ _ (fun t => trapezoid_thread_value f a b w m T fuel t hwpos hb hT hfuel),
    sum_sched _ T sched hs,
    sum_threads (fun j => findVal f (a + (((j + 1 : ℕ) : ℚ)) * w) w) T m hT]
  simp only [zero_add, h05]
  rw [mul_comm_val, Finset.sum_Ico_eq_sum_range]
  simp only [Nat.add_sub_cancel, Nat.add_comm 1]

/-- C30: in exact arithmetic, with every worker's partial sum starting at `0` and the
partial sums added in any order `sched` of the workers `0 .. T-1`, for `a < b`,
`n ≥ 1` and `T ≥ 1` (and fuel for the loop passes) `TrapezoidRule::nonAdaptiveParallel`
returns `w * (s(a)/2 + Σ_{k=1}^{n-1} s(a+k*w) + s(b)/2)` with `w = (b-a)/n` and
`s(x) = findVal(f, x, w)`; worker `t` adds exactly the interior grid points `k`,
`1 ≤ k < n`, with `k ≡ t+1 (mod T)`. -/
theorem trapezoid_nonAdaptiveParallel_eq_composite (f : ℚ → Val) (a b : ℚ)
    (n T fuel : ℕ) (sched : List ℕ) (hab : a < b) (hn : 1 ≤ n) (hT : 1 ≤ T)
    (hfuel : n ≤ fuel) (hs : sched.Perm (List.range T)) :
    nonAdaptiveParallelSched fuel f a b n T sched
        = some (fin ((b - a) / n) *
            (fin (1 / 2) * findVal f a ((b - a) / n)
              + ∑ k in Finset.Ico 1 n, findVal f (a + (k : ℚ) * ((b - a) / n)) ((b - a) / n)
              + fin (1 / 2) * findVal f b ((b - a) / n)))
      ∧ nonAdaptiveParallel fuel f a b n T
        = some (fin ((b - a) / n) *
            (fin (1 / 2) * findVal f a ((b - a) / n)
              + ∑ k in Finset.Ico 1 n, findVal f (a + (k : ℚ) * ((b - a) / n)) ((b - a) / n)
              + fin (1 / 2) * findVal f b ((b - a) / n)))
      ∧ ∀ t, t < T →
          nonAdaptiveThread fuel f a b ((b - a) / n) T t
            = some (∑ k in (Finset.Ico 1 n).filter (fun k => k % T = (t + 1) % T),
                findVal f (a + (k : ℚ) * ((b - a) / n)) ((b - a) / n)) := by
  obtain ⟨m, rfl⟩ : ∃ m, n = m + 1 := ⟨n - 1, by omega⟩
  refine ⟨trapezoid_par_value f a b m T fuel sched hab hT (by omega) hs, ?_, ?_⟩
  · rw [nonAdaptiveParallel]
    exact trapezoid_par_value f a b m T fuel _ hab hT (by omega) (List.Perm.refl _)
  · intro t ht
    obtain ⟨hwpos, hb⟩ := grid_facts a b m hab
    rw [trapezoid_thread_value f a b _ m T fuel t hwpos hb hT (by omega),
      stride_filter_eq _ T m t ht,
      sum_interior_shift (fun k => findVal f (a + (k : ℚ) * ((b - a) / ((m + 1 : ℕ) : ℚ)))
        ((b - a) / ((m + 1 : ℕ) : ℚ))) T m t ht]

theorem trapezoid_nonAdaptiveParallel_eq_composite_witness :
    (0 : ℚ) < 1 ∧ 1 ≤ 3 ∧ 1 ≤ 2 ∧ [1, 0].Perm (List.range 2)
      ∧ nonAdaptiveParallelSched 3 (fun x => fin (x * x)) 0 1 3 2 [1, 0]
        = some (fin (19 / 54)) := by
  refine ⟨by norm_num, by norm_num, by norm_num, by decide, ?_⟩
  rw [(trapezoid_nonAdaptiveParallel_eq_composite (fun x => fin (x * x)) 0 1 3 2 3 [1, 0]
    (by norm_num) (by norm_num) (by norm_num) (le_refl 3) (by decide)).1]
  simp only [findVal_fin, Finset.sum_Ico_eq_sum_range, Finset.sum_range_succ,
    Finset.sum_range_zero, fin_mul_fin, fin_add_fin, zero_def]
  norm_num

end TrapezoidRule
/-! What `getLeftRight` hands back -/

/-- C22, amended: in exact arithmetic, `getLeftRight` of each rule, on an interval with
`a < b` (for Simpson and Boole also `m = (a+b)/2`), returns a left child spanning
`[a, c]` and a right child spanning `[c, b]` with `c = (a+b)/2`; `left.fa` is the parent's `fa`, `right.fb` the
parent's `fb`, and `left.fb` and `right.fa` are the same sample at `c`: a fresh
`findVal(f, c, b - a)` for Trapezoid and Simpson 3/8, the parent's `fm` for Simpson and
Boole, whose children carry as `m` the midpoint of their own end points and as `fm` a
fresh sample there. Both children are again well formed. -/
theorem getLeftRight_halves (f : ℚ → Val) (t : TrapezoidRule.interval)
    (s : SimpsonRule.interval) (e : Simpson38Rule.interval) (o : BoolesRule.interval)
    (ht : t.a < t.b) (hs : s.a < s.b ∧ s.m = (s.a + s.b) / 2) (he : e.a < e.b)
    (ho : o.a < o.b ∧ o.m = (o.a + o.b) / 2) :
    ((TrapezoidRule.getLeftRight t f).left
          = ⟨t.a, (t.a + t.b) / 2, t.fa, findVal f ((t.a + t.b) / 2) (t.b - t.a)⟩
        ∧ (TrapezoidRule.getLeftRight t f).right
          = ⟨(t.a + t.b) / 2, t.b, findVal f ((t.a + t.b) / 2) (t.b - t.a), t.fb⟩
        ∧ (TrapezoidRule.getLeftRight t f).left.a < (TrapezoidRule.getLeftRight t f).left.b
        ∧ (TrapezoidRule.getLeftRight t f).right.a < (TrapezoidRule.getLeftRight t f).right.b)
      ∧ ((SimpsonRule.getLeftRight s f).left
          = ⟨s.a, (s.a + (s.a + s.b) / 2) / 2, (s.a + s.b) / 2, s.fa,
              findVal f ((s.a + (s.a + s.b) / 2) / 2) (s.b - s.a), s.fm⟩
        ∧ (SimpsonRule.getLeftRight s f).right
          = ⟨(s.a + s.b) / 2, ((s.a + s.b) / 2 + s.b) / 2, s.b, s.fm,
              findVal f (((s.a + s.b) / 2 + s.b) / 2) (s.b - s.a), s.fb⟩
        ∧ (SimpsonRule.getLeftRight s f).left.a < (SimpsonRule.getLeftRight s f).left.b
        ∧ (SimpsonRule.getLeftRight s f).right.a < (SimpsonRule.getLeftRight s f).right.b)
      ∧ ((Simpson38Rule.getLeftRight e f).left
          = ⟨e.a, (e.a + e.b) / 2, e.fa, findVal f ((e.a + e.b) / 2) (e.b - e.a)⟩
        ∧ (Simpson38Rule.getLeftRight e f).right
          = ⟨(e.a + e.b) / 2, e.b, findVal f ((e.a + e.b) / 2) (e.b - e.a), e.fb⟩
        ∧ (Simpson38Rule.getLeftRight e f).left.a < (Simpson38Rule.getLeftRight e f).left.b
        ∧ (Simpson38Rule.getLeftRight e f).right.a
            < (Simpson38Rule.getLeftRight e f).right.b)
      ∧ ((BoolesRule.getLeftRight o f).left
          = ⟨o.a, (o.a + (o.a + o.b) / 2) / 2, (o.a + o.b) / 2, o.fa,
              findVal f ((o.a + (o.a + o.b) / 2) / 2) (o.b - o.a), o.fm⟩
        ∧ (BoolesRule.getLeftRight o f).right
          = ⟨(o.a + o.b) / 2, ((o.a + o.b) / 2 + o.b) / 2, o.b, o.fm,
              findVal f (((o.a + o.b) / 2 + o.b) / 2) (o.b - o.a), o.fb⟩
        ∧ (BoolesRule.getLeftRight o f).left.a < (BoolesRule.getLeftRight o f).left.b
        ∧ (BoolesRule.getLeftRight o f).right.a < (BoolesRule.getLeftRight o f).right.b) := by
  obtain ⟨hs1, hs2⟩ := hs
  obtain ⟨ho1, ho2⟩ := ho
  have ho3 : o.a + (o.b - o.a) / 4 = (o.a + (o.a + o.b) / 2) / 2 := by ring
  have ho4 : o.b - (o.b - o.a) / 4 = ((o.a + o.b) / 2 + o.b) / 2 := by ring
  refine ⟨⟨rfl, rfl, ?_, ?_⟩, ⟨?_, ?_, ?_, ?_⟩, ⟨rfl, rfl, ?_, ?_⟩, ⟨?_, ?_, ?_, ?_⟩⟩
  · show t.a < (t.a + t.b) / 2
    linarith
  · show (t.a + t.b) / 2 < t.b
    linarith
  · simp only [SimpsonRule.getLeftRight, hs2]
  · simp only [SimpsonRule.getLeftRight, hs2]
  · show s.a < s.m
    rw [hs2]; linarith
  · show s.m < s.b
    rw [hs2]; linarith
  · show e.a < (e.a + e.b) / 2
    linarith
  · show (e.a + e.b) / 2 < e.b
    linarith
  · simp only [BoolesRule.getLeftRight, ho2, ho3]
  · simp only [BoolesRule.getLeftRight, ho2, ho4]
  · show o.a < o.m
    rw [ho2]; linarith
  · show o.m < o.b
    rw [ho2]; linarith

theorem getLeftRight_halves_witness :
    (SimpsonRule.getLeftRight ⟨0, 1 / 2, 1, Val.fin 0, Val.fin (1 / 4), Val.fin 1⟩
        (fun x => Val.fin (x * x))).left
      = ⟨0, (0 + (0 + 1) / 2) / 2, (0 + 1) / 2, Val.fin 0,
          findVal (fun x => Val.fin (x * x)) ((0 + (0 + 1) / 2) / 2) (1 - 0),
          Val.fin (1 / 4)⟩ :=
  (getLeftRight_halves (fun x => Val.fin (x * x)) ⟨0, 1, Val.fin 0, Val.fin 1⟩
    ⟨0, 1 / 2, 1, Val.fin 0, Val.fin (1 / 4), Val.fin 1⟩ ⟨0, 1, Val.fin 0, Val.fin 1⟩
    ⟨0, 1 / 2, 1, Val.fin 0, Val.fin (1 / 4), Val.fin 1⟩
    (by norm_num) ⟨by norm_num, by norm_num⟩ (by norm_num) ⟨by norm_num, by norm_num⟩).2.1.1

namespace BoolesRule
open Val

theorem boole_quartic_panel (c0 c1 c2 c3 c4 u v : ℚ) :
    (v - u) / 90 * (7 * (c0 + c1 * u + c2 * u ^ 2 + c3 * u ^ 3 + c4 * u ^ 4)
        + 32 * (c0 + c1 * (u + (v - u) / 4) + c2 * (u + (v - u) / 4) ^ 2
            + c3 * (u + (v - u) / 4) ^ 3 + c4 * (u + (v - u) / 4) ^ 4)
        + 12 * (c0 + c1 * ((u + v) / 2) + c2 * ((u + v) / 2) ^ 2
            + c3 * ((u + v) / 2) ^ 3 + c4 * ((u + v) / 2) ^ 4)
        + 32 * (c0 + c1 * (v - (v - u) / 4) + c2 * (v - (v - u) / 4) ^ 2
            + c3 * (v - (v - u) / 4) ^ 3 + c4 * (v - (v - u) / 4) ^ 4)
        + 7 * (c0 + c1 * v + c2 * v ^ 2 + c3 * v ^ 3 + c4 * v ^ 4))
      = (c0 * v + c1 * v ^ 2 / 2 + c2 * v ^ 3 / 3 + c3 * v ^ 4 / 4 + c4 * v ^ 5 / 5)
        - (c0 * u + c1 * u ^ 2 / 2 + c2 * u ^ 3 / 3 + c3 * u ^ 4 / 4 + c4 * u ^ 5 / 5) := by
  ring

theorem boole_integral_quartic (c0 c1 c2 c3 c4 a b : ℝ) :
    ∫ x in a..b, (c0 + c1 * x + c2 * x ^ 2 + c3 * x ^ 3 + c4 * x ^ 4)
      = (c0 * b + c1 * b ^ 2 / 2 + c2 * b ^ 3 / 3 + c3 * b ^ 4 / 4 + c4 * b ^ 5 / 5)
        - (c0 * a + c1 * a ^ 2 / 2 + c2 * a ^ 3 / 3 + c3 * a ^ 4 / 4 + c4 * a ^ 5 / 5) := by
  have h1 : IntervalIntegrable (fun x : ℝ => c0 + c1 * x + c2 * x ^ 2 + c3 * x ^ 3)
      MeasureTheory.volume a b := Continuous.intervalIntegrable (by continuity) _ _
  have h2 : IntervalIntegrable (fun x : ℝ => c4 * x ^ 4) MeasureTheory.volume a b :=
    Continuous.intervalIntegrable (by continuity) _ _
  rw [intervalIntegral.integral_add h1 h2, Simpson38Rule.simpson38_integral_cubic]
  simp only [intervalIntegral.integral_const_mul, integral_pow]
  ring

/-- C23: in exact arithmetic, for a polynomial `f` of degree at most 4 and an interval
with `m = (a+b)/2`, `fa = f(a)`, `fm = f(m)`, `fb = f(b)` (in particular one with
`a < b`), the field `integrated` that `BoolesRule::getLeftRight` returns is a finite
value equal to the integral of `f` over `[a, b]`. -/
theorem boole_getLeftRight_quartic_exact (c0 c1 c2 c3 c4 : ℚ) (x : interval)
    (hm : x.m = (x.a + x.b) / 2)
    (hfa : x.fa = fin (c0 + c1 * x.a + c2 * x.a ^ 2 + c3 * x.a ^ 3 + c4 * x.a ^ 4))
    (hfm : x.fm = fin (c0 + c1 * x.m + c2 * x.m ^ 2 + c3 * x.m ^ 3 + c4 * x.m ^ 4))
    (hfb : x.fb = fin (c0 + c1 * x.b + c2 * x.b ^ 2 + c3 * x.b ^ 3 + c4 * x.b ^ 4)) :
    ∃ q : ℚ,
      (getLeftRight x
          (fun y => fin (c0 + c1 * y + c2 * y ^ 2 + c3 * y ^ 3 + c4 * y ^ 4))).integrated
          = fin q
        ∧ (q : ℝ) = ∫ y in (x.a : ℝ)..(x.b : ℝ),
            ((c0 : ℝ) + (c1 : ℝ) * y + (c2 : ℝ) * y ^ 2 + (c3 : ℝ) * y ^ 3 + (c4 : ℝ) * y ^ 4) := by
  refine ⟨(c0 * x.b + c1 * x.b ^ 2 / 2 + c2 * x.b ^ 3 / 3 + c3 * x.b ^ 4 / 4 + c4 * x.b ^ 5 / 5)
      - (c0 * x.a + c1 * x.a ^ 2 / 2 + c2 * x.a ^ 3 / 3 + c3 * x.a ^ 4 / 4
        + c4 * x.a ^ 5 / 5), ?_, ?_⟩
  · have hp := boole_quartic_panel c0 c1 c2 c3 c4 x.a x.b
    simp only [getLeftRight, hfa, hfm, hfb, hm,
      findVal_fin (fun y => c0 + c1 * y + c2 * y ^ 2 + c3 * y ^ 3 + c4 * y ^ 4),
      fin_mul_fin, fin_add_fin, hp]
  · rw [boole_integral_quartic]
    push_cast
    ring

theorem boole_getLeftRight_quartic_exact_witness :
    (1 / 2 : ℚ) = (0 + 1) / 2
      ∧ ∃ q : ℚ,
          (getLeftRight ⟨0, 1 / 2, 1, fin 0, fin (1 / 16), fin 1⟩
            (fun y => fin (0 + 0 * y + 0 * y ^ 2 + 0 * y ^ 3 + 1 * y ^ 4))).integrated = fin q
            ∧ (q : ℝ) = ∫ y in ((0 : ℚ) : ℝ)..((1 : ℚ) : ℝ),
                (((0 : ℚ) : ℝ) + ((0 : ℚ) : ℝ) * y + ((0 : ℚ) : ℝ) * y ^ 2
                  + ((0 : ℚ) : ℝ) * y ^ 3 + ((1 : ℚ) : ℝ) * y ^ 4) :=
  ⟨by norm_num,
    boole_getLeftRight_quartic_exact 0 0 0 0 1 ⟨0, 1 / 2, 1, fin 0, fin (1 / 16), fin 1⟩
      (by norm_num) (by norm_num [zero_def]) (by norm_num) (by norm_num)⟩

end BoolesRule
/-! The subdivision counter of `adaptiveNonParallel` -/

namespace Adaptive
open Val

theorem pass_count {I : Type} (R : Rule I) (f : ℚ → Val) (error : ℚ) (ms : ℕ) (mt : ℤ)
    (t : ℚ) (s : State I) (A : List (leftRightInterval I))
    (hc : s.subdivisions = A.length + s.intervals.length)
    (hr : s.result = (A.map (estimate R f)).sum) :
    (pass R f error ms mt t s).subdivisions
        = (A ++ acceptedIn R f error ms mt t s).length
          + (pass R f error ms mt t s).intervals.length
      ∧ (pass R f error ms mt t s).result
          = ((A ++ acceptedIn R f error ms mt t s).map (estimate R f)).sum := by
  obtain ⟨q, result, subs, se, te⟩ := s
  simp only at hc hr
  cases q with
  | nil =>
    have hp : pass R f error ms mt t ⟨[], result, subs, se, te⟩ = ⟨[], result, subs, se, te⟩ :=
      rfl
    have ha : acceptedIn R f error ms mt t ⟨[], result, subs, se, te⟩ = [] := rfl
    rw [hp, ha, List.append_nil]
    exact ⟨hc, hr⟩
  | cons node rest =>
    by_cases hacc : accepted R.errorOrder (R.b node.right - R.a node.left) error
        (R.getLeftRight node.left f).integrated (R.getLeftRight node.right f).integrated
        node.integrated (se || decide ((node :: rest).length > ms))
        (te || decide (t > (mt : ℚ)))
    · have hp := pass_of_accepted R f error ms mt t node rest result subs se te hacc
      have ha : acceptedIn R f error ms mt t ⟨node :: rest, result, subs, se, te⟩ = [node] := by
        simp only [acceptedIn, hp, List.length_cons, Nat.lt_succ_self, if_true]
      rw [hp, ha]
      refine ⟨?_, ?_⟩
      · simp only [List.length_append, List.length_cons, List.length_nil] at hc ⊢
        omega
      · simp only [hr, List.map_append, List.sum_append, List.map_cons, List.map_nil,
          List.sum_cons, List.sum_nil, add_zero]
    · have hp := pass_of_not_accepted R f error ms mt t node rest result subs se te hacc
      have ha : acceptedIn R f error ms mt t ⟨node :: rest, result, subs, se, te⟩ = [] := by
        simp only [acceptedIn, hp, List.length_append, List.length_cons, List.length_nil]
        rw [if_neg (by omega)]
      rw [hp, ha, List.append_nil]
      refine ⟨?_, hr⟩
      simp only [List.length_append, List.length_cons, List.length_nil] at hc ⊢
      omega

theorem passes_count {I : Type} (R : Rule I) (f : ℚ → Val) (error : ℚ) (ms : ℕ) (mt : ℤ)
    (elapsed : ℕ → ℚ) :
    ∀ (j i : ℕ) (s : State I) (A : List (leftRightInterval I)),
      s.subdivisions = A.length + s.intervals.length →
      s.result = (A.map (estimate R f)).sum →
      (passes R f error ms mt elapsed j i s).subdivisions
          = (A ++ acceptedNodes R f error ms mt elapsed j i s).length
            + (passes R f error ms mt elapsed j i s).intervals.length
        ∧ (passes R f error ms mt elapsed j i s).result
            = ((A ++ acceptedNodes R f error ms mt elapsed j i s).map (estimate R f)).sum := by
  intro j
  induction j with
  | zero =>
    intro i s A hc hr
    simp only [passes, acceptedNodes, List.append_nil]
    exact ⟨hc, hr⟩
  | succ j ih =>
    intro i s A hc hr
    obtain ⟨h1, h2⟩ := pass_count R f error ms mt (elapsed i) s A hc hr
    have := ih (i + 1) _ _ h1 h2
    simp only [passes, acceptedNodes]
    rw [List.append_assoc] at this
    exact this

theorem pass_subdivisions_mono {I : Type} (R : Rule I) (f : ℚ → Val) (error : ℚ) (ms : ℕ)
    (mt : ℤ) (t : ℚ) (s : State I) :
    s.subdivisions ≤ (pass R f error ms mt t s).subdivisions := by
  unfold pass
  split
  · exact le_refl _
  · simp only []
    split
    · exact le_refl _
    · exact Nat.le_succ _

theorem passes_subdivisions_mono {I : Type} (R : Rule I) (f : ℚ → Val) (error : ℚ) (ms : ℕ)
    (mt : ℤ) (elapsed : ℕ → ℚ) :
    ∀ (j i : ℕ) (s : State I),
      s.subdivisions ≤ (passes R f error ms mt elapsed j i s).subdivisions := by
  intro j
  induction j with
  | zero => intro i s; exact le_refl _
  | succ j ih =>
    intro i s
    exact le_trans (pass_subdivisions_mono R f error ms mt (elapsed i) s) (ih (i + 1) _)

theorem run_count {I : Type} (R : Rule I) (f : ℚ → Val) (error : ℚ) (ms : ℕ) (mt : ℤ)
    (elapsed : ℕ → ℚ) (whole : I) :
    (∀ j, (passes R f error ms mt elapsed j 0 (start R f whole)).subdivisions
          = (acceptedNodes R f error ms mt elapsed j 0 (start R f whole)).length
            + (passes R f error ms mt elapsed j 0 (start R f whole)).intervals.length
        ∧ 1 ≤ (passes R f error ms mt elapsed j 0 (start R f whole)).subdivisions
        ∧ (passes R f error ms mt elapsed j 0 (start R f whole)).result
            = ((acceptedNodes R f error ms mt elapsed j 0 (start R f whole)).map
                (estimate R f)).sum)
      ∧ ∀ fuel r n, run R fuel f whole error ms mt elapsed = some (r, n) →
          ∃ j, (passes R f error ms mt elapsed j 0 (start R f whole)).intervals = []
            ∧ n = (acceptedNodes R f error ms mt elapsed j 0 (start R f whole)).length
            ∧ 1 ≤ n
            ∧ r = ((acceptedNodes R f error ms mt elapsed j 0 (start R f whole)).map
                (estimate R f)).sum := by
  have hinv : ∀ j, (passes R f error ms mt elapsed j 0 (start R f whole)).subdivisions
          = (acceptedNodes R f error ms mt elapsed j 0 (start R f whole)).length
            + (passes R f error ms mt elapsed j 0 (start R f whole)).intervals.length
        ∧ 1 ≤ (passes R f error ms mt elapsed j 0 (start R f whole)).subdivisions
        ∧ (passes R f error ms mt elapsed j 0 (start R f whole)).result
            = ((acceptedNodes R f error ms mt elapsed j 0 (start R f whole)).map
                (estimate R f)).sum := by
    intro j
    have := passes_count R f error ms mt elapsed j 0 (start R f whole) [] rfl rfl
    simp only [List.nil_append] at this
    exact ⟨this.1, passes_subdivisions_mono R f error ms mt elapsed j 0 (start R f whole),
      this.2⟩
  refine ⟨hinv, ?_⟩
  intro fuel r n h
  unfold run at h
  simp only [] at h
  cases hl : loop R f error ms mt elapsed fuel 0
      ⟨[R.getLeftRight whole f], 0, 1, false, false⟩ with
  | none => rw [hl] at h; cases h
  | some s' =>
    rw [hl] at h
    simp only [Option.some.injEq, Prod.mk.injEq] at h
    obtain ⟨j, h1, h2⟩ := loop_eq_passes R f error ms mt elapsed fuel 0 _ s' hl
    obtain ⟨p1, p2, p3⟩ := hinv j
    have h1' : s' = passes R f error ms mt elapsed j 0 (start R f whole) := h1
    rw [← h1'] at p1 p2 p3
    rw [h2, List.length_nil, Nat.add_zero] at p1
    refine ⟨j, ?_, ?_, ?_, ?_⟩
    · rw [← h1']; exact h2
    · rw [← h.2, p1]
    · rw [← h.2]; exact p2
    · rw [← h.1, p3]

end Adaptive

/-- C27: in each rule's `adaptiveNonParallel`, after any number `j` of passes of the
loop `*subdivisions` equals the number of nodes accepted so far plus the number of
nodes in the queue, is at least 1, and `result` is the sum of the estimates of the
accepted nodes; so when the function returns `(r, n)` the loop has made some number
`j` of passes that emptied the queue, `n ≥ 1` is the number of nodes accepted in them
and `r` is the sum of their `n` two-panel estimates. -/
theorem adaptiveNonParallel_subdivisions_count (f : ℚ → Val) (a b error : ℚ)
    (max_subdivisions : ℕ) (max_time : ℤ) (elapsed : ℕ → ℚ) :
    ((∀ j, (Adaptive.passes TrapezoidRule.rule f error max_subdivisions max_time elapsed j 0
              (Adaptive.start TrapezoidRule.rule f
                ⟨a, b, findVal f a (b - a), findVal f b (b - a)⟩)).subdivisions
          = (Adaptive.acceptedNodes TrapezoidRule.rule f error max_subdivisions max_time
              elapsed j 0 (Adaptive.start TrapezoidRule.rule f
                ⟨a, b, findVal f a (b - a), findVal f b (b - a)⟩)).length
            + (Adaptive.passes TrapezoidRule.rule f error max_subdivisions max_time elapsed j 0
              (Adaptive.start TrapezoidRule.rule f
                ⟨a, b, findVal f a (b - a), findVal f b (b - a)⟩)).intervals.length
        ∧ 1 ≤ (Adaptive.passes TrapezoidRule.rule f error max_subdivisions max_time elapsed j 0
              (Adaptive.start TrapezoidRule.rule f
                ⟨a, b, findVal f a (b - a), findVal f b (b - a)⟩)).subdivisions
        ∧ (Adaptive.passes TrapezoidRule.rule f error max_subdivisions max_time elapsed j 0
              (Adaptive.start TrapezoidRule.rule f
                ⟨a, b, findVal f a (b - a), findVal f b (b - a)⟩)).result
          = ((Adaptive.acceptedNodes TrapezoidRule.rule f error max_subdivisions max_time
              elapsed j 0 (Adaptive.start TrapezoidRule.rule f
                ⟨a, b, findVal f a (b - a), findVal f b (b - a)⟩)).map
              (Adaptive.estimate TrapezoidRule.rule f)).sum)
      ∧ ∀ fuel r n,
          TrapezoidRule.adaptiveNonParallel fuel f a b error max_subdivisions max_time elapsed
            = some (r, n) →
          ∃ j, (Adaptive.passes TrapezoidRule.rule f error max_subdivisions max_time elapsed j 0
                (Adaptive.start TrapezoidRule.rule f
                  ⟨a, b, findVal f a (b - a), findVal f b (b - a)⟩)).intervals = []
            ∧ n = (Adaptive.acceptedNodes TrapezoidRule.rule f error max_subdivisions max_time
                elapsed j 0 (Adaptive.start TrapezoidRule.rule f
                  ⟨a, b, findVal f a (b - a), findVal f b (b - a)⟩)).length
            ∧ 1 ≤ n
            ∧ r = ((Adaptive.acceptedNodes TrapezoidRule.rule f error max_subdivisions max_time
                elapsed j 0 (Adaptive.start TrapezoidRule.rule f
                  ⟨a, b, findVal f a (b - a), findVal f b (b - a)⟩)).map
                (Adaptive.estimate TrapezoidRule.rule f)).sum)
    ∧ ((∀ j, (Adaptive.passes SimpsonRule.rule f error max_subdivisions max_time elapsed j 0
              (Adaptive.start SimpsonRule.rule f
                ⟨a, (a + b) / 2, b, findVal f a (b - a), findVal f ((a + b) / 2) (b - a),
                  findVal f b (b - a)⟩)).subdivisions
          = (Adaptive.acceptedNodes SimpsonRule.rule f error max_subdivisions max_time
              elapsed j 0 (Adaptive.start SimpsonRule.rule f
                ⟨a, (a + b) / 2, b, findVal f a (b - a), findVal f ((a + b) / 2) (b - a),
                  findVal f b (b - a)⟩)).length
            + (Adaptive.passes SimpsonRule.rule f error max_subdivisions max_time elapsed j 0
              (Adaptive.start SimpsonRule.rule f
                ⟨a, (a + b) / 2, b, findVal f a (b - a), findVal f ((a + b) / 2) (b - a),
                  findVal f b (b - a)⟩)).intervals.length
        ∧ 1 ≤ (Adaptive.passes SimpsonRule.rule f error max_subdivisions max_time elapsed j 0
              (Adaptive.start SimpsonRule.rule f
                ⟨a, (a + b) / 2, b, findVal f a (b - a), findVal f ((a + b) / 2) (b - a),
                  findVal f b (b - a)⟩)).subdivisions
        ∧ (Adaptive.passes SimpsonRule.rule f error max_subdivisions max_time elapsed j 0
              (Adaptive.start SimpsonRule.rule f
                ⟨a, (a + b) / 2, b, findVal f a (b - a), findVal f ((a + b) / 2) (b - a),
                  findVal f b (b - a)⟩)).result
          = ((Adaptive.acceptedNodes SimpsonRule.rule f error max_subdivisions max_time
              elapsed j 0 (Adaptive.start SimpsonRule.rule f
                ⟨a, (a + b) / 2, b, findVal f a (b - a), findVal f ((a + b) / 2) (b - a),
                  findVal f b (b - a)⟩)).map
              (Adaptive.estimate SimpsonRule.rule f)).sum)
      ∧ ∀ fuel r n,
          SimpsonRule.adaptiveNonParallel fuel f a b error max_subdivisions max_time elapsed
            = some (r, n) →
          ∃ j, (Adaptive.passes SimpsonRule.rule f error max_subdivisions max_time elapsed j 0
                (Adaptive.start SimpsonRule.rule f
                  ⟨a, (a + b) / 2, b, findVal f a (b - a), findVal f ((a + b) / 2) (b - a),
                    findVal f b (b - a)⟩)).intervals = []
            ∧ n = (Adaptive.acceptedNodes SimpsonRule.rule f error max_subdivisions max_time
                elapsed j 0 (Adaptive.start SimpsonRule.rule f
                  ⟨a, (a + b) / 2, b, findVal f a (b - a), findVal f ((a + b) / 2) (b - a),
                    findVal f b (b - a)⟩)).length
            ∧ 1 ≤ n
            ∧ r = ((Adaptive.acceptedNodes SimpsonRule.rule f error max_subdivisions max_time
                elapsed j 0 (Adaptive.start SimpsonRule.rule f
                  ⟨a, (a + b) / 2, b, findVal f a (b - a), findVal f ((a + b) / 2) (b - a),
                    findVal f b (b - a)⟩)).map
                (Adaptive.estimate SimpsonRule.rule f)).sum)
    ∧ ((∀ j, (Adaptive.passes Simpson38Rule.rule f error max_subdivisions max_time elapsed j 0
              (Adaptive.start Simpson38Rule.rule f
                ⟨a, b, findVal f a (b - a), findVal f b (b - a)⟩)).subdivisions
          = (Adaptive.acceptedNodes Simpson38Rule.rule f error max_subdivisions max_time
              elapsed j 0 (Adaptive.start Simpson38Rule.rule f
                ⟨a, b, findVal f a (b - a), findVal f b (b - a)⟩)).length
            + (Adaptive.passes Simpson38Rule.rule f error max_subdivisions max_time elapsed j 0
              (Adaptive.start Simpson38Rule.rule f
                ⟨a, b, findVal f a (b - a), findVal f b (b - a)⟩)).intervals.length
        ∧ 1 ≤ (Adaptive.passes Simpson38Rule.rule f error max_subdivisions max_time elapsed j 0
              (Adaptive.start Simpson38Rule.rule f
                ⟨a, b, findVal f a (b - a), findVal f b (b - a)⟩)).subdivisions
        ∧ (Adaptive.passes Simpson38Rule.rule f error max_subdivisions max_time elapsed j 0
              (Adaptive.start Simpson38Rule.rule f
                ⟨a, b, findVal f a (b - a), findVal f b (b - a)⟩)).result
          = ((Adaptive.acceptedNodes Simpson38Rule.rule f error max_subdivisions max_time
              elapsed j 0 (Adaptive.start Simpson38Rule.rule f
                ⟨a, b, findVal f a (b - a), findVal f b (b - a)⟩)).map
              (Adaptive.estimate Simpson38Rule.rule f)).sum)
      ∧ ∀ fuel r n,
          Simpson38Rule.adaptiveNonParallel fuel f a b error max_subdivisions max_time elapsed
            = some (r, n) →
          ∃ j, (Adaptive.passes Simpson38Rule.rule f error max_subdivisions max_time elapsed j 0
                (Adaptive.start Simpson38Rule.rule f
                  ⟨a, b, findVal f a (b - a), findVal f b (b - a)⟩)).intervals = []
            ∧ n = (Adaptive.acceptedNodes Simpson38Rule.rule f error max_subdivisions max_time
                elapsed j 0 (Adaptive.start Simpson38Rule.rule f
                  ⟨a, b, findVal f a (b - a), findVal f b (b - a)⟩)).length
            ∧ 1 ≤ n
            ∧ r = ((Adaptive.acceptedNodes Simpson38Rule.rule f error max_subdivisions max_time
                elapsed j 0 (Adaptive.start Simpson38Rule.rule f
                  ⟨a, b, findVal f a (b - a), findVal f b (b - a)⟩)).map
                (Adaptive.estimate Simpson38Rule.rule f)).sum)
    ∧ ((∀ j, (Adaptive.passes BoolesRule.rule f error max_subdivisions max_time elapsed j 0
              (Adaptive.start BoolesRule.rule f
                ⟨a, (a + b) / 2, b, findVal f a (b - a), findVal f ((a + b) / 2) (b - a),
                  findVal f b (b - a)⟩)).subdivisions
          = (Adaptive.acceptedNodes BoolesRule.rule f error max_subdivisions max_time
              elapsed j 0 (Adaptive.start BoolesRule.rule f
                ⟨a, (a + b) / 2, b, findVal f a (b - a), findVal f ((a + b) / 2) (b - a),
                  findVal f b (b - a)⟩)).length
            + (Adaptive.passes BoolesRule.rule f error max_subdivisions max_time elapsed j 0
              (Adaptive.start BoolesRule.rule f
                ⟨a, (a + b) / 2, b, findVal f a (b - a), findVal f ((a + b) / 2) (b - a),
                  findVal f b (b - a)⟩)).intervals.length
        ∧ 1 ≤ (Adaptive.passes BoolesRule.rule f error max_subdivisions max_time elapsed j 0
              (Adaptive.start BoolesRule.rule f
                ⟨a, (a + b) / 2, b, findVal f a (b - a), findVal f ((a + b) / 2) (b - a),
                  findVal f b (b - a)⟩)).subdivisions
        ∧ (Adaptive.passes BoolesRule.rule f error max_subdivisions max_time elapsed j 0
              (Adaptive.start BoolesRule.rule f
                ⟨a, (a + b) / 2, b, findVal f a (b - a), findVal f ((a + b) / 2) (b - a),
                  findVal f b (b - a)⟩)).result
          = ((Adaptive.acceptedNodes BoolesRule.rule f error max_subdivisions max_time
              elapsed j 0 (Adaptive.start BoolesRule.rule f
                ⟨a, (a + b) / 2, b, findVal f a (b - a), findVal f ((a + b) / 2) (b - a),
                  findVal f b (b - a)⟩)).map
              (Adaptive.estimate BoolesRule.rule f)).sum)
      ∧ ∀ fuel r n,
          BoolesRule.adaptiveNonParallel fuel f a b error max_subdivisions max_time elapsed
            = some (r, n) →
          ∃ j, (Adaptive.passes BoolesRule.rule f error max_subdivisions max_time elapsed j 0
                (Adaptive.start BoolesRule.rule f
                  ⟨a, (a + b) / 2, b, findVal f a (b - a), findVal f ((a + b) / 2) (b - a),
                    findVal f b (b - a)⟩)).intervals = []
            ∧ n = (Adaptive.acceptedNodes BoolesRule.rule f error max_subdivisions max_time
                elapsed j 0 (Adaptive.start BoolesRule.rule f
                  ⟨a, (a + b) / 2, b, findVal f a (b - a), findVal f ((a + b) / 2) (b - a),
                    findVal f b (b - a)⟩)).length
            ∧ 1 ≤ n
            ∧ r = ((Adaptive.acceptedNodes BoolesRule.rule f error max_subdivisions max_time
                elapsed j 0 (Adaptive.start BoolesRule.rule f
                  ⟨a, (a + b) / 2, b, findVal f a (b - a), findVal f ((a + b) / 2) (b - a),
                    findVal f b (b - a)⟩)).map
                (Adaptive.estimate BoolesRule.rule f)).sum) :=
  ⟨Adaptive.run_count TrapezoidRule.rule f error max_subdivisions max_time elapsed _,
    Adaptive.run_count SimpsonRule.rule f error max_subdivisions max_time elapsed _,
    Adaptive.run_count Simpson38Rule.rule f error max_subdivisions max_time elapsed _,
    Adaptive.run_count BoolesRule.rule f error max_subdivisions max_time elapsed _⟩

theorem adaptiveNonParallel_subdivisions_count_witness :
    SimpsonRule.adaptiveNonParallel 1 (fun x => Val.fin (Simpson38Rule.cubic 0 0 1 0 x)) 0 1
        (1 / 100) 10 5 (fun _ => 0)
      = some (Val.fin (Simpson38Rule.cubicPrimitive 0 0 1 0 1
          - Simpson38Rule.cubicPrimitive 0 0 1 0 0), 1)
    ∧ ∃ j, (Adaptive.passes SimpsonRule.rule (fun x => Val.fin (Simpson38Rule.cubic 0 0 1 0 x))
          (1 / 100) 10 5 (fun _ => 0) j 0
          (Adaptive.start SimpsonRule.rule (fun x => Val.fin (Simpson38Rule.cubic 0 0 1 0 x))
            ⟨0, (0 + 1) / 2, 1,
              findVal (fun x => Val.fin (Simpson38Rule.cubic 0 0 1 0 x)) 0 (1 - 0),
              findVal (fun x => Val.fin (Simpson38Rule.cubic 0 0 1 0 x)) ((0 + 1) / 2) (1 - 0),
              findVal (fun x => Val.fin (Simpson38Rule.cubic 0 0 1 0 x)) 1 (1 - 0)⟩)).intervals
          = []
        ∧ 1 = (Adaptive.acceptedNodes SimpsonRule.rule
            (fun x => Val.fin (Simpson38Rule.cubic 0 0 1 0 x)) (1 / 100) 10 5 (fun _ => 0) j 0
            (Adaptive.start SimpsonRule.rule (fun x => Val.fin (Simpson38Rule.cubic 0 0 1 0 x))
              ⟨0, (0 + 1) / 2, 1,
                findVal (fun x => Val.fin (Simpson38Rule.cubic 0 0 1 0 x)) 0 (1 - 0),
                findVal (fun x => Val.fin (Simpson38Rule.cubic 0 0 1 0 x)) ((0 + 1) / 2) (1 - 0),
                findVal (fun x => Val.fin (Simpson38Rule.cubic 0 0 1 0 x)) 1 (1 - 0)⟩)).length :=
  ⟨SimpsonRule.simpson_adaptive_cubic 0 0 1 0 0 1 (1 / 100) 10 5 (fun _ => 0) 0
      (by norm_num) (by norm_num),
    (((adaptiveNonParallel_subdivisions_count
        (fun x => Val.fin (Simpson38Rule.cubic 0 0 1 0 x)) 0 1 (1 / 100) 10 5
        (fun _ => 0)).2.1.2 1 _ 1
      (SimpsonRule.simpson_adaptive_cubic 0 0 1 0 0 1 (1 / 100) 10 5 (fun _ => 0) 0
        (by norm_num) (by norm_num))).imp (fun _ h => ⟨h.1, h.2.1⟩))⟩
/-! A refinement that the subdivision ceiling does not stop -/

namespace TrapezoidRule
open Val

theorem findVal_stepAtOne (x w : ℚ) : findVal stepAtOne x w = stepAtOne x := by
  unfold findVal stepAtOne
  split_ifs <;> simp_all [isFinite]

theorem getLeftRight_stepAtOne_right (d : ℚ) (hd : 0 < d) :
    getLeftRight ⟨1 - d, 1, fin 0, fin 1⟩ stepAtOne
      = ⟨⟨1 - d, 1 - d / 2, fin 0, fin 0⟩, ⟨1 - d / 2, 1, fin 0, fin 1⟩, fin (d / 2)⟩ := by
  have hm : (1 - d + 1) / 2 = 1 - d / 2 := by ring
  have hlt : 1 - d / 2 < 1 := by linarith
  have hw : (1 - (1 - d)) / 2 * (0 + 1) = d / 2 := by ring
  simp only [getLeftRight, findVal_stepAtOne, hm, stepAtOne, if_pos hlt, fin_add_fin,
    fin_mul_fin, hw]

theorem getLeftRight_stepAtOne_zero (u v : ℚ) (huv : u < v) (hv : v ≤ 1) :
    getLeftRight ⟨u, v, fin 0, fin 0⟩ stepAtOne
      = ⟨⟨u, (u + v) / 2, fin 0, fin 0⟩, ⟨(u + v) / 2, v, fin 0, fin 0⟩, fin 0⟩ := by
  have hlt : (u + v) / 2 < 1 := by linarith
  have hw : (v - u) / 2 * (0 + 0) = 0 := by ring
  simp only [getLeftRight, findVal_stepAtOne, stepAtOne, if_pos hlt, fin_add_fin,
    fin_mul_fin, hw]

theorem stepAtOne_pass_split (d error : ℚ) (ms : ℕ) (mt : ℤ) (t : ℚ) (n : ℕ)
    (hd : 0 < d) (herr : error ≤ 1 / 12) (hms : 2 ≤ ms) (ht : t ≤ (mt : ℚ)) :
    Adaptive.pass rule stepAtOne error ms mt t
        ⟨[getLeftRight ⟨1 - d, 1, fin 0, fin 1⟩ stepAtOne], fin 0, n, false, false⟩
      = ⟨[getLeftRight ⟨1 - d, 1 - d / 2, fin 0, fin 0⟩ stepAtOne,
          getLeftRight ⟨1 - d / 2, 1, fin 0, fin 1⟩ stepAtOne], fin 0, n + 1, false, false⟩ := by
  have hse : (false || decide
      ([getLeftRight ⟨1 - d, 1, fin 0, fin 1⟩ stepAtOne].length > ms)) = false := by
    simp only [List.length_singleton, Bool.false_or, decide_eq_false_iff_not]
    omega
  have hte : (false || decide (t > (mt : ℚ))) = false := by
    simp only [Bool.false_or, decide_eq_false_iff_not]
    exact not_lt.mpr ht
  have hnode := getLeftRight_stepAtOne_right d hd
  have hL := getLeftRight_stepAtOne_zero (1 - d) (1 - d / 2) (by linarith) (by linarith)
  have hR := getLeftRight_stepAtOne_right (d / 2) (by linarith)
  have hna : ¬ Adaptive.accepted rule.errorOrder
      (rule.b (getLeftRight ⟨1 - d, 1, fin 0, fin 1⟩ stepAtOne).right
        - rule.a (getLeftRight ⟨1 - d, 1, fin 0, fin 1⟩ stepAtOne).left) error
      (rule.getLeftRight (getLeftRight ⟨1 - d, 1, fin 0, fin 1⟩ stepAtOne).left
        stepAtOne).integrated
      (rule.getLeftRight (getLeftRight ⟨1 - d, 1, fin 0, fin 1⟩ stepAtOne).right
        stepAtOne).integrated
      (getLeftRight ⟨1 - d, 1, fin 0, fin 1⟩ stepAtOne).integrated
      (false || decide ([getLeftRight ⟨1 - d, 1, fin 0, fin 1⟩ stepAtOne].length > ms))
      (false || decide (t > (mt : ℚ))) := by
    rw [hse, hte]
    simp only [hnode, rule, hL, hR]
    rintro (⟨l, r, p, h1, h2, h3, h4⟩ | h | h)
    · simp only [fin.injEq] at h1 h2 h3
      subst h1 h2 h3
      have e : |(0 : ℚ) + d / 2 / 2 - d / 2| = d / 4 := by
        rw [abs_of_neg (by linarith)]; ring
      rw [e] at h4
      nlinarith
    · cases h
    · cases h
  have hp := Adaptive.pass_of_not_accepted rule stepAtOne error ms mt t _ [] (fin 0) n false
    false hna
  rw [hp, hse, hte]
  simp only [List.nil_append, hnode, rule]

theorem stepAtOne_pass_accept (d error : ℚ) (ms : ℕ) (mt : ℤ) (t : ℚ) (n : ℕ)
    (node : leftRightInterval) (hd : 0 < d) (herr : 0 < error) (hms : 2 ≤ ms)
    (ht : t ≤ (mt : ℚ)) :
    Adaptive.pass rule stepAtOne error ms mt t
        ⟨[getLeftRight ⟨1 - d, 1 - d / 2, fin 0, fin 0⟩ stepAtOne, node], fin 0, n, false,
          false⟩
      = ⟨[node], fin 0, n, false, false⟩ := by
  have hse : (false || decide
      ([getLeftRight ⟨1 - d, 1 - d / 2, fin 0, fin 0⟩ stepAtOne, node].length > ms))
        = false := by
    simp only [List.length_cons, List.length_nil, Bool.false_or, decide_eq_false_iff_not]
    omega
  have hte : (false || decide (t > (mt : ℚ))) = false := by
    simp only [Bool.false_or, decide_eq_false_iff_not]
    exact not_lt.mpr ht
  have hnode := getLeftRight_stepAtOne_zero (1 - d) (1 - d / 2) (by linarith) (by linarith)
  have hL := getLeftRight_stepAtOne_zero (1 - d) ((1 - d + (1 - d / 2)) / 2) (by linarith)
    (by linarith)
  have hR := getLeftRight_stepAtOne_zero ((1 - d + (1 - d / 2)) / 2) (1 - d / 2) (by linarith)
    (by linarith)
  have hacc : Adaptive.accepted rule.errorOrder
      (rule.b (getLeftRight ⟨1 - d, 1 - d / 2, fin 0, fin 0⟩ stepAtOne).right
        - rule.a (getLeftRight ⟨1 - d, 1 - d / 2, fin 0, fin 0⟩ stepAtOne).left) error
      (rule.getLeftRight (getLeftRight ⟨1 - d, 1 - d / 2, fin 0, fin 0⟩ stepAtOne).left
        stepAtOne).integrated
      (rule.getLeftRight (getLeftRight ⟨1 - d, 1 - d / 2, fin 0, fin 0⟩ stepAtOne).right
        stepAtOne).integrated
      (getLeftRight ⟨1 - d, 1 - d / 2, fin 0, fin 0⟩ stepAtOne).integrated
      (false || decide
        ([getLeftRight ⟨1 - d, 1 - d / 2, fin 0, fin 0⟩ stepAtOne, node].length > ms))
      (false || decide (t > (mt : ℚ))) := by
    simp only [hnode, rule, hL, hR]
    refine Or.inl ⟨0, 0, 0, rfl, rfl, rfl, ?_⟩
    have e : |(0 : ℚ) + 0 - 0| = 0 := by norm_num
    rw [e]
    have : 0 < 1 - d / 2 - (1 - d) := by linarith
    positivity
  have hp := Adaptive.pass_of_accepted rule stepAtOne error ms mt t _ [node] (fin 0) n false
    false hacc
  rw [hp, hse, hte]
  simp only [Adaptive.estimate, hnode, rule, hL, hR, fin_add_fin, add_zero]

theorem stepAtOne_passes (error : ℚ) (ms : ℕ) (mt : ℤ) (elapsed : ℕ → ℚ)
    (herr : 0 < error) (herr2 : error ≤ 1 / 12) (hms : 2 ≤ ms)
    (hclock : ∀ i, elapsed i ≤ (mt : ℚ)) :
    ∀ (k i : ℕ) (d : ℚ) (n : ℕ), 0 < d →
      Adaptive.passes rule stepAtOne error ms mt elapsed (2 * k) i
          ⟨[getLeftRight ⟨1 - d, 1, fin 0, fin 1⟩ stepAtOne], fin 0, n, false, false⟩
        = ⟨[getLeftRight ⟨1 - d / 2 ^ k, 1, fin 0, fin 1⟩ stepAtOne], fin 0, n + k, false,
            false⟩
      ∧ Adaptive.passes rule stepAtOne error ms mt elapsed (2 * k + 1) i
          ⟨[getLeftRight ⟨1 - d, 1, fin 0, fin 1⟩ stepAtOne], fin 0, n, false, false⟩
        = ⟨[getLeftRight ⟨1 - d / 2 ^ k, 1 - d / 2 ^ k / 2, fin 0, fin 0⟩ stepAtOne,
            getLeftRight ⟨1 - d / 2 ^ k / 2, 1, fin 0, fin 1⟩ stepAtOne], fin 0, n + k + 1,
            false, false⟩ := by
  intro k
  induction k with
  | zero =>
    intro i d n hd
    refine ⟨?_, ?_⟩
    · simp only [Nat.mul_zero, Adaptive.passes, pow_zero, div_one, Nat.add_zero]
    · simp only [Nat.mul_zero, Nat.zero_add, Adaptive.passes, pow_zero, div_one, Nat.add_zero]
      exact stepAtOne_pass_split d error ms mt (elapsed i) n hd herr2 hms (hclock i)
  | succ k ih =>
    intro i d n hd
    have h2 : 2 * (k + 1) = 2 * k + 1 + 1 := by ring
    have h3 : 2 * (k + 1) + 1 = 2 * k + 1 + 1 + 1 := by ring
    have hpow : d / 2 / 2 ^ k = d / 2 ^ (k + 1) := by
      rw [pow_succ, div_div, mul_comm]
    have hstep : Adaptive.pass rule stepAtOne error ms mt (elapsed (i + 1))
        (Adaptive.pass rule stepAtOne error ms mt (elapsed i)
          ⟨[getLeftRight ⟨1 - d, 1, fin 0, fin 1⟩ stepAtOne], fin 0, n, false, false⟩)
        = ⟨[getLeftRight ⟨1 - d / 2, 1, fin 0, fin 1⟩ stepAtOne], fin 0, n + 1, false,
            false⟩ := by
      rw [stepAtOne_pass_split d error ms mt (elapsed i) n hd herr2 hms (hclock i),
        stepAtOne_pass_accept d error ms mt (elapsed (i + 1)) (n + 1) _ hd herr hms
          (hclock (i + 1))]
    obtain ⟨e1, e2⟩ := ih (i + 2) (d / 2) (n + 1) (by linarith)
    rw [hpow] at e1 e2
    have hn : n + 1 + k = n + (k + 1) := by ring
    rw [hn] at e1 e2
    refine ⟨?_, ?_⟩
    · rw [h2]
      simp only [Adaptive.passes]
      rw [hstep]
      exact e1
    · rw [h3]
      show Adaptive.passes rule stepAtOne error ms mt elapsed (2 * k + 1) (i + 1 + 1)
        (Adaptive.pass rule stepAtOne error ms mt (elapsed (i + 1))
          (Adaptive.pass rule stepAtOne error ms mt (elapsed i) _)) = _
      rw [hstep]
      exact e2

end TrapezoidRule

namespace TrapezoidRule
open Val

theorem stepAtOne_start :
    Adaptive.start rule stepAtOne ⟨0, 1, findVal stepAtOne 0 (1 - 0), findVal stepAtOne 1 (1 - 0)⟩
      = ⟨[getLeftRight ⟨1 - 1, 1, fin 0, fin 1⟩ stepAtOne], fin 0, 1, false, false⟩ := by
  have h0 : stepAtOne 0 = fin 0 := by simp [stepAtOne]
  have h1 : stepAtOne 1 = fin 1 := by simp [stepAtOne]
  have e : (1 : ℚ) - 1 = 0 := by norm_num
  simp only [Adaptive.start, findVal_stepAtOne, h0, h1, e, rule]
  rfl

/-- C29, amended: in exact arithmetic and with an unbounded subdivision counter, on the
integrand that is `0` left of `1` and `1` at `1`, over `[0, 1]`, with
`0 < error ≤ 1/12`, `max_subdivisions ≥ 2` and a clock that never passes `max_time`,
`TrapezoidRule::adaptiveNonParallel` never returns: after every number `j` of passes
the queue is non-empty and holds at most 2 nodes, neither flag is set, and the
subdivision counter is `1 + (j+1)/2`, so it passes every bound; after `2k` passes the
queue holds exactly the node of `[1 - 1/2^k, 1]`, which is split again. -/
theorem trapezoid_adaptiveNonParallel_ceiling_never_trips (error : ℚ) (max_subdivisions : ℕ)
    (max_time : ℤ) (elapsed : ℕ → ℚ) (herr : 0 < error) (herr2 : error ≤ 1 / 12)
    (hms : 2 ≤ max_subdivisions) (hclock : ∀ i, elapsed i ≤ (max_time : ℚ)) :
    (∀ j,
        (Adaptive.passes rule stepAtOne error max_subdivisions max_time elapsed j 0
            (Adaptive.start rule stepAtOne
              ⟨0, 1, findVal stepAtOne 0 (1 - 0), findVal stepAtOne 1 (1 - 0)⟩)).intervals ≠ []
          ∧ (Adaptive.passes rule stepAtOne error max_subdivisions max_time elapsed j 0
            (Adaptive.start rule stepAtOne
              ⟨0, 1, findVal stepAtOne 0 (1 - 0), findVal stepAtOne 1 (1 - 0)⟩)).intervals.length
              ≤ 2
          ∧ (Adaptive.passes rule stepAtOne error max_subdivisions max_time elapsed j 0
            (Adaptive.start rule stepAtOne
              ⟨0, 1, findVal stepAtOne 0 (1 - 0),
                findVal stepAtOne 1 (1 - 0)⟩)).subdivisions_exceeded = false
          ∧ (Adaptive.passes rule stepAtOne error max_subdivisions max_time elapsed j 0
            (Adaptive.start rule stepAtOne
              ⟨0, 1, findVal stepAtOne 0 (1 - 0),
                findVal stepAtOne 1 (1 - 0)⟩)).time_exceeded = false
          ∧ (Adaptive.passes rule stepAtOne error max_subdivisions max_time elapsed j 0
            (Adaptive.start rule stepAtOne
              ⟨0, 1, findVal stepAtOne 0 (1 - 0), findVal stepAtOne 1 (1 - 0)⟩)).subdivisions
              = 1 + (j + 1) / 2)
      ∧ (∀ k,
          (Adaptive.passes rule stepAtOne error max_subdivisions max_time elapsed (2 * k) 0
            (Adaptive.start rule stepAtOne
              ⟨0, 1, findVal stepAtOne 0 (1 - 0), findVal stepAtOne 1 (1 - 0)⟩)).intervals
            = [getLeftRight ⟨1 - 1 / 2 ^ k, 1, fin 0, fin 1⟩ stepAtOne])
      ∧ (∀ N, ∃ j,
          N < (Adaptive.passes rule stepAtOne error max_subdivisions max_time elapsed j 0
            (Adaptive.start rule stepAtOne
              ⟨0, 1, findVal stepAtOne 0 (1 - 0), findVal stepAtOne 1 (1 - 0)⟩)).subdivisions)
      ∧ ∀ fuel,
          adaptiveNonParallel fuel stepAtOne 0 1 error max_subdivisions max_time elapsed
            = none := by
  have hP := fun k => stepAtOne_passes error max_subdivisions max_time elapsed herr herr2 hms
    hclock k 0 1 1 (by norm_num)
  have hall : ∀ j,
      (Adaptive.passes rule stepAtOne error max_subdivisions max_time elapsed j 0
          (Adaptive.start rule stepAtOne
            ⟨0, 1, findVal stepAtOne 0 (1 - 0), findVal stepAtOne 1 (1 - 0)⟩)).intervals ≠ []
        ∧ (Adaptive.passes rule stepAtOne error max_subdivisions max_time elapsed j 0
          (Adaptive.start rule stepAtOne
            ⟨0, 1, findVal stepAtOne 0 (1 - 0), findVal stepAtOne 1 (1 - 0)⟩)).intervals.length
            ≤ 2
        ∧ (Adaptive.passes rule stepAtOne error max_subdivisions max_time elapsed j 0
          (Adaptive.start rule stepAtOne
            ⟨0, 1, findVal stepAtOne 0 (1 - 0),
              findVal stepAtOne 1 (1 - 0)⟩)).subdivisions_exceeded = false
        ∧ (Adaptive.passes rule stepAtOne error max_subdivisions max_time elapsed j 0
          (Adaptive.start rule stepAtOne
            ⟨0, 1, findVal stepAtOne 0 (1 - 0),
              findVal stepAtOne 1 (1 - 0)⟩)).time_exceeded = false
        ∧ (Adaptive.passes rule stepAtOne error max_subdivisions max_time elapsed j 0
          (Adaptive.start rule stepAtOne
            ⟨0, 1, findVal stepAtOne 0 (1 - 0), findVal stepAtOne 1 (1 - 0)⟩)).subdivisions
            = 1 + (j + 1) / 2 := by
    intro j
    rw [stepAtOne_start]
    rcases Nat.even_or_odd' j with ⟨k, rfl | rfl⟩
    · rw [(hP k).1]
      refine ⟨by simp, by simp, rfl, rfl, ?_⟩
      show 1 + k = 1 + (2 * k + 1) / 2
      omega
    · rw [(hP k).2]
      refine ⟨by simp, by simp, rfl, rfl, ?_⟩
      show 1 + k + 1 = 1 + (2 * k + 1 + 1) / 2
      omega
  refine ⟨hall, ?_, ?_, ?_⟩
  · intro k
    rw [stepAtOne_start, (hP k).1]
  · intro N
    refine ⟨2 * N, ?_⟩
    rw [(hall (2 * N)).2.2.2.2]
    omega
  · intro fuel
    unfold adaptiveNonParallel Adaptive.run
    simp only []
    cases hl : Adaptive.loop rule stepAtOne error max_subdivisions max_time elapsed fuel 0
        ⟨[rule.getLeftRight ⟨0, 1, findVal stepAtOne 0 (1 - 0), findVal stepAtOne 1 (1 - 0)⟩
          stepAtOne], 0, 1, false, false⟩ with
    | none => rfl
    | some s' =>
      obtain ⟨j, h1, h2⟩ := Adaptive.loop_eq_passes rule stepAtOne error max_subdivisions
        max_time elapsed fuel 0 _ s' hl
      have h1' : s' = Adaptive.passes rule stepAtOne error max_subdivisions max_time elapsed j 0
          (Adaptive.start rule stepAtOne
            ⟨0, 1, findVal stepAtOne 0 (1 - 0), findVal stepAtOne 1 (1 - 0)⟩) := h1
      rw [h1'] at h2
      exact absurd h2 (hall j).1

theorem trapezoid_adaptiveNonParallel_ceiling_never_trips_witness :
    (0 : ℚ) < 1 / 12 ∧ (1 / 12 : ℚ) ≤ 1 / 12 ∧ 2 ≤ 2
      ∧ adaptiveNonParallel 1000 stepAtOne 0 1 (1 / 12) 2 5 (fun _ => 0) = none :=
  ⟨by norm_num, le_refl _, le_refl 2,
    (trapezoid_adaptiveNonParallel_ceiling_never_trips (1 / 12) 2 5 (fun _ => 0) (by norm_num)
      (le_refl _) (le_refl 2) (fun _ => by norm_num)).2.2.2 1000⟩

end TrapezoidRule
/-! The wrappers of the library rules -/

namespace AdvancedRules
open Val

theorem sections_tiling (a b : ℚ) (hab : a < b) :
    ∀ (T k : ℕ),
      Adaptive.Tiling ((List.range' k T).map (fun i : ℕ =>
          (a + ((i : ℚ) * 0.25 * (b - a)), a + (((i : ℚ) + 1) * 0.25 * (b - a)))))
        (a + ((k : ℚ) * 0.25 * (b - a))) (a + (((k + T : ℕ) : ℚ) * 0.25 * (b - a))) := by
  intro T
  induction T with
  | zero => intro k; simp [Adaptive.Tiling]
  | succ T ih =>
    intro k
    have h := ih (k + 1)
    have e : ((k + 1 + T : ℕ) : ℚ) = ((k + (T + 1) : ℕ) : ℚ) := by push_cast; ring
    rw [e] at h
    simp only [List.range', List.map_cons, Adaptive.Tiling]
    refine ⟨trivial, ?_, ?_⟩
    · have : 0 < b - a := by linarith
      norm_num
      nlinarith
    · push_cast at h ⊢
      exact h

theorem sections_end (a b : ℚ) (hab : a < b) (T : ℕ) :
    a + ((T : ℚ) * 0.25 * (b - a)) = b ↔ T = 4 := by
  have hw : b - a ≠ 0 := by
    intro h
    linarith
  constructor
  · intro h
    have h1 : ((T : ℚ) - 4) * (b - a) = 0 := by
      norm_num at h
      linarith
    rcases mul_eq_zero.mp h1 with h2 | h2
    · have : (T : ℚ) = 4 := by linarith
      exact_mod_cast this
    · exact absurd h2 hw
  · intro h
    subst h
    norm_num

theorem gaussLegendreFixedParallelSched_value (glfixed : ℚ → ℚ → ℕ → Val) (a b : ℚ)
    (points T : ℕ) (sched : List ℕ) (hs : sched.Perm (List.range T)) :
    gaussLegendreFixedParallelSched glfixed a b points sched
      = some (∑ i in Finset.range T,
          glfixed (a + ((i : ℚ) * 0.25 * (b - a))) (a + (((i : ℚ) + 1) * 0.25 * (b - a)))
            points) := by
  unfold gaussLegendreFixedParallelSched
  simp only []
  rw [joinAll_spec (fun i : ℕ => gaussLegendreFixedThread glfixed
      (a + ((i : ℚ) * 0.25 * (b - a))) (a + (((i : ℚ) + 1) * 0.25 * (b - a))) points)
      (fun i => glfixed (a + ((i : ℚ) * 0.25 * (b - a)))
        (a + (((i : ℚ) + 1) * 0.25 * (b - a))) points) (fun i => rfl),
    sum_sched _ T sched hs, zero_add]

theorem subPoints_eq (a b singularity : ℚ) (i : ℕ) :
    subPoints a b singularity i
      = (a + ((i : ℚ) * 0.25 * (b - a)), a + ((i : ℚ) * 0.25 * (b - a)),
          [a + ((i : ℚ) * 0.25 * (b - a)), a + ((i : ℚ) * 0.25 * (b - a))]) := by
  have h : ¬ (singularity ≠ 0 ∧ singularity > a + ((i : ℚ) * 0.25 * (b - a))
      ∧ singularity < a + ((i : ℚ) * 0.25 * (b - a))) := by
    rintro ⟨_, h1, h2⟩
    exact lt_asymm h1 h2
  simp only [subPoints, if_neg h, List.nil_append, List.singleton_append]

end AdvancedRules

theorem printAdvanced_keeps_error_code (gsl_strerror : ℤ → String)
    (gsl_integration_qng : ℚ → ℚ → ℚ → ℚ → AdvancedRules.GslOutcome)
    (error_code : Option String) (a b error : ℚ) :
    (printAdvanced_nonAdaptiveGaussKronrod gsl_strerror gsl_integration_qng error_code a b
        error).2.1 = checkError error_code := by
  unfold printAdvanced_nonAdaptiveGaussKronrod
  simp only []
  split <;> simp_all

/-- C24: the parallel wrappers give worker `i` the section
`[a + i*0.25*(b-a), a + (i+1)*0.25*(b-a)]` whatever `num_threads` is. With a library
rule that is exact on the constant `1` (`glfixed(u, v) = v - u`), on `[0, 1]`,
`gaussLegendreFixedParallel` returns `1/4` with one thread, `1/2` with two, `1` with
four and `2` with eight, where `gaussLegendreFixed` returns `1`; with one thread
`nonAdaptiveGaussKronrodParallel` likewise returns `1/4`. -/
theorem gaussLegendreFixedParallel_quarter_sections :
    AdvancedRules.gaussLegendreFixed (fun u v _ => Val.fin (v - u)) 0 1 5 = Val.fin 1
      ∧ AdvancedRules.gaussLegendreFixedParallel (fun u v _ => Val.fin (v - u)) 0 1 5 1
        = some (Val.fin (1 / 4))
      ∧ AdvancedRules.gaussLegendreFixedParallel (fun u v _ => Val.fin (v - u)) 0 1 5 2
        = some (Val.fin (1 / 2))
      ∧ AdvancedRules.gaussLegendreFixedParallel (fun u v _ => Val.fin (v - u)) 0 1 5 4
        = some (Val.fin 1)
      ∧ AdvancedRules.gaussLegendreFixedParallel (fun u v _ => Val.fin (v - u)) 0 1 5 8
        = some (Val.fin 2)
      ∧ (AdvancedRules.nonAdaptiveGaussKronrodParallelSched (fun _ => "")
          (fun u v _ _ => ⟨0, Val.fin (v - u), Val.fin 0⟩) (fun v => v) (some "") 0 1
          (1 / 100) (Val.fin 0) (List.range 1)).1 = Val.fin (1 / 4) := by
  refine ⟨?_, ?_, ?_, ?_, ?_, ?_⟩
  · simp [AdvancedRules.gaussLegendreFixed]
  · rw [AdvancedRules.gaussLegendreFixedParallel,
      AdvancedRules.gaussLegendreFixedParallelSched_value _ _ _ _ 1 _ (List.Perm.refl _)]
    simp only [Finset.sum_range_succ, Finset.sum_range_zero, Val.fin_add_fin, Val.zero_def]
    norm_num
  · rw [AdvancedRules.gaussLegendreFixedParallel,
      AdvancedRules.gaussLegendreFixedParallelSched_value _ _ _ _ 2 _ (List.Perm.refl _)]
    simp only [Finset.sum_range_succ, Finset.sum_range_zero, Val.fin_add_fin, Val.zero_def]
    norm_num
  · rw [AdvancedRules.gaussLegendreFixedParallel,
      AdvancedRules.gaussLegendreFixedParallelSched_value _ _ _ _ 4 _ (List.Perm.refl _)]
    simp only [Finset.sum_range_succ, Finset.sum_range_zero, Val.fin_add_fin, Val.zero_def]
    norm_num
  · rw [AdvancedRules.gaussLegendreFixedParallel,
      AdvancedRules.gaussLegendreFixedParallelSched_value _ _ _ _ 8 _ (List.Perm.refl _)]
    simp only [Finset.sum_range_succ, Finset.sum_range_zero, Val.fin_add_fin, Val.zero_def]
    norm_num
  · simp only [AdvancedRules.nonAdaptiveGaussKronrodParallelSched, List.range, List.range.loop,
      AdvancedRules.joinWorkers, AdvancedRules.nonAdaptiveGaussKronrodThread, Val.zero_def,
      Val.fin_add_fin]
    norm_num

/-- C25: `adaptiveGaussKronrodKnownSingularParallel` computes `bNew` with the same
expression as `aNew`: on `[0, 1]` worker 0 gets `aNew = bNew = 0` and the break points
`[0, 0]`, although the singular point `1/8` lies strictly inside `[0, 1/4]`; worker 1
gets `aNew = bNew = 1/4`. With a library rule that is exact on the constant `1`
(`qagp(points) = last point - first point`) and four threads on `[0, 1]` the wrapper
returns `0`, where `adaptiveGaussKronrodKnownSingular` returns `1`. -/
theorem adaptiveGaussKronrodKnownSingularParallel_empty_sections :
    AdvancedRules.subPoints 0 1 (1 / 8) 0 = (0, 0, [0, 0])
      ∧ AdvancedRules.subPoints 0 1 (1 / 8) 1 = (1 / 4, 1 / 4, [1 / 4, 1 / 4])
      ∧ (AdvancedRules.adaptiveGaussKronrodKnownSingularParallelSched (fun _ => "")
          (fun points _ _ _ => ⟨0, Val.fin (points.getLastD 0 - points.headD 0), Val.fin 0⟩)
          (fun v => v) (some "") 0 1 (1 / 100) 100 (1 / 8) 4 (Val.fin 0) (List.range 4)).1
        = Val.fin 0
      ∧ (AdvancedRules.adaptiveGaussKronrodKnownSingular (fun _ => "")
          (fun points _ _ _ => ⟨0, Val.fin (points.getLastD 0 - points.headD 0), Val.fin 0⟩)
          (some "") 0 1 (1 / 100) 100 (1 / 8)).1 = Val.fin 1 := by
  refine ⟨?_, ?_, ?_, ?_⟩
  · rw [AdvancedRules.subPoints_eq]
    norm_num
  · rw [AdvancedRules.subPoints_eq]
    norm_num
  · simp only [AdvancedRules.adaptiveGaussKronrodKnownSingularParallelSched, List.range,
      List.range.loop, AdvancedRules.joinWorkers,
      AdvancedRules.adaptiveGaussKronrodKnownSingularThread, AdvancedRules.subPoints_eq,
      Val.zero_def, Val.fin_add_fin, List.getLastD_cons, List.headD_cons, List.getLastD_nil]
    norm_num
  · simp [AdvancedRules.adaptiveGaussKronrodKnownSingular]

/-- C26: the wrappers take `error_code` by value. When the library routine returns the
status 11, `nonAdaptiveGaussKronrod` called with the caller's `error_code = ""` holds
the message in its own copy when it returns (`checkError` of that copy is true), but
in `printAdvanced` the test `checkError(error_code)` after the call is false, the
error row is not written and the caller's `error_code` is still `""`. -/
theorem nonAdaptiveGaussKronrod_error_code_lost :
    (AdvancedRules.nonAdaptiveGaussKronrod (fun _ => "failed")
        (fun _ _ _ _ => ⟨11, Val.fin 0, Val.fin 0⟩) (some "") 0 1 (1 / 100)).2.2
        = some "failed"
      ∧ checkError (some "failed") = true
      ∧ printAdvanced_nonAdaptiveGaussKronrod (fun _ => "failed")
          (fun _ _ _ _ => ⟨11, Val.fin 0, Val.fin 0⟩) (some "") 0 1 (1 / 100)
        = (Val.fin 0, false, some "") := by
  refine ⟨?_, ?_, ?_⟩
  · simp [AdvancedRules.nonAdaptiveGaussKronrod]
  · decide
  · simp [printAdvanced_nonAdaptiveGaussKronrod, AdvancedRules.nonAdaptiveGaussKronrod,
      checkError]
    rfl
/-! One worker: `adaptiveParallel` against `adaptiveNonParallel` -/

namespace Adaptive
open Val

theorem exec_append {I : Type} (R : Rule I) (width : leftRightInterval I → ℚ) (f : ℚ → Val)
    (error : ℚ) (ms : ℕ) (mt : ℤ) (elapsed : ℕ → ℕ → ℚ) (T : ℕ) :
    ∀ (l1 l2 : List ℕ) (st : Shared I × (ℕ → Worker I)),
      exec R width f error ms mt elapsed T (l1 ++ l2) st
        = exec R width f error ms mt elapsed T l2 (exec R width f error ms mt elapsed T l1 st) := by
  intro l1
  induction l1 with
  | nil => intro l2 st; rfl
  | cons t rest ih => intro l2 st; exact ih l2 _

theorem sim_launch {I : Type} (R : Rule I) (width : leftRightInterval I → ℚ) (f : ℚ → Val)
    (error : ℚ) (ms : ℕ) (mt : ℤ) (elapsed : ℕ → ℕ → ℚ) (whole : I) :
    exec R width f error ms mt elapsed 1 [0] (launch R f whole)
      = atLoopTest (start R f whole) 0 := by
  simp [exec, stepSystem, stepWorker, launch, spawned, atLoopTest, start]

theorem exec_step_zero {I : Type} (R : Rule I) (width : leftRightInterval I → ℚ)
    (f : ℚ → Val) (error : ℚ) (ms : ℕ) (mt : ℤ) (elapsed : ℕ → ℕ → ℚ) (sched : List ℕ)
    (sh sh' : Shared I) (w w' : Worker I) (W : ℕ → Worker I)
    (h : stepWorker R width f error ms mt (elapsed 0) 0 sh w = some (sh', w')) :
    exec R width f error ms mt elapsed 1 (0 :: sched) (sh, Function.update W 0 w)
      = exec R width f error ms mt elapsed 1 sched (sh', Function.update W 0 w') := by
  simp only [exec, stepSystem, Nat.lt_one_iff, if_true, Function.update_same, h,
    Function.update_idem]

theorem step_loopTest_cons {I : Type} (R : Rule I) (width : leftRightInterval I → ℚ)
    (f : ℚ → Val) (error : ℚ) (ms : ℕ) (mt : ℤ) (el : ℕ → ℚ) (tid : ℕ)
    (node : leftRightInterval I) (rest : List (leftRightInterval I)) (r : Val) (n : ℕ)
    (mq mr : Option ℕ) (se te : Bool) (k : ℕ) :
    stepWorker R width f error ms mt el tid ⟨node :: rest, r, n, mq, mr⟩
        ⟨Pc.loopTest, se, te, k⟩
      = some (⟨rest, r, n, mq, mr⟩,
          ⟨Pc.unlockPopped node, se || decide ((node :: rest).length > ms),
            te || decide (el k > (mt : ℚ)), k + 1⟩) := rfl

theorem step_loopTest_nil {I : Type} (R : Rule I) (width : leftRightInterval I → ℚ)
    (f : ℚ → Val) (error : ℚ) (ms : ℕ) (mt : ℤ) (el : ℕ → ℚ) (tid : ℕ) (r : Val) (n : ℕ)
    (mq mr : Option ℕ) (se te : Bool) (k : ℕ) :
    stepWorker R width f error ms mt el tid ⟨[], r, n, mq, mr⟩ ⟨Pc.loopTest, se, te, k⟩
      = some (⟨[], r, n, mq, mr⟩, ⟨Pc.unlockLast, se, te, k⟩) := rfl

theorem step_unlockPopped {I : Type} (R : Rule I) (width : leftRightInterval I → ℚ)
    (f : ℚ → Val) (error : ℚ) (ms : ℕ) (mt : ℤ) (el : ℕ → ℚ) (tid : ℕ)
    (cur : leftRightInterval I) (q : List (leftRightInterval I)) (r : Val) (n : ℕ)
    (mq mr : Option ℕ) (se te : Bool) (k : ℕ) :
    stepWorker R width f error ms mt el tid ⟨q, r, n, mq, mr⟩ ⟨Pc.unlockPopped cur, se, te, k⟩
      = some (⟨q, r, n, none, mr⟩, ⟨Pc.split cur, se, te, k⟩) := rfl

theorem step_split_accept {I : Type} (R : Rule I) (width : leftRightInterval I → ℚ)
    (f : ℚ → Val) (error : ℚ) (ms : ℕ) (mt : ℤ) (el : ℕ → ℚ) (tid : ℕ)
    (cur : leftRightInterval I) (sh : Shared I) (se te : Bool) (k : ℕ)
    (hc : ((fabs ((R.getLeftRight cur.left f).integrated
        + (R.getLeftRight cur.right f).integrated - cur.integrated)).ltBound
          (R.errorOrder * width cur * error) || se || te) = true) :
    stepWorker R width f error ms mt el tid sh ⟨Pc.split cur, se, te, k⟩
      = some (sh, ⟨Pc.lockResult (R.getLeftRight cur.left f) (R.getLeftRight cur.right f),
          se, te, k⟩) := by
  simp only [stepWorker]
  rw [if_pos hc]

theorem step_split_refine {I : Type} (R : Rule I) (width : leftRightInterval I → ℚ)
    (f : ℚ → Val) (error : ℚ) (ms : ℕ) (mt : ℤ) (el : ℕ → ℚ) (tid : ℕ)
    (cur : leftRightInterval I) (sh : Shared I) (se te : Bool) (k : ℕ)
    (hc : ¬ ((fabs ((R.getLeftRight cur.left f).integrated
        + (R.getLeftRight cur.right f).integrated - cur.integrated)).ltBound
          (R.errorOrder * width cur * error) || se || te) = true) :
    stepWorker R width f error ms mt el tid sh ⟨Pc.split cur, se, te, k⟩
      = some (sh, ⟨Pc.lockPush (R.getLeftRight cur.left f) (R.getLeftRight cur.right f),
          se, te, k⟩) := by
  simp only [stepWorker]
  rw [if_neg hc]

theorem step_lockResult {I : Type} (R : Rule I) (width : leftRightInterval I → ℚ)
    (f : ℚ → Val) (error : ℚ) (ms : ℕ) (mt : ℤ) (el : ℕ → ℚ) (tid : ℕ)
    (left right : leftRightInterval I) (q : List (leftRightInterval I)) (r : Val) (n : ℕ)
    (mq : Option ℕ) (se te : Bool) (k : ℕ) :
    stepWorker R width f error ms mt el tid ⟨q, r, n, mq, none⟩
        ⟨Pc.lockResult left right, se, te, k⟩
      = some (⟨q, r, n, mq, some tid⟩, ⟨Pc.addResult left right, se, te, k⟩) := rfl

theorem step_addResult {I : Type} (R : Rule I) (width : leftRightInterval I → ℚ)
    (f : ℚ → Val) (error : ℚ) (ms : ℕ) (mt : ℤ) (el : ℕ → ℚ) (tid : ℕ)
    (left right : leftRightInterval I) (q : List (leftRightInterval I)) (r : Val) (n : ℕ)
    (mq mr : Option ℕ) (se te : Bool) (k : ℕ) :
    stepWorker R width f error ms mt el tid ⟨q, r, n, mq, mr⟩
        ⟨Pc.addResult left right, se, te, k⟩
      = some (⟨q, r + (left.integrated + right.integrated), n, mq, mr⟩,
          ⟨Pc.unlockResult, se, te, k⟩) := rfl

theorem step_unlockResult {I : Type} (R : Rule I) (width : leftRightInterval I → ℚ)
    (f : ℚ → Val) (error : ℚ) (ms : ℕ) (mt : ℤ) (el : ℕ → ℚ) (tid : ℕ)
    (q : List (leftRightInterval I)) (r : Val) (n : ℕ)
    (mq mr : Option ℕ) (se te : Bool) (k : ℕ) :
    stepWorker R width f error ms mt el tid ⟨q, r, n, mq, mr⟩ ⟨Pc.unlockResult, se, te, k⟩
      = some (⟨q, r, n, mq, none⟩, ⟨Pc.lockAgain, se, te, k⟩) := rfl

theorem step_lockPush {I : Type} (R : Rule I) (width : leftRightInterval I → ℚ)
    (f : ℚ → Val) (error : ℚ) (ms : ℕ) (mt : ℤ) (el : ℕ → ℚ) (tid : ℕ)
    (left right : leftRightInterval I) (q : List (leftRightInterval I)) (r : Val) (n : ℕ)
    (mr : Option ℕ) (se te : Bool) (k : ℕ) :
    stepWorker R width f error ms mt el tid ⟨q, r, n, none, mr⟩
        ⟨Pc.lockPush left right, se, te, k⟩
      = some (⟨q, r, n, some tid, mr⟩, ⟨Pc.push left right, se, te, k⟩) := rfl

theorem step_push {I : Type} (R : Rule I) (width : leftRightInterval I → ℚ)
    (f : ℚ → Val) (error : ℚ) (ms : ℕ) (mt : ℤ) (el : ℕ → ℚ) (tid : ℕ)
    (left right : leftRightInterval I) (q : List (leftRightInterval I)) (r : Val) (n : ℕ)
    (mq mr : Option ℕ) (se te : Bool) (k : ℕ) :
    stepWorker R width f error ms mt el tid ⟨q, r, n, mq, mr⟩ ⟨Pc.push left right, se, te, k⟩
      = some (⟨q ++ [left, right], r, n + 1, mq, mr⟩, ⟨Pc.unlockPush, se, te, k⟩) := rfl

theorem step_unlockPush {I : Type} (R : Rule I) (width : leftRightInterval I → ℚ)
    (f : ℚ → Val) (error : ℚ) (ms : ℕ) (mt : ℤ) (el : ℕ → ℚ) (tid : ℕ)
    (q : List (leftRightInterval I)) (r : Val) (n : ℕ)
    (mq mr : Option ℕ) (se te : Bool) (k : ℕ) :
    stepWorker R width f error ms mt el tid ⟨q, r, n, mq, mr⟩ ⟨Pc.unlockPush, se, te, k⟩
      = some (⟨q, r, n, none, mr⟩, ⟨Pc.lockAgain, se, te, k⟩) := rfl

theorem step_lockAgain {I : Type} (R : Rule I) (width : leftRightInterval I → ℚ)
    (f : ℚ → Val) (error : ℚ) (ms : ℕ) (mt : ℤ) (el : ℕ → ℚ) (tid : ℕ)
    (q : List (leftRightInterval I)) (r : Val) (n : ℕ)
    (mr : Option ℕ) (se te : Bool) (k : ℕ) :
    stepWorker R width f error ms mt el tid ⟨q, r, n, none, mr⟩ ⟨Pc.lockAgain, se, te, k⟩
      = some (⟨q, r, n, some tid, mr⟩, ⟨Pc.loopTest, se, te, k⟩) := rfl

theorem step_unlockLast {I : Type} (R : Rule I) (width : leftRightInterval I → ℚ)
    (f : ℚ → Val) (error : ℚ) (ms : ℕ) (mt : ℤ) (el : ℕ → ℚ) (tid : ℕ)
    (q : List (leftRightInterval I)) (r : Val) (n : ℕ)
    (mq mr : Option ℕ) (se te : Bool) (k : ℕ) :
    stepWorker R width f error ms mt el tid ⟨q, r, n, mq, mr⟩ ⟨Pc.unlockLast, se, te, k⟩
      = some (⟨q, r, n, none, mr⟩, ⟨Pc.done, se, te, k⟩) := rfl

theorem sim_pass {I : Type} (R : Rule I) (width : leftRightInterval I → ℚ) (f : ℚ → Val)
    (error : ℚ) (ms : ℕ) (mt : ℤ) (elapsed : ℕ → ℕ → ℚ) (s : State I) (i : ℕ)
    (node : leftRightInterval I) (rest : List (leftRightInterval I))
    (hq : s.intervals = node :: rest)
    (hw : width node = R.b node.right - R.a node.left) :
    exec R width f error ms mt elapsed 1 [0, 0, 0, 0, 0, 0, 0] (atLoopTest s i)
      = atLoopTest (pass R f error ms mt (elapsed 0 i) s) (i + 1) := by
  obtain ⟨q, result, subs, se, te⟩ := s
  simp only at hq
  subst hq
  unfold atLoopTest
  rw [exec_step_zero R width f error ms mt elapsed _ _ _ _ _ _ (step_loopTest_cons ..),
    exec_step_zero R width f error ms mt elapsed _ _ _ _ _ _ (step_unlockPopped ..)]
  by_cases hc : ((fabs ((R.getLeftRight node.left f).integrated
        + (R.getLeftRight node.right f).integrated - node.integrated)).ltBound
          (R.errorOrder * (R.b node.right - R.a node.left) * error)
        || (se || decide ((node :: rest).length > ms))
        || (te || decide (elapsed 0 i > (mt : ℚ)))) = true
  · rw [exec_step_zero R width f error ms mt elapsed _ _ _ _ _ _
        (step_split_accept R width f error ms mt (elapsed 0) 0 node _ _ _ _
          (by rw [hw]; exact hc)),
      exec_step_zero R width f error ms mt elapsed _ _ _ _ _ _ (step_lockResult ..),
      exec_step_zero R width f error ms mt elapsed _ _ _ _ _ _ (step_addResult ..),
      exec_step_zero R width f error ms mt elapsed _ _ _ _ _ _ (step_unlockResult ..),
      exec_step_zero R width f error ms mt elapsed _ _ _ _ _ _ (step_lockAgain ..)]
    simp only [exec, pass]
    rw [if_pos hc]
  · rw [exec_step_zero R width f error ms mt elapsed _ _ _ _ _ _
        (step_split_refine R width f error ms mt (elapsed 0) 0 node _ _ _ _
          (by rw [hw]; exact hc)),
      exec_step_zero R width f error ms mt elapsed _ _ _ _ _ _ (step_lockPush ..),
      exec_step_zero R width f error ms mt elapsed _ _ _ _ _ _ (step_push ..),
      exec_step_zero R width f error ms mt elapsed _ _ _ _ _ _ (step_unlockPush ..),
      exec_step_zero R width f error ms mt elapsed _ _ _ _ _ _ (step_lockAgain ..)]
    simp only [exec, pass]
    rw [if_neg hc]

theorem sim_exit {I : Type} (R : Rule I) (width : leftRightInterval I → ℚ) (f : ℚ → Val)
    (error : ℚ) (ms : ℕ) (mt : ℤ) (elapsed : ℕ → ℕ → ℚ) (s : State I) (i : ℕ)
    (hq : s.intervals = []) :
    exec R width f error ms mt elapsed 1 [0, 0] (atLoopTest s i) = atDone s i := by
  obtain ⟨q, result, subs, se, te⟩ := s
  simp only at hq
  subst hq
  simp [exec, stepSystem, stepWorker, atLoopTest, atDone]

theorem sim_done {I : Type} (R : Rule I) (width : leftRightInterval I → ℚ) (f : ℚ → Val)
    (error : ℚ) (ms : ℕ) (mt : ℤ) (elapsed : ℕ → ℕ → ℚ) (st : Shared I × (ℕ → Worker I))
    (hd : (st.2 0).pc = Pc.done) :
    ∀ sched, exec R width f error ms mt elapsed 1 sched st = st := by
  intro sched
  induction sched with
  | nil => rfl
  | cons t rest ih =>
    have hstep : stepSystem R width f error ms mt elapsed 1 t st = st := by
      unfold stepSystem
      split
      · rename_i ht
        have ht0 : t = 0 := by omega
        subst ht0
        simp [stepWorker, hd]
      · rfl
    rw [exec, hstep, ih]

end Adaptive

namespace Adaptive
open Val

theorem isDone_iff {I : Type} (pc : Pc I) : pc.isDone = true ↔ pc = Pc.done := by
  cases pc <;> simp [Pc.isDone]

theorem joined_iff {I : Type} (T : ℕ) (st : Shared I × (ℕ → Worker I)) :
    joined T st = true ↔ ∀ t, t < T → (st.2 t).pc = Pc.done := by
  simp only [joined, List.all_eq_true, List.mem_range, isDone_iff]

theorem exec_one_thread {I : Type} (R : Rule I) (width : leftRightInterval I → ℚ)
    (f : ℚ → Val) (error : ℚ) (ms : ℕ) (mt : ℤ) (elapsed : ℕ → ℕ → ℚ) :
    ∀ (sched : List ℕ) (st : Shared I × (ℕ → Worker I)),
      exec R width f error ms mt elapsed 1 sched st
        = exec R width f error ms mt elapsed 1 (List.replicate (sched.count 0) 0) st := by
  intro sched
  induction sched with
  | nil => intro st; rfl
  | cons t rest ih =>
    intro st
    by_cases ht : t = 0
    · subst ht
      rw [List.count_cons_self, List.replicate_succ, exec, exec, ih]
    · have hstep : stepSystem R width f error ms mt elapsed 1 t st = st := by
        unfold stepSystem
        rw [if_neg (by omega)]
      rw [List.count_cons_of_ne (Ne.symm ht), exec, hstep, ih]

theorem passes_nil {I : Type} (R : Rule I) (f : ℚ → Val) (error : ℚ) (ms : ℕ) (mt : ℤ)
    (el : ℕ → ℚ) :
    ∀ (j i : ℕ) (s : State I), s.intervals = [] → passes R f error ms mt el j i s = s := by
  intro j
  induction j with
  | zero => intro i s _; rfl
  | succ j ih =>
    intro i s h
    rw [passes, pass_nil R f error ms mt (el i) s h, ih (i + 1) s h]

theorem loop_of_passes_nil {I : Type} (R : Rule I) (f : ℚ → Val) (error : ℚ) (ms : ℕ)
    (mt : ℤ) (el : ℕ → ℚ) :
    ∀ (j i : ℕ) (s : State I), (passes R f error ms mt el j i s).intervals = [] →
      loop R f error ms mt el j i s = some (passes R f error ms mt el j i s) := by
  intro j
  induction j with
  | zero =>
    intro i s h
    exact loop_nil R f error ms mt el 0 i s h
  | succ j ih =>
    intro i s h
    cases hq : s.intervals with
    | nil =>
      rw [loop_nil R f error ms mt el _ i s hq, passes_nil R f error ms mt el _ i s hq]
    | cons node rest =>
      rw [loop_cons R f error ms mt el j i s node rest hq]
      exact ih (i + 1) _ h

theorem pass_width {I : Type} (R : Rule I) (width : leftRightInterval I → ℚ) (f : ℚ → Val)
    (error : ℚ) (ms : ℕ) (mt : ℤ) (t : ℚ)
    (hG : ∀ x, width (R.getLeftRight x f)
      = R.b (R.getLeftRight x f).right - R.a (R.getLeftRight x f).left)
    (s : State I) (hs : ∀ n ∈ s.intervals, width n = R.b n.right - R.a n.left) :
    ∀ n ∈ (pass R f error ms mt t s).intervals, width n = R.b n.right - R.a n.left := by
  obtain ⟨q, result, subs, se, te⟩ := s
  simp only at hs
  cases q with
  | nil => exact hs
  | cons node rest =>
    have hrest : ∀ n ∈ rest, width n = R.b n.right - R.a n.left :=
      fun n hn => hs n (List.mem_cons_of_mem _ hn)
    simp only [pass]
    split
    · exact hrest
    · intro n hn
      simp only [List.mem_append, List.mem_cons, List.mem_singleton, List.not_mem_nil,
        or_false] at hn
      rcases hn with hn | rfl | rfl
      · exact hrest n hn
      · exact hG _
      · exact hG _

theorem sim_passes {I : Type} (R : Rule I) (width : leftRightInterval I → ℚ) (f : ℚ → Val)
    (error : ℚ) (ms : ℕ) (mt : ℤ) (elapsed : ℕ → ℕ → ℚ)
    (hG : ∀ x, width (R.getLeftRight x f)
      = R.b (R.getLeftRight x f).right - R.a (R.getLeftRight x f).left) :
    ∀ (j i : ℕ) (s : State I), (∀ n ∈ s.intervals, width n = R.b n.right - R.a n.left) →
      (∀ k, k < j → (passes R f error ms mt (elapsed 0) k i s).intervals ≠ []) →
      exec R width f error ms mt elapsed 1 (List.replicate (7 * j) 0) (atLoopTest s i)
        = atLoopTest (passes R f error ms mt (elapsed 0) j i s) (i + j) := by
  intro j
  induction j with
  | zero => intro i s _ _; rfl
  | succ j ih =>
    intro i s hs hne
    have h0 : s.intervals ≠ [] := hne 0 (Nat.succ_pos j)
    obtain ⟨node, rest, hq⟩ := List.exists_cons_of_ne_nil h0
    have hrep : List.replicate (7 * (j + 1)) 0
        = [0, 0, 0, 0, 0, 0, 0] ++ List.replicate (7 * j) 0 := by
      rw [Nat.mul_succ, Nat.add_comm, List.replicate_add]
      rfl
    rw [hrep, exec_append,
      sim_pass R width f error ms mt elapsed s i node rest hq (hs node (by rw [hq]; simp)),
      ih (i + 1) _ (pass_width R width f error ms mt (elapsed 0 i) hG s hs)
        (fun k hk => hne (k + 1) (Nat.succ_lt_succ hk))]
    simp only [passes, Nat.add_assoc, Nat.add_comm 1 j]

theorem sim_run {I : Type} (R : Rule I) (width : leftRightInterval I → ℚ) (f : ℚ → Val)
    (error : ℚ) (ms : ℕ) (mt : ℤ) (elapsed : ℕ → ℕ → ℚ) (whole : I)
    (hG : ∀ x, width (R.getLeftRight x f)
      = R.b (R.getLeftRight x f).right - R.a (R.getLeftRight x f).left)
    (j : ℕ)
    (hne : ∀ k, k < j → (passes R f error ms mt (elapsed 0) k 0 (start R f whole)).intervals ≠ []) :
    exec R width f error ms mt elapsed 1 (List.replicate (1 + 7 * j) 0) (launch R f whole)
      = atLoopTest (passes R f error ms mt (elapsed 0) j 0 (start R f whole)) j := by
  have hstart : ∀ n ∈ (start R f whole).intervals, width n = R.b n.right - R.a n.left := by
    intro n hn
    simp only [start, List.mem_singleton] at hn
    subst hn
    exact hG _
  rw [List.replicate_add, exec_append]
  show exec R width f error ms mt elapsed 1 (List.replicate (7 * j) 0)
    (exec R width f error ms mt elapsed 1 [0] (launch R f whole)) = _
  rw [sim_launch, sim_passes R width f error ms mt elapsed hG j 0 _ hstart hne, Nat.zero_add]

theorem sim_joined {I : Type} (R : Rule I) (width : leftRightInterval I → ℚ) (f : ℚ → Val)
    (error : ℚ) (ms : ℕ) (mt : ℤ) (elapsed : ℕ → ℕ → ℚ) (whole : I)
    (hG : ∀ x, width (R.getLeftRight x f)
      = R.b (R.getLeftRight x f).right - R.a (R.getLeftRight x f).left)
    (j : ℕ)
    (hne : ∀ k, k < j → (passes R f error ms mt (elapsed 0) k 0 (start R f whole)).intervals ≠ [])
    (hj : (passes R f error ms mt (elapsed 0) j 0 (start R f whole)).intervals = []) :
    ∀ n, 1 + 7 * j + 2 ≤ n →
      exec R width f error ms mt elapsed 1 (List.replicate n 0) (launch R f whole)
        = atDone (passes R f error ms mt (elapsed 0) j 0 (start R f whole)) j := by
  intro n hn
  obtain ⟨m, rfl⟩ : ∃ m, n = 1 + 7 * j + (2 + m) := ⟨n - (1 + 7 * j + 2), by omega⟩
  rw [List.replicate_add, exec_append, sim_run R width f error ms mt elapsed whole hG j hne,
    List.replicate_add, exec_append]
  show exec R width f error ms mt elapsed 1 (List.replicate m 0)
    (exec R width f error ms mt elapsed 1 [0, 0] _) = _
  rw [sim_exit R width f error ms mt elapsed _ j hj]
  exact sim_done R width f error ms mt elapsed _ (by simp [atDone]) _

theorem parallel_one_thread {I : Type} (R : Rule I) (width : leftRightInterval I → ℚ)
    (f : ℚ → Val) (error : ℚ) (ms : ℕ) (mt : ℤ) (elapsed : ℕ → ℕ → ℚ) (whole : I)
    (hG : ∀ x, width (R.getLeftRight x f)
      = R.b (R.getLeftRight x f).right - R.a (R.getLeftRight x f).left) :
    (∀ fuel r, run R fuel f whole error ms mt (elapsed 0) = some r →
        ∃ n0, ∀ sched : List ℕ, n0 ≤ sched.count 0 →
          parallel R width sched f whole 1 error ms mt elapsed = some r)
      ∧ ∀ sched r, parallel R width sched f whole 1 error ms mt elapsed = some r →
          ∃ fuel, run R fuel f whole error ms mt (elapsed 0) = some r := by
  classical
  have key : ∀ j0, (passes R f error ms mt (elapsed 0) j0 0 (start R f whole)).intervals = [] →
      (∀ k, k < j0 →
        (passes R f error ms mt (elapsed 0) k 0 (start R f whole)).intervals ≠ []) →
      (∀ sched : List ℕ, 1 + 7 * j0 + 2 ≤ sched.count 0 →
          parallel R width sched f whole 1 error ms mt elapsed
            = some ((passes R f error ms mt (elapsed 0) j0 0 (start R f whole)).result,
                (passes R f error ms mt (elapsed 0) j0 0 (start R f whole)).subdivisions))
        ∧ run R j0 f whole error ms mt (elapsed 0)
            = some ((passes R f error ms mt (elapsed 0) j0 0 (start R f whole)).result,
                (passes R f error ms mt (elapsed 0) j0 0 (start R f whole)).subdivisions) := by
    intro j0 hj hne
    refine ⟨?_, ?_⟩
    · intro sched hs
      unfold parallel
      simp only []
      rw [exec_one_thread, sim_joined R width f error ms mt elapsed whole hG j0 hne hj _ hs]
      rw [if_pos]
      · rfl
      · rw [joined_iff]
        intro t ht
        have ht0 : t = 0 := by omega
        subst ht0
        simp [atDone]
    · have hl := loop_of_passes_nil R f error ms mt (elapsed 0) j0 0 (start R f whole) hj
      unfold run
      simp only []
      have hl' : loop R f error ms mt (elapsed 0) j0 0
          ⟨[R.getLeftRight whole f], 0, 1, false, false⟩
          = some (passes R f error ms mt (elapsed 0) j0 0 (start R f whole)) := hl
      rw [hl']
  have least : ∀ j, (passes R f error ms mt (elapsed 0) j 0 (start R f whole)).intervals = [] →
      ∃ j0, (passes R f error ms mt (elapsed 0) j0 0 (start R f whole)).intervals = []
        ∧ ∀ k, k < j0 →
          (passes R f error ms mt (elapsed 0) k 0 (start R f whole)).intervals ≠ [] := by
    intro j hj
    have hex : ∃ j,
        (passes R f error ms mt (elapsed 0) j 0 (start R f whole)).intervals = [] := ⟨j, hj⟩
    exact ⟨Nat.find hex, Nat.find_spec hex, fun k hk => Nat.find_min hex hk⟩
  refine ⟨?_, ?_⟩
  · intro fuel r h
    have hrun := h
    unfold run at h
    simp only [] at h
    cases hl : loop R f error ms mt (elapsed 0) fuel 0
        ⟨[R.getLeftRight whole f], 0, 1, false, false⟩ with
    | none => rw [hl] at h; cases h
    | some s' =>
      obtain ⟨j, h1, h2⟩ := loop_eq_passes R f error ms mt (elapsed 0) fuel 0 _ s' hl
      have h1' : s' = passes R f error ms mt (elapsed 0) j 0 (start R f whole) := h1
      rw [h1'] at h2
      obtain ⟨j0, hj0, hne⟩ := least j h2
      obtain ⟨k1, k2⟩ := key j0 hj0 hne
      have hmono := loop_mono R f error ms mt (elapsed 0) fuel j0 0
        ⟨[R.getLeftRight whole f], 0, 1, false, false⟩ s' hl
      have hmono2 := loop_mono R f error ms mt (elapsed 0) j0 fuel 0
        ⟨[R.getLeftRight whole f], 0, 1, false, false⟩ _
        (loop_of_passes_nil R f error ms mt (elapsed 0) j0 0 (start R f whole) hj0)
      rw [Nat.add_comm] at hmono2
      rw [hmono] at hmono2
      have hs' : s' = passes R f error ms mt (elapsed 0) j0 0 (start R f whole) :=
        Option.some.inj hmono2
      rw [hl] at h
      simp only [Option.some.injEq] at h
      refine ⟨1 + 7 * j0 + 2, fun sched hs => ?_⟩
      rw [k1 sched hs, ← hs', h]
  · intro sched r h
    have hpar := h
    unfold parallel at h
    simp only [] at h
    split at h
    · rename_i hjoin
      simp only [Option.some.injEq] at h
      have hdone := (joined_iff 1 _).mp hjoin 0 (Nat.lt_succ_self 0)
      rw [exec_one_thread] at hdone
      have hex : ∃ j,
          (passes R f error ms mt (elapsed 0) j 0 (start R f whole)).intervals = [] := by
        by_contra hno
        push_neg at hno
        have hsim := sim_run R width f error ms mt elapsed whole hG (sched.count 0)
          (fun k _ => hno k)
        have hsplit : List.replicate (1 + 7 * sched.count 0) 0
            = List.replicate (sched.count 0) 0 ++ List.replicate (1 + 6 * sched.count 0) 0 := by
          rw [← List.replicate_add]
          congr 1
          omega
        rw [hsplit, exec_append, sim_done R width f error ms mt elapsed _ hdone] at hsim
        rw [hsim] at hdone
        simp [atLoopTest] at hdone
      obtain ⟨j, hj⟩ := hex
      obtain ⟨j0, hj0, hne⟩ := least j hj
      obtain ⟨_, k2⟩ := key j0 hj0 hne
      have hN := sim_joined R width f error ms mt elapsed whole hG j0 hne hj0
        (sched.count 0 + (1 + 7 * j0 + 2)) (by omega)
      rw [List.replicate_add, exec_append, sim_done R width f error ms mt elapsed _ hdone] at hN
      rw [exec_one_thread, hN] at h
      refine ⟨j0, ?_⟩
      rw [k2, ← h]
      rfl
    · cases h

end Adaptive
/-! One worker, rule by rule -/

theorem trapezoid_worker_width (f : ℚ → Val) (x : TrapezoidRule.interval) :
    2 * ((TrapezoidRule.rule.getLeftRight x f).left.b
        - (TrapezoidRule.rule.getLeftRight x f).left.a)
      = TrapezoidRule.rule.b (TrapezoidRule.rule.getLeftRight x f).right
        - TrapezoidRule.rule.a (TrapezoidRule.rule.getLeftRight x f).left := by
  show 2 * ((x.a + x.b) / 2 - x.a) = x.b - x.a
  ring

/-- C28: for each rule, with one worker whose clock readings are those of the
sequential loop (`elapsed 0`), `adaptiveParallel` and `adaptiveNonParallel` return the
same pair of estimate and subdivision count: whenever `adaptiveNonParallel` returns
`r`, `adaptiveParallel` returns `r` under every schedule that gives the worker enough
steps, and whenever `adaptiveParallel` returns `r` under some schedule,
`adaptiveNonParallel` returns `r` with enough fuel. For Trapezoid the worker's
`2 * (left.b - left.a)` equals `right.b - left.a` on every node `getLeftRight` builds. -/
theorem adaptiveParallel_one_thread_eq_adaptiveNonParallel (f : ℚ → Val) (a b error : ℚ)
    (max_subdivisions : ℕ) (max_time : ℤ) (elapsed : ℕ → ℕ → ℚ) :
    ((∀ fuel r,
          TrapezoidRule.adaptiveNonParallel fuel f a b error max_subdivisions max_time
            (elapsed 0) = some r →
          ∃ n0, ∀ sched : List ℕ, n0 ≤ sched.count 0 →
            TrapezoidRule.adaptiveParallel sched f a b 1 error max_subdivisions max_time
              elapsed = some r)
        ∧ (∀ sched r,
          TrapezoidRule.adaptiveParallel sched f a b 1 error max_subdivisions max_time elapsed
            = some r →
          ∃ fuel, TrapezoidRule.adaptiveNonParallel fuel f a b error max_subdivisions max_time
            (elapsed 0) = some r)
        ∧ ∀ x : TrapezoidRule.interval,
          2 * ((TrapezoidRule.getLeftRight x f).left.b - (TrapezoidRule.getLeftRight x f).left.a)
            = (TrapezoidRule.getLeftRight x f).right.b
              - (TrapezoidRule.getLeftRight x f).left.a)
      ∧ ((∀ fuel r,
          SimpsonRule.adaptiveNonParallel fuel f a b error max_subdivisions max_time
            (elapsed 0) = some r →
          ∃ n0, ∀ sched : List ℕ, n0 ≤ sched.count 0 →
            SimpsonRule.adaptiveParallel sched f a b 1 error max_subdivisions max_time
              elapsed = some r)
        ∧ ∀ sched r,
          SimpsonRule.adaptiveParallel sched f a b 1 error max_subdivisions max_time elapsed
            = some r →
          ∃ fuel, SimpsonRule.adaptiveNonParallel fuel f a b error max_subdivisions max_time
            (elapsed 0) = some r)
      ∧ ((∀ fuel r,
          Simpson38Rule.adaptiveNonParallel fuel f a b error max_subdivisions max_time
            (elapsed 0) = some r →
          ∃ n0, ∀ sched : List ℕ, n0 ≤ sched.count 0 →
            Simpson38Rule.adaptiveParallel sched f a b 1 error max_subdivisions max_time
              elapsed = some r)
        ∧ ∀ sched r,
          Simpson38Rule.adaptiveParallel sched f a b 1 error max_subdivisions max_time elapsed
            = some r →
          ∃ fuel, Simpson38Rule.adaptiveNonParallel fuel f a b error max_subdivisions max_time
            (elapsed 0) = some r)
      ∧ ((∀ fuel r,
          BoolesRule.adaptiveNonParallel fuel f a b error max_subdivisions max_time
            (elapsed 0) = some r →
          ∃ n0, ∀ sched : List ℕ, n0 ≤ sched.count 0 →
            BoolesRule.adaptiveParallel sched f a b 1 error max_subdivisions max_time
              elapsed = some r)
        ∧ ∀ sched r,
          BoolesRule.adaptiveParallel sched f a b 1 error max_subdivisions max_time elapsed
            = some r →
          ∃ fuel, BoolesRule.adaptiveNonParallel fuel f a b error max_subdivisions max_time
            (elapsed 0) = some r) := by
  have ht := Adaptive.parallel_one_thread TrapezoidRule.rule
    (fun c => 2 * (c.left.b - c.left.a)) f error max_subdivisions max_time elapsed
    ⟨a, b, findVal f a (b - a), findVal f b (b - a)⟩ (trapezoid_worker_width f)
  have hs := Adaptive.parallel_one_thread SimpsonRule.rule
    (fun c => c.right.b - c.left.a) f error max_subdivisions max_time elapsed
    ⟨a, (a + b) / 2, b, findVal f a (b - a), findVal f ((a + b) / 2) (b - a),
      findVal f b (b - a)⟩ (fun _ => rfl)
  have he := Adaptive.parallel_one_thread Simpson38Rule.rule
    (fun c => c.right.b - c.left.a) f error max_subdivisions max_time elapsed
    ⟨a, b, findVal f a (b - a), findVal f b (b - a)⟩ (fun _ => rfl)
  have ho := Adaptive.parallel_one_thread BoolesRule.rule
    (fun c => c.right.b - c.left.a) f error max_subdivisions max_time elapsed
    ⟨a, (a + b) / 2, b, findVal f a (b - a), findVal f ((a + b) / 2) (b - a),
      findVal f b (b - a)⟩ (fun _ => rfl)
  exact ⟨⟨ht.1, ht.2, trapezoid_worker_width f⟩, hs, he, ho⟩

theorem adaptiveParallel_one_thread_eq_adaptiveNonParallel_witness :
    SimpsonRule.adaptiveNonParallel 1 (fun x => Val.fin (Simpson38Rule.cubic 0 0 1 0 x)) 0 1
        (1 / 100) 10 5 (fun _ => 0)
      = some (Val.fin (Simpson38Rule.cubicPrimitive 0 0 1 0 1
          - Simpson38Rule.cubicPrimitive 0 0 1 0 0), 1)
    ∧ ∃ n0, ∀ sched : List ℕ, n0 ≤ sched.count 0 →
        SimpsonRule.adaptiveParallel sched (fun x => Val.fin (Simpson38Rule.cubic 0 0 1 0 x)) 0 1
            1 (1 / 100) 10 5 (fun _ _ => 0)
          = some (Val.fin (Simpson38Rule.cubicPrimitive 0 0 1 0 1
              - Simpson38Rule.cubicPrimitive 0 0 1 0 0), 1) :=
  ⟨SimpsonRule.simpson_adaptive_cubic 0 0 1 0 0 1 (1 / 100) 10 5 (fun _ => 0) 0
      (by norm_num) (by norm_num),
    (adaptiveParallel_one_thread_eq_adaptiveNonParallel
      (fun x => Val.fin (Simpson38Rule.cubic 0 0 1 0 x)) 0 1 (1 / 100) 10 5
      (fun _ _ => 0)).2.1.1 1 _
      (SimpsonRule.simpson_adaptive_cubic 0 0 1 0 0 1 (1 / 100) 10 5 (fun _ => 0) 0
        (by norm_num) (by norm_num))⟩
/-! Any number of workers: nothing is lost and nothing is counted twice -/

namespace Adaptive
open Val

theorem step_kind {I : Type} (R : Rule I) (width : leftRightInterval I → ℚ)
    (f : ℚ → Val) (error : ℚ) (ms : ℕ) (mt : ℤ) (el : ℕ → ℚ) (tid : ℕ)
    (sh sh' : Shared I) (w w' : Worker I)
    (h : stepWorker R width f error ms mt el tid sh w = some (sh', w')) :
    (acceptedBy w.pc w'.pc = [] ∧ sh'.intervals = sh.intervals ∧ sh'.result = sh.result
        ∧ heldNodes w'.pc = heldNodes w.pc ∧ pendingValue w'.pc = pendingValue w.pc
        ∧ (active w'.pc = true ∨ active w.pc = false ∨ sh'.intervals = []))
      ∨ (∃ cur, acceptedBy w.pc w'.pc = [] ∧ sh.intervals = cur :: sh'.intervals
        ∧ sh'.result = sh.result
        ∧ heldNodes w.pc = [] ∧ heldNodes w'.pc = [cur]
        ∧ pendingValue w'.pc = pendingValue w.pc ∧ active w'.pc = true)
      ∨ (∃ cur, acceptedBy w.pc w'.pc = [cur] ∧ sh'.intervals = sh.intervals
        ∧ sh'.result = sh.result
        ∧ heldNodes w.pc = [cur] ∧ heldNodes w'.pc = []
        ∧ pendingValue w.pc = 0 ∧ pendingValue w'.pc = estimate R f cur
        ∧ active w'.pc = true)
      ∨ (∃ cur, acceptedBy w.pc w'.pc = [] ∧ sh'.intervals = sh.intervals
        ∧ sh'.result = sh.result
        ∧ heldNodes w.pc = [cur]
        ∧ heldNodes w'.pc = [R.getLeftRight cur.left f, R.getLeftRight cur.right f]
        ∧ pendingValue w'.pc = pendingValue w.pc ∧ active w'.pc = true)
      ∨ (acceptedBy w.pc w'.pc = [] ∧ sh'.intervals = sh.intervals
        ∧ sh'.result = sh.result + pendingValue w.pc
        ∧ heldNodes w'.pc = heldNodes w.pc ∧ pendingValue w'.pc = 0
        ∧ active w'.pc = true)
      ∨ (∃ l r, acceptedBy w.pc w'.pc = [] ∧ sh'.intervals = sh.intervals ++ [l, r]
        ∧ sh'.result = sh.result
        ∧ heldNodes w.pc = [l, r] ∧ heldNodes w'.pc = []
        ∧ pendingValue w'.pc = pendingValue w.pc ∧ active w'.pc = true) := by
  obtain ⟨pc, se, te, k⟩ := w
  obtain ⟨q, r, n, mq, mr⟩ := sh
  cases pc with
  | lockFirst =>
    simp only [stepWorker] at h
    split at h
    · simp only [Option.some.injEq, Prod.mk.injEq] at h
      obtain ⟨rfl, rfl⟩ := h
      exact Or.inl ⟨rfl, rfl, rfl, rfl, rfl, Or.inl rfl⟩
    · cases h
  | loopTest =>
    cases q with
    | nil =>
      simp only [stepWorker, Option.some.injEq, Prod.mk.injEq] at h
      obtain ⟨rfl, rfl⟩ := h
      exact Or.inl ⟨rfl, rfl, rfl, rfl, rfl, Or.inr (Or.inr rfl)⟩
    | cons cur rest =>
      simp only [stepWorker, Option.some.injEq, Prod.mk.injEq] at h
      obtain ⟨rfl, rfl⟩ := h
      exact Or.inr (Or.inl ⟨cur, rfl, rfl, rfl, rfl, rfl, rfl, rfl⟩)
  | unlockPopped cur =>
    simp only [stepWorker, Option.some.injEq, Prod.mk.injEq] at h
    obtain ⟨rfl, rfl⟩ := h
    exact Or.inl ⟨rfl, rfl, rfl, rfl, rfl, Or.inl rfl⟩
  | split cur =>
    simp only [stepWorker] at h
    split at h
    · simp only [Option.some.injEq, Prod.mk.injEq] at h
      obtain ⟨rfl, rfl⟩ := h
      exact Or.inr (Or.inr (Or.inl ⟨cur, rfl, rfl, rfl, rfl, rfl, rfl, rfl, rfl⟩))
    · simp only [Option.some.injEq, Prod.mk.injEq] at h
      obtain ⟨rfl, rfl⟩ := h
      exact Or.inr (Or.inr (Or.inr (Or.inl ⟨cur, rfl, rfl, rfl, rfl, rfl, rfl, rfl⟩)))
  | lockResult left right =>
    simp only [stepWorker] at h
    split at h
    · simp only [Option.some.injEq, Prod.mk.injEq] at h
      obtain ⟨rfl, rfl⟩ := h
      exact Or.inl ⟨rfl, rfl, rfl, rfl, rfl, Or.inl rfl⟩
    · cases h
  | addResult left right =>
    simp only [stepWorker, Option.some.injEq, Prod.mk.injEq] at h
    obtain ⟨rfl, rfl⟩ := h
    exact Or.inr (Or.inr (Or.inr (Or.inr (Or.inl ⟨rfl, rfl, rfl, rfl, rfl, rfl⟩))))
  | unlockResult =>
    simp only [stepWorker, Option.some.injEq, Prod.mk.injEq] at h
    obtain ⟨rfl, rfl⟩ := h
    exact Or.inl ⟨rfl, rfl, rfl, rfl, rfl, Or.inl rfl⟩
  | lockPush left right =>
    simp only [stepWorker] at h
    split at h
    · simp only [Option.some.injEq, Prod.mk.injEq] at h
      obtain ⟨rfl, rfl⟩ := h
      exact Or.inl ⟨rfl, rfl, rfl, rfl, rfl, Or.inl rfl⟩
    · cases h
  | push left right =>
    simp only [stepWorker, Option.some.injEq, Prod.mk.injEq] at h
    obtain ⟨rfl, rfl⟩ := h
    exact Or.inr (Or.inr (Or.inr (Or.inr (Or.inr
      ⟨left, right, rfl, rfl, rfl, rfl, rfl, rfl, rfl⟩))))
  | unlockPush =>
    simp only [stepWorker, Option.some.injEq, Prod.mk.injEq] at h
    obtain ⟨rfl, rfl⟩ := h
    exact Or.inl ⟨rfl, rfl, rfl, rfl, rfl, Or.inl rfl⟩
  | lockAgain =>
    simp only [stepWorker] at h
    split at h
    · simp only [Option.some.injEq, Prod.mk.injEq] at h
      obtain ⟨rfl, rfl⟩ := h
      exact Or.inl ⟨rfl, rfl, rfl, rfl, rfl, Or.inl rfl⟩
    · cases h
  | unlockLast =>
    simp only [stepWorker, Option.some.injEq, Prod.mk.injEq] at h
    obtain ⟨rfl, rfl⟩ := h
    exact Or.inl ⟨rfl, rfl, rfl, rfl, rfl, Or.inr (Or.inl rfl)⟩
  | done => simp only [stepWorker] at h; cases h

theorem sum_update_split {M : Type} [AddCommMonoid M] {I : Type} (g : Worker I → M)
    (W : ℕ → Worker I) (T t : ℕ) (ht : t < T) (w' : Worker I) :
    ∃ rest : M, ∑ u in Finset.range T, g (W u) = g (W t) + rest
      ∧ ∑ u in Finset.range T, g (Function.update W t w' u) = g w' + rest := by
  refine ⟨∑ u in (Finset.range T).erase t, g (W u), ?_, ?_⟩
  · exact (Finset.add_sum_erase _ (fun u => g (W u)) (Finset.mem_range.mpr ht)).symm
  · rw [← Finset.add_sum_erase _ _ (Finset.mem_range.mpr ht), Function.update_same]
    congr 1
    refine Finset.sum_congr rfl (fun u hu => ?_)
    rw [Function.update_noteq (Finset.ne_of_mem_erase hu)]

theorem coe_cons_eq {α : Type} (x : α) (l : List α) :
    ((x :: l : List α) : Multiset α) = {x} + (l : Multiset α) := by
  rw [← Multiset.cons_coe, Multiset.singleton_add]

theorem cons_eq_add {α : Type} (x : α) (m : Multiset α) : x ::ₘ m = {x} + m :=
  (Multiset.singleton_add x m).symm

theorem map_held_one {α β : Type} (g : α → β) (A Q H : Multiset α) (c : α) :
    Multiset.map g (A + (Q + ((([c] : List α) : Multiset α) + H)))
      = g c ::ₘ Multiset.map g (A + (Q + H)) := by
  have e : A + (Q + ((([c] : List α) : Multiset α) + H)) = c ::ₘ (A + (Q + H)) := by
    simp only [coe_cons_eq, cons_eq_add, Multiset.coe_nil]
    abel
  rw [e, Multiset.map_cons]

theorem map_held_two {α β : Type} (g : α → β) (A Q H : Multiset α) (l r : α) :
    Multiset.map g (A + (Q + ((([l, r] : List α) : Multiset α) + H)))
      = g l ::ₘ g r ::ₘ Multiset.map g (A + (Q + H)) := by
  have e : A + (Q + ((([l, r] : List α) : Multiset α) + H)) = l ::ₘ r ::ₘ (A + (Q + H)) := by
    simp only [coe_cons_eq, cons_eq_add, Multiset.coe_nil]
    abel
  rw [e, Multiset.map_cons, Multiset.map_cons]

theorem covers_split (m : Multiset (ℚ × ℚ)) (a b x y z : ℚ) (hxy : x < y) (hyz : y < z)
    (hc : Covers ((x, z) ::ₘ m) a b) : Covers ((x, y) ::ₘ (y, z) ::ₘ m) a b := by
  obtain ⟨X, rfl⟩ := Quot.exists_rep m
  obtain ⟨l, hl, ht⟩ := hc
  have hp : Partitions ((x, z) :: X) a b := ⟨l, Multiset.coe_eq_coe.mp hl, ht⟩
  obtain ⟨l', hl', ht'⟩ := partitions_split X a b x y z hxy hyz hp
  exact ⟨l', Multiset.coe_eq_coe.mpr hl', ht'⟩

end Adaptive

namespace Adaptive
open Val

theorem active_step {I : Type} (T t : ℕ) (ht : t < T) (W : ℕ → Worker I) (w' : Worker I)
    (q q' : List (leftRightInterval I))
    (hJ : (∃ u, u < T ∧ active (W u).pc = true) ∨ q = [])
    (hc : active w'.pc = true ∨ (active (W t).pc = false ∧ q' = q) ∨ q' = []) :
    (∃ u, u < T ∧ active (Function.update W t w' u).pc = true) ∨ q' = [] := by
  rcases hc with hc | ⟨hc, hq⟩ | hc
  · exact Or.inl ⟨t, ht, by rw [Function.update_same]; exact hc⟩
  · rcases hJ with ⟨u, hu, hact⟩ | hJ
    · have hne : u ≠ t := by
        rintro rfl
        rw [hc] at hact
        cases hact
      exact Or.inl ⟨u, hu, by rw [Function.update_noteq hne]; exact hact⟩
    · exact Or.inr (hq.trans hJ)
  · exact Or.inr hc

theorem step_accounted {I : Type} (R : Rule I) (width : leftRightInterval I → ℚ)
    (f : ℚ → Val) (error : ℚ) (ms : ℕ) (mt : ℤ) (el : ℕ → ℚ) (a b : ℚ) (T : ℕ)
    (wf : I → Prop)
    (hG : ∀ x, wf x → R.a x < R.b x ∧ R.a (R.getLeftRight x f).left = R.a x
      ∧ R.b (R.getLeftRight x f).right = R.b x
      ∧ R.b (R.getLeftRight x f).left = R.a (R.getLeftRight x f).right
      ∧ wf (R.getLeftRight x f).left ∧ wf (R.getLeftRight x f).right)
    (t : ℕ) (ht : t < T) (sh sh' : Shared I) (W : ℕ → Worker I) (w' : Worker I)
    (A : List (leftRightInterval I)) (hA : Accounted R f a b T wf A (sh, W))
    (h : stepWorker R width f error ms mt el t sh (W t) = some (sh', w')) :
    Accounted R f a b T wf (A ++ acceptedBy (W t).pc w'.pc) (sh', Function.update W t w') := by
  obtain ⟨restP, hP, hP'⟩ := sum_update_split (fun w : Worker I => pendingValue w.pc) W T t ht w'
  obtain ⟨restH, hH, hH'⟩ := sum_update_split
    (fun w : Worker I => ((heldNodes w.pc : List (leftRightInterval I)) :
      Multiset (leftRightInterval I))) W T t ht w'
  have hPS : pendingSum T (sh, W) = pendingValue (W t).pc + restP := hP
  have hPS' : pendingSum T (sh', Function.update W t w') = pendingValue w'.pc + restP := hP'
  have hIF : inFlight T (sh, W)
      = (sh.intervals : Multiset (leftRightInterval I))
        + (((heldNodes (W t).pc : List (leftRightInterval I)) :
            Multiset (leftRightInterval I)) + restH) := by
    unfold inFlight
    exact congrArg _ hH
  have hIF' : inFlight T (sh', Function.update W t w')
      = (sh'.intervals : Multiset (leftRightInterval I))
        + (((heldNodes w'.pc : List (leftRightInterval I)) :
            Multiset (leftRightInterval I)) + restH) := by
    unfold inFlight
    exact congrArg _ hH'
  obtain ⟨J1, J2, J3, J5⟩ := hA
  rw [hPS] at J1
  rw [hIF] at J2 J3
  have J1 : sh.result + (pendingValue (W t).pc + restP) = (A.map (estimate R f)).sum := J1
  have J5 : (∃ u, u < T ∧ active (W u).pc = true) ∨ sh.intervals = [] := J5
  have J1g : ∀ A' : List (leftRightInterval I),
      sh'.result + (pendingValue w'.pc + restP) = (A'.map (estimate R f)).sum →
      (sh', Function.update W t w').1.result
          + pendingSum T (sh', Function.update W t w') = (A'.map (estimate R f)).sum := by
    intro A' hh
    rw [hPS']
    exact hh
  rcases step_kind R width f error ms mt el t sh sh' (W t) w' h with
    ⟨ea, e1, e2, e3, e4, e5⟩ | ⟨cur, ea, e1, e2, e3, e4, e5, e6⟩
      | ⟨cur, ea, e1, e2, e3, e4, e5, e6, e7⟩ | ⟨cur, ea, e1, e2, e3, e4, e5, e6⟩
      | ⟨ea, e1, e2, e3, e4, e5⟩ | ⟨l, r, ea, e1, e2, e3, e4, e5, e6⟩
  · rw [ea, List.append_nil]
    refine ⟨J1g A (by rw [e2, e4]; exact J1), ?_, ?_, ?_⟩
    · rw [hIF', e1, e3]; exact J2
    · rw [hIF', e1, e3]; exact J3
    · refine active_step T t ht W w' sh.intervals sh'.intervals J5 ?_
      rcases e5 with e5 | e5 | e5
      · exact Or.inl e5
      · exact Or.inr (Or.inl ⟨e5, e1⟩)
      · exact Or.inr (Or.inr e5)
  · have hsame : inFlight T (sh', Function.update W t w') = (sh.intervals : Multiset _)
        + (((heldNodes (W t).pc : List (leftRightInterval I)) :
            Multiset (leftRightInterval I)) + restH) := by
      rw [hIF', e1, e3, e4]
      simp only [coe_cons_eq, Multiset.coe_nil]
      abel
    rw [ea, List.append_nil]
    refine ⟨J1g A (by rw [e2, e5]; exact J1), ?_, ?_, ?_⟩
    · rw [hsame]; exact J2
    · rw [hsame]; exact J3
    · exact active_step T t ht W w' sh.intervals sh'.intervals J5 (Or.inl e6)
  · rw [ea]
    refine ⟨J1g _ ?_, ?_, ?_, ?_⟩
    · rw [e2, e6, List.map_append, List.sum_append, ← J1, e5]
      simp only [List.map_cons, List.map_nil, List.sum_cons, List.sum_nil]
      abel
    · have hsame : ((A ++ [cur] : List (leftRightInterval I)) : Multiset (leftRightInterval I))
          + inFlight T (sh', Function.update W t w')
          = (A : Multiset (leftRightInterval I)) + ((sh.intervals : Multiset _)
            + (((heldNodes (W t).pc : List (leftRightInterval I)) :
                Multiset (leftRightInterval I)) + restH)) := by
        rw [hIF', e1, e3, e4, ← Multiset.coe_add]
        simp only [coe_cons_eq, Multiset.coe_nil]
        abel
      rw [hsame]; exact J2
    · intro n hn
      rw [hIF', e1, e4] at hn
      refine J3 n ?_
      rcases Multiset.mem_add.mp hn with hn | hn
      · exact Multiset.mem_add.mpr (Or.inl hn)
      · rcases Multiset.mem_add.mp hn with hn | hn
        · simp at hn
        · exact Multiset.mem_add.mpr (Or.inr (Multiset.mem_add.mpr (Or.inr hn)))
    · exact active_step T t ht W w' sh.intervals sh'.intervals J5 (Or.inl e7)
  · have hcur : wf cur.left ∧ wf cur.right ∧ R.b cur.left = R.a cur.right := by
      refine J3 cur ?_
      rw [e3]
      exact Multiset.mem_add.mpr (Or.inr (Multiset.mem_add.mpr (Or.inl (by simp))))
    obtain ⟨hwl, hwr, hmid⟩ := hcur
    obtain ⟨hl1, hl2, hl3, hl4, hl5, hl6⟩ := hG _ hwl
    obtain ⟨hr1, hr2, hr3, hr4, hr5, hr6⟩ := hG _ hwr
    rw [ea, List.append_nil]
    refine ⟨J1g A (by rw [e2, e5]; exact J1), ?_, ?_, ?_⟩
    · rw [hIF', e1, e4]
      rw [e3] at J2
      have s1 : span R (R.getLeftRight cur.left f) = (R.a cur.left, R.b cur.left) := by
        simp only [span, hl2, hl3]
      have s2 : span R (R.getLeftRight cur.right f) = (R.b cur.left, R.b cur.right) := by
        simp only [span, hr2, hr3, hmid]
      rw [map_held_one] at J2
      rw [map_held_two, s1, s2]
      exact covers_split _ a b _ _ _ hl1 (hmid ▸ hr1) J2
    · intro n hn
      rw [hIF', e1, e4] at hn
      rcases Multiset.mem_add.mp hn with hn | hn
      · exact J3 n (Multiset.mem_add.mpr (Or.inl hn))
      · rcases Multiset.mem_add.mp hn with hn | hn
        · simp only [Multiset.mem_coe, List.mem_cons, List.mem_singleton, List.not_mem_nil,
            or_false] at hn
          rcases hn with rfl | rfl
          · exact ⟨hl5, hl6, hl4⟩
          · exact ⟨hr5, hr6, hr4⟩
        · exact J3 n (Multiset.mem_add.mpr (Or.inr (Multiset.mem_add.mpr (Or.inr hn))))
    · exact active_step T t ht W w' sh.intervals sh'.intervals J5 (Or.inl e6)
  · rw [ea, List.append_nil]
    refine ⟨J1g A ?_, ?_, ?_, ?_⟩
    · rw [e2, e4, ← J1]
      abel
    · rw [hIF', e1, e3]; exact J2
    · rw [hIF', e1, e3]; exact J3
    · exact active_step T t ht W w' sh.intervals sh'.intervals J5 (Or.inl e5)
  · have hsame : inFlight T (sh', Function.update W t w') = (sh.intervals : Multiset _)
        + (((heldNodes (W t).pc : List (leftRightInterval I)) :
            Multiset (leftRightInterval I)) + restH) := by
      rw [hIF', e1, e3, e4, ← Multiset.coe_add]
      simp only [coe_cons_eq, Multiset.coe_nil]
      abel
    rw [ea, List.append_nil]
    refine ⟨J1g A (by rw [e2, e5]; exact J1), ?_, ?_, ?_⟩
    · rw [hsame]; exact J2
    · rw [hsame]; exact J3
    · exact active_step T t ht W w' sh.intervals sh'.intervals J5 (Or.inl e6)

end Adaptive

namespace Adaptive
open Val

theorem step_trace {I : Type} (R : Rule I) (width : leftRightInterval I → ℚ)
    (f : ℚ → Val) (error : ℚ) (ms : ℕ) (mt : ℤ) (el : ℕ → ℚ) (tid : ℕ)
    (sh sh' : Shared I) (w w' : Worker I)
    (h : stepWorker R width f error ms mt el tid sh w = some (sh', w')) :
    ((pushedBy w.pc w'.pc : List (leftRightInterval I)) : Multiset (leftRightInterval I))
        + (sh.intervals : Multiset (leftRightInterval I))
        + ((poppedNodes w.pc : List (leftRightInterval I)) : Multiset (leftRightInterval I))
      = ((acceptedBy w.pc w'.pc : List (leftRightInterval I)) :
            Multiset (leftRightInterval I))
          + ((refinedBy w.pc w'.pc : List (leftRightInterval I)) :
              Multiset (leftRightInterval I))
          + (sh'.intervals : Multiset (leftRightInterval I))
          + ((poppedNodes w'.pc : List (leftRightInterval I)) :
              Multiset (leftRightInterval I))
    ∧ (((refinedBy w.pc w'.pc).flatMap (children R f) : List (leftRightInterval I)) :
          Multiset (leftRightInterval I))
        + ((childNodes w.pc : List (leftRightInterval I)) : Multiset (leftRightInterval I))
      = ((pushedBy w.pc w'.pc : List (leftRightInterval I)) : Multiset (leftRightInterval I))
          + ((childNodes w'.pc : List (leftRightInterval I)) :
              Multiset (leftRightInterval I)) := by
  obtain ⟨pc, se, te, k⟩ := w
  obtain ⟨q, r, n, mq, mr⟩ := sh
  cases pc with
  | lockFirst =>
    simp only [stepWorker] at h
    split at h
    · simp only [Option.some.injEq, Prod.mk.injEq] at h
      obtain ⟨rfl, rfl⟩ := h
      simp [pushedBy, acceptedBy, refinedBy, poppedNodes, childNodes]
    · cases h
  | loopTest =>
    cases q with
    | nil =>
      simp only [stepWorker, Option.some.injEq, Prod.mk.injEq] at h
      obtain ⟨rfl, rfl⟩ := h
      simp [pushedBy, acceptedBy, refinedBy, poppedNodes, childNodes]
    | cons cur rest =>
      simp only [stepWorker, Option.some.injEq, Prod.mk.injEq] at h
      obtain ⟨rfl, rfl⟩ := h
      simp only [pushedBy, acceptedBy, refinedBy, poppedNodes, childNodes, List.flatMap_nil,
        coe_cons_eq, Multiset.coe_nil]
      constructor
      · abel
      · trivial
  | unlockPopped cur =>
    simp only [stepWorker, Option.some.injEq, Prod.mk.injEq] at h
    obtain ⟨rfl, rfl⟩ := h
    simp [pushedBy, acceptedBy, refinedBy, poppedNodes, childNodes]
  | split cur =>
    simp only [stepWorker] at h
    split at h
    · simp only [Option.some.injEq, Prod.mk.injEq] at h
      obtain ⟨rfl, rfl⟩ := h
      simp only [pushedBy, acceptedBy, refinedBy, poppedNodes, childNodes, List.flatMap_nil,
        coe_cons_eq, Multiset.coe_nil]
      constructor
      · abel
      · trivial
    · simp only [Option.some.injEq, Prod.mk.injEq] at h
      obtain ⟨rfl, rfl⟩ := h
      simp only [pushedBy, acceptedBy, refinedBy, poppedNodes, childNodes, List.flatMap_cons,
        List.flatMap_nil, children, List.append_nil, coe_cons_eq, Multiset.coe_nil]
      constructor
      · abel
      · abel
  | lockResult left right =>
    simp only [stepWorker] at h
    split at h
    · simp only [Option.some.injEq, Prod.mk.injEq] at h
      obtain ⟨rfl, rfl⟩ := h
      simp [pushedBy, acceptedBy, refinedBy, poppedNodes, childNodes]
    · cases h
  | addResult left right =>
    simp only [stepWorker, Option.some.injEq, Prod.mk.injEq] at h
    obtain ⟨rfl, rfl⟩ := h
    simp [pushedBy, acceptedBy, refinedBy, poppedNodes, childNodes]
  | unlockResult =>
    simp only [stepWorker, Option.some.injEq, Prod.mk.injEq] at h
    obtain ⟨rfl, rfl⟩ := h
    simp [pushedBy, acceptedBy, refinedBy, poppedNodes, childNodes]
  | lockPush left right =>
    simp only [stepWorker] at h
    split at h
    · simp only [Option.some.injEq, Prod.mk.injEq] at h
      obtain ⟨rfl, rfl⟩ := h
      simp [pushedBy, acceptedBy, refinedBy, poppedNodes, childNodes]
    · cases h
  | push left right =>
    simp only [stepWorker, Option.some.injEq, Prod.mk.injEq] at h
    obtain ⟨rfl, rfl⟩ := h
    simp only [pushedBy, acceptedBy, refinedBy, poppedNodes, childNodes, List.flatMap_nil,
      ← Multiset.coe_add, coe_cons_eq, Multiset.coe_nil]
    constructor
    · abel
    · abel
  | unlockPush =>
    simp only [stepWorker, Option.some.injEq, Prod.mk.injEq] at h
    obtain ⟨rfl, rfl⟩ := h
    simp [pushedBy, acceptedBy, refinedBy, poppedNodes, childNodes]
  | lockAgain =>
    simp only [stepWorker] at h
    split at h
    · simp only [Option.some.injEq, Prod.mk.injEq] at h
      obtain ⟨rfl, rfl⟩ := h
      simp [pushedBy, acceptedBy, refinedBy, poppedNodes, childNodes]
    · cases h
  | unlockLast =>
    simp only [stepWorker, Option.some.injEq, Prod.mk.injEq] at h
    obtain ⟨rfl, rfl⟩ := h
    simp [pushedBy, acceptedBy, refinedBy, poppedNodes, childNodes]
  | done => simp only [stepWorker] at h; cases h

theorem queued_step {M : Type} [AddCommMonoid M]
    (fi Pu pu A Ref acc ref Q Q' pw pw' rest : M)
    (K : fi + Pu = A + Ref + (Q + (pw + rest)))
    (E : pu + Q + pw = acc + ref + Q' + pw') :
    fi + (Pu + pu) = (A + acc) + (Ref + ref) + (Q' + (pw' + rest)) := by
  calc fi + (Pu + pu) = (fi + Pu) + pu := by abel
    _ = A + Ref + (Q + (pw + rest)) + pu := by rw [K]
    _ = A + Ref + rest + (pu + Q + pw) := by abel
    _ = A + Ref + rest + (acc + ref + Q' + pw') := by rw [E]
    _ = (A + acc) + (Ref + ref) + (Q' + (pw' + rest)) := by abel

theorem children_step {M : Type} [AddCommMonoid M] (B Pu pu rb cw cw' rest : M)
    (K : B = Pu + (cw + rest)) (E : rb + cw = pu + cw') :
    B + rb = (Pu + pu) + (cw' + rest) := by
  calc B + rb = Pu + rest + (rb + cw) := by rw [K]; abel
    _ = Pu + rest + (pu + cw') := by rw [E]
    _ = (Pu + pu) + (cw' + rest) := by abel

theorem step_traced {I : Type} (R : Rule I) (width : leftRightInterval I → ℚ)
    (f : ℚ → Val) (error : ℚ) (ms : ℕ) (mt : ℤ) (el : ℕ → ℚ) (T : ℕ)
    (first : leftRightInterval I)
    (t : ℕ) (ht : t < T) (sh sh' : Shared I) (W : ℕ → Worker I) (w' : Worker I)
    (A Ref Pu : List (leftRightInterval I)) (hA : Traced R f T first A Ref Pu (sh, W))
    (h : stepWorker R width f error ms mt el t sh (W t) = some (sh', w')) :
    Traced R f T first (A ++ acceptedBy (W t).pc w'.pc) (Ref ++ refinedBy (W t).pc w'.pc)
      (Pu ++ pushedBy (W t).pc w'.pc) (sh', Function.update W t w') := by
  obtain ⟨restP, hP, hP'⟩ := sum_update_split
    (fun w : Worker I => ((poppedNodes w.pc : List (leftRightInterval I)) :
      Multiset (leftRightInterval I))) W T t ht w'
  obtain ⟨restC, hC, hC'⟩ := sum_update_split
    (fun w : Worker I => ((childNodes w.pc : List (leftRightInterval I)) :
      Multiset (leftRightInterval I))) W T t ht w'
  obtain ⟨E1, E2⟩ := step_trace R width f error ms mt el t sh sh' (W t) w' h
  obtain ⟨K1, K2⟩ := hA
  have K1 : ({first} : Multiset (leftRightInterval I)) + (Pu : Multiset (leftRightInterval I))
      = (A : Multiset (leftRightInterval I)) + (Ref : Multiset (leftRightInterval I))
        + ((sh.intervals : Multiset (leftRightInterval I))
          + ∑ u in Finset.range T, ((poppedNodes (W u).pc : List (leftRightInterval I)) :
              Multiset (leftRightInterval I))) := K1
  have K2 : ((Ref.flatMap (children R f) : List (leftRightInterval I)) :
          Multiset (leftRightInterval I))
      = (Pu : Multiset (leftRightInterval I))
        + ∑ u in Finset.range T, ((childNodes (W u).pc : List (leftRightInterval I)) :
            Multiset (leftRightInterval I)) := K2
  rw [hP] at K1
  rw [hC] at K2
  constructor
  · show ({first} : Multiset (leftRightInterval I))
        + ((Pu ++ pushedBy (W t).pc w'.pc : List (leftRightInterval I)) :
            Multiset (leftRightInterval I))
      = ((A ++ acceptedBy (W t).pc w'.pc : List (leftRightInterval I)) :
            Multiset (leftRightInterval I))
          + ((Ref ++ refinedBy (W t).pc w'.pc : List (leftRightInterval I)) :
            Multiset (leftRightInterval I))
        + ((sh'.intervals : Multiset (leftRightInterval I))
          + ∑ u in Finset.range T,
              ((poppedNodes (Function.update W t w' u).pc : List (leftRightInterval I)) :
                Multiset (leftRightInterval I)))
    rw [hP', ← Multiset.coe_add, ← Multiset.coe_add, ← Multiset.coe_add]
    exact queued_step _ _ _ _ _ _ _ _ _ _ _ _ K1 E1
  · show (((Ref ++ refinedBy (W t).pc w'.pc).flatMap (children R f) :
          List (leftRightInterval I)) : Multiset (leftRightInterval I))
      = ((Pu ++ pushedBy (W t).pc w'.pc : List (leftRightInterval I)) :
            Multiset (leftRightInterval I))
        + ∑ u in Finset.range T,
            ((childNodes (Function.update W t w' u).pc : List (leftRightInterval I)) :
              Multiset (leftRightInterval I))
    rw [hC', List.flatMap_append, ← Multiset.coe_add, ← Multiset.coe_add]
    exact children_step _ _ _ _ _ _ _ K2 E2

theorem stepSystem_accounted {I : Type} (R : Rule I) (width : leftRightInterval I → ℚ)
    (f : ℚ → Val) (error : ℚ) (ms : ℕ) (mt : ℤ) (elapsed : ℕ → ℕ → ℚ) (a b : ℚ) (T : ℕ)
    (wf : I → Prop)
    (hG : ∀ x, wf x → R.a x < R.b x ∧ R.a (R.getLeftRight x f).left = R.a x
      ∧ R.b (R.getLeftRight x f).right = R.b x
      ∧ R.b (R.getLeftRight x f).left = R.a (R.getLeftRight x f).right
      ∧ wf (R.getLeftRight x f).left ∧ wf (R.getLeftRight x f).right)
    (first : leftRightInterval I)
    (t : ℕ) (st : Shared I × (ℕ → Worker I)) (A Ref Pu : List (leftRightInterval I))
    (hA : Accounted R f a b T wf A st ∧ Traced R f T first A Ref Pu st) :
    Accounted R f a b T wf (A ++ traceStep acceptedBy R width f error ms mt elapsed T t st)
        (stepSystem R width f error ms mt elapsed T t st)
      ∧ Traced R f T first (A ++ traceStep acceptedBy R width f error ms mt elapsed T t st)
        (Ref ++ traceStep refinedBy R width f error ms mt elapsed T t st)
        (Pu ++ traceStep pushedBy R width f error ms mt elapsed T t st)
        (stepSystem R width f error ms mt elapsed T t st) := by
  unfold stepSystem traceStep
  by_cases ht : t < T
  · simp only [if_pos ht]
    cases hstep : stepWorker R width f error ms mt (elapsed t) t st.1 (st.2 t) with
    | none =>
      simp only [List.append_nil]
      exact hA
    | some p =>
      obtain ⟨sh', w'⟩ := p
      exact ⟨step_accounted R width f error ms mt (elapsed t) a b T wf hG t ht st.1 sh' st.2 w' A
          hA.1 hstep,
        step_traced R width f error ms mt (elapsed t) T first t ht st.1 sh' st.2 w' A Ref Pu
          hA.2 hstep⟩
  · simp only [if_neg ht, List.append_nil]
    exact hA

theorem exec_accounted {I : Type} (R : Rule I) (width : leftRightInterval I → ℚ)
    (f : ℚ → Val) (error : ℚ) (ms : ℕ) (mt : ℤ) (elapsed : ℕ → ℕ → ℚ) (a b : ℚ) (T : ℕ)
    (wf : I → Prop)
    (hG : ∀ x, wf x → R.a x < R.b x ∧ R.a (R.getLeftRight x f).left = R.a x
      ∧ R.b (R.getLeftRight x f).right = R.b x
      ∧ R.b (R.getLeftRight x f).left = R.a (R.getLeftRight x f).right
      ∧ wf (R.getLeftRight x f).left ∧ wf (R.getLeftRight x f).right)
    (first : leftRightInterval I) :
    ∀ (sched : List ℕ) (st : Shared I × (ℕ → Worker I))
      (A Ref Pu : List (leftRightInterval I)),
      Accounted R f a b T wf A st ∧ Traced R f T first A Ref Pu st →
      Accounted R f a b T wf
          (A ++ traceRun acceptedBy R width f error ms mt elapsed T sched st)
          (exec R width f error ms mt elapsed T sched st)
        ∧ Traced R f T first
          (A ++ traceRun acceptedBy R width f error ms mt elapsed T sched st)
          (Ref ++ traceRun refinedBy R width f error ms mt elapsed T sched st)
          (Pu ++ traceRun pushedBy R width f error ms mt elapsed T sched st)
          (exec R width f error ms mt elapsed T sched st) := by
  intro sched
  induction sched with
  | nil =>
    intro st A Ref Pu hA
    simp only [traceRun, exec, List.append_nil]
    exact hA
  | cons t rest ih =>
    intro st A Ref Pu hA
    have h := ih _ _ _ _
      (stepSystem_accounted R width f error ms mt elapsed a b T wf hG first t st A Ref Pu hA)
    simp only [traceRun, exec, ← List.append_assoc]
    exact h

theorem launch_accounted {I : Type} (R : Rule I) (f : ℚ → Val) (T : ℕ) (wf : I → Prop)
    (hG : ∀ x, wf x → R.a x < R.b x ∧ R.a (R.getLeftRight x f).left = R.a x
      ∧ R.b (R.getLeftRight x f).right = R.b x
      ∧ R.b (R.getLeftRight x f).left = R.a (R.getLeftRight x f).right
      ∧ wf (R.getLeftRight x f).left ∧ wf (R.getLeftRight x f).right)
    (whole : I) (hw : wf whole) (hT : 1 ≤ T) :
    Accounted R f (R.a whole) (R.b whole) T wf [] (launch R f whole) := by
  obtain ⟨g1, g2, g3, g4, g5, g6⟩ := hG whole hw
  have hps : pendingSum T (launch R f whole) = 0 := by
    simp [pendingSum, launch, spawned, pendingValue]
  have hif : inFlight T (launch R f whole)
      = (([R.getLeftRight whole f] : List (leftRightInterval I)) :
          Multiset (leftRightInterval I)) := by
    simp [inFlight, launch, spawned, heldNodes]
  refine ⟨?_, ?_, ?_, ?_⟩
  · rw [hps, add_zero]
    rfl
  · rw [hif]
    refine ⟨[(R.a whole, R.b whole)], ?_, ⟨rfl, g1, rfl⟩⟩
    simp [span, g2, g3]
  · intro n hn
    rw [hif] at hn
    simp only [Multiset.mem_coe, List.mem_singleton] at hn
    subst hn
    exact ⟨g5, g6, g4⟩
  · exact Or.inl ⟨0, hT, rfl⟩

theorem launch_traced {I : Type} (R : Rule I) (f : ℚ → Val) (T : ℕ) (whole : I) :
    Traced R f T (R.getLeftRight whole f) [] [] [] (launch R f whole) := by
  constructor
  · simp [launch, spawned, poppedNodes]
  · simp [launch, spawned, childNodes]

theorem accounted_joined {I : Type} (R : Rule I) (f : ℚ → Val) (a b : ℚ) (T : ℕ)
    (wf : I → Prop) (A : List (leftRightInterval I)) (st : Shared I × (ℕ → Worker I))
    (hA : Accounted R f a b T wf A st) (hd : ∀ t, t < T → (st.2 t).pc = Pc.done) :
    st.1.intervals = [] ∧ Partitions (A.map (span R)) a b
      ∧ st.1.result = (A.map (estimate R f)).sum := by
  obtain ⟨J1, J2, _, J5⟩ := hA
  have hq : st.1.intervals = [] := by
    rcases J5 with ⟨t, ht, hact⟩ | hq
    · rw [hd t ht] at hact
      cases hact
    · exact hq
  have hps : pendingSum T st = 0 := by
    unfold pendingSum
    refine Finset.sum_eq_zero (fun t ht => ?_)
    rw [hd t (Finset.mem_range.mp ht)]
    rfl
  have hif : inFlight T st = 0 := by
    unfold inFlight
    rw [hq, Finset.sum_eq_zero (fun t ht => by rw [hd t (Finset.mem_range.mp ht)]; rfl)]
    rfl
  refine ⟨hq, ?_, ?_⟩
  · rw [hif, add_zero] at J2
    obtain ⟨l, hl, ht⟩ := J2
    exact ⟨l, Multiset.coe_eq_coe.mp (by rw [hl]; rfl), ht⟩
  · rw [hps, add_zero] at J1
    exact J1

theorem traced_joined {I : Type} (R : Rule I) (f : ℚ → Val) (T : ℕ)
    (first : leftRightInterval I) (A Ref Pu : List (leftRightInterval I))
    (st : Shared I × (ℕ → Worker I))
    (hA : Traced R f T first A Ref Pu st) (hq : st.1.intervals = [])
    (hd : ∀ t, t < T → (st.2 t).pc = Pc.done) :
    (first :: Pu).Perm (A ++ Ref) ∧ Pu.Perm (Ref.flatMap (children R f)) := by
  obtain ⟨K1, K2⟩ := hA
  rw [hq, Finset.sum_eq_zero (fun t ht => by rw [hd t (Finset.mem_range.mp ht)]; rfl)] at K1
  rw [Finset.sum_eq_zero (fun t ht => by rw [hd t (Finset.mem_range.mp ht)]; rfl)] at K2
  constructor
  · refine Multiset.coe_eq_coe.mp ?_
    rw [coe_cons_eq, ← Multiset.coe_add, K1, Multiset.coe_nil, add_zero, add_zero]
  · refine Multiset.coe_eq_coe.mp ?_
    rw [K2, add_zero]

theorem parallel_nothing_lost {I : Type} (R : Rule I) (width : leftRightInterval I → ℚ)
    (f : ℚ → Val) (error : ℚ) (ms : ℕ) (mt : ℤ) (elapsed : ℕ → ℕ → ℚ) (T : ℕ)
    (wf : I → Prop)
    (hG : ∀ x, wf x → R.a x < R.b x ∧ R.a (R.getLeftRight x f).left = R.a x
      ∧ R.b (R.getLeftRight x f).right = R.b x
      ∧ R.b (R.getLeftRight x f).left = R.a (R.getLeftRight x f).right
      ∧ wf (R.getLeftRight x f).left ∧ wf (R.getLeftRight x f).right)
    (whole : I) (hw : wf whole) (hT : 1 ≤ T) (sched : List ℕ) (r : Val) (n : ℕ)
    (h : parallel R width sched f whole T error ms mt elapsed = some (r, n)) :
    NothingLost R width sched f whole T error ms mt elapsed r := by
  unfold parallel at h
  simp only [] at h
  split at h
  · rename_i hjoin
    simp only [Option.some.injEq, Prod.mk.injEq] at h
    have hinv := exec_accounted R width f error ms mt elapsed (R.a whole) (R.b whole) T wf
      hG (R.getLeftRight whole f) sched (launch R f whole) [] [] []
      ⟨launch_accounted R f T wf hG whole hw hT, launch_traced R f T whole⟩
    simp only [List.nil_append] at hinv
    obtain ⟨h1, h2, h3⟩ := accounted_joined R f _ _ T wf _ _ hinv.1 ((joined_iff T _).mp hjoin)
    obtain ⟨h4, h5⟩ := traced_joined R f T _ _ _ _ _ hinv.2 h1 ((joined_iff T _).mp hjoin)
    exact ⟨h1, h4, h5, h2, by rw [← h.1, h3]; rfl⟩
  · cases h

end Adaptive

namespace Adaptive
open Val

theorem launch_two {I : Type} (R : Rule I) (f : ℚ → Val) (whole : I) :
    launch R f whole
      = (⟨[R.getLeftRight whole f], 0, 1, none, none⟩,
          fun t => if t = 0 then ⟨Pc.lockFirst, false, false, 0⟩
            else if t = 1 then ⟨Pc.lockFirst, false, false, 0⟩ else spawned I) := by
  unfold launch
  congr 1
  funext t
  split
  · rfl
  · split <;> rfl

theorem exec_two_zero {I : Type} (R : Rule I) (width : leftRightInterval I → ℚ)
    (f : ℚ → Val) (error : ℚ) (ms : ℕ) (mt : ℤ) (elapsed : ℕ → ℕ → ℚ) (sched : List ℕ)
    (sh sh' : Shared I) (w0 w0' w1 : Worker I)
    (h : stepWorker R width f error ms mt (elapsed 0) 0 sh w0 = some (sh', w0')) :
    exec R width f error ms mt elapsed 2 (0 :: sched)
        (sh, fun t => if t = 0 then w0 else if t = 1 then w1 else spawned I)
      = exec R width f error ms mt elapsed 2 sched
          (sh', fun t => if t = 0 then w0' else if t = 1 then w1 else spawned I) := by
  have hu : Function.update
      (fun t : ℕ => if t = 0 then w0 else if t = 1 then w1 else spawned I) 0 w0'
      = fun t => if t = 0 then w0' else if t = 1 then w1 else spawned I := by
    funext t
    by_cases ht : t = 0
    · subst ht; simp
    · simp [Function.update, ht]
  have hs : stepSystem R width f error ms mt elapsed 2 0
      (sh, fun t => if t = 0 then w0 else if t = 1 then w1 else spawned I)
      = (sh', fun t => if t = 0 then w0' else if t = 1 then w1 else spawned I) := by
    unfold stepSystem
    rw [if_pos (by norm_num)]
    simp only [if_true, h, hu]
  rw [exec, hs]

theorem exec_two_one {I : Type} (R : Rule I) (width : leftRightInterval I → ℚ)
    (f : ℚ → Val) (error : ℚ) (ms : ℕ) (mt : ℤ) (elapsed : ℕ → ℕ → ℚ) (sched : List ℕ)
    (sh sh' : Shared I) (w0 w1 w1' : Worker I)
    (h : stepWorker R width f error ms mt (elapsed 1) 1 sh w1 = some (sh', w1')) :
    exec R width f error ms mt elapsed 2 (1 :: sched)
        (sh, fun t => if t = 0 then w0 else if t = 1 then w1 else spawned I)
      = exec R width f error ms mt elapsed 2 sched
          (sh', fun t => if t = 0 then w0 else if t = 1 then w1' else spawned I) := by
  have hu : Function.update
      (fun t : ℕ => if t = 0 then w0 else if t = 1 then w1 else spawned I) 1 w1'
      = fun t => if t = 0 then w0 else if t = 1 then w1' else spawned I := by
    funext t
    by_cases ht : t = 0
    · subst ht; simp
    · by_cases ht1 : t = 1
      · subst ht1; simp
      · simp [Function.update, ht, ht1]
  have hs : stepSystem R width f error ms mt elapsed 2 1
      (sh, fun t => if t = 0 then w0 else if t = 1 then w1 else spawned I)
      = (sh', fun t => if t = 0 then w0 else if t = 1 then w1' else spawned I) := by
    unfold stepSystem
    rw [if_pos (by norm_num)]
    simp only [one_ne_zero, if_false, if_true, h, hu]
  rw [exec, hs]

theorem step_lockFirst {I : Type} (R : Rule I) (width : leftRightInterval I → ℚ)
    (f : ℚ → Val) (error : ℚ) (ms : ℕ) (mt : ℤ) (el : ℕ → ℚ) (tid : ℕ)
    (q : List (leftRightInterval I)) (r : Val) (n : ℕ)
    (mr : Option ℕ) (se te : Bool) (k : ℕ) :
    stepWorker R width f error ms mt el tid ⟨q, r, n, none, mr⟩ ⟨Pc.lockFirst, se, te, k⟩
      = some (⟨q, r, n, some tid, mr⟩, ⟨Pc.loopTest, se, te, k⟩) := rfl

end Adaptive

namespace Adaptive
open Val

theorem parallel_two_early_exit {I : Type} (R : Rule I) (width : leftRightInterval I → ℚ)
    (f : ℚ → Val) (error : ℚ) (ms : ℕ) (mt : ℤ) (elapsed : ℕ → ℕ → ℚ) (whole : I)
    (hc : ((fabs ((R.getLeftRight (R.getLeftRight whole f).left f).integrated
        + (R.getLeftRight (R.getLeftRight whole f).right f).integrated
        - (R.getLeftRight whole f).integrated)).ltBound
          (R.errorOrder * width (R.getLeftRight whole f) * error)
        || (false || decide ([R.getLeftRight whole f].length > ms))
        || (false || decide (elapsed 0 0 > (mt : ℚ)))) = true) :
    parallel R width [0, 0, 0, 1, 1, 1, 0, 0, 0, 0, 0, 0, 0] f whole 2 error ms mt elapsed
      = some (0 + estimate R f (R.getLeftRight whole f), 1) := by
  have hexec : exec R width f error ms mt elapsed 2 [0, 0, 0, 1, 1, 1, 0, 0, 0, 0, 0, 0, 0]
      (launch R f whole)
      = (⟨[], 0 + estimate R f (R.getLeftRight whole f), 1, none, none⟩,
          fun t => if t = 0
            then ⟨Pc.done, false || decide ([R.getLeftRight whole f].length > ms),
              false || decide (elapsed 0 0 > (mt : ℚ)), 1⟩
            else if t = 1 then ⟨Pc.done, false, false, 0⟩ else spawned I) := by
    rw [launch_two,
      exec_two_zero R width f error ms mt elapsed _ _ _ _ _ _ (step_lockFirst ..),
      exec_two_zero R width f error ms mt elapsed _ _ _ _ _ _ (step_loopTest_cons ..),
      exec_two_zero R width f error ms mt elapsed _ _ _ _ _ _ (step_unlockPopped ..),
      exec_two_one R width f error ms mt elapsed _ _ _ _ _ _ (step_lockFirst ..),
      exec_two_one R width f error ms mt elapsed _ _ _ _ _ _ (step_loopTest_nil ..),
      exec_two_one R width f error ms mt elapsed _ _ _ _ _ _ (step_unlockLast ..),
      exec_two_zero R width f error ms mt elapsed _ _ _ _ _ _
        (step_split_accept R width f error ms mt (elapsed 0) 0 _ _ _ _ _ hc),
      exec_two_zero R width f error ms mt elapsed _ _ _ _ _ _ (step_lockResult ..),
      exec_two_zero R width f error ms mt elapsed _ _ _ _ _ _ (step_addResult ..),
      exec_two_zero R width f error ms mt elapsed _ _ _ _ _ _ (step_unlockResult ..),
      exec_two_zero R width f error ms mt elapsed _ _ _ _ _ _ (step_lockAgain ..),
      exec_two_zero R width f error ms mt elapsed _ _ _ _ _ _ (step_loopTest_nil ..),
      exec_two_zero R width f error ms mt elapsed _ _ _ _ _ _ (step_unlockLast ..)]
    rfl
  unfold parallel
  simp only []
  rw [hexec, if_pos]
  rw [joined_iff]
  intro t ht
  by_cases h0 : t = 0
  · subst h0; rfl
  · have h1 : t = 1 := by omega
    subst h1
    rfl

end Adaptive
/-! Any number of workers, rule by rule -/

/-- C21: for each rule, `a < b`, any number `num_threads ≥ 1` of workers and any
interleaving `sched` of their steps: when `adaptiveParallel` returns `(r, n)` (every
worker has returned and is joined), the run satisfies `Adaptive.NothingLost`: the queue
is empty; the nodes that were ever queued in this run (the first node and every node
pushed by a worker) are, each as often as it was queued, exactly the nodes the run
accepted together with the nodes it refined, so each queued node met one of the two
fates once; the pushed nodes are the two children of each refined node; the spans
`[left.a, right.b]` of the accepted nodes tile `[a, b]` (in some order they lie end to
end from `a` to `b`, so no part of `[a, b]` is missing and none is covered twice); and
`r` is the sum of the estimates of the accepted nodes, each added once. -/
theorem adaptiveParallel_nothing_lost (f : ℚ → Val) (a b error : ℚ) (max_subdivisions : ℕ)
    (max_time : ℤ) (elapsed : ℕ → ℕ → ℚ) (num_threads : ℕ) (sched : List ℕ) (hab : a < b)
    (hT : 1 ≤ num_threads) :
    (∀ r n,
        TrapezoidRule.adaptiveParallel sched f a b num_threads error max_subdivisions max_time
          elapsed = some (r, n) →
        Adaptive.NothingLost TrapezoidRule.rule (fun c => 2 * (c.left.b - c.left.a)) sched f
          ⟨a, b, findVal f a (b - a), findVal f b (b - a)⟩
          num_threads error max_subdivisions max_time elapsed r)
      ∧ (∀ r n,
        SimpsonRule.adaptiveParallel sched f a b num_threads error max_subdivisions max_time
          elapsed = some (r, n) →
        Adaptive.NothingLost SimpsonRule.rule (fun c => c.right.b - c.left.a) sched f
          ⟨a, (a + b) / 2, b, findVal f a (b - a), findVal f ((a + b) / 2) (b - a),
            findVal f b (b - a)⟩
          num_threads error max_subdivisions max_time elapsed r)
      ∧ (∀ r n,
        Simpson38Rule.adaptiveParallel sched f a b num_threads error max_subdivisions max_time
          elapsed = some (r, n) →
        Adaptive.NothingLost Simpson38Rule.rule (fun c => c.right.b - c.left.a) sched f
          ⟨a, b, findVal f a (b - a), findVal f b (b - a)⟩
          num_threads error max_subdivisions max_time elapsed r)
      ∧ (∀ r n,
        BoolesRule.adaptiveParallel sched f a b num_threads error max_subdivisions max_time
          elapsed = some (r, n) →
        Adaptive.NothingLost BoolesRule.rule (fun c => c.right.b - c.left.a) sched f
          ⟨a, (a + b) / 2, b, findVal f a (b - a), findVal f ((a + b) / 2) (b - a),
            findVal f b (b - a)⟩
          num_threads error max_subdivisions max_time elapsed r) := by
  refine ⟨?_, ?_, ?_, ?_⟩
  · intro r n h
    exact Adaptive.parallel_nothing_lost TrapezoidRule.rule _ f error max_subdivisions max_time
      elapsed num_threads (fun x => x.a < x.b) (TrapezoidRule.trapezoid_halves f)
      ⟨a, b, findVal f a (b - a), findVal f b (b - a)⟩ hab hT sched r n h
  · intro r n h
    exact Adaptive.parallel_nothing_lost SimpsonRule.rule _ f error max_subdivisions max_time
      elapsed num_threads (fun x => x.a < x.b ∧ x.m = (x.a + x.b) / 2)
      (SimpsonRule.simpson_halves f)
      ⟨a, (a + b) / 2, b, findVal f a (b - a), findVal f ((a + b) / 2) (b - a),
        findVal f b (b - a)⟩ ⟨hab, rfl⟩ hT sched r n h
  · intro r n h
    exact Adaptive.parallel_nothing_lost Simpson38Rule.rule _ f error max_subdivisions max_time
      elapsed num_threads (fun x => x.a < x.b) (Simpson38Rule.simpson38_halves f)
      ⟨a, b, findVal f a (b - a), findVal f b (b - a)⟩ hab hT sched r n h
  · intro r n h
    exact Adaptive.parallel_nothing_lost BoolesRule.rule _ f error max_subdivisions max_time
      elapsed num_threads (fun x => x.a < x.b ∧ x.m = (x.a + x.b) / 2)
      (BoolesRule.boole_halves f)
      ⟨a, (a + b) / 2, b, findVal f a (b - a), findVal f ((a + b) / 2) (b - a),
        findVal f b (b - a)⟩ ⟨hab, rfl⟩ hT sched r n h

theorem adaptiveParallel_nothing_lost_witness :
    (0 : ℚ) < 1 ∧ 1 ≤ 2
      ∧ SimpsonRule.adaptiveParallel [0, 0, 0, 1, 1, 1, 0, 0, 0, 0, 0, 0, 0]
          (fun x => Val.fin (x * x)) 0 1 2 (1 / 100) 10 5 (fun _ _ => 0)
        = some (Val.fin (1 / 3), 1)
      ∧ Adaptive.NothingLost SimpsonRule.rule (fun c => c.right.b - c.left.a)
          [0, 0, 0, 1, 1, 1, 0, 0, 0, 0, 0, 0, 0] (fun x => Val.fin (x * x))
          ⟨0, (0 + 1) / 2, 1, findVal (fun x => Val.fin (x * x)) 0 (1 - 0),
            findVal (fun x => Val.fin (x * x)) ((0 + 1) / 2) (1 - 0),
            findVal (fun x => Val.fin (x * x)) 1 (1 - 0)⟩
          2 (1 / 100) 10 5 (fun _ _ => 0) (Val.fin (1 / 3)) := by
  have hrun : SimpsonRule.adaptiveParallel [0, 0, 0, 1, 1, 1, 0, 0, 0, 0, 0, 0, 0]
      (fun x => Val.fin (x * x)) 0 1 2 (1 / 100) 10 5 (fun _ _ => 0)
      = some (Val.fin (1 / 3), 1) := by
    unfold SimpsonRule.adaptiveParallel
    simp only []
    rw [Adaptive.parallel_two_early_exit]
    · norm_num [Adaptive.estimate, SimpsonRule.rule, SimpsonRule.getLeftRight,
        findVal_fin (fun x => x * x), Val.zero_def, Val.fin_add_fin, Val.fin_mul_fin]
    · norm_num [SimpsonRule.rule, SimpsonRule.getLeftRight, findVal_fin (fun x => x * x),
        Val.fin_add_fin, Val.fin_mul_fin, Val.fin_sub_fin, Val.fabs, Val.ltBound]
  exact ⟨by norm_num, by norm_num, hrun,
    (adaptiveParallel_nothing_lost (fun x => Val.fin (x * x)) 0 1 (1 / 100) 10 5
      (fun _ _ => 0) 2 [0, 0, 0, 1, 1, 1, 0, 0, 0, 0, 0, 0, 0] (by norm_num)
      (by norm_num)).2.1 _ _ hrun⟩
/-! Binary64 arithmetic: rounding, and three runs of the code -/


namespace Binary64
open Val

theorem b64_roundEven_intCast (n : ℤ) : roundEven (n : ℚ) = n := by
  unfold roundEven
  rw [Int.floor_intCast, sub_self, if_pos (by norm_num)]

theorem b64_roundEven_tie (n : ℤ) :
    roundEven ((n : ℚ) + 1 / 2) = if n % 2 = 0 then n else n + 1 := by
  have hf : ⌊(n : ℚ) + 1 / 2⌋ = n := by
    rw [Int.floor_eq_iff]
    constructor <;> norm_num
  unfold roundEven
  rw [hf, add_sub_cancel_left, if_neg (lt_irrefl _), if_neg (lt_irrefl _)]

theorem b64_roundEven_eq (q : ℚ) (n : ℤ) (h1 : (n : ℚ) - 1 / 2 < q) (h2 : q < n + 1 / 2) :
    roundEven q = n := by
  unfold roundEven
  rcases le_or_lt (n : ℚ) q with h | h
  · have hf : ⌊q⌋ = n := by
      rw [Int.floor_eq_iff]
      exact ⟨h, by linarith⟩
    rw [hf, if_pos (by linarith)]
  · have hf : ⌊q⌋ = n - 1 := by
      rw [Int.floor_eq_iff]
      push_cast
      exact ⟨by linarith, by linarith⟩
    rw [hf]
    push_cast
    rw [if_neg (by linarith), if_pos (by linarith)]
    ring

theorem b64_round_zero : round 0 = 0 := by
  unfold round
  rw [if_pos rfl]

theorem b64_round_of_log (q : ℚ) (e : ℤ) (hq : q ≠ 0) (h1 : (2 : ℚ) ^ (e + 52) ≤ |q|)
    (h2 : |q| < (2 : ℚ) ^ (e + 53)) (he : -1074 ≤ e) :
    round q = roundEven (q / 2 ^ e) * 2 ^ e := by
  have hpos : 0 < |q| := abs_pos.mpr hq
  have hlog : Int.log 2 |q| = e + 52 := by
    have a1 : e + 52 ≤ Int.log 2 |q| :=
      (Int.zpow_le_iff_le_log (by norm_num) hpos).mp (by exact_mod_cast h1)
    have a2 : Int.log 2 |q| < e + 53 :=
      (Int.lt_zpow_iff_log_lt (by norm_num) hpos).mp (by exact_mod_cast h2)
    omega
  unfold round
  rw [if_neg hq, hlog]
  have : max (e + 52 - 52) (-1074) = e := by
    rw [add_sub_cancel_right]
    exact max_eq_left he
  simp only [this]

theorem b64_round_of_scaled (q : ℚ) (j : ℕ) (n : ℤ) (hq : q ≠ 0)
    (h1 : (2 : ℚ) ^ 52 ≤ |q| * 2 ^ j) (h2 : |q| * 2 ^ j < (2 : ℚ) ^ 53) (hj : j ≤ 1074)
    (hr : roundEven (q * 2 ^ j) = n) : round q = n / 2 ^ j := by
  have hp : (0 : ℚ) < 2 ^ j := by positivity
  have e1 : (2 : ℚ) ^ (-(j : ℤ) + 52) = 2 ^ 52 / 2 ^ j := by
    rw [zpow_add₀ (by norm_num), zpow_neg, zpow_natCast]
    norm_num
    ring
  have e2 : (2 : ℚ) ^ (-(j : ℤ) + 53) = 2 ^ 53 / 2 ^ j := by
    rw [zpow_add₀ (by norm_num), zpow_neg, zpow_natCast]
    norm_num
    ring
  have e3 : (2 : ℚ) ^ (-(j : ℤ)) = 1 / 2 ^ j := by
    rw [zpow_neg, zpow_natCast, one_div]
  rw [b64_round_of_log q (-(j : ℤ)) hq (by rw [e1, div_le_iff₀ hp]; exact h1)
    (by rw [e2, lt_div_iff₀ hp]; exact h2) (by omega), e3]
  have e4 : q / (1 / 2 ^ j) = q * 2 ^ j := by
    field_simp
  rw [e4, hr]
  ring

theorem b64_round_dyadic (n : ℤ) (j : ℕ) (hn : |n| < 2 ^ 53) (hj : j ≤ 1074) :
    round ((n : ℚ) / 2 ^ j) = n / 2 ^ j := by
  by_cases h0 : n = 0
  · subst h0
    simp [round]
  have hp : (0 : ℚ) < 2 ^ j := by positivity
  have hq : (n : ℚ) / 2 ^ j ≠ 0 := by
    apply div_ne_zero
    · exact_mod_cast h0
    · exact ne_of_gt hp
  have hpos : 0 < |(n : ℚ) / 2 ^ j| := abs_pos.mpr hq
  have hnq : |(n : ℚ)| < 2 ^ 53 := by exact_mod_cast hn
  have hlt : |(n : ℚ) / 2 ^ j| < ((2 : ℕ) : ℚ) ^ ((53 : ℤ) - j) := by
    rw [abs_div, abs_of_pos hp, zpow_sub₀ (by norm_num), zpow_natCast]
    push_cast
    have h53 : (2 : ℚ) ^ (53 : ℤ) = 2 ^ (53 : ℕ) := by norm_num
    rw [h53]
    exact div_lt_div_of_pos_right hnq hp
  have hL : Int.log 2 |(n : ℚ) / 2 ^ j| < 53 - j :=
    (Int.lt_zpow_iff_log_lt (by norm_num) hpos).mp hlt
  have he : max (Int.log 2 |(n : ℚ) / 2 ^ j| - 52) (-1074) ≤ -(j : ℤ) :=
    max_le (by omega) (by omega)
  obtain ⟨d, hd⟩ : ∃ d : ℕ, max (Int.log 2 |(n : ℚ) / 2 ^ j| - 52) (-1074) = -((j + d : ℕ) : ℤ) := by
    refine ⟨(-(j : ℤ) - max (Int.log 2 |(n : ℚ) / 2 ^ j| - 52) (-1074)).toNat, ?_⟩
    push_cast
    rw [Int.toNat_of_nonneg (by omega)]
    ring
  unfold round
  rw [if_neg hq]
  simp only [hd]
  have e3 : (2 : ℚ) ^ (-((j + d : ℕ) : ℤ)) = 1 / 2 ^ (j + d) := by
    rw [zpow_neg, zpow_natCast, one_div]
  have e4 : (n : ℚ) / 2 ^ j / (1 / 2 ^ (j + d)) = ((n * 2 ^ d : ℤ) : ℚ) := by
    push_cast
    rw [pow_add]
    field_simp
    ring
  rw [e3, e4, b64_roundEven_intCast]
  push_cast
  rw [pow_add]
  field_simp
  ring

theorem b64_store_dyadic (n : ℤ) (j : ℕ) (hn : |n| < 2 ^ 53) (hj : j ≤ 1074) :
    store ((n : ℚ) / 2 ^ j) = fin (n / 2 ^ j) := by
  have hp : (1 : ℚ) ≤ 2 ^ j := one_le_pow₀ (by norm_num)
  have hnq : |(n : ℚ)| < 2 ^ 53 := by exact_mod_cast hn
  unfold store
  rw [b64_round_dyadic n j hn hj, if_pos]
  rw [abs_div, abs_of_pos (by positivity : (0 : ℚ) < 2 ^ j)]
  calc |(n : ℚ)| / 2 ^ j ≤ |(n : ℚ)| := div_le_self (abs_nonneg _) hp
    _ < 2 ^ 53 := hnq
    _ < 2 ^ 1024 := by norm_num

theorem b64_round_two_sub : round (2 - 1 / 2 ^ 53) = 2 := by
  have h := b64_round_of_scaled (2 - 1 / 2 ^ 53) 52 (2 ^ 53) (by norm_num)
    (by rw [abs_of_pos (by norm_num)]; norm_num)
    (by rw [abs_of_pos (by norm_num)]; norm_num) (by norm_num)
    (by
      have e : ((2 : ℚ) - 1 / 2 ^ 53) * 2 ^ 52 = ((2 ^ 53 - 1 : ℤ) : ℚ) + 1 / 2 := by
        norm_num
      rw [e, b64_roundEven_tie, if_neg (by norm_num)]
      norm_num)
  rw [h]
  norm_num

end Binary64

namespace Binary64
open Val

theorem b64_round_of_eq_dyadic (q : ℚ) (n : ℤ) (j : ℕ) (hn : |n| < 2 ^ 53) (hj : j ≤ 1074)
    (h : q = (n : ℚ) / 2 ^ j) : round q = q := by
  rw [h]
  exact b64_round_dyadic n j hn hj

theorem b64_store_of_eq_dyadic (q : ℚ) (n : ℤ) (j : ℕ) (hn : |n| < 2 ^ 53) (hj : j ≤ 1074)
    (h : q = (n : ℚ) / 2 ^ j) : store q = fin q := by
  rw [h]
  exact b64_store_dyadic n j hn hj

theorem b64_store_zero : store 0 = fin 0 :=
  b64_store_of_eq_dyadic 0 0 0 (by norm_num) (by norm_num) (by norm_num)

theorem b64_store_one : store 1 = fin 1 :=
  b64_store_of_eq_dyadic 1 1 0 (by norm_num) (by norm_num) (by norm_num)

theorem b64_pow_bounds (k m : ℕ) (hk : k ≤ m) : (1 : ℤ) ≤ 2 ^ k ∧ (2 : ℤ) ^ k ≤ 2 ^ m :=
  ⟨one_le_pow₀ (by norm_num), pow_le_pow_right₀ (by norm_num) hk⟩

theorem b64_round_inv_pow (k : ℕ) (hk : k ≤ 1074) : round (1 / 2 ^ k) = 1 / 2 ^ k :=
  b64_round_of_eq_dyadic _ 1 k (by norm_num) hk (by norm_num)

theorem b64_store_inv_pow (k : ℕ) (hk : k ≤ 1074) : store (1 / 2 ^ k) = fin (1 / 2 ^ k) :=
  b64_store_of_eq_dyadic _ 1 k (by norm_num) hk (by norm_num)

theorem b64_store_neg_inv_pow (k : ℕ) (hk : k ≤ 1074) : store (-(1 / 2 ^ k)) = fin (-(1 / 2 ^ k)) :=
  b64_store_of_eq_dyadic _ (-1) k (by norm_num) hk (by push_cast; ring)

theorem b64_round_three_inv_pow (k : ℕ) (hk : k ≤ 1074) : round (3 / 2 ^ k) = 3 / 2 ^ k :=
  b64_round_of_eq_dyadic _ 3 k (by norm_num) hk (by norm_num)

theorem b64_round_two_sub_inv_pow (k : ℕ) (hk : k ≤ 52) : round (2 - 1 / 2 ^ k) = 2 - 1 / 2 ^ k := by
  obtain ⟨h1, h2⟩ := b64_pow_bounds (k + 1) 53 (by omega)
  refine b64_round_of_eq_dyadic _ (2 ^ (k + 1) - 1) k ?_ (by omega) ?_
  · rw [abs_lt]
    constructor <;> linarith
  · push_cast
    rw [pow_succ]
    field_simp
    ring

theorem b64_round_one_sub_inv_pow (k : ℕ) (hk : k ≤ 53) : round (1 - 1 / 2 ^ k) = 1 - 1 / 2 ^ k := by
  obtain ⟨h1, h2⟩ := b64_pow_bounds k 53 hk
  refine b64_round_of_eq_dyadic _ (2 ^ k - 1) k ?_ (by omega) ?_
  · rw [abs_lt]
    constructor <;> linarith
  · push_cast
    field_simp

end Binary64

namespace Binary64
open Val

theorem b64_findVal_stepAtOne (x w : ℚ) :
    findVal TrapezoidRule.stepAtOne x w = TrapezoidRule.stepAtOne x := by
  unfold findVal TrapezoidRule.stepAtOne
  split_ifs <;> simp_all [isFinite]

theorem b64_getLeftRight_zero_integrated (x : TrapezoidRule.interval) (f : ℚ → Val)
    (ha : x.fa = fin 0) (hb : x.fb = fin 0) :
    (TrapezoidRule.getLeftRight x f).integrated = fin 0 := by
  simp only [TrapezoidRule.getLeftRight, ha, hb, add, mul, add_zero, mul_zero, b64_store_zero]

theorem b64_getLeftRight_stepAtOne_right (k : ℕ) (hk : k ≤ 52) :
    TrapezoidRule.getLeftRight ⟨1 - 1 / 2 ^ k, 1, fin 0, fin 1⟩ TrapezoidRule.stepAtOne
      = ⟨⟨1 - 1 / 2 ^ k, 1 - 1 / 2 ^ (k + 1), fin 0, fin 0⟩,
          ⟨1 - 1 / 2 ^ (k + 1), 1, fin 0, fin 1⟩, fin (1 / 2 ^ (k + 1))⟩ := by
  have hw : (1 : ℚ) - (1 - 1 / 2 ^ k) = 1 / 2 ^ k := by ring
  have hs : (1 : ℚ) - 1 / 2 ^ k + 1 = 2 - 1 / 2 ^ k := by ring
  have hm : ((2 : ℚ) - 1 / 2 ^ k) / 2 = 1 - 1 / 2 ^ (k + 1) := by
    rw [pow_succ]
    field_simp
    ring
  have hh : (1 : ℚ) / 2 ^ k / 2 = 1 / 2 ^ (k + 1) := by
    rw [pow_succ]
    field_simp
  have hlt : (1 : ℚ) - 1 / 2 ^ (k + 1) < 1 := by
    have : (0 : ℚ) < 1 / 2 ^ (k + 1) := by positivity
    linarith
  simp only [TrapezoidRule.getLeftRight, b64_findVal_stepAtOne, hw, hs, hm, hh,
    b64_round_inv_pow k (by omega), b64_round_two_sub_inv_pow k hk,
    b64_round_one_sub_inv_pow (k + 1) (by omega), b64_round_inv_pow (k + 1) (by omega),
    TrapezoidRule.stepAtOne, if_pos hlt, add, mul, zero_add, mul_one, b64_store_one,
    b64_store_inv_pow (k + 1) (by omega)]

theorem b64_getLeftRight_stepAtOne_last :
    TrapezoidRule.getLeftRight ⟨1 - 1 / 2 ^ 53, 1, fin 0, fin 1⟩ TrapezoidRule.stepAtOne
      = ⟨⟨1 - 1 / 2 ^ 53, 1, fin 0, fin 1⟩, ⟨1, 1, fin 1, fin 1⟩, fin (1 / 2 ^ 54)⟩ := by
  have hw : (1 : ℚ) - (1 - 1 / 2 ^ 53) = 1 / 2 ^ 53 := by ring
  have hs : (1 : ℚ) - 1 / 2 ^ 53 + 1 = 2 - 1 / 2 ^ 53 := by ring
  have hm : round ((2 : ℚ) / 2) = 1 := by
    rw [b64_round_of_eq_dyadic _ 1 0 (by norm_num) (by norm_num) (by norm_num)]
    norm_num
  have hh : (1 : ℚ) / 2 ^ 53 / 2 = 1 / 2 ^ 54 := by norm_num
  simp only [TrapezoidRule.getLeftRight, b64_findVal_stepAtOne, hw, hs, hm, hh,
    b64_round_inv_pow 53 (by norm_num), b64_round_two_sub, b64_round_inv_pow 54 (by norm_num),
    TrapezoidRule.stepAtOne, if_neg (lt_irrefl (1 : ℚ)), add, mul, zero_add, mul_one,
    b64_store_one, b64_store_inv_pow 54 (by norm_num)]

theorem b64_getLeftRight_stepAtOne_integrated (k : ℕ) (hk : k ≤ 53) :
    (TrapezoidRule.getLeftRight ⟨1 - 1 / 2 ^ k, 1, fin 0, fin 1⟩
      TrapezoidRule.stepAtOne).integrated = fin (1 / 2 ^ (k + 1)) := by
  rcases Nat.lt_or_ge k 53 with h | h
  · rw [b64_getLeftRight_stepAtOne_right k (by omega)]
  · have : k = 53 := by omega
    subst this
    rw [b64_getLeftRight_stepAtOne_last]

theorem b64_round_midpoint_zero (k : ℕ) (hk : k ≤ 52) :
    round (round (1 - 1 / 2 ^ k + (1 - 1 / 2 ^ (k + 1))) / 2) < 1 := by
  rcases Nat.lt_or_ge k 52 with h | h
  · obtain ⟨h1, h2⟩ := b64_pow_bounds (k + 2) 53 (by omega)
    have h3 : (2 : ℤ) ^ (k + 2) = 4 * 2 ^ k := by rw [pow_add]; ring
    have h4 : (1 : ℤ) ≤ 2 ^ k := one_le_pow₀ (by norm_num)
    have hn : |(2 : ℤ) ^ (k + 2) - 3| < 2 ^ 53 := by
      rw [abs_lt]
      constructor <;> linarith
    have hp : (0 : ℚ) < 2 ^ k := by positivity
    have e1 : (1 : ℚ) - 1 / 2 ^ k + (1 - 1 / 2 ^ (k + 1))
        = ((2 ^ (k + 2) - 3 : ℤ) : ℚ) / 2 ^ (k + 1) := by
      push_cast
      rw [pow_succ, pow_succ, pow_succ]
      field_simp
      ring
    rw [b64_round_of_eq_dyadic _ _ (k + 1) hn (by omega) e1]
    have e3 : ((1 : ℚ) - 1 / 2 ^ k + (1 - 1 / 2 ^ (k + 1))) / 2
        = ((2 ^ (k + 2) - 3 : ℤ) : ℚ) / 2 ^ (k + 2) := by
      push_cast
      rw [pow_succ, pow_succ, pow_succ]
      field_simp
      ring
    rw [b64_round_of_eq_dyadic _ _ (k + 2) hn (by omega) e3, e3, div_lt_one (by positivity)]
    push_cast
    linarith [show (0 : ℚ) < 2 ^ (k + 2) from by positivity]
  · have : k = 52 := by omega
    subst this
    have e1 : round ((1 : ℚ) - 1 / 2 ^ 52 + (1 - 1 / 2 ^ (52 + 1)))
        = ((2 ^ 53 - 2 : ℤ) : ℚ) / 2 ^ 52 := by
      refine b64_round_of_scaled _ 52 _ (by norm_num)
        (by rw [abs_of_pos (by norm_num)]; norm_num)
        (by rw [abs_of_pos (by norm_num)]; norm_num) (by norm_num) ?_
      have e : ((1 : ℚ) - 1 / 2 ^ 52 + (1 - 1 / 2 ^ (52 + 1))) * 2 ^ 52
          = ((2 ^ 53 - 2 : ℤ) : ℚ) + 1 / 2 := by
        norm_num
      rw [e, b64_roundEven_tie, if_pos (by norm_num)]
    rw [e1, b64_round_of_eq_dyadic _ (2 ^ 52 - 1) 52 (by norm_num) (by norm_num) (by norm_num)]
    norm_num

theorem b64_getLeftRight_stepAtOne_zero (k : ℕ) (hk : k ≤ 52) :
    ∃ m : ℚ,
      TrapezoidRule.getLeftRight ⟨1 - 1 / 2 ^ k, 1 - 1 / 2 ^ (k + 1), fin 0, fin 0⟩
          TrapezoidRule.stepAtOne
        = ⟨⟨1 - 1 / 2 ^ k, m, fin 0, fin 0⟩, ⟨m, 1 - 1 / 2 ^ (k + 1), fin 0, fin 0⟩, fin 0⟩ := by
  refine ⟨round (round (1 - 1 / 2 ^ k + (1 - 1 / 2 ^ (k + 1))) / 2), ?_⟩
  have hlt := b64_round_midpoint_zero k hk
  simp only [TrapezoidRule.getLeftRight, b64_findVal_stepAtOne, TrapezoidRule.stepAtOne,
    if_pos hlt, add, mul, add_zero, mul_zero, b64_store_zero]

end Binary64

namespace Binary64
open Val

theorem b64_add_zero_zero : add (fin 0) (fin 0) = fin 0 := by
  simp only [add, add_zero, b64_store_zero]

theorem b64_pass_stepAtOne_refine (k : ℕ) (hk : k ≤ 52) (ms : ℕ) (mt : ℤ) (t : ℚ) (n : ℕ)
    (hms : 1 ≤ ms) (ht : t ≤ (mt : ℚ)) :
    TrapezoidRule.pass TrapezoidRule.stepAtOne (1 / 16) ms mt t
        ⟨[TrapezoidRule.getLeftRight ⟨1 - 1 / 2 ^ k, 1, fin 0, fin 1⟩ TrapezoidRule.stepAtOne],
          fin 0, n, false, false⟩
      = ⟨[TrapezoidRule.getLeftRight ⟨1 - 1 / 2 ^ k, 1 - 1 / 2 ^ (k + 1), fin 0, fin 0⟩
            TrapezoidRule.stepAtOne,
          TrapezoidRule.getLeftRight ⟨1 - 1 / 2 ^ (k + 1), 1, fin 0, fin 1⟩
            TrapezoidRule.stepAtOne], fin 0, n + 1, false, false⟩ := by
  have hA := b64_getLeftRight_stepAtOne_right k hk
  have hL : (TrapezoidRule.getLeftRight ⟨1 - 1 / 2 ^ k, 1 - 1 / 2 ^ (k + 1), fin 0, fin 0⟩
      TrapezoidRule.stepAtOne).integrated = fin 0 := b64_getLeftRight_zero_integrated _ _ rfl rfl
  have hR := b64_getLeftRight_stepAtOne_integrated (k + 1) (by omega)
  have hw : round ((1 : ℚ) - (1 - 1 / 2 ^ k)) = 1 / 2 ^ k := by
    have e : (1 : ℚ) - (1 - 1 / 2 ^ k) = 1 / 2 ^ k := by ring
    rw [e, b64_round_inv_pow k (by omega)]
  have hb : round (round (3 * (1 / 2 ^ k)) * (1 / 16)) = 3 / 2 ^ (k + 4) := by
    have e1 : (3 : ℚ) * (1 / 2 ^ k) = 3 / 2 ^ k := by ring
    have e2 : (3 : ℚ) / 2 ^ k * (1 / 16) = 3 / 2 ^ (k + 4) := by
      rw [pow_add]
      field_simp
      ring
    rw [e1, b64_round_three_inv_pow k (by omega), e2, b64_round_three_inv_pow (k + 4) (by omega)]
  have hcond : (fabs (sub (add (fin 0) (fin (1 / 2 ^ (k + 1 + 1)))) (fin (1 / 2 ^ (k + 1))))).ltBound
      (3 / 2 ^ (k + 4)) = false := by
    have e : (1 : ℚ) / 2 ^ (k + 1 + 1) - 1 / 2 ^ (k + 1) = -(1 / 2 ^ (k + 1 + 1)) := by
      rw [pow_succ 2 (k + 1)]
      field_simp
      ring
    simp only [add, sub, zero_add, b64_store_inv_pow (k + 1 + 1) (by omega), e,
      b64_store_neg_inv_pow (k + 1 + 1) (by omega), fabs, ltBound, decide_eq_false_iff_not, not_lt,
      abs_neg]
    rw [abs_of_pos (by positivity), pow_add, pow_add, pow_add]
    rw [div_le_div_iff₀ (by positivity) (by positivity)]
    have hp : (0 : ℚ) < 2 ^ k := by positivity
    nlinarith
  have hse : decide (1 > ms) = false := by
    rw [decide_eq_false_iff_not]
    omega
  have hte : decide (t > (mt : ℚ)) = false := by
    rw [decide_eq_false_iff_not]
    exact not_lt.mpr ht
  rw [hA]
  simp only [TrapezoidRule.pass, hL, hR, hw, hb, hcond, hse, hte, List.length_singleton,
    Bool.false_or, Bool.or_self, List.nil_append]
  simp

theorem b64_pass_stepAtOne_accept (k : ℕ) (hk : k ≤ 52) (ms : ℕ) (mt : ℤ) (t : ℚ) (n : ℕ)
    (node : TrapezoidRule.leftRightInterval) (hms : 2 ≤ ms) (ht : t ≤ (mt : ℚ)) :
    TrapezoidRule.pass TrapezoidRule.stepAtOne (1 / 16) ms mt t
        ⟨[TrapezoidRule.getLeftRight ⟨1 - 1 / 2 ^ k, 1 - 1 / 2 ^ (k + 1), fin 0, fin 0⟩
            TrapezoidRule.stepAtOne, node], fin 0, n, false, false⟩
      = ⟨[node], fin 0, n, false, false⟩ := by
  obtain ⟨m, hZ⟩ := b64_getLeftRight_stepAtOne_zero k hk
  have hL : (TrapezoidRule.getLeftRight ⟨1 - 1 / 2 ^ k, m, fin 0, fin 0⟩
      TrapezoidRule.stepAtOne).integrated = fin 0 := b64_getLeftRight_zero_integrated _ _ rfl rfl
  have hR : (TrapezoidRule.getLeftRight ⟨m, 1 - 1 / 2 ^ (k + 1), fin 0, fin 0⟩
      TrapezoidRule.stepAtOne).integrated = fin 0 := b64_getLeftRight_zero_integrated _ _ rfl rfl
  have hw : round ((1 : ℚ) - 1 / 2 ^ (k + 1) - (1 - 1 / 2 ^ k)) = 1 / 2 ^ (k + 1) := by
    have e : (1 : ℚ) - 1 / 2 ^ (k + 1) - (1 - 1 / 2 ^ k) = 1 / 2 ^ (k + 1) := by
      rw [pow_succ]
      field_simp
      ring
    rw [e, b64_round_inv_pow (k + 1) (by omega)]
  have hb : round (round (3 * (1 / 2 ^ (k + 1))) * (1 / 16)) = 3 / 2 ^ (k + 1 + 4) := by
    have e1 : (3 : ℚ) * (1 / 2 ^ (k + 1)) = 3 / 2 ^ (k + 1) := by ring
    have e2 : (3 : ℚ) / 2 ^ (k + 1) * (1 / 16) = 3 / 2 ^ (k + 1 + 4) := by
      rw [pow_add 2 (k + 1) 4]
      field_simp
      ring
    rw [e1, b64_round_three_inv_pow (k + 1) (by omega), e2,
      b64_round_three_inv_pow (k + 1 + 4) (by omega)]
  have hcond : (fabs (sub (fin 0) (fin 0))).ltBound (3 / 2 ^ (k + 1 + 4)) = true := by
    simp only [sub, sub_self, b64_store_zero, fabs, ltBound, abs_zero, decide_eq_true_eq]
    positivity
  have hse : decide (2 > ms) = false := by
    rw [decide_eq_false_iff_not]
    omega
  have hte : decide (t > (mt : ℚ)) = false := by
    rw [decide_eq_false_iff_not]
    exact not_lt.mpr ht
  rw [hZ]
  simp only [TrapezoidRule.pass, hL, hR, hw, hb, b64_add_zero_zero, hcond, hse, hte,
    List.length_cons, List.length_nil, Bool.false_or, Bool.or_false, if_true]

theorem b64_pass_stepAtOne_last (ms : ℕ) (mt : ℤ) (t : ℚ) (n : ℕ) (hms : 1 ≤ ms)
    (ht : t ≤ (mt : ℚ)) :
    TrapezoidRule.pass TrapezoidRule.stepAtOne (1 / 16) ms mt t
        ⟨[TrapezoidRule.getLeftRight ⟨1 - 1 / 2 ^ 53, 1, fin 0, fin 1⟩
            TrapezoidRule.stepAtOne], fin 0, n, false, false⟩
      = ⟨[], fin (1 / 2 ^ 54), n, false, false⟩ := by
  have hB := b64_getLeftRight_stepAtOne_last
  have hE : (TrapezoidRule.getLeftRight ⟨1, 1, fin 1, fin 1⟩
      TrapezoidRule.stepAtOne).integrated = fin 0 := by
    have h2 : store ((1 : ℚ) + 1) = fin (1 + 1) :=
      b64_store_of_eq_dyadic _ 2 0 (by norm_num) (by norm_num) (by norm_num)
    simp only [TrapezoidRule.getLeftRight, sub_self, b64_round_zero, zero_div, add, h2, mul,
      zero_mul, b64_store_zero]
  have hw : round ((1 : ℚ) - (1 - 1 / 2 ^ 53)) = 1 / 2 ^ 53 := by
    have e : (1 : ℚ) - (1 - 1 / 2 ^ 53) = 1 / 2 ^ 53 := by ring
    rw [e, b64_round_inv_pow 53 (by norm_num)]
  have hb : round (round (3 * (1 / 2 ^ 53)) * (1 / 16)) = 3 / 2 ^ 57 := by
    have e1 : (3 : ℚ) * (1 / 2 ^ 53) = 3 / 2 ^ 53 := by ring
    have e2 : (3 : ℚ) / 2 ^ 53 * (1 / 16) = 3 / 2 ^ 57 := by norm_num
    rw [e1, b64_round_three_inv_pow 53 (by norm_num), e2, b64_round_three_inv_pow 57 (by norm_num)]
  have hsum : add (fin (1 / 2 ^ 54)) (fin 0) = fin (1 / 2 ^ 54) := by
    simp only [add, add_zero, b64_store_inv_pow 54 (by norm_num)]
  have hcond : (fabs (sub (fin (1 / 2 ^ 54)) (fin (1 / 2 ^ 54)))).ltBound (3 / 2 ^ 57) = true := by
    simp only [sub, sub_self, b64_store_zero, fabs, ltBound, abs_zero, decide_eq_true_eq]
    positivity
  have hres : add (fin 0) (fin (1 / 2 ^ 54)) = fin (1 / 2 ^ 54) := by
    simp only [add, zero_add, b64_store_inv_pow 54 (by norm_num)]
  have hse : decide (1 > ms) = false := by
    rw [decide_eq_false_iff_not]
    omega
  have hte : decide (t > (mt : ℚ)) = false := by
    rw [decide_eq_false_iff_not]
    exact not_lt.mpr ht
  rw [hB]
  simp only [TrapezoidRule.pass, hB, hE, hw, hb, hsum, hcond, hres, hse, hte,
    List.length_singleton, Bool.false_or, Bool.or_false, if_true]

theorem b64_loop_nil (f : ℚ → Val) (error : ℚ) (ms : ℕ) (mt : ℤ) (elapsed : ℕ → ℚ) (fuel i : ℕ)
    (r : Val) (n : ℕ) (se te : Bool) :
    TrapezoidRule.loop f error ms mt elapsed fuel i ⟨[], r, n, se, te⟩
      = some ⟨[], r, n, se, te⟩ := by
  cases fuel <;> simp [TrapezoidRule.loop]

theorem b64_loop_stepAtOne (ms : ℕ) (mt : ℤ) (elapsed : ℕ → ℚ) (hms : 2 ≤ ms)
    (hclock : ∀ i, elapsed i ≤ (mt : ℚ)) :
    ∀ (d k n i fuel : ℕ), k + d = 53 → 2 * d + 1 ≤ fuel →
      TrapezoidRule.loop TrapezoidRule.stepAtOne (1 / 16) ms mt elapsed fuel i
          ⟨[TrapezoidRule.getLeftRight ⟨1 - 1 / 2 ^ k, 1, fin 0, fin 1⟩
              TrapezoidRule.stepAtOne], fin 0, n, false, false⟩
        = some ⟨[], fin (1 / 2 ^ 54), n + d, false, false⟩ := by
  intro d
  induction d with
  | zero =>
    intro k n i fuel hk hf
    have hk53 : k = 53 := by omega
    subst hk53
    obtain ⟨fuel, rfl⟩ : ∃ g, fuel = g + 1 := ⟨fuel - 1, by omega⟩
    rw [TrapezoidRule.loop, if_neg (by simp),
      b64_pass_stepAtOne_last ms mt (elapsed i) n (by omega) (hclock i), b64_loop_nil]
    rfl
  | succ d ih =>
    intro k n i fuel hk hf
    obtain ⟨fuel, rfl⟩ : ∃ g, fuel = g + 1 + 1 := ⟨fuel - 2, by omega⟩
    rw [TrapezoidRule.loop, if_neg (by simp),
      b64_pass_stepAtOne_refine k (by omega) ms mt (elapsed i) n (by omega) (hclock i),
      TrapezoidRule.loop, if_neg (by simp),
      b64_pass_stepAtOne_accept k (by omega) ms mt (elapsed (i + 1)) (n + 1) _ hms (hclock (i + 1)),
      ih (k + 1) (n + 1) (i + 1 + 1) fuel (by omega) (by omega)]
    have e : n + 1 + d = n + (d + 1) := by ring
    rw [e]

end Binary64

namespace Binary64
open Val

theorem b64_adaptiveNonParallel_eq_loop (fuel : ℕ) (f : ℚ → Val) (a b error : ℚ) (ms : ℕ) (mt : ℤ)
    (elapsed : ℕ → ℚ) :
    TrapezoidRule.adaptiveNonParallel fuel f a b error ms mt elapsed
      = Option.map (fun s => (s.result, s.subdivisions))
          (TrapezoidRule.loop f error ms mt elapsed fuel 0
            ⟨[TrapezoidRule.getLeftRight
                ⟨a, b, findVal f a (round (b - a)), findVal f b (round (b - a))⟩ f],
              fin 0, 1, false, false⟩) := by
  unfold TrapezoidRule.adaptiveNonParallel
  simp only []
  cases TrapezoidRule.loop f error ms mt elapsed fuel 0
    ⟨[TrapezoidRule.getLeftRight
        ⟨a, b, findVal f a (round (b - a)), findVal f b (round (b - a))⟩ f],
      fin 0, 1, false, false⟩ <;> rfl

theorem b64_adaptiveNonParallel_stepAtOne :
    TrapezoidRule.adaptiveNonParallel 107 TrapezoidRule.stepAtOne 0 1 (1 / 16) 2 5 (fun _ => 0)
      = some (fin (1 / 2 ^ 54), 54) := by
  have h0 : TrapezoidRule.stepAtOne 0 = fin 0 := by simp [TrapezoidRule.stepAtOne]
  have h1 : TrapezoidRule.stepAtOne 1 = fin 1 := by simp [TrapezoidRule.stepAtOne]
  have e : (1 : ℚ) - 1 / 2 ^ 0 = 0 := by norm_num
  have hl := b64_loop_stepAtOne 2 5 (fun _ => 0) (le_refl 2) (fun _ => by norm_num) 53 0 1 0 107
    (by omega) (by omega)
  rw [e] at hl
  rw [b64_adaptiveNonParallel_eq_loop, b64_findVal_stepAtOne, b64_findVal_stepAtOne, h0, h1, hl]
  rfl

end Binary64

namespace Binary64
open Val

theorem b64_round_of_scaled_pos (q : ℚ) (j : ℕ) (n : ℤ) (hq : 0 < q)
    (h1 : (2 : ℚ) ^ 52 ≤ q * 2 ^ j) (h2 : q * 2 ^ j < (2 : ℚ) ^ 53) (hj : j ≤ 1074)
    (h3 : (n : ℚ) - 1 / 2 < q * 2 ^ j) (h4 : q * 2 ^ j < n + 1 / 2) :
    round q = n / 2 ^ j :=
  b64_round_of_scaled q j n (ne_of_gt hq) (by rw [abs_of_pos hq]; exact h1)
    (by rw [abs_of_pos hq]; exact h2) hj (b64_roundEven_eq _ _ h3 h4)

theorem b64_add_fin_fin (x y : ℚ) : add (fin x) (fin y) = store (x + y) := rfl

theorem b64_sub_fin_fin (x y : ℚ) : sub (fin x) (fin y) = store (x - y) := rfl

theorem b64_mul_fin_fin (x y : ℚ) : mul (fin x) (fin y) = store (x * y) := rfl

theorem b64_findVal_of_left_nonfin (f : ℚ → Val) (x width : ℚ) (hx : f x = nonfin)
    (ha : f (round (x - round (round 0.001 * width))) = nonfin) :
    findVal f x width
      = sub (mul (fin 2) (f (round (x + round (round 0.0005 * width)))))
          (f (round (x + round (round 0.001 * width)))) := by
  unfold findVal
  simp only [hx, ha, isFinite, Bool.not_false, Bool.false_eq_true, if_false, if_true]

theorem b64_findVal_affine_rounds :
    round (1 + round (round 0.0005 * (5404319552844595 / 2 ^ 54))) = 4504275167314602 / 2 ^ 52
      ∧ round (1 + round (round 0.001 * (5404319552844595 / 2 ^ 54)))
        = 4504950707258707 / 2 ^ 52
      ∧ aboveOne 1 = nonfin
      ∧ aboveOne (round (1 - round (round 0.001 * (5404319552844595 / 2 ^ 54)))) = nonfin
      ∧ aboveOne (4504275167314602 / 2 ^ 52) = fin (4504275167314602 / 2 ^ 52)
      ∧ aboveOne (4504950707258707 / 2 ^ 52) = fin (4504950707258707 / 2 ^ 52)
      ∧ findVal aboveOne 1 (5404319552844595 / 2 ^ 54) = fin (4503599627370497 / 2 ^ 52) := by
  have c1 : round (0.001 : ℚ) = 4611686018427388 / 2 ^ 62 := by
    have h := b64_round_of_scaled_pos (0.001 : ℚ) 62 4611686018427388 (by norm_num) (by norm_num) (by norm_num)
      (by norm_num) (by norm_num) (by norm_num)
    rw [h]
    norm_num
  have c2 : round (0.0005 : ℚ) = 4611686018427388 / 2 ^ 63 := by
    have h := b64_round_of_scaled_pos (0.0005 : ℚ) 63 4611686018427388 (by norm_num) (by norm_num) (by norm_num)
      (by norm_num) (by norm_num) (by norm_num)
    rw [h]
    norm_num
  have p1 : round (4611686018427388 / 2 ^ 62 * (5404319552844595 / 2 ^ 54) : ℚ) = 5534023222112865 / 2 ^ 64 := by
    have h := b64_round_of_scaled_pos (4611686018427388 / 2 ^ 62 * (5404319552844595 / 2 ^ 54) : ℚ) 64 5534023222112865 (by norm_num) (by norm_num) (by norm_num)
      (by norm_num) (by norm_num) (by norm_num)
    rw [h]
    norm_num
  have p2 : round (4611686018427388 / 2 ^ 63 * (5404319552844595 / 2 ^ 54) : ℚ) = 5534023222112865 / 2 ^ 65 := by
    have h := b64_round_of_scaled_pos (4611686018427388 / 2 ^ 63 * (5404319552844595 / 2 ^ 54) : ℚ) 65 5534023222112865 (by norm_num) (by norm_num) (by norm_num)
      (by norm_num) (by norm_num) (by norm_num)
    rw [h]
    norm_num
  have xa : round (1 - 5534023222112865 / 2 ^ 64 : ℚ) = 9004497094964570 / 2 ^ 53 := by
    have h := b64_round_of_scaled_pos (1 - 5534023222112865 / 2 ^ 64 : ℚ) 53 9004497094964570 (by norm_num) (by norm_num) (by norm_num)
      (by norm_num) (by norm_num) (by norm_num)
    rw [h]
    norm_num
  have xb : round (1 + 5534023222112865 / 2 ^ 64 : ℚ) = 4504950707258707 / 2 ^ 52 := by
    have h := b64_round_of_scaled_pos (1 + 5534023222112865 / 2 ^ 64 : ℚ) 52 4504950707258707 (by norm_num) (by norm_num) (by norm_num)
      (by norm_num) (by norm_num) (by norm_num)
    rw [h]
    norm_num
  have xm : round (1 + 5534023222112865 / 2 ^ 65 : ℚ) = 4504275167314602 / 2 ^ 52 := by
    have h := b64_round_of_scaled_pos (1 + 5534023222112865 / 2 ^ 65 : ℚ) 52 4504275167314602 (by norm_num) (by norm_num) (by norm_num)
      (by norm_num) (by norm_num) (by norm_num)
    rw [h]
    norm_num
  have m2 : store (2 * (4504275167314602 / 2 ^ 52)) = fin (2 * (4504275167314602 / 2 ^ 52)) :=
    b64_store_of_eq_dyadic (2 * (4504275167314602 / 2 ^ 52)) 4504275167314602 51 (by norm_num)
      (by norm_num) (by norm_num)
  have df : store (2 * (4504275167314602 / 2 ^ 52) - 4504950707258707 / 2 ^ 52)
      = fin (2 * (4504275167314602 / 2 ^ 52) - 4504950707258707 / 2 ^ 52) :=
    b64_store_of_eq_dyadic (2 * (4504275167314602 / 2 ^ 52) - 4504950707258707 / 2 ^ 52)
      4503599627370497 52 (by norm_num) (by norm_num) (by norm_num)
  have h1 : ¬ ((1 : ℚ) < 1) := lt_irrefl 1
  have ha : ¬ ((1 : ℚ) < 9004497094964570 / 2 ^ 53) := by norm_num
  have hb : (1 : ℚ) < 4504950707258707 / 2 ^ 52 := by norm_num
  have hm : (1 : ℚ) < 4504275167314602 / 2 ^ 52 := by norm_num
  have hv : (2 : ℚ) * (4504275167314602 / 2 ^ 52) - 4504950707258707 / 2 ^ 52
      = 4503599627370497 / 2 ^ 52 := by norm_num
  have hx : aboveOne 1 = nonfin := if_neg h1
  have hfa : aboveOne (round (1 - round (round 0.001 * (5404319552844595 / 2 ^ 54))))
      = nonfin := by
    rw [c1, p1, xa]
    exact if_neg ha
  have hfm : aboveOne (4504275167314602 / 2 ^ 52) = fin (4504275167314602 / 2 ^ 52) :=
    if_pos hm
  have hfb : aboveOne (4504950707258707 / 2 ^ 52) = fin (4504950707258707 / 2 ^ 52) :=
    if_pos hb
  refine ⟨by rw [c2, p2, xm], by rw [c1, p1, xb], hx, hfa, hfm, hfb, ?_⟩
  rw [b64_findVal_of_left_nonfin _ _ _ hx hfa, c1, c2, p1, p2, xb, xm, hfm, hfb,
    b64_mul_fin_fin, m2, b64_sub_fin_fin, df, hv]

end Binary64

namespace Binary64
open Val

theorem b64_div_nonfin_left (v : Val) : div nonfin v = nonfin := rfl

theorem b64_findVal_of_both_fin (f : ℚ → Val) (x width pa pb : ℚ) (hx : f x = nonfin)
    (ha : f (round (x - round (round 0.001 * width))) = fin pa)
    (hb : f (round (x + round (round 0.001 * width))) = fin pb) :
    findVal f x width = div (add (fin pa) (fin pb)) (fin 2) := by
  unfold findVal
  simp only [hx, ha, hb, isFinite, Bool.not_true, Bool.false_eq_true, if_false]

theorem b64_round_milli : round (0.001 : ℚ) = 4611686018427388 / 2 ^ 62 := by
  have h := b64_round_of_scaled (0.001 : ℚ) 62 4611686018427388 (by norm_num)
    (by rw [abs_of_pos (by norm_num)]; norm_num)
    (by rw [abs_of_pos (by norm_num)]; norm_num) (by norm_num)
    (b64_roundEven_eq (0.001 * 2 ^ 62) 4611686018427388 (by norm_num) (by norm_num))
  rw [h]
  norm_num

theorem b64_store_overflow : store ((2 : ℚ) ^ 1023 + 2 ^ 1023) = nonfin := by
  have h := b64_round_of_log ((2 : ℚ) ^ 1023 + 2 ^ 1023) 972 (by positivity)
    (by rw [abs_of_pos (by positivity)]; norm_num)
    (by rw [abs_of_pos (by positivity)]; norm_num) (by norm_num)
  have e : ((2 : ℚ) ^ 1023 + 2 ^ 1023) / 2 ^ (972 : ℤ) = ((2 ^ 52 : ℤ) : ℚ) := by
    norm_num
  rw [e, b64_roundEven_intCast] at h
  unfold store
  rw [h, if_neg]
  norm_num

theorem b64_findVal_overflow :
    findVal (fun t => if t = 0 then nonfin else fin (2 ^ 1023)) 0 1 = nonfin := by
  have c : round (4611686018427388 / 2 ^ 62 * 1) = 4611686018427388 / 2 ^ 62 := by
    rw [b64_round_of_eq_dyadic (4611686018427388 / 2 ^ 62 * 1) 4611686018427388 62 (by norm_num)
      (by norm_num) (by norm_num)]
    norm_num
  have ca : round (0 - 4611686018427388 / 2 ^ 62) = -(4611686018427388 / 2 ^ 62) := by
    rw [b64_round_of_eq_dyadic (0 - 4611686018427388 / 2 ^ 62) (-4611686018427388) 62 (by norm_num)
      (by norm_num) (by norm_num)]
    norm_num
  have cb : round (0 + 4611686018427388 / 2 ^ 62) = 4611686018427388 / 2 ^ 62 := by
    rw [b64_round_of_eq_dyadic (0 + 4611686018427388 / 2 ^ 62) 4611686018427388 62 (by norm_num)
      (by norm_num) (by norm_num)]
    norm_num
  have hx : (fun t : ℚ => if t = 0 then nonfin else fin (2 ^ 1023)) 0 = nonfin := if_pos rfl
  have ha : (fun t : ℚ => if t = 0 then nonfin else fin (2 ^ 1023))
      (round (0 - round (round 0.001 * 1))) = fin (2 ^ 1023) := by
    rw [b64_round_milli, c, ca]
    exact if_neg (by norm_num)
  have hb : (fun t : ℚ => if t = 0 then nonfin else fin (2 ^ 1023))
      (round (0 + round (round 0.001 * 1))) = fin (2 ^ 1023) := by
    rw [b64_round_milli, c, cb]
    exact if_neg (by norm_num)
  rw [b64_findVal_of_both_fin _ _ _ _ _ hx ha hb, b64_add_fin_fin, b64_store_overflow, b64_div_nonfin_left]

end Binary64

/-- C19, as the claim states it, fails in the arithmetic of a `double`. Take the
integrand `f(t) = t` for `t > 1`, `NaN` for `t ≤ 1`, with `x = 1` and `width = 0.3`, the
double `5404319552844595 / 2^54`. Then `findVal` samples `f` at the doubles
`x + 0.0005*width = 4504275167314602 / 2^52` and
`x + 0.001*width = 4504950707258707 / 2^52`; `f(x)` and the left neighbour are not
finite; at the two sampled points `f` coincides with the affine function `g(t) = t`;
and `findVal` returns `4503599627370497 / 2^52 = 1 + 2^-52`, which is not `g(x) = 1`. -/
theorem findVal_extrapolation_inexact :
    Binary64.round (1 + Binary64.round (Binary64.round 0.0005 * (5404319552844595 / 2 ^ 54)))
        = 4504275167314602 / 2 ^ 52
      ∧ Binary64.round (1 + Binary64.round (Binary64.round 0.001 * (5404319552844595 / 2 ^ 54)))
        = 4504950707258707 / 2 ^ 52
      ∧ Binary64.aboveOne 1 = Val.nonfin
      ∧ Binary64.aboveOne
          (Binary64.round (1 - Binary64.round (Binary64.round 0.001 * (5404319552844595 / 2 ^ 54))))
        = Val.nonfin
      ∧ Binary64.aboveOne (4504275167314602 / 2 ^ 52) = Val.fin (4504275167314602 / 2 ^ 52)
      ∧ Binary64.aboveOne (4504950707258707 / 2 ^ 52) = Val.fin (4504950707258707 / 2 ^ 52)
      ∧ Binary64.findVal Binary64.aboveOne 1 (5404319552844595 / 2 ^ 54)
        = Val.fin (4503599627370497 / 2 ^ 52)
      ∧ Val.fin (4503599627370497 / 2 ^ 52) ≠ Val.fin 1 := by
  obtain ⟨h1, h2, h3, h4, h5, h6, h7⟩ := Binary64.b64_findVal_affine_rounds
  refine ⟨h1, h2, h3, h4, h5, h6, h7, ?_⟩
  intro h
  have h' : (4503599627370497 : ℚ) / 2 ^ 52 = 1 := Val.fin.inj h
  norm_num at h'

/-- C22, as the claim states it, fails in the arithmetic of a `double`: on the interval
between the adjacent doubles `a = 1 - 2^-53` and `b = 1` (so `a < b`), the midpoint
`(a + b) / 2` that `TrapezoidRule::getLeftRight` computes is `1`, because `a + b` rounds
to `2`. The left child is then the parent `[a, 1]` itself and the right child is
`[1, 1]`: the parent is not halved, and the right child does not satisfy `a < b`. -/
theorem getLeftRight_adjacent_doubles :
    (1 - 1 / 2 ^ 53 : ℚ) < 1
      ∧ Binary64.TrapezoidRule.getLeftRight ⟨1 - 1 / 2 ^ 53, 1, Val.fin 0, Val.fin 1⟩
          TrapezoidRule.stepAtOne
        = ⟨⟨1 - 1 / 2 ^ 53, 1, Val.fin 0, Val.fin 1⟩, ⟨1, 1, Val.fin 1, Val.fin 1⟩,
            Val.fin (1 / 2 ^ 54)⟩
      ∧ ¬ ((Binary64.TrapezoidRule.getLeftRight ⟨1 - 1 / 2 ^ 53, 1, Val.fin 0, Val.fin 1⟩
            TrapezoidRule.stepAtOne).right.a
          < (Binary64.TrapezoidRule.getLeftRight ⟨1 - 1 / 2 ^ 53, 1, Val.fin 0, Val.fin 1⟩
            TrapezoidRule.stepAtOne).right.b) := by
  refine ⟨by norm_num, Binary64.b64_getLeftRight_stepAtOne_last, ?_⟩
  rw [Binary64.b64_getLeftRight_stepAtOne_last]
  exact lt_irrefl (1 : ℚ)

/-- C29, as the claim states it, fails in the arithmetic of a `double`: on the integrand
that is `0` left of `1` and `1` at `1`, over `[0, 1]`, with `error = 1/16` (which is
`≤ 1/12`), `max_subdivisions = 2` and a clock that never passes `max_time`,
`TrapezoidRule::adaptiveNonParallel` returns after 107 passes of its loop, with the
value `2^-54` and 54 subdivisions: the node of `[1 - 2^-53, 1]` has its midpoint rounded
to `1` and passes the error test, and the queue runs empty. -/
theorem trapezoid_adaptiveNonParallel_stepAtOne_returns :
    (0 : ℚ) < 1 / 16 ∧ (1 / 16 : ℚ) ≤ 1 / 12 ∧ 2 ≤ 2
      ∧ Binary64.TrapezoidRule.adaptiveNonParallel 107 TrapezoidRule.stepAtOne 0 1 (1 / 16) 2 5
          (fun _ => 0)
        = some (Val.fin (1 / 2 ^ 54), 54) :=
  ⟨by norm_num, by norm_num, le_refl 2, Binary64.b64_adaptiveNonParallel_stepAtOne⟩
